import Mathlib

/-!
# Query engine, tables, AES cryptor and encrypted mappings of the columnar table store

A shallow embedding of `src/query/QueryEngine.h` (predicate nodes and their
`Find` loops), of `Table.cpp` and `ColumnTable.cpp` (tables and their columns),
of `realm/util/encrypted_file_mapping.cpp` (the page cryptor and the mappings
of an encrypted file) and of `realm/util/file_mapper.cpp` (the registries of
mappings), together with the properties proved about them.

Conventions of the embedding:

* `size_t` is a natural number below `SIZE_MOD = 2^64`; `a - 1` and `++s` are
  taken modulo `SIZE_MOD`.  The signed types `off_t` and `File::SizeType` are
  integers from `-2^63` up to `2^63 - 1`; `off_t_cast` and `size_t_cast` are the
  conversions between them and `size_t`, in two's complement.  The positions
  that the cryptor is given are natural numbers; the functions that translate
  offsets are embedded a second time with the assertion `pos >= 0` and the
  conversion of what they return (`real_offset_off_t`, `iv_table_pos_off_t`,
  `fake_offset`), and `set_file_size` with its assertion.
* A `for`/`do` loop whose termination depends on what it calls is a function
  with a fuel argument; every iteration (condition test and body) costs one
  unit.  Running out of fuel, like undefined behaviour (a call through a null
  pointer, a read outside a column), yields `none`.
* A pointer to a `ParentNode` is modelled twice: as an optional callable
  (`Option FindFn`, the virtual `Find` of the pointee) for the loops, and as a
  tree with an explicit `null` constructor for whole predicate trees.
* In the cryptor a byte is a natural number, a buffer a list of bytes, a file a
  function from offsets to bytes with a length.  Integers are laid out
  little-endian.  The routines of the platform library (AES-CBC, SHA-224) are
  parameters; what is assumed of them is `Primitives.Lawful`.  An operation of
  the cryptor returns `Except Failure`, the error being the exception
  `DecryptionFailed`, a failed `REALM_ASSERT`, or a loop out of fuel.
* A table is a value: its Spec, the refs in `m_columns`, the cached columns with
  their rows.  The classes `Spec`, `Column` and its relatives are not among the
  sources; what is taken of them is marked as modelled.  The memory behind the
  allocator is a parameter of the methods that attach to a ref; the JSON export
  returns the text written to an empty stream and takes the signedness of
  `char`, the date formatting and the subtable accessors as parameters.
* The methods of a mapping act on a `World`: the `SharedFileInfo` of the file
  with all its mappings, the memory, and a trace of the calls of the cryptor.
* Where the order of the effects of a method is at stake (`AESCryptor::write`,
  `Table::Optimize`), the method is embedded a second time with a trace to which
  each effect is appended when it is made, and the traced method is proved to
  compute what the untraced one computes.
-/

namespace Realm

/-! ## Machine integers -/

/-- Number of values of the 64-bit type `size_t`. -/
def SIZE_MOD : Nat := 18446744073709551616

/-- The sentinel `size_t(-1)`. -/
def NOT_FOUND : Nat := 18446744073709551615

/-- The value of `a - 1` computed on `size_t`. -/
def size_t_dec (a : Nat) : Nat := (a + (SIZE_MOD - 1)) % SIZE_MOD

/-- Largest value of the signed 64-bit types `off_t` and `File::SizeType`, plus one. -/
def OFF_T_LIMIT : Nat := 9223372036854775808

/-- The value of a `size_t` converted to `off_t` or to `File::SizeType`: the values
from `OFF_T_LIMIT` on are the negative ones. -/
def off_t_cast (a : Nat) : Int :=
  if a % SIZE_MOD < OFF_T_LIMIT then ((a % SIZE_MOD : Nat) : Int)
  else ((a % SIZE_MOD : Nat) : Int) - (SIZE_MOD : Int)

/-- The value of an `off_t` or `File::SizeType` converted to `size_t`. -/
def size_t_cast (a : Int) : Nat := (a % (SIZE_MOD : Int)).toNat

/-- The value of `++s` computed on `size_t`. -/
def size_t_inc (s : Nat) : Nat := (s + 1) % SIZE_MOD

/-! ## Comparison functors (`QueryEngine.h`, lines 4-50) -/

/-- C library `strstr(v1, v2)`: offset of the first occurrence of `v2` in `v1`,
`none` for the null result. -/
def strstr : List Char → List Char → Option Nat
  | [], v2 => if v2 = [] then some 0 else none
  | c :: v1, v2 =>
    if v2.isPrefixOf (c :: v1) then some 0 else (strstr v1 v2).map (· + 1)

/-- Functor `CONTAINS`: does `v1` contain `v2`? (`strstr(v1, v2) != 0`). -/
def CONTAINS (v1 v2 : String) : Bool := (strstr v1.data v2.data).isSome

/-- Functor `BEGINSWITH`: `strstr(v1, v2) == v1`. -/
def BEGINSWITH (v1 v2 : String) : Bool := strstr v1.data v2.data == some 0

/-- Functor `ENDSWITH`: compares the last `strlen(v2)` characters of `v1`. -/
def ENDSWITH (v1 v2 : String) : Bool :=
  let l1 := v1.data.length
  let l2 := v2.data.length
  if l1 < l2 then false
  else v1.data.drop (l1 - l2) == v2.data

/-- Functor `EQUAL` (both overloads: `strcmp(v1, v2) == 0` and `v1 == v2`). -/
def EQUAL {T : Type} [DecidableEq T] (v1 v2 : T) : Bool := decide (v1 = v2)

/-- Functor `NOTEQUAL` (both overloads). -/
def NOTEQUAL {T : Type} [DecidableEq T] (v1 v2 : T) : Bool := decide (v1 ≠ v2)

/-- Functor `GREATER`. -/
def GREATER (v1 v2 : Int) : Bool := decide (v1 > v2)

/-- Functor `LESS`. -/
def LESS (v1 v2 : Int) : Bool := decide (v1 < v2)

/-- Functor `LESSEQUAL`. -/
def LESSEQUAL (v1 v2 : Int) : Bool := decide (v1 ≤ v2)

/-- Functor `GREATEREQUAL`. -/
def GREATEREQUAL (v1 v2 : Int) : Bool := decide (v1 ≥ v2)

/-- The functors `F` with which `NODE<int64_t, Column, F>` is instantiated
(those with the templated `operator()`). -/
inductive Functor
  | EQUAL | NOTEQUAL | GREATER | LESS | LESSEQUAL | GREATEREQUAL
  deriving DecidableEq, Repr

/-- The functors `F` with which `STRINGNODE<F>` is instantiated (those with the
`const char*` overload of `operator()`). -/
inductive StringFunctor
  | CONTAINS | BEGINSWITH | ENDSWITH | EQUAL | NOTEQUAL
  deriving DecidableEq, Repr

/-- `function(t, m_value)` for an integer node. -/
def Functor.call : Functor → Int → Int → Bool
  | .EQUAL => Realm.EQUAL
  | .NOTEQUAL => Realm.NOTEQUAL
  | .GREATER => Realm.GREATER
  | .LESS => Realm.LESS
  | .LESSEQUAL => Realm.LESSEQUAL
  | .GREATEREQUAL => Realm.GREATEREQUAL

/-- `function(t, m_value)` for a string node. -/
def StringFunctor.call : StringFunctor → String → String → Bool
  | .CONTAINS => Realm.CONTAINS
  | .BEGINSWITH => Realm.BEGINSWITH
  | .ENDSWITH => Realm.ENDSWITH
  | .EQUAL => Realm.EQUAL
  | .NOTEQUAL => Realm.NOTEQUAL

/-! ## The `Find` loops -/

/-- The virtual `Find(start, end, table)` of a node, for a fixed table. -/
abbrev FindFn := Nat → Nat → Option Nat

/-- The `for` loop shared, word for word, by `NODE::Find` (lines 69-83) and
`STRINGNODE::Find` (lines 134-155): `test s` is `function(t, m_value)` for the
value `t` fetched at row `s` (`none` when the fetch is undefined), `m_child` is
the child pointer (`none` for null). -/
def findLoop (test : Nat → Option Bool) (m_child : Option FindFn) (end_ : Nat) :
    Nat → Nat → Option Nat
  | 0, _ => none
  | fuel + 1, s =>
    if s < end_ then
      match test s with
      | none => none
      | some false => findLoop test m_child end_ fuel (size_t_inc s)
      | some true =>
        match m_child with
        | none => some s
        | some childFind =>
          match childFind s end_ with
          | none => none
          | some a =>
            if s = a then some s
            else findLoop test m_child end_ fuel (size_t_inc (size_t_dec a))
    else some end_

/-- Generic `NODE<T,C,F>::Find`: `column_Get` is `C::Get` on the column the node
was built for, `function` the functor `F`. -/
def NODE.Find {T : Type} (column_Get : Nat → Option T) (function : T → T → Bool)
    (m_value : T) (m_child : Option FindFn) (fuel start end_ : Nat) : Option Nat :=
  findLoop (fun s => (column_Get s).map (fun t => function t m_value)) m_child end_ fuel start

/-- The `for` loop of the specialisation `NODE<T,C,EQUAL>::Find` (lines 99-115);
`column_Find s e` is `column.Find(m_value, s, e)`. -/
def equalLoop (column_Find : Nat → Nat → Nat) (m_child : Option FindFn) (end_ : Nat) :
    Nat → Nat → Option Nat
  | 0, _ => none
  | fuel + 1, s =>
    if s < end_ then
      let s1 := column_Find s end_
      let s2 := if s1 = NOT_FOUND then end_ else s1
      match m_child with
      | none => some s2
      | some childFind =>
        match childFind s2 end_ with
        | none => none
        | some a =>
          if s2 = a then some s2
          else equalLoop column_Find m_child end_ fuel (size_t_inc (size_t_dec a))
    else some end_

/-- Specialised `NODE<T,C,EQUAL>::Find`. -/
def NODE_EQUAL.Find (column_Find : Nat → Nat → Nat) (m_child : Option FindFn)
    (fuel start end_ : Nat) : Option Nat :=
  equalLoop column_Find m_child end_ fuel start

/-- The `for` loop of `OR_NODE::Find` (lines 174-190).  Note that the branch
taken for a non-null `m_child` calls `m_cond2->Find`, as the source does. -/
def orLoop (m_cond1 m_cond2 m_child : Option FindFn) (end_ : Nat) : Nat → Nat → Option Nat
  | 0, _ => none
  | fuel + 1, s =>
    if s < end_ then
      match m_cond1, m_cond2 with
      | some cond1, some cond2 =>
        match cond1 s end_ with
        | none => none
        | some f1 =>
          match cond2 s f1 with
          | none => none
          | some f2 =>
            let s1 := if f1 < f2 then f1 else f2
            match m_child with
            | none => some s1
            | some _ =>
              match cond2 s1 end_ with
              | none => none
              | some a =>
                if s1 = a then some s1
                else orLoop m_cond1 m_cond2 m_child end_ fuel (size_t_inc (size_t_dec a))
      | _, _ => none
    else some end_

/-- Method `OR_NODE::Find`. -/
def OR_NODE.Find (m_cond1 m_cond2 m_child : Option FindFn) (fuel start end_ : Nat) :
    Option Nat :=
  orLoop m_cond1 m_cond2 m_child end_ fuel start

/-! ## Tables as the query engine reads them -/

/-- Modelled from the spec: the column classes a query node reads, which are not
among the sources, with the cell values they hold.  `ColumnStringEnum` holds a
dictionary `keys` and per-row key indices. -/
inductive ColumnBase
  | Column (values : List Int)
  | AdaptiveStringColumn (values : List String)
  | ColumnStringEnum (keys : List String) (values : List Nat)
  deriving Repr

/-- Real column types consulted by `STRINGNODE::Find`. -/
inductive ColumnType
  | COLUMN_TYPE_INT | COLUMN_TYPE_STRING | COLUMN_TYPE_STRING_ENUM
  deriving DecidableEq, Repr

/-- The part of a `Table` the query engine reads: the cached columns `m_cols`. -/
structure Table where
  m_cols : List ColumnBase
  deriving Repr

/-- Modelled from the spec: `Column::Get(ndx)` of the integer column class, which
is not among the sources; a read outside the column is undefined. -/
def Column.Get (values : List Int) (ndx : Nat) : Option Int := values[ndx]?

/-- Modelled from the spec: `AdaptiveStringColumn::Get(ndx)`. -/
def AdaptiveStringColumn.Get (values : List String) (ndx : Nat) : Option String := values[ndx]?

/-- Modelled from the spec: `ColumnStringEnum::Get(ndx)` "delegates `Get` through
(keys, values)". -/
def ColumnStringEnum.Get (keys : List String) (values : List Nat) (ndx : Nat) : Option String :=
  match values[ndx]? with
  | none => none
  | some k => keys[k]?

/-- Linear search behind `Column.Find`: examine `n` rows from `s` on. -/
def Column.FindFrom (values : List Int) (value : Int) : Nat → Nat → Nat
  | 0, _ => NOT_FOUND
  | n + 1, s => if values[s]? = some value then s else Column.FindFrom values value n (s + 1)

/-- Modelled from the spec: `Column::Find(value, start, end)`, the smallest index in
`[start, end)` holding `value`, `size_t(-1)` if there is none. -/
def Column.Find (values : List Int) (value : Int) (start end_ : Nat) : Nat :=
  Column.FindFrom values value (end_ - start) start

/-- Number of rows of a column. -/
def ColumnBase.Size : ColumnBase → Nat
  | .Column values => values.length
  | .AdaptiveStringColumn values => values.length
  | .ColumnStringEnum _ values => values.length

/-- `Table::GetColumnBase(ndx)`; `none` when `assert(ndx < GetColumnCount())` fails. -/
def Table.GetColumnBase (table : Table) (ndx : Nat) : Option ColumnBase := table.m_cols[ndx]?

/-- `Table::GetRealColumnType(ndx)`, for a table whose Spec agrees with its cached
columns. -/
def Table.GetRealColumnType (table : Table) (ndx : Nat) : Option ColumnType :=
  match table.GetColumnBase ndx with
  | none => none
  | some (.Column _) => some .COLUMN_TYPE_INT
  | some (.AdaptiveStringColumn _) => some .COLUMN_TYPE_STRING
  | some (.ColumnStringEnum _ _) => some .COLUMN_TYPE_STRING_ENUM

/-- The fetch of `t` in `STRINGNODE::Find` (lines 138-141): dispatch on the real
column type, then `Get(s)` through the cast of `GetColumnString` or
`GetColumnStringEnum`; a cast to the wrong class is undefined. -/
def STRINGNODE.fetch (table : Table) (m_column s : Nat) : Option String :=
  match table.GetRealColumnType m_column with
  | none => none
  | some column_type =>
    if column_type = .COLUMN_TYPE_STRING then
      match table.GetColumnBase m_column with
      | some (.AdaptiveStringColumn values) => AdaptiveStringColumn.Get values s
      | _ => none
    else
      match table.GetColumnBase m_column with
      | some (.ColumnStringEnum keys values) => ColumnStringEnum.Get keys values s
      | _ => none

/-- Method `STRINGNODE<F>::Find`. -/
def STRINGNODE.Find (function : String → String → Bool) (m_value : String) (m_column : Nat)
    (m_child : Option FindFn) (fuel start end_ : Nat) (table : Table) : Option Nat :=
  findLoop (fun s => (STRINGNODE.fetch table m_column s).map (fun t => function t m_value))
    m_child end_ fuel start

/-! ## Predicate trees -/

/-- A pointer to a `ParentNode`: null, or one of the node classes with its
members.  `NODE` is `NODE<int64_t, Column, F>`. -/
inductive ParentNode
  | null
  | NODE (F : Functor) (m_value : Int) (m_column : Nat) (m_child : ParentNode)
  | STRINGNODE (F : StringFunctor) (m_value : String) (m_column : Nat) (m_child : ParentNode)
  | OR_NODE (m_cond1 m_cond2 m_child : ParentNode)
  deriving Repr

/-- Test `p == 0`. -/
def ParentNode.isNull : ParentNode → Bool
  | .null => true
  | _ => false

/-- The callable behind a pointer, given the `Find` of the pointee. -/
def ParentNode.callee (p : ParentNode) (find : FindFn) : Option FindFn :=
  if p.isNull then none else some find

/-- Virtual `Find(start, end, table)` on a predicate tree.  `NODE` with
`F = EQUAL` resolves to the specialisation; the C-style cast
`(C&)(table.GetColumnBase(m_column))` is only defined on a `Column`. -/
def ParentNode.Find (fuel : Nat) : ParentNode → Nat → Nat → Table → Option Nat
  | .null, _, _, _ => none
  | .NODE F m_value m_column m_child, start, end_, table =>
    match table.GetColumnBase m_column with
    | some (.Column values) =>
      if F = .EQUAL then
        NODE_EQUAL.Find (Column.Find values m_value)
          (m_child.callee (fun s e => m_child.Find fuel s e table)) fuel start end_
      else
        NODE.Find (Column.Get values) F.call m_value
          (m_child.callee (fun s e => m_child.Find fuel s e table)) fuel start end_
    | _ => none
  | .STRINGNODE F m_value m_column m_child, start, end_, table =>
    STRINGNODE.Find F.call m_value m_column
      (m_child.callee (fun s e => m_child.Find fuel s e table)) fuel start end_ table
  | .OR_NODE m_cond1 m_cond2 m_child, start, end_, table =>
    OR_NODE.Find
      (m_cond1.callee (fun s e => m_cond1.Find fuel s e table))
      (m_cond2.callee (fun s e => m_cond2.Find fuel s e table))
      (m_child.callee (fun s e => m_child.Find fuel s e table)) fuel start end_

/-- Does row `r` satisfy the node and the subquery at `m_child` (§4.5 of the
specification)?  A null pointer stands for the empty conjunction. -/
def ParentNode.holdsAt (table : Table) : ParentNode → Nat → Bool
  | .null, _ => true
  | .NODE F m_value m_column m_child, r =>
    (match table.GetColumnBase m_column with
      | some (.Column values) =>
        (match Column.Get values r with
          | some t => F.call t m_value
          | none => false)
      | _ => false) && m_child.holdsAt table r
  | .STRINGNODE F m_value m_column m_child, r =>
    (match STRINGNODE.fetch table m_column r with
      | some t => F.call t m_value
      | none => false) && m_child.holdsAt table r
  | .OR_NODE m_cond1 m_cond2 m_child, r =>
    (m_cond1.holdsAt table r || m_cond2.holdsAt table r) && m_child.holdsAt table r

/-- A conjunction chain of comparison nodes (no `OR_NODE`), each on a column of
the class it casts to, holding at least `size` rows. -/
def ParentNode.isChain (table : Table) (size : Nat) : ParentNode → Bool
  | .null => true
  | .NODE _ _ m_column m_child =>
    (match table.GetColumnBase m_column with
      | some (.Column values) => decide (size ≤ values.length)
      | _ => false) && m_child.isChain table size
  | .STRINGNODE _ _ m_column m_child =>
    (List.range size).all (fun i => (STRINGNODE.fetch table m_column i).isSome)
      && m_child.isChain table size
  | .OR_NODE _ _ _ => false

/-! ## The `Find` contract -/

/-- The answer the `Find` contract prescribes on `[start, end_)` for the row
predicate `P`: the smallest matching row, or `end_` when no row matches. -/
def IsFirstMatch (P : Nat → Prop) (start end_ r : Nat) : Prop :=
  (start ≤ r ∧ r < end_ ∧ P r ∧ ∀ i, start ≤ i → i < r → ¬ P i) ∨
  (r = end_ ∧ ∀ i, start ≤ i → i < end_ → ¬ P i)

/-- A `Find` satisfies the contract for predicate `P` on a column of `size` rows. -/
def FindContract (find : FindFn) (P : Nat → Prop) (size : Nat) : Prop :=
  ∀ s e, s ≤ e → e ≤ size → ∃ r, find s e = some r ∧ IsFirstMatch P s e r

/-- The premise on `m_child`: there is no child (and then `P`, the predicate of the
child chain, is the empty conjunction), or the child's `Find` satisfies the
contract for `P`. -/
def ChildContract (m_child : Option FindFn) (P : Nat → Prop) (size : Nat) : Prop :=
  match m_child with
  | none => ∀ i, P i
  | some childFind => FindContract childFind P size

/-- The batching protocol of the query-determinism property: call `find` on
`[start, end_)`, record the result, and call again from the result plus one,
until `end_` is returned. -/
def repeatedFind (find : FindFn) (end_ : Nat) : Nat → Nat → Option (List Nat)
  | 0, _ => none
  | fuel + 1, start =>
    match find start end_ with
    | none => none
    | some r =>
      if r = end_ then some [r]
      else (repeatedFind find end_ fuel (r + 1)).map (fun rest => r :: rest)

/-- What the loops need of `m_child`: no child and a trivial `P`, or a child that
answers as the contract prescribes on every `[s, end_)` with `start ≤ s ≤ end_`. -/
def ChildAnswers (m_child : Option FindFn) (P : Nat → Prop) (start end_ : Nat) : Prop :=
  match m_child with
  | none => ∀ i, P i
  | some childFind =>
    ∀ s, start ≤ s → s ≤ end_ → ∃ a, childFind s end_ = some a ∧ IsFirstMatch P s end_ a

/-- Assumption on `column.Find(m_value, s, e)` for a column whose rows holding
`m_value` are those satisfying `Q`: the smallest such row of `[s, e)`, or
`size_t(-1)`. -/
def ColumnFindSpec (column_Find : Nat → Nat → Nat) (Q : Nat → Prop) (size : Nat) : Prop :=
  ∀ s e, s ≤ e → e ≤ size →
    (s ≤ column_Find s e ∧ column_Find s e < e ∧ Q (column_Find s e) ∧
      ∀ i, s ≤ i → i < column_Find s e → ¬ Q i) ∨
    (column_Find s e = NOT_FOUND ∧ ∀ i, s ≤ i → i < e → ¬ Q i)

/-! ## Example tables and predicates -/

/-- One integer column holding `[5, 50, 150, 25]`. -/
def exampleInts : Table := { m_cols := [.Column [5, 50, 150, 25]] }

/-- One string column holding `["ada", "bob", "eve", "ada"]`. -/
def exampleNames : Table := { m_cols := [.AdaptiveStringColumn ["ada", "bob", "eve", "ada"]] }

/-- Predicate `NODE<int,IntCol,GREATER>(10, 0)` AND `NODE<int,IntCol,LESS>(100, 0)`. -/
def exampleRange : ParentNode := .NODE .GREATER 10 0 (.NODE .LESS 100 0 .null)

/-- Predicate `STRINGNODE<EQUAL>("ada", 0)`. -/
def exampleAda : ParentNode := .STRINGNODE .EQUAL "ada" 0 .null

/-- Predicate `STRINGNODE<EQUAL>("eve", 0)`. -/
def exampleEve : ParentNode := .STRINGNODE .EQUAL "eve" 0 .null

/-! ## The AES cryptor (`encrypted_file_mapping.cpp`, lines 74-330)

Bytes are natural numbers, buffers are lists of bytes.  A data position
(`off_t pos`, asserted non-negative by the source) is a natural number.  The
AES-CBC and SHA-224 routines of the platform library are parameters. -/

/-- Little-endian bytes of an `n`-byte unsigned integer. -/
def le_bytes : Nat → Nat → List Nat
  | 0, _ => []
  | n + 1, v => v % 256 :: le_bytes n (v / 256)

/-- The unsigned integer stored little-endian in a list of bytes. -/
def le_value : List Nat → Nat
  | [] => 0
  | b :: bs => b + 256 * le_value bs

/-- The `n` bytes of an `n`-byte array whose contents are `l`. -/
def fixed_bytes (n : Nat) (l : List Nat) : List Nat := (List.range n).map (fun i => l.getD i 0)

/-- Record `struct iv_table` (lines 74-79): `uint32_t iv1; uint8_t hmac1[28];
uint32_t iv2; uint8_t hmac2[28];`. -/
structure iv_table where
  iv1 : Nat
  hmac1 : List Nat
  iv2 : Nat
  hmac2 : List Nat
  deriving DecidableEq, Repr

/-- A zero-filled record, as `resize()` creates it. -/
def iv_table.zero : iv_table :=
  { iv1 := 0, hmac1 := List.replicate 28 0, iv2 := 0, hmac2 := List.replicate 28 0 }

/-- The 64 bytes of a record in memory (little-endian integers, no padding). -/
def iv_table.toBytes (iv : iv_table) : List Nat :=
  le_bytes 4 iv.iv1 ++ fixed_bytes 28 iv.hmac1 ++ le_bytes 4 iv.iv2 ++ fixed_bytes 28 iv.hmac2

/-- The record held by 64 bytes of memory. -/
def iv_table.ofBytes (b : List Nat) : iv_table :=
  { iv1 := le_value (b.take 4), hmac1 := (b.drop 4).take 28,
    iv2 := le_value ((b.drop 32).take 4), hmac2 := (b.drop 36).take 28 }

/-- Constant `aes_block_size`. -/
def aes_block_size : Nat := 16

/-- Constant `block_size`. -/
def block_size : Nat := 4096

/-- Constant `metadata_size = sizeof(iv_table)`. -/
def metadata_size : Nat := 64

/-- Constant `blocks_per_metadata_block`. -/
def blocks_per_metadata_block : Nat := block_size / metadata_size

/-- Function `real_offset(pos)` (lines 89-96), for a position that is not negative:
the sum as a natural number.  It is the value that the source returns as long as
it is below `OFF_T_LIMIT`; `real_offset_off_t` and `real_offset_size_t` are the
function with its assertion and the conversion of the sum to the type returned. -/
def real_offset (pos : Nat) : Nat :=
  let index := pos / block_size
  let metadata_page_count := index / blocks_per_metadata_block + 1
  pos + metadata_page_count * block_size

/-- Function `iv_table_pos(pos)` (lines 109-116), for a position that is not
negative: the sum as a natural number.  It is the value that the source returns
as long as it is below `OFF_T_LIMIT`; `iv_table_pos_off_t` is the function with
its assertion and the conversion of the sum to `off_t`. -/
def iv_table_pos (pos : Nat) : Nat :=
  let index := pos / block_size
  let metadata_block := index / blocks_per_metadata_block
  let metadata_index := index &&& (blocks_per_metadata_block - 1)
  metadata_block * (blocks_per_metadata_block + 1) * block_size + metadata_index * metadata_size

/-- Modelled from the spec: class `File`, "a seekable byte stream", which is not
among the sources.  A file is its bytes and its length; bytes at and beyond
`size` are not part of the file.  `m_handle` is the handle by which the system
knows the file (`file_mapper.cpp`, line 158). -/
structure File where
  bytes : Nat → Nat
  size : Nat
  m_handle : Nat := 0

/-- Function `check_write(fd, pos, data, len)` (lines 118-123): seek, then write
`len` bytes; a write beyond the end extends the file, the gap reading as zero. -/
def check_write (fd : File) (pos : Nat) (data : List Nat) (len : Nat) : File :=
  { fd with
    bytes := fun o =>
      if pos ≤ o ∧ o < pos + len then data.getD (o - pos) 0
      else if o < fd.size then fd.bytes o
      else 0
    size := max fd.size (pos + len) }

/-- Function `check_read(fd, pos, dst, len)` (lines 125-134): seek, then read up
to `len` bytes into `dst`; bytes beyond the end of the file leave `dst` as it
was.  The function returns `len` whatever was read. -/
def check_read (fd : File) (pos : Nat) (dst : List Nat) (len : Nat) : List Nat × Nat :=
  ((List.range len).map (fun j => if pos + j < fd.size then fd.bytes (pos + j) else dst.getD j 0),
    len)

/-- The `n` bytes of a file from offset `o`. -/
def File.slice (fd : File) (o n : Nat) : List Nat := (List.range n).map (fun j => fd.bytes (o + j))

/-- `EncryptionMode`. -/
inductive EncryptionMode
  | mode_Encrypt | mode_Decrypt
  deriving DecidableEq, Repr

/-- The routines of the platform library the cryptor calls.
`AES_cbc_encrypt src key ivec mode` is the output of AES-256-CBC over `src`;
`SHA224 data` is the 28-byte digest computed by
`SHA224_Init; SHA256_Update(data); SHA256_Final`. -/
structure Primitives where
  AES_cbc_encrypt : List Nat → List Nat → List Nat → EncryptionMode → List Nat
  SHA224 : List Nat → List Nat

/-- What is assumed of the library: CBC decryption with the same key and IV
inverts encryption, ciphertext is as long as the plaintext, a digest has 28
bytes.  (That the routines are deterministic is built into their type.) -/
structure Primitives.Lawful (prim : Primitives) : Prop where
  decrypt_encrypt : ∀ (src key ivec : List Nat),
    prim.AES_cbc_encrypt (prim.AES_cbc_encrypt src key ivec .mode_Encrypt) key ivec .mode_Decrypt
      = src
  encrypt_length : ∀ (src key ivec : List Nat),
    (prim.AES_cbc_encrypt src key ivec .mode_Encrypt).length = src.length
  digest_length : ∀ (data : List Nat), (prim.SHA224 data).length = 28

/-- What goes wrong: the exception `DecryptionFailed`, a failed assertion, an
access outside a buffer, a loop that has not ended when the fuel ran out, a
cast of an object to a class it does not have, a call through a null pointer.
`InvalidFile` is the error kind of that name in the specification; no source
raises it. -/
inductive Failure
  | DecryptionFailed | AssertionFailed | OutOfBounds | OutOfFuel | BadCast | InvalidFile
  | NullPointer
  deriving DecidableEq, Repr

/-- Class `AESCryptor`: `m_key` is the AES key from which the constructor computes
both key schedules `m_ectx` and `m_dctx`; then `m_hmacKey`, `m_rw_buffer`,
`m_iv_buffer` and its `capacity()`. -/
structure AESCryptor where
  m_key : List Nat
  m_hmacKey : List Nat
  m_rw_buffer : List Nat
  m_iv_buffer : List iv_table
  m_iv_capacity : Nat

/-- Constructor `AESCryptor::AESCryptor(key)` (lines 138-149); `rw_buffer` is the
content of the freshly allocated `new char[block_size]`. -/
def AESCryptor.new (key : List Nat) (rw_buffer : List Nat) : AESCryptor :=
  { m_key := key.take 32, m_hmacKey := (key.drop 32).take 32,
    m_rw_buffer := fixed_bytes block_size rw_buffer, m_iv_buffer := [], m_iv_capacity := 0 }

/-- The statements of `AESCryptor::set_file_size` after its assertion (lines
162-164), from `new_size_casted`, which is below `OFF_T_LIMIT` there, so that no
sum wraps.  Clearing the low bits with `& ~(blocks_per_metadata_block - 1)`
rounds down to a multiple of `blocks_per_metadata_block`; `reserve` never
shrinks the capacity. -/
def AESCryptor.set_file_size.reserve (c : AESCryptor) (new_size_casted : Nat) : AESCryptor :=
  let block_count := (new_size_casted + block_size - 1) / block_size
  let wanted := (block_count + blocks_per_metadata_block - 1) / blocks_per_metadata_block
    * blocks_per_metadata_block
  { c with m_iv_capacity := max c.m_iv_capacity wanted }

/-- Method `AESCryptor::set_file_size(new_size)` (lines 159-165); `new_size` is an
`off_t`.  The assertion is `new_size >= 0 && !int_cast_has_overflow<size_t>(new_size)`:
an `off_t` that is not negative is a value of `size_t`, so the second half holds
whenever the first does. -/
def AESCryptor.set_file_size (c : AESCryptor) (new_size : Int) : Except Failure AESCryptor :=
  if 0 ≤ new_size then
    let new_size_casted := size_t_cast new_size
    .ok (AESCryptor.set_file_size.reserve c new_size_casted)
  else .error .AssertionFailed

/-- The statement `check_read(fd, iv_table_pos(i * block_size), &m_iv_buffer[i],
block_size)` (line 181): 4096 bytes are read over the 64 records from index `i`. -/
def read_iv_block (fd : File) (i : Nat) (buf : List iv_table) : Except Failure (List iv_table) :=
  if i + blocks_per_metadata_block ≤ buf.length then
    let mem := (((buf.drop i).take blocks_per_metadata_block).map iv_table.toBytes).flatten
    let mem1 := (check_read fd (iv_table_pos (i * block_size)) mem block_size).1
    .ok (buf.take i
      ++ (List.range blocks_per_metadata_block).map
          (fun k => iv_table.ofBytes ((mem1.drop (metadata_size * k)).take metadata_size))
      ++ buf.drop (i + blocks_per_metadata_block))
  else .error .OutOfBounds

/-- The `for` loop of `get_iv_table` (lines 180-184), `n` the loop bound
`new_block_count * blocks_per_metadata_block`.  `check_read` returns
`block_size`, so the `break` is never taken. -/
def load_iv_blocks (fd : File) (n : Nat) : Nat → Nat → List iv_table → Except Failure (List iv_table)
  | 0, _, _ => .error .OutOfFuel
  | fuel + 1, i, buf =>
    if i < n then
      match read_iv_block fd i buf with
      | .error e => .error e
      | .ok buf1 => load_iv_blocks fd n fuel (i + blocks_per_metadata_block) buf1
    else .ok buf

/-- Method `AESCryptor::get_iv_table(fd, data_pos)` (lines 167-187).  The returned
reference is the index `idx` into `m_iv_buffer` of the cryptor returned with it. -/
def AESCryptor.get_iv_table (c : AESCryptor) (fd : File) (data_pos : Nat) :
    Except Failure (AESCryptor × Nat) :=
  let idx := data_pos / block_size
  if idx < c.m_iv_buffer.length then .ok (c, idx)
  else
    let old_size := c.m_iv_buffer.length
    let new_block_count := 1 + idx / blocks_per_metadata_block
    if new_block_count * blocks_per_metadata_block ≤ c.m_iv_capacity then
      let resized := c.m_iv_buffer
        ++ List.replicate (new_block_count * blocks_per_metadata_block - old_size) iv_table.zero
      match load_iv_blocks fd (new_block_count * blocks_per_metadata_block)
          (new_block_count * blocks_per_metadata_block + 1) old_size resized with
      | .error e => .error e
      | .ok loaded => .ok ({ c with m_iv_buffer := loaded }, idx)
    else .error .AssertionFailed

/-- Method `AESCryptor::calc_hmac(src, len, dst, key)` (lines 302-330, the branch
without CommonCrypto): `sha224(opad + sha224(ipad + data))`. -/
def calc_hmac (prim : Primitives) (src : List Nat) (len : Nat) (key : List Nat) : List Nat :=
  let ipad := (List.range 32).map (fun i => key.getD i 0 ^^^ 0x36) ++ List.replicate 32 0x36
  let opad := (List.range 32).map (fun i => key.getD i 0 ^^^ 0x5C) ++ List.replicate 32 0x5C
  let dst := prim.SHA224 (ipad ++ src.take len)
  prim.SHA224 (opad ++ dst.take 28)

/-- Method `AESCryptor::check_hmac(src, len, hmac)` (lines 189-199). -/
def AESCryptor.check_hmac (prim : Primitives) (c : AESCryptor) (src : List Nat) (len : Nat)
    (hmac : List Nat) : Bool :=
  let buffer := calc_hmac prim src len c.m_hmacKey
  let result := (List.range (224 / 8)).foldl
    (fun result i => result ||| (buffer.getD i 0 ^^^ hmac.getD i 0)) 0
  result == 0

/-- Method `AESCryptor::crypt(mode, pos, dst, src, stored_iv)` (lines 282-300); the
result is what is stored to `dst`.  The 16-byte IV is the 4 bytes of the stored
IV, the 8 bytes of `pos`, and zeroes. -/
def AESCryptor.crypt (prim : Primitives) (c : AESCryptor) (mode : EncryptionMode) (pos : Nat)
    (src : List Nat) (stored_iv : Nat) : List Nat :=
  let iv := le_bytes 4 stored_iv ++ le_bytes 8 pos ++ List.replicate (aes_block_size - 12) 0
  prim.AES_cbc_encrypt (src.take block_size) c.m_key iv mode

/-- The statement `memcpy(&iv.iv1, &iv.iv2, 32)` (line 229): the 32 bytes of
`(iv2, hmac2)` are copied over `(iv1, hmac1)`. -/
def iv_table.unbump (iv : iv_table) : iv_table := { iv with iv1 := iv.iv2, hmac1 := iv.hmac2 }

/-- The statement `memcpy(&iv.iv2, &iv.iv1, 32)` (line 259): the 32 bytes of
`(iv1, hmac1)` are copied over `(iv2, hmac2)`. -/
def iv_table.keep_previous (iv : iv_table) : iv_table := { iv with iv2 := iv.iv1, hmac2 := iv.hmac1 }

/-- What one pass of the `while` loop of `AESCryptor::read` does: `returned b`
for `return b`, `decrypted block` when the pass reaches `crypt` and goes on. -/
inductive ReadStep
  | returned (result : Bool)
  | decrypted (block : List Nat)
  deriving DecidableEq, Repr

/-- The body of the `while` loop of `AESCryptor::read` (lines 205-244). -/
def AESCryptor.read_block (prim : Primitives) (c : AESCryptor) (fd : File) (pos : Nat) :
    Except Failure (AESCryptor × ReadStep) :=
  let (buf, bytes_read) := check_read fd (real_offset pos) c.m_rw_buffer block_size
  let c := { c with m_rw_buffer := buf }
  if bytes_read = 0 then .ok (c, .returned false)
  else
    match c.get_iv_table fd pos with
    | .error e => .error e
    | .ok (c, idx) =>
      let iv := c.m_iv_buffer.getD idx iv_table.zero
      if iv.iv1 = 0 then .ok (c, .returned false)
      else if !c.check_hmac prim c.m_rw_buffer bytes_read iv.hmac1 then
        if iv.iv2 = 0 then .ok (c, .returned false)
        else if c.check_hmac prim c.m_rw_buffer bytes_read iv.hmac2 then
          let iv := iv.unbump
          let c := { c with m_iv_buffer := c.m_iv_buffer.set idx iv }
          .ok (c, .decrypted (c.crypt prim .mode_Decrypt pos c.m_rw_buffer iv.iv1))
        else if (c.m_rw_buffer.take bytes_read).all (fun b => b == 0) then
          .ok (c, .returned false)
        else .error .DecryptionFailed
      else .ok (c, .decrypted (c.crypt prim .mode_Decrypt pos c.m_rw_buffer iv.iv1))

/-- The `while` loop of `AESCryptor::read` over `n` blocks; `dst` collects what
has been stored to the destination. -/
def AESCryptor.read_blocks (prim : Primitives) (fd : File) :
    Nat → AESCryptor → Nat → List Nat → Except Failure (AESCryptor × List Nat × Bool)
  | 0, c, _, dst => .ok (c, dst, true)
  | n + 1, c, pos, dst =>
    match c.read_block prim fd pos with
    | .error e => .error e
    | .ok (c, .returned result) => .ok (c, dst, result)
    | .ok (c, .decrypted block) => AESCryptor.read_blocks prim fd n c (pos + block_size) (dst ++ block)

/-- Method `AESCryptor::read(fd, pos, dst, size)` (lines 201-251): the cryptor
afterwards, the bytes stored to `dst`, and the value returned. -/
def AESCryptor.read (prim : Primitives) (c : AESCryptor) (fd : File) (pos size : Nat) :
    Except Failure (AESCryptor × List Nat × Bool) :=
  if size % block_size = 0 then AESCryptor.read_blocks prim fd (size / block_size) c pos []
  else .error .AssertionFailed

/-- The `do ... while` loop of `AESCryptor::write` (lines 260-271): the record and
`m_rw_buffer` when the loop ends. -/
def AESCryptor.bump_iv (prim : Primitives) (c : AESCryptor) (pos : Nat) (src : List Nat) :
    Nat → iv_table → Except Failure (iv_table × List Nat)
  | 0, _ => .error .OutOfFuel
  | fuel + 1, iv =>
    let iv1 := (iv.iv1 + 1) % 4294967296
    let iv1 := if iv1 = 0 then (iv1 + 1) % 4294967296 else iv1
    let rw_buffer := c.crypt prim .mode_Encrypt pos src iv1
    let iv := { iv with iv1 := iv1, hmac1 := calc_hmac prim rw_buffer block_size c.m_hmacKey }
    if iv.hmac1.take 4 = iv.hmac2.take 4 then AESCryptor.bump_iv prim c pos src fuel iv
    else .ok (iv, rw_buffer)

/-- The part of the body of the `while` loop of `AESCryptor::write` before the
file is touched (lines 257-271): the cryptor afterwards and the index of the
record of the block. -/
def AESCryptor.write_prepare (prim : Primitives) (fuel : Nat) (c : AESCryptor) (fd : File)
    (pos : Nat) (src : List Nat) : Except Failure (AESCryptor × Nat) :=
  match c.get_iv_table fd pos with
  | .error e => .error e
  | .ok (c, idx) =>
    let iv := (c.m_iv_buffer.getD idx iv_table.zero).keep_previous
    match c.bump_iv prim pos src fuel iv with
    | .error e => .error e
    | .ok (iv, rw_buffer) =>
      .ok ({ c with m_rw_buffer := rw_buffer, m_iv_buffer := c.m_iv_buffer.set idx iv }, idx)

/-- The body of the `while` loop of `AESCryptor::write` (lines 257-274): prepare,
write the record, write the ciphertext. -/
def AESCryptor.write_block (prim : Primitives) (fuel : Nat) (c : AESCryptor) (fd : File)
    (pos : Nat) (src : List Nat) : Except Failure (AESCryptor × File) :=
  match c.write_prepare prim fuel fd pos src with
  | .error e => .error e
  | .ok (c, idx) =>
    let fd := check_write fd (iv_table_pos pos)
      (c.m_iv_buffer.getD idx iv_table.zero).toBytes metadata_size
    let fd := check_write fd (real_offset pos) c.m_rw_buffer block_size
    .ok (c, fd)

/-- The `while` loop of `AESCryptor::write` over `n` blocks. -/
def AESCryptor.write_blocks (prim : Primitives) (fuel : Nat) :
    Nat → AESCryptor → File → Nat → List Nat → Except Failure (AESCryptor × File)
  | 0, c, fd, _, _ => .ok (c, fd)
  | n + 1, c, fd, pos, src =>
    match c.write_block prim fuel fd pos src with
    | .error e => .error e
    | .ok (c, fd) =>
      AESCryptor.write_blocks prim fuel n c fd (pos + block_size) (src.drop block_size)

/-- Method `AESCryptor::write(fd, pos, src, size)` (lines 253-280); `fuel` bounds
the passes of each `do ... while` loop. -/
def AESCryptor.write (prim : Primitives) (fuel : Nat) (c : AESCryptor) (fd : File)
    (pos : Nat) (src : List Nat) (size : Nat) : Except Failure (AESCryptor × File) :=
  if size % block_size = 0 then AESCryptor.write_blocks prim fuel (size / block_size) c fd pos src
  else .error .AssertionFailed

/-! ## Vocabulary of the cryptor properties -/

/-- A record whose integers fit 32 bits and whose digests have 28 bytes. -/
structure iv_table.WellFormed (iv : iv_table) : Prop where
  iv1_lt : iv.iv1 < 4294967296
  iv2_lt : iv.iv2 < 4294967296
  hmac1_length : iv.hmac1.length = 28
  hmac2_length : iv.hmac2.length = 28

/-- The record `j` of `m_iv_buffer` after the read of its metadata block: its 64
bytes are overwritten by those the file holds at `iv_table_pos(j * block_size)`,
as far as the file reaches. -/
def load_iv_record (fd : File) (j : Nat) (old : iv_table) : iv_table :=
  iv_table.ofBytes (check_read fd (iv_table_pos (j * block_size)) old.toBytes metadata_size).1

/-- What the preparation of a block write establishes, for the cryptor `c` before,
`c1` after `get_iv_table` and `c2` after the `do ... while` loop: the record of
the block (at `idx`) has a fresh non-zero `iv1`, keeps the previous `(iv1, hmac1)`
in `(iv2, hmac2)`, and `m_rw_buffer` holds the ciphertext whose digest is
`hmac1`. -/
structure AESCryptor.Prepared (prim : Primitives) (c c1 c2 : AESCryptor) (pos : Nat)
    (src : List Nat) (idx : Nat) : Prop where
  idx_eq : idx = pos / block_size
  idx_lt : idx < c1.m_iv_buffer.length
  key : c2.m_key = c.m_key
  hmacKey : c2.m_hmacKey = c.m_hmacKey
  capacity : c2.m_iv_capacity = c.m_iv_capacity
  buffer : c2.m_iv_buffer = c1.m_iv_buffer.set idx (c2.m_iv_buffer.getD idx iv_table.zero)
  iv1_ne : (c2.m_iv_buffer.getD idx iv_table.zero).iv1 ≠ 0
  iv1_lt : (c2.m_iv_buffer.getD idx iv_table.zero).iv1 < 4294967296
  iv2_eq : (c2.m_iv_buffer.getD idx iv_table.zero).iv2
    = (c1.m_iv_buffer.getD idx iv_table.zero).iv1
  hmac2_eq : (c2.m_iv_buffer.getD idx iv_table.zero).hmac2
    = (c1.m_iv_buffer.getD idx iv_table.zero).hmac1
  rw_buffer : c2.m_rw_buffer
    = c.crypt prim .mode_Encrypt pos src (c2.m_iv_buffer.getD idx iv_table.zero).iv1
  hmac1_eq : (c2.m_iv_buffer.getD idx iv_table.zero).hmac1
    = calc_hmac prim c2.m_rw_buffer block_size c.m_hmacKey
  take_ne : (c2.m_iv_buffer.getD idx iv_table.zero).hmac1.take 4
    ≠ (c2.m_iv_buffer.getD idx iv_table.zero).hmac2.take 4

/-! ## Example library, cryptor and file -/

/-- A stand-in for the platform library: the cipher adds the first IV byte to
every byte (and subtracts it to decrypt), the digest repeats byte 64 of its
input 28 times. -/
def examplePrimitives : Primitives :=
  { AES_cbc_encrypt := fun src _ ivec mode =>
      match mode with
      | .mode_Encrypt => src.map (fun b => b + ivec.headD 0)
      | .mode_Decrypt => src.map (fun b => b - ivec.headD 0)
    SHA224 := fun data => List.replicate 28 (data.getD 64 0) }

/-- A cryptor just constructed from the key `0, 1, ..., 63`, after
`set_file_size(8192)`. -/
def exampleCryptor : AESCryptor :=
  AESCryptor.set_file_size.reserve (AESCryptor.new (List.range 64) []) 8192

/-- The empty file. -/
def exampleFile : File := { bytes := fun _ => 0, size := 0 }

/-- A cryptor holding, for block 0, a record with `iv1 = 1`, `iv2 = 0` and zero
digests. -/
def exampleTornCryptor : AESCryptor :=
  { m_key := List.range 32, m_hmacKey := List.range 32, m_rw_buffer := List.replicate 4096 0,
    m_iv_buffer := { iv1 := 1, hmac1 := List.replicate 28 0, iv2 := 0,
                     hmac2 := List.replicate 28 0 } :: List.replicate 63 iv_table.zero,
    m_iv_capacity := 64 }

/-- A file of two blocks in which every byte is 1. -/
def exampleOnesFile : File := { bytes := fun _ => 1, size := 8192 }

/-! ## Tables (`Table.cpp`, `ColumnTable.cpp`)

The classes of namespace `tightdb`.  `Spec`, the column classes, `Mixed` and the
allocator are not among the sources; a table holds them as values.  Row counts
are natural numbers: a column never has `2^64` rows. -/

namespace tightdb

/-- Modelled from the spec: `enum ColumnType`, whose declaration is not among the
sources: the column types that take one slot of `m_columns`, then
`COLUMN_TYPE_STRING_ENUM`, which takes two, then the attributes. -/
inductive ColumnType
  | COLUMN_TYPE_INT | COLUMN_TYPE_BOOL | COLUMN_TYPE_STRING | COLUMN_TYPE_DATE
  | COLUMN_TYPE_BINARY | COLUMN_TYPE_TABLE | COLUMN_TYPE_MIXED
  | COLUMN_TYPE_STRING_ENUM
  | COLUMN_ATTR_INDEXED | COLUMN_ATTR_UNIQUE | COLUMN_ATTR_SORTED | COLUMN_ATTR_NONE
  deriving DecidableEq, Repr

/-- The integer value of an enumerator. -/
def ColumnType.value : ColumnType → Nat
  | .COLUMN_TYPE_INT => 0
  | .COLUMN_TYPE_BOOL => 1
  | .COLUMN_TYPE_STRING => 2
  | .COLUMN_TYPE_DATE => 3
  | .COLUMN_TYPE_BINARY => 4
  | .COLUMN_TYPE_TABLE => 5
  | .COLUMN_TYPE_MIXED => 6
  | .COLUMN_TYPE_STRING_ENUM => 7
  | .COLUMN_ATTR_INDEXED => 8
  | .COLUMN_ATTR_UNIQUE => 9
  | .COLUMN_ATTR_SORTED => 10
  | .COLUMN_ATTR_NONE => 11

/-- The test `type >= COLUMN_ATTR_INDEXED` by which the sources recognise an
attribute entry. -/
def ColumnType.isAttribute (type : ColumnType) : Bool :=
  decide (ColumnType.COLUMN_ATTR_INDEXED.value ≤ type.value)

/-- Modelled from the spec: class `Spec`, "a tuple of entries", each a type-attr
code; one name per user-visible column; one sub-Spec ref per TABLE entry. -/
structure Spec where
  m_spec : List ColumnType
  m_names : List String
  m_subSpecs : List Nat
  deriving DecidableEq, Repr

/-- Modelled from the spec: `Spec::GetTypeAttrCount()`. -/
def Spec.GetTypeAttrCount (s : Spec) : Nat := s.m_spec.length

/-- Modelled from the spec: `Spec::GetTypeAttr(i)`. -/
def Spec.GetTypeAttr (s : Spec) (i : Nat) : Option ColumnType := s.m_spec[i]?

/-- The entries of the user-visible columns: "a user-visible column is one
non-attribute entry". -/
def Spec.columns (s : Spec) : List ColumnType := s.m_spec.filter (fun type => !type.isAttribute)

/-- Modelled from the spec: `Spec::GetColumnCount()`. -/
def Spec.GetColumnCount (s : Spec) : Nat := s.columns.length

/-- Modelled from the spec: `Spec::GetRealColumnType(ndx)`. -/
def Spec.GetRealColumnType (s : Spec) (ndx : Nat) : Option ColumnType := s.columns[ndx]?

/-- Modelled from the spec: `Spec::GetSubSpecRef(subtable_ordinal)`. -/
def Spec.GetSubSpecRef (s : Spec) (subtable_ndx : Nat) : Option Nat := s.m_subSpecs[subtable_ndx]?

/-- Modelled from the spec: `Spec::AddColumn(type, name)`, for the types
`register_column` passes on (a TABLE entry would come with a sub-Spec). -/
def Spec.AddColumn (s : Spec) (type : ColumnType) (name : String) : Spec :=
  { s with m_spec := s.m_spec ++ [type], m_names := s.m_names ++ [name] }

/-- Replace the entry of user-visible column `ndx` in a list of entries. -/
def Spec.setEntry : List ColumnType → Nat → ColumnType → List ColumnType
  | [], _, _ => []
  | entry :: rest, ndx, type =>
    if entry.isAttribute then entry :: Spec.setEntry rest ndx type
    else
      match ndx with
      | 0 => type :: rest
      | n + 1 => entry :: Spec.setEntry rest n type

/-- Modelled from the spec: `Spec::SetColumnType(ndx, type)`. -/
def Spec.SetColumnType (s : Spec) (ndx : Nat) (type : ColumnType) : Spec :=
  { s with m_spec := Spec.setEntry s.m_spec ndx type }

/-- Modelled from the spec: class `Mixed`, a tagged value; a table carries no
payload. -/
inductive Mixed
  | Int (value : Int)
  | Bool (value : Bool)
  | Date (value : Int)
  | String (value : String)
  | Binary (value : List Nat)
  | Table
  deriving DecidableEq, Repr

/-- Method `Mixed::GetType()`. -/
def Mixed.GetType : Mixed → ColumnType
  | .Int _ => .COLUMN_TYPE_INT
  | .Bool _ => .COLUMN_TYPE_BOOL
  | .Date _ => .COLUMN_TYPE_DATE
  | .String _ => .COLUMN_TYPE_STRING
  | .Binary _ => .COLUMN_TYPE_BINARY
  | .Table => .COLUMN_TYPE_TABLE

/-- Modelled from the spec: the column classes with the rows they hold.
`ColumnTable` derives from `Column` (`ColumnTable.cpp`, lines 5-9): its rows are
the integers of that `Column`, each a ref. -/
inductive ColumnData
  | Column (values : List Int)
  | AdaptiveStringColumn (values : List String)
  | ColumnBinary (values : List (List Nat))
  | ColumnStringEnum (keys : List String) (values : List Nat)
  | ColumnTable (m_ref_specSet : Nat) (values : List Int)
  | ColumnMixed (values : List Mixed)
  deriving DecidableEq, Repr

/-- A cached column object: its rows and the slot of `m_columns` it has as parent
index (`SetParent(&m_columns, ndx)`). -/
structure ColumnBase where
  data : ColumnData
  m_parentNdx : Nat
  deriving DecidableEq, Repr

/-- Modelled from the spec: `Size()`. -/
def ColumnData.Size : ColumnData → Nat
  | .Column values => values.length
  | .AdaptiveStringColumn values => values.length
  | .ColumnBinary values => values.length
  | .ColumnStringEnum _ values => values.length
  | .ColumnTable _ values => values.length
  | .ColumnMixed values => values.length

/-- Method `Size()` of a cached column. -/
def ColumnBase.Size (column : ColumnBase) : Nat := column.data.Size

/-- Modelled from the spec: `IsIntColumn()`, true of `Column` and of the classes
derived from it without overriding it. -/
def ColumnData.IsIntColumn : ColumnData → Bool
  | .Column _ => true
  | .ColumnTable _ _ => true
  | _ => false

/-- Modelled from the spec: `IsStringColumn()`. -/
def ColumnData.IsStringColumn : ColumnData → Bool
  | .AdaptiveStringColumn _ => true
  | _ => false

/-- Modelled from the spec: `IsBinaryColumn()`. -/
def ColumnData.IsBinaryColumn : ColumnData → Bool
  | .ColumnBinary _ => true
  | _ => false

/-- Modelled from the spec: `Insert(ndx, value)` of an array of rows, which asserts
`ndx <= Size()`. -/
def insertRow {α : Type} (rows : List α) (ndx : Nat) (value : α) : Except Failure (List α) :=
  if ndx ≤ rows.length then .ok (rows.take ndx ++ value :: rows.drop ndx)
  else .error .AssertionFailed

/-- Modelled from the spec: `Set(ndx, value)` of an array of rows, which asserts
`ndx < Size()`. -/
def setRow {α : Type} (rows : List α) (ndx : Nat) (value : α) : Except Failure (List α) :=
  if ndx < rows.length then .ok (rows.set ndx value) else .error .AssertionFailed

/-- Modelled from the spec: `Delete(ndx)` of an array of rows, which asserts
`ndx < Size()`. -/
def deleteRow {α : Type} (rows : List α) (ndx : Nat) : Except Failure (List α) :=
  if ndx < rows.length then .ok (rows.eraseIdx ndx) else .error .AssertionFailed

/-- Modelled from the spec: the key index `ColumnStringEnum` stores for a string,
and the dictionary afterwards: a string that is no key yet is appended. -/
def ColumnStringEnum.GetKeyNdx (keys : List String) (value : String) : List String × Nat :=
  if value ∈ keys then (keys, keys.indexOf value) else (keys ++ [value], keys.length)

/-- Modelled from the spec: the virtual `Add()`, which "appends a
type-appropriate default".  `ColumnTable::Add` is `Insert(Size())`
(`ColumnTable.cpp`, lines 68-78), which inserts a zero ref. -/
def ColumnData.Add : ColumnData → ColumnData
  | .Column values => .Column (values ++ [0])
  | .AdaptiveStringColumn values => .AdaptiveStringColumn (values ++ [""])
  | .ColumnBinary values => .ColumnBinary (values ++ [[]])
  | .ColumnStringEnum keys values =>
    .ColumnStringEnum (ColumnStringEnum.GetKeyNdx keys "").1
      (values ++ [(ColumnStringEnum.GetKeyNdx keys "").2])
  | .ColumnTable m_ref_specSet values => .ColumnTable m_ref_specSet (values ++ [0])
  | .ColumnMixed values => .ColumnMixed (values ++ [.Int 0])

/-- Modelled from the spec: the virtual `Clear()`. -/
def ColumnData.Clear : ColumnData → ColumnData
  | .Column _ => .Column []
  | .AdaptiveStringColumn _ => .AdaptiveStringColumn []
  | .ColumnBinary _ => .ColumnBinary []
  | .ColumnStringEnum _ _ => .ColumnStringEnum [] []
  | .ColumnTable m_ref_specSet _ => .ColumnTable m_ref_specSet []
  | .ColumnMixed _ => .ColumnMixed []

/-- Modelled from the spec: the virtual `Delete(ndx)`; for `ColumnTable` see
`ColumnTable.cpp`, lines 80-93. -/
def ColumnData.Delete (data : ColumnData) (ndx : Nat) : Except Failure ColumnData :=
  match data with
  | .Column values => (deleteRow values ndx).map .Column
  | .AdaptiveStringColumn values => (deleteRow values ndx).map .AdaptiveStringColumn
  | .ColumnBinary values => (deleteRow values ndx).map .ColumnBinary
  | .ColumnStringEnum keys values => (deleteRow values ndx).map (.ColumnStringEnum keys)
  | .ColumnTable m_ref_specSet values => (deleteRow values ndx).map (.ColumnTable m_ref_specSet)
  | .ColumnMixed values => (deleteRow values ndx).map .ColumnMixed

/-- Modelled from the spec: `UpdateParentNdx(diff)`. -/
def ColumnBase.UpdateParentNdx (column : ColumnBase) (diff : Int) : ColumnBase :=
  { column with m_parentNdx := ((column.m_parentNdx : Int) + diff).toNat }

/-- Class `Table`: `m_size`, `m_spec_set`, the refs in `m_columns` and whether that
array is attached (`m_columns.IsValid()`), the cached columns `m_cols`, and the
allocator as the next ref it hands out. -/
structure Table where
  m_size : Nat
  m_spec_set : Spec
  m_columns : List Nat
  m_columns_valid : Bool
  m_cols : List ColumnBase
  alloc : Nat
  deriving DecidableEq, Repr

/-- Constructor `Table::Table(Allocator& alloc)` (lines 27-38): no rows, an empty
Spec, an attached empty `m_columns`. -/
def Table.new (alloc : Nat) : Table :=
  { m_size := 0, m_spec_set := { m_spec := [], m_names := [], m_subSpecs := [] },
    m_columns := [], m_columns_valid := true, m_cols := [], alloc := alloc }

/-- Method `Table::GetColumnCount()` (lines 335-338). -/
def Table.GetColumnCount (t : Table) : Nat := t.m_spec_set.GetColumnCount

/-- Method `Table::GetRealColumnType(ndx)` (lines 351-355). -/
def Table.GetRealColumnType (t : Table) (ndx : Nat) : Except Failure ColumnType :=
  if ndx < t.GetColumnCount then
    match t.m_spec_set.GetRealColumnType ndx with
    | none => .error .OutOfBounds
    | some type => .ok type
  else .error .AssertionFailed

/-- The `for` loop of `Table::GetColumnRefPos` (lines 371-380) over the entries
from `i` on; `none` when the loop ends, where the source has `assert(false)`. -/
def Table.GetColumnRefPos.loop (column_ndx : Nat) : List ColumnType → Nat → Nat → Option Nat
  | [], _, _ => none
  | type :: rest, pos, current_column =>
    if current_column = column_ndx then some pos
    else if ColumnType.COLUMN_ATTR_INDEXED.value ≤ type.value then
      Table.GetColumnRefPos.loop column_ndx rest pos current_column
    else if type.value < ColumnType.COLUMN_TYPE_STRING_ENUM.value then
      Table.GetColumnRefPos.loop column_ndx rest (pos + 1) (current_column + 1)
    else Table.GetColumnRefPos.loop column_ndx rest (pos + 2) (current_column + 1)

/-- Method `Table::GetColumnRefPos(column_ndx)` (lines 365-384). -/
def Table.GetColumnRefPos (t : Table) (column_ndx : Nat) : Option Nat :=
  Table.GetColumnRefPos.loop column_ndx t.m_spec_set.m_spec 0 0

/-- A table whose Spec has the entries STRING_ENUM, ATTR_INDEXED, INT, STRING_ENUM,
MIXED: four user-visible columns. -/
def exampleLayout : Table :=
  { Table.new 1 with
    m_spec_set :=
      { m_spec := [.COLUMN_TYPE_STRING_ENUM, .COLUMN_ATTR_INDEXED, .COLUMN_TYPE_INT,
          .COLUMN_TYPE_STRING_ENUM, .COLUMN_TYPE_MIXED],
        m_names := ["a", "b", "c", "d"], m_subSpecs := [] } }

/-- The store through a reference to cached column `ndx`, and `m_cols.Set(ndx, ...)`. -/
def Table.setColumn (t : Table) (ndx : Nat) (column : ColumnBase) : Table :=
  { t with m_cols := t.m_cols.set ndx column }

/-- The statements by which `CreateColumns` and `register_column` add a column just
created: `m_columns.Add(newColumn->GetRef())`, `SetParent(&m_columns, ref_pos)`,
`m_cols.Add(newColumn)`. -/
def Table.addColumn (t : Table) (data : ColumnData) : Table :=
  { t with
    m_columns := t.m_columns ++ [t.alloc],
    m_cols := t.m_cols ++ [{ data := data, m_parentNdx := t.m_columns.length }],
    alloc := t.alloc + 1 }

/-- The `for` loop of `Table::CreateColumns` (lines 109-168) over the entries that
remain.  An attribute entry sets `attr`, on which line 159 asserts false. -/
def Table.CreateColumns.loop : List ColumnType → Nat → Table → Except Failure Table
  | [], _, t => .ok t
  | type :: rest, subtable_count, t =>
    match type with
    | .COLUMN_TYPE_INT | .COLUMN_TYPE_BOOL | .COLUMN_TYPE_DATE =>
      Table.CreateColumns.loop rest subtable_count (t.addColumn (.Column []))
    | .COLUMN_TYPE_STRING =>
      Table.CreateColumns.loop rest subtable_count (t.addColumn (.AdaptiveStringColumn []))
    | .COLUMN_TYPE_BINARY =>
      Table.CreateColumns.loop rest subtable_count (t.addColumn (.ColumnBinary []))
    | .COLUMN_TYPE_TABLE =>
      match t.m_spec_set.GetSubSpecRef subtable_count with
      | none => .error .OutOfBounds
      | some subspec_ref =>
        Table.CreateColumns.loop rest (subtable_count + 1)
          (t.addColumn (.ColumnTable subspec_ref []))
    | .COLUMN_TYPE_MIXED =>
      Table.CreateColumns.loop rest subtable_count (t.addColumn (.ColumnMixed []))
    | .COLUMN_ATTR_INDEXED | .COLUMN_ATTR_UNIQUE => .error .AssertionFailed
    | _ => .error .AssertionFailed

/-- Method `Table::CreateColumns()` (lines 94-169).  `SetType` (lines 99-101)
makes an `m_columns` that was not attached an empty array. -/
def Table.CreateColumns (t : Table) : Except Failure Table :=
  if !t.m_columns_valid || t.m_columns.isEmpty then
    Table.CreateColumns.loop t.m_spec_set.m_spec 0
      (if !t.m_columns_valid then { t with m_columns := [], m_columns_valid := true } else t)
  else .error .AssertionFailed

/-- Method `Table::InstantiateBeforeChange()` (lines 183-187). -/
def Table.InstantiateBeforeChange (t : Table) : Except Failure Table :=
  if !t.m_columns_valid then t.CreateColumns else .ok t

/-- The switch of `Table::register_column` (lines 393-418): the class of the new
column, `none` for `default: assert(false)`. -/
def Table.register_column.newColumn : ColumnType → Option ColumnData
  | .COLUMN_TYPE_INT | .COLUMN_TYPE_BOOL | .COLUMN_TYPE_DATE => some (.Column [])
  | .COLUMN_TYPE_STRING => some (.AdaptiveStringColumn [])
  | .COLUMN_TYPE_BINARY => some (.ColumnBinary [])
  | .COLUMN_TYPE_MIXED => some (.ColumnMixed [])
  | _ => none

/-- Method `Table::register_column(type, name)` (lines 386-424): the table
afterwards and the index returned. -/
def Table.register_column (t : Table) (type : ColumnType) (name : String) :
    Except Failure (Table × Nat) :=
  let column_ndx := t.m_cols.length
  match Table.register_column.newColumn type with
  | none => .error .AssertionFailed
  | some data =>
    let t := t.addColumn data
    .ok ({ t with m_spec_set := t.m_spec_set.AddColumn type name }, column_ndx)

/-- Method `Table::GetColumnBase(ndx)` (lines 451-456), the one that is not
`const`: the table afterwards and the column referred to. -/
def Table.GetColumnBase (t : Table) (ndx : Nat) : Except Failure (Table × ColumnBase) :=
  if ndx < t.GetColumnCount then
    match t.InstantiateBeforeChange with
    | .error e => .error e
    | .ok t =>
      match t.m_cols[ndx]? with
      | none => .error .OutOfBounds
      | some column => .ok (t, column)
  else .error .AssertionFailed

/-- Method `Table::GetColumn(ndx)` (lines 464-469). -/
def Table.GetColumn (t : Table) (ndx : Nat) : Except Failure (Table × ColumnBase) :=
  match t.GetColumnBase ndx with
  | .error e => .error e
  | .ok (t, column) => if column.data.IsIntColumn then .ok (t, column) else .error .AssertionFailed

/-- Method `Table::GetColumnString(ndx)` (lines 478-483). -/
def Table.GetColumnString (t : Table) (ndx : Nat) : Except Failure (Table × ColumnBase) :=
  match t.GetColumnBase ndx with
  | .error e => .error e
  | .ok (t, column) =>
    if column.data.IsStringColumn then .ok (t, column) else .error .AssertionFailed

/-- Method `Table::GetColumnBinary(ndx)` (lines 506-511). -/
def Table.GetColumnBinary (t : Table) (ndx : Nat) : Except Failure (Table × ColumnBase) :=
  match t.GetColumnBase ndx with
  | .error e => .error e
  | .ok (t, column) =>
    if column.data.IsBinaryColumn then .ok (t, column) else .error .AssertionFailed

/-- Method `Table::GetColumnStringEnum(ndx)` (lines 493-498): the assertion, the
instantiation, then a cast of `m_cols.Get(ndx)` that checks nothing. -/
def Table.GetColumnStringEnum (t : Table) (ndx : Nat) : Except Failure (Table × ColumnBase) :=
  if ndx < t.GetColumnCount then
    match t.InstantiateBeforeChange with
    | .error e => .error e
    | .ok t =>
      match t.m_cols[ndx]? with
      | none => .error .OutOfBounds
      | some column => .ok (t, column)
  else .error .AssertionFailed

/-- Method `Table::GetColumnTable(ndx)` (lines 520-525), of the same three
statements. -/
def Table.GetColumnTable (t : Table) (ndx : Nat) : Except Failure (Table × ColumnBase) :=
  if ndx < t.GetColumnCount then
    match t.InstantiateBeforeChange with
    | .error e => .error e
    | .ok t =>
      match t.m_cols[ndx]? with
      | none => .error .OutOfBounds
      | some column => .ok (t, column)
  else .error .AssertionFailed

/-- Method `Table::GetColumnMixed(ndx)` (lines 533-538), of the same three
statements. -/
def Table.GetColumnMixed (t : Table) (ndx : Nat) : Except Failure (Table × ColumnBase) :=
  if ndx < t.GetColumnCount then
    match t.InstantiateBeforeChange with
    | .error e => .error e
    | .ok t =>
      match t.m_cols[ndx]? with
      | none => .error .OutOfBounds
      | some column => .ok (t, column)
  else .error .AssertionFailed

/-- Modelled from the spec: `Column::Insert(ndx, value)`. -/
def Column.Insert (data : ColumnData) (ndx : Nat) (value : Int) : Except Failure ColumnData :=
  match data with
  | .Column values => (insertRow values ndx value).map .Column
  | .ColumnTable m_ref_specSet values =>
    (insertRow values ndx value).map (.ColumnTable m_ref_specSet)
  | _ => .error .BadCast

/-- Modelled from the spec: `Column::Set(ndx, value)`. -/
def Column.Set (data : ColumnData) (ndx : Nat) (value : Int) : Except Failure ColumnData :=
  match data with
  | .Column values => (setRow values ndx value).map .Column
  | .ColumnTable m_ref_specSet values => (setRow values ndx value).map (.ColumnTable m_ref_specSet)
  | _ => .error .BadCast

/-- Modelled from the spec: `AdaptiveStringColumn::Insert(ndx, value)`. -/
def AdaptiveStringColumn.Insert (data : ColumnData) (ndx : Nat) (value : String) :
    Except Failure ColumnData :=
  match data with
  | .AdaptiveStringColumn values => (insertRow values ndx value).map .AdaptiveStringColumn
  | _ => .error .BadCast

/-- Modelled from the spec: `AdaptiveStringColumn::Set(ndx, value)`. -/
def AdaptiveStringColumn.Set (data : ColumnData) (ndx : Nat) (value : String) :
    Except Failure ColumnData :=
  match data with
  | .AdaptiveStringColumn values => (setRow values ndx value).map .AdaptiveStringColumn
  | _ => .error .BadCast

/-- Modelled from the spec: `ColumnStringEnum::Insert(ndx, value)`. -/
def ColumnStringEnum.Insert (data : ColumnData) (ndx : Nat) (value : String) :
    Except Failure ColumnData :=
  match data with
  | .ColumnStringEnum keys values =>
    (insertRow values ndx (ColumnStringEnum.GetKeyNdx keys value).2).map
      (.ColumnStringEnum (ColumnStringEnum.GetKeyNdx keys value).1)
  | _ => .error .BadCast

/-- Modelled from the spec: `ColumnStringEnum::Set(ndx, value)`. -/
def ColumnStringEnum.Set (data : ColumnData) (ndx : Nat) (value : String) :
    Except Failure ColumnData :=
  match data with
  | .ColumnStringEnum keys values =>
    (setRow values ndx (ColumnStringEnum.GetKeyNdx keys value).2).map
      (.ColumnStringEnum (ColumnStringEnum.GetKeyNdx keys value).1)
  | _ => .error .BadCast

/-- Modelled from the spec: `ColumnBinary::Insert(ndx, value, len)`. -/
def ColumnBinary.Insert (data : ColumnData) (ndx : Nat) (value : List Nat) (len : Nat) :
    Except Failure ColumnData :=
  match data with
  | .ColumnBinary values => (insertRow values ndx (value.take len)).map .ColumnBinary
  | _ => .error .BadCast

/-- Modelled from the spec: `ColumnBinary::Set(ndx, value, len)`. -/
def ColumnBinary.Set (data : ColumnData) (ndx : Nat) (value : List Nat) (len : Nat) :
    Except Failure ColumnData :=
  match data with
  | .ColumnBinary values => (setRow values ndx (value.take len)).map .ColumnBinary
  | _ => .error .BadCast

/-- Modelled from the spec: `ColumnMixed::InsertInt`, `InsertBool`, `InsertDate`,
`InsertString`, `InsertBinary` and `InsertTable`, each of which inserts a row
with its tag and payload. -/
def ColumnMixed.Insert (data : ColumnData) (ndx : Nat) (value : Mixed) :
    Except Failure ColumnData :=
  match data with
  | .ColumnMixed values => (insertRow values ndx value).map .ColumnMixed
  | _ => .error .BadCast

/-- Modelled from the spec: `ColumnMixed::SetInt`, `SetBool`, `SetDate`,
`SetString`, `SetBinary` and `SetTable`. -/
def ColumnMixed.Set (data : ColumnData) (ndx : Nat) (value : Mixed) : Except Failure ColumnData :=
  match data with
  | .ColumnMixed values => (setRow values ndx value).map .ColumnMixed
  | _ => .error .BadCast

/-- Method `ColumnTable::Insert(ndx)` (`ColumnTable.cpp`, lines 73-78). -/
def ColumnTable.Insert (data : ColumnData) (ndx : Nat) : Except Failure ColumnData :=
  match data with
  | .ColumnTable _ _ => if ndx ≤ data.Size then Column.Insert data ndx 0 else .error .AssertionFailed
  | _ => .error .BadCast

/-- A loop `for (i = 0; i < count; ++i) { ColumnBase& column = GetColumnBase(i);
column.f(); }` over the indices that remain. -/
def Table.forColumns (f : ColumnData → Except Failure ColumnData) :
    List Nat → Table → Except Failure Table
  | [], t => .ok t
  | i :: rest, t =>
    match t.GetColumnBase i with
    | .error e => .error e
    | .ok (t, column) =>
      match f column.data with
      | .error e => .error e
      | .ok data => Table.forColumns f rest (t.setColumn i { column with data := data })

/-- Method `Table::AddRow()` (lines 546-555): the table afterwards and the value
returned. -/
def Table.AddRow (t : Table) : Except Failure (Table × Nat) :=
  match Table.forColumns (fun data => .ok data.Add) (List.range t.GetColumnCount) t with
  | .error e => .error e
  | .ok t => .ok ({ t with m_size := t.m_size + 1 }, t.m_size)

/-- Method `Table::Clear()` (lines 557-565). -/
def Table.Clear (t : Table) : Except Failure Table :=
  match Table.forColumns (fun data => .ok data.Clear) (List.range t.GetColumnCount) t with
  | .error e => .error e
  | .ok t => .ok { t with m_size := 0 }

/-- Method `Table::DeleteRow(ndx)` (lines 567-577). -/
def Table.DeleteRow (t : Table) (ndx : Nat) : Except Failure Table :=
  if ndx < t.m_size then
    match Table.forColumns (fun data => data.Delete ndx) (List.range t.GetColumnCount) t with
    | .error e => .error e
    | .ok t => .ok { t with m_size := t.m_size - 1 }
  else .error .AssertionFailed

/-- What the cell operations share: a column obtained by one of the `GetColumn...`
methods is modified through the reference. -/
def Table.modifyColumn (get : Table → Nat → Except Failure (Table × ColumnBase))
    (f : ColumnData → Except Failure ColumnData) (t : Table) (column_id : Nat) :
    Except Failure Table :=
  match get t column_id with
  | .error e => .error e
  | .ok (t, column) =>
    match f column.data with
    | .error e => .error e
    | .ok data => .ok (t.setColumn column_id { column with data := data })

/-- Method `Table::InsertTable(column_id, ndx)` (lines 579-587). -/
def Table.InsertTable (t : Table) (column_id ndx : Nat) : Except Failure Table :=
  if column_id < t.GetColumnCount then
    match t.GetRealColumnType column_id with
    | .error e => .error e
    | .ok type =>
      if type = .COLUMN_TYPE_TABLE then
        if ndx ≤ t.m_size then
          Table.modifyColumn Table.GetColumnTable (fun data => ColumnTable.Insert data ndx) t
            column_id
        else .error .AssertionFailed
      else .error .AssertionFailed
  else .error .AssertionFailed

/-- Method `Table::Set(column_id, ndx, value)` (lines 659-666). -/
def Table.Set (t : Table) (column_id ndx : Nat) (value : Int) : Except Failure Table :=
  if column_id < t.GetColumnCount then
    if ndx < t.m_size then
      Table.modifyColumn Table.GetColumn (fun data => Column.Set data ndx value) t column_id
    else .error .AssertionFailed
  else .error .AssertionFailed

/-- What `SetBool` and `SetDate` share (lines 678-686, 698-706): the three
assertions, then `GetColumn(column_id).Set(ndx, value)`. -/
def Table.setTyped (expected : ColumnType) (t : Table) (column_id ndx : Nat) (value : Int) :
    Except Failure Table :=
  if column_id < t.GetColumnCount then
    match t.GetRealColumnType column_id with
    | .error e => .error e
    | .ok type =>
      if type = expected then
        if ndx < t.m_size then
          Table.modifyColumn Table.GetColumn (fun data => Column.Set data ndx value) t column_id
        else .error .AssertionFailed
      else .error .AssertionFailed
  else .error .AssertionFailed

/-- Method `Table::SetBool(column_id, ndx, value)` (lines 678-686). -/
def Table.SetBool (t : Table) (column_id ndx : Nat) (value : Bool) : Except Failure Table :=
  Table.setTyped .COLUMN_TYPE_BOOL t column_id ndx (if value then 1 else 0)

/-- Method `Table::SetDate(column_id, ndx, value)` (lines 698-706). -/
def Table.SetDate (t : Table) (column_id ndx : Nat) (value : Int) : Except Failure Table :=
  Table.setTyped .COLUMN_TYPE_DATE t column_id ndx value

/-- Method `Table::InsertInt(column_id, ndx, value)` (lines 708-715). -/
def Table.InsertInt (t : Table) (column_id ndx : Nat) (value : Int) : Except Failure Table :=
  if column_id < t.GetColumnCount then
    if ndx ≤ t.m_size then
      Table.modifyColumn Table.GetColumn (fun data => Column.Insert data ndx value) t column_id
    else .error .AssertionFailed
  else .error .AssertionFailed

/-- What `SetString` and `InsertString` share (lines 740-750, 758-768): the
dispatch on the real column type. -/
def Table.modifyString (fString fEnum : ColumnData → Except Failure ColumnData) (t : Table)
    (column_id : Nat) : Except Failure Table :=
  match t.GetRealColumnType column_id with
  | .error e => .error e
  | .ok type =>
    if type = .COLUMN_TYPE_STRING then Table.modifyColumn Table.GetColumnString fString t column_id
    else if type = .COLUMN_TYPE_STRING_ENUM then
      Table.modifyColumn Table.GetColumnStringEnum fEnum t column_id
    else .error .AssertionFailed

/-- Method `Table::SetString(column_id, ndx, value)` (lines 735-751). -/
def Table.SetString (t : Table) (column_id ndx : Nat) (value : String) : Except Failure Table :=
  if column_id < t.GetColumnCount then
    if ndx < t.m_size then
      Table.modifyString (fun data => AdaptiveStringColumn.Set data ndx value)
        (fun data => ColumnStringEnum.Set data ndx value) t column_id
    else .error .AssertionFailed
  else .error .AssertionFailed

/-- Method `Table::InsertString(column_id, ndx, value)` (lines 753-769). -/
def Table.InsertString (t : Table) (column_id ndx : Nat) (value : String) :
    Except Failure Table :=
  if column_id < t.GetColumnCount then
    if ndx ≤ t.m_size then
      Table.modifyString (fun data => AdaptiveStringColumn.Insert data ndx value)
        (fun data => ColumnStringEnum.Insert data ndx value) t column_id
    else .error .AssertionFailed
  else .error .AssertionFailed

/-- Method `Table::SetBinary(column_id, ndx, value, len)` (lines 780-787). -/
def Table.SetBinary (t : Table) (column_id ndx : Nat) (value : List Nat) (len : Nat) :
    Except Failure Table :=
  if column_id < t.GetColumnCount then
    if ndx < t.m_size then
      Table.modifyColumn Table.GetColumnBinary (fun data => ColumnBinary.Set data ndx value len) t
        column_id
    else .error .AssertionFailed
  else .error .AssertionFailed

/-- Method `Table::InsertBinary(column_id, ndx, value, len)` (lines 789-796). -/
def Table.InsertBinary (t : Table) (column_id ndx : Nat) (value : List Nat) (len : Nat) :
    Except Failure Table :=
  if column_id < t.GetColumnCount then
    if ndx ≤ t.m_size then
      Table.modifyColumn Table.GetColumnBinary
        (fun data => ColumnBinary.Insert data ndx value len) t column_id
    else .error .AssertionFailed
  else .error .AssertionFailed

/-- The switch of `SetMixed` and `InsertMixed` (lines 842-866, 876-900) on
`value.GetType()`: one of the six setters, or `default: assert(false)`. -/
def Table.mixedSwitch (f : ColumnData → Except Failure ColumnData) (value : Mixed)
    (data : ColumnData) : Except Failure ColumnData :=
  match value.GetType with
  | .COLUMN_TYPE_INT | .COLUMN_TYPE_BOOL | .COLUMN_TYPE_DATE | .COLUMN_TYPE_STRING
  | .COLUMN_TYPE_BINARY | .COLUMN_TYPE_TABLE => f data
  | _ => .error .AssertionFailed

/-- Method `Table::SetMixed(column_id, ndx, value)` (lines 834-867). -/
def Table.SetMixed (t : Table) (column_id ndx : Nat) (value : Mixed) : Except Failure Table :=
  if column_id < t.GetColumnCount then
    if ndx < t.m_size then
      Table.modifyColumn Table.GetColumnMixed
        (Table.mixedSwitch (fun data => ColumnMixed.Set data ndx value) value) t column_id
    else .error .AssertionFailed
  else .error .AssertionFailed

/-- Method `Table::InsertMixed(column_id, ndx, value)` (lines 869-901). -/
def Table.InsertMixed (t : Table) (column_id ndx : Nat) (value : Mixed) : Except Failure Table :=
  if column_id < t.GetColumnCount then
    if ndx ≤ t.m_size then
      Table.modifyColumn Table.GetColumnMixed
        (Table.mixedSwitch (fun data => ColumnMixed.Insert data ndx value) value) t column_id
    else .error .AssertionFailed
  else .error .AssertionFailed

/-- Method `Table::InsertDone()` (lines 903-910), without the debug `verify()`. -/
def Table.InsertDone (t : Table) : Table := { t with m_size := t.m_size + 1 }

/-- Method `Table::UpdateColumnRefs(column_ndx, diff)` (lines 1042-1048): the
cached columns `m_cols[column_ndx]`, `m_cols[column_ndx + 1]`, ... update their
parent index. -/
def Table.UpdateColumnRefs (t : Table) (column_ndx : Nat) (diff : Int) : Table :=
  { t with
    m_cols := t.m_cols.take column_ndx
      ++ (t.m_cols.drop column_ndx).map (fun column => column.UpdateParentNdx diff) }

/-- What `AdaptiveStringColumn::AutoEnumerate(ref_keys, ref_values)` hands back
when it returns `true`: the two refs, and the rows of the two arrays at them. -/
structure Enumerated where
  ref_keys : Nat
  ref_values : Nat
  keys : List String
  values : List Nat
  deriving DecidableEq, Repr

/-- The body of the `for` loop of `Table::Optimize` (lines 1012-1038) for column
`i`.  `AutoEnumerate`, of a class that is not among the sources, is a
parameter: `none` when it returns `false`. -/
def Table.Optimize.step (AutoEnumerate : List String → Option Enumerated) (t : Table) (i : Nat) :
    Except Failure Table :=
  match t.GetRealColumnType i with
  | .error e => .error e
  | .ok type =>
    if type = .COLUMN_TYPE_STRING then
      match t.GetColumnString i with
      | .error e => .error e
      | .ok (t, column) =>
        match column.data with
        | .AdaptiveStringColumn values =>
          match AutoEnumerate values with
          | none => .ok t
          | some e =>
            let t := { t with
              m_spec_set := t.m_spec_set.SetColumnType i .COLUMN_TYPE_STRING_ENUM }
            match t.GetColumnRefPos i with
            | none => .error .AssertionFailed
            | some column_ndx =>
              if column_ndx < t.m_columns.length then
                let t := { t with m_columns := t.m_columns.set column_ndx e.ref_keys }
                let t := { t with
                  m_columns := t.m_columns.take (column_ndx + 1)
                    ++ e.ref_values :: t.m_columns.drop (column_ndx + 1) }
                let t := t.UpdateColumnRefs (column_ndx + 1) 1
                .ok (t.setColumn i
                  { data := .ColumnStringEnum e.keys e.values, m_parentNdx := column_ndx })
              else .error .OutOfBounds
        | _ => .error .BadCast
    else .ok t

/-- The `for` loop of `Table::Optimize` over the column indices that remain. -/
def Table.Optimize.loop (AutoEnumerate : List String → Option Enumerated) :
    List Nat → Table → Except Failure Table
  | [], t => .ok t
  | i :: rest, t =>
    match Table.Optimize.step AutoEnumerate t i with
    | .error e => .error e
    | .ok t => Table.Optimize.loop AutoEnumerate rest t

/-- Method `Table::Optimize()` (lines 1006-1040). -/
def Table.Optimize (AutoEnumerate : List String → Option Enumerated) (t : Table) :
    Except Failure Table :=
  Table.Optimize.loop AutoEnumerate (List.range t.GetColumnCount) t

/-- An `AutoEnumerate` that always succeeds: the keys are the distinct strings in
order of appearance. -/
def exampleAutoEnumerate (values : List String) : Option Enumerated :=
  some { ref_keys := 100, ref_values := 101, keys := values.eraseDups,
         values := values.map (fun value => values.eraseDups.indexOf value) }

/-- A table with the columns `a : STRING`, `b : STRING`, `c : INT` and one row, as
three calls of `register_column` and one of `AddRow` leave it, the cells set to
"x", "y" and 5. -/
def exampleStrings : Table :=
  { m_size := 1,
    m_spec_set := { m_spec := [.COLUMN_TYPE_STRING, .COLUMN_TYPE_STRING, .COLUMN_TYPE_INT],
                    m_names := ["a", "b", "c"], m_subSpecs := [] },
    m_columns := [1, 2, 3], m_columns_valid := true,
    m_cols := [{ data := .AdaptiveStringColumn ["x"], m_parentNdx := 0 },
               { data := .AdaptiveStringColumn ["y"], m_parentNdx := 1 },
               { data := .Column [5], m_parentNdx := 2 }],
    alloc := 4 }

/-- One call of the insert protocol: the `Insert...` methods of `Table` with
their arguments other than `ndx`. -/
inductive InsertCall
  | InsertInt (column_id : Nat) (value : Int)
  | InsertString (column_id : Nat) (value : String)
  | InsertBinary (column_id : Nat) (value : List Nat) (len : Nat)
  | InsertMixed (column_id : Nat) (value : Mixed)
  | InsertTable (column_id : Nat)
  deriving DecidableEq, Repr

/-- The column an insert call is for. -/
def InsertCall.column_id : InsertCall → Nat
  | .InsertInt column_id _ => column_id
  | .InsertString column_id _ => column_id
  | .InsertBinary column_id _ _ => column_id
  | .InsertMixed column_id _ => column_id
  | .InsertTable column_id => column_id

/-- The call made at row `ndx`. -/
def InsertCall.run (call : InsertCall) (ndx : Nat) (t : Table) : Except Failure Table :=
  match call with
  | .InsertInt column_id value => t.InsertInt column_id ndx value
  | .InsertString column_id value => t.InsertString column_id ndx value
  | .InsertBinary column_id value len => t.InsertBinary column_id ndx value len
  | .InsertMixed column_id value => t.InsertMixed column_id ndx value
  | .InsertTable column_id => t.InsertTable column_id ndx

/-- A sequence of insert calls at the same row `ndx`. -/
def Table.insertCalls (ndx : Nat) : List InsertCall → Table → Except Failure Table
  | [], t => .ok t
  | call :: rest, t =>
    match call.run ndx t with
    | .error e => .error e
    | .ok t => Table.insertCalls ndx rest t

/-- The tables a caller obtains from a freshly created table by `AddRow`,
`DeleteRow`, `Clear`, the `Set...` methods, `Optimize`, by `register_column` while
the table has no rows, and by insert batches: one `Insert...` call for every
column, all at the same `ndx`, then `InsertDone`. -/
inductive Table.Disciplined (AutoEnumerate : List String → Option Enumerated) : Table → Prop
  | new (alloc : Nat) : Table.Disciplined AutoEnumerate (Table.new alloc)
  | register_column (t t1 : Table) (type : ColumnType) (name : String) (column_ndx : Nat) :
      Table.Disciplined AutoEnumerate t → t.m_size = 0 →
      t.register_column type name = .ok (t1, column_ndx) → Table.Disciplined AutoEnumerate t1
  | AddRow (t t1 : Table) (ndx : Nat) :
      Table.Disciplined AutoEnumerate t → t.AddRow = .ok (t1, ndx) →
      Table.Disciplined AutoEnumerate t1
  | DeleteRow (t t1 : Table) (ndx : Nat) :
      Table.Disciplined AutoEnumerate t → t.DeleteRow ndx = .ok t1 →
      Table.Disciplined AutoEnumerate t1
  | Clear (t t1 : Table) :
      Table.Disciplined AutoEnumerate t → t.Clear = .ok t1 → Table.Disciplined AutoEnumerate t1
  | Set (t t1 : Table) (column_id ndx : Nat) (value : Int) :
      Table.Disciplined AutoEnumerate t → t.Set column_id ndx value = .ok t1 →
      Table.Disciplined AutoEnumerate t1
  | SetBool (t t1 : Table) (column_id ndx : Nat) (value : Bool) :
      Table.Disciplined AutoEnumerate t → t.SetBool column_id ndx value = .ok t1 →
      Table.Disciplined AutoEnumerate t1
  | SetDate (t t1 : Table) (column_id ndx : Nat) (value : Int) :
      Table.Disciplined AutoEnumerate t → t.SetDate column_id ndx value = .ok t1 →
      Table.Disciplined AutoEnumerate t1
  | SetString (t t1 : Table) (column_id ndx : Nat) (value : String) :
      Table.Disciplined AutoEnumerate t → t.SetString column_id ndx value = .ok t1 →
      Table.Disciplined AutoEnumerate t1
  | SetBinary (t t1 : Table) (column_id ndx : Nat) (value : List Nat) (len : Nat) :
      Table.Disciplined AutoEnumerate t → t.SetBinary column_id ndx value len = .ok t1 →
      Table.Disciplined AutoEnumerate t1
  | SetMixed (t t1 : Table) (column_id ndx : Nat) (value : Mixed) :
      Table.Disciplined AutoEnumerate t → t.SetMixed column_id ndx value = .ok t1 →
      Table.Disciplined AutoEnumerate t1
  | Optimize (t t1 : Table) :
      Table.Disciplined AutoEnumerate t → t.Optimize AutoEnumerate = .ok t1 →
      Table.Disciplined AutoEnumerate t1
  | insertBatch (t t1 : Table) (ndx : Nat) (calls : List InsertCall) :
      Table.Disciplined AutoEnumerate t →
      (calls.map InsertCall.column_id).Perm (List.range t.GetColumnCount) →
      Table.insertCalls ndx calls t = .ok t1 → Table.Disciplined AutoEnumerate t1.InsertDone

/-- What a table keeps while its columns change one at a time: an attached
`m_columns` and one cached column per user-visible column. -/
structure Table.Attached (t : Table) : Prop where
  valid : t.m_columns_valid = true
  cached : t.m_cols.length = t.GetColumnCount

/-- The sizes of the cached columns of `t1` are those of `t` with `g` applied to
the size of every column whose index is in `ids`; nothing else of the table
that bears on sizes differs. -/
structure Table.Resized (g : Nat → Nat) (ids : List Nat) (t t1 : Table) : Prop where
  valid : t1.m_columns_valid = t.m_columns_valid
  m_size : t1.m_size = t.m_size
  spec : t1.m_spec_set = t.m_spec_set
  length : t1.m_cols.length = t.m_cols.length
  sizes : ∀ i, (t1.m_cols[i]?).map ColumnBase.Size
    = ((t.m_cols[i]?).map ColumnBase.Size).map (fun size => if i ∈ ids then g size else size)

/-- Every result of the column method `f` has the size `g` of the size before. -/
def ResizesBy (f : ColumnData → Except Failure ColumnData) (g : Nat → Nat) : Prop :=
  ∀ data data1, f data = .ok data1 → data1.Size = g data.Size

/-- On a table with an attached `m_columns`, `get` returns cached column `ndx` and
leaves the table as it is. -/
def ReturnsCached (get : Table → Nat → Except Failure (Table × ColumnBase)) : Prop :=
  ∀ t ndx t1 column, t.m_columns_valid = true → get t ndx = .ok (t1, column) →
    t1 = t ∧ t.m_cols[ndx]? = some column

/-- Size uniformity: every cached column reports a size equal to `m_size`. -/
def Table.Uniform (t : Table) : Prop := ∀ column ∈ t.m_cols, column.Size = t.m_size

/-- A table with the column `x : INT` and the row 42, as `register_column`,
`InsertInt(0, 0, 42)` and `InsertDone` leave a table just created. -/
def exampleInserted : Table :=
  { m_size := 1,
    m_spec_set := { m_spec := [.COLUMN_TYPE_INT], m_names := ["x"], m_subSpecs := [] },
    m_columns := [1], m_columns_valid := true,
    m_cols := [{ data := .Column [42], m_parentNdx := 0 }], alloc := 2 }

end tightdb

/-! ## Encrypted file mappings (`encrypted_file_mapping.cpp`, lines 332-530)

The mappings of a file are the entries of `SharedFileInfo::mappings`; a mapping
that is `this` of a method is given by its index there.  The memory of the
process is a function from addresses to bytes.  A trace records the calls of the
cryptor and the stores that clear an up-to-date bit, in the order in which they
happen.  Loops over pages and over mappings are recursions over the list of
indices; only the cryptor takes fuel. -/

/-- The value of `a - b` computed on `size_t`. -/
def size_t_sub (a b : Nat) : Nat := (a % SIZE_MOD + (SIZE_MOD - b % SIZE_MOD)) % SIZE_MOD

/-- The `n` bytes of memory from address `addr`. -/
def memory_read (memory : Nat → Nat) (addr n : Nat) : List Nat :=
  (List.range n).map (fun j => memory (addr + j))

/-- Memory after `bytes` are stored from address `addr`. -/
def memory_write (memory : Nat → Nat) (addr : Nat) (bytes : List Nat) : Nat → Nat :=
  fun a => if addr ≤ a ∧ a < addr + bytes.length then bytes.getD (a - addr) 0 else memory a

/-- Memory after `memcpy(dst, src, n)`. -/
def memcpy (memory : Nat → Nat) (dst src n : Nat) : Nat → Nat :=
  memory_write memory dst (memory_read memory src n)

/-- Modelled from the spec: `File::AccessMode`. -/
inductive AccessMode
  | access_ReadOnly | access_ReadWrite
  deriving DecidableEq, Repr

/-- Class `EncryptedFileMapping`, without the reference `m_file`. -/
structure EncryptedFileMapping where
  m_page_shift : Nat
  m_blocks_per_page : Nat
  m_access : AccessMode
  m_addr : Nat
  m_file_offset : Nat
  m_first_page : Nat
  m_page_count : Nat
  m_up_to_date_pages : List Bool
  m_dirty_pages : List Bool
  deriving DecidableEq, Repr

/-- Modelled from the spec: `struct SharedFileInfo`, "holding the cryptor and a
vector of live `EncryptedFileMapping`s over that file", with the file. -/
structure SharedFileInfo where
  fd : File
  cryptor : AESCryptor
  mappings : List EncryptedFileMapping

/-- What the trace records: a call `m_file.cryptor.write(m_file.fd, pos, addr,
size)`, a call `m_file.cryptor.read(m_file.fd, pos, addr, size)`, and the store
`m_up_to_date_pages[page] = false` in the mapping of index `mapping`. -/
inductive Event
  | cryptor_write (pos addr size : Nat)
  | cryptor_read (pos addr size : Nat)
  | outdated (mapping page : Nat)
  deriving DecidableEq, Repr

/-- What the methods of a mapping act on: the `SharedFileInfo` of its file, the
memory of the process, the trace so far. -/
structure World where
  file : SharedFileInfo
  memory : Nat → Nat
  trace : List Event

/-- The mapping of index `k` replaced. -/
def World.setMapping (w : World) (k : Nat) (m : EncryptedFileMapping) : World :=
  { w with file := { w.file with mappings := w.file.mappings.set k m } }

/-- Method `EncryptedFileMapping::page_addr(i)` (lines 354-357). -/
def EncryptedFileMapping.page_addr (m : EncryptedFileMapping) (i : Nat) : Nat :=
  (((m.m_first_page + i) % SIZE_MOD) <<< m.m_page_shift) % SIZE_MOD

/-- The call of the cryptor by which `flush` writes page `i`:
`m_file.cryptor.write(m_file.fd, i << m_page_shift, page_addr(i), 1 << m_page_shift)`. -/
def EncryptedFileMapping.written (m : EncryptedFileMapping) (i : Nat) : Event :=
  .cryptor_write (i <<< m.m_page_shift) (m.page_addr i) (1 <<< m.m_page_shift)

/-- The body of the `for` loop of `flush` (lines 461-468) for page `i`;
`validate_page` has an empty body. -/
def EncryptedFileMapping.flush_page (prim : Primitives) (fuel : Nat) (i : Nat)
    (m : EncryptedFileMapping) (w : World) : Except Failure (EncryptedFileMapping × World) :=
  match m.m_dirty_pages[i]? with
  | none => .error .OutOfBounds
  | some false => .ok (m, w)
  | some true =>
    match w.file.cryptor.write prim fuel w.file.fd (i <<< m.m_page_shift)
        (memory_read w.memory (m.page_addr i) (1 <<< m.m_page_shift)) (1 <<< m.m_page_shift) with
    | .error e => .error e
    | .ok (cryptor, fd) =>
      .ok ({ m with m_dirty_pages := m.m_dirty_pages.set i false },
        { w with
          file := { w.file with fd := fd, cryptor := cryptor },
          trace := w.trace ++ [m.written i] })

/-- The `for` loop of `flush` over the pages that remain. -/
def EncryptedFileMapping.flush.loop (prim : Primitives) (fuel : Nat) :
    List Nat → EncryptedFileMapping → World → Except Failure (EncryptedFileMapping × World)
  | [], m, w => .ok (m, w)
  | i :: rest, m, w =>
    match m.flush_page prim fuel i w with
    | .error e => .error e
    | .ok (m, w) => EncryptedFileMapping.flush.loop prim fuel rest m w

/-- Method `EncryptedFileMapping::flush()` (lines 459-472); `validate()` does
nothing without `REALM_DEBUG`, and nothing with it. -/
def EncryptedFileMapping.flush (prim : Primitives) (fuel : Nat) (m : EncryptedFileMapping)
    (w : World) : Except Failure (EncryptedFileMapping × World) :=
  EncryptedFileMapping.flush.loop prim fuel (List.range m.m_page_count) m w

/-- The world in which the cryptor of the file has run the statements of
`set_file_size` after its assertion. -/
def World.set_file_size.reserve (w : World) (new_size_casted : Nat) : World :=
  { w with file := { w.file with
      cryptor := AESCryptor.set_file_size.reserve w.file.cryptor new_size_casted } }

/-- The statement `m_file.cryptor.set_file_size(new_size)`, for `new_size` of type
`off_t`. -/
def World.set_file_size (w : World) (new_size : Int) : Except Failure World :=
  match w.file.cryptor.set_file_size new_size with
  | .error e => .error e
  | .ok cryptor => .ok { w with file := { w.file with cryptor := cryptor } }

/-- Method `EncryptedFileMapping::set(new_addr, new_size, new_file_offset)` (lines
510-530).  The sum `new_size + new_file_offset` is computed on `size_t` and
converted to the `off_t` that `set_file_size` takes. -/
def EncryptedFileMapping.set (prim : Primitives) (fuel : Nat) (m : EncryptedFileMapping)
    (w : World) (new_addr new_size new_file_offset : Nat) :
    Except Failure (EncryptedFileMapping × World) :=
  if new_file_offset % (1 <<< m.m_page_shift) = 0 then
    if new_size % (1 <<< m.m_page_shift) = 0 then
      if 0 < new_size then
        match w.set_file_size (off_t_cast ((new_size + new_file_offset) % SIZE_MOD)) with
        | .error e => .error e
        | .ok w =>
        match m.flush prim fuel w with
        | .error e => .error e
        | .ok (m, w) =>
          let m_page_count := ((new_size + new_file_offset) % SIZE_MOD) >>> m.m_page_shift
          .ok ({ m with
                 m_addr := new_addr,
                 m_file_offset := new_file_offset,
                 m_first_page := (size_t_sub new_addr new_file_offset) >>> m.m_page_shift,
                 m_page_count := m_page_count,
                 m_up_to_date_pages := List.replicate m_page_count false,
                 m_dirty_pages := List.replicate m_page_count false }, w)
      else .error .AssertionFailed
    else .error .AssertionFailed
  else .error .AssertionFailed

/-- Method `EncryptedFileMapping::mark_outdated(i)` (lines 359-370), called on the
mapping of index `k`. -/
def World.mark_outdated (prim : Primitives) (fuel : Nat) (w : World) (k i : Nat) :
    Except Failure World :=
  match w.file.mappings[k]? with
  | none => .error .OutOfBounds
  | some m =>
    if i ≥ m.m_page_count then .ok w
    else
      match m.m_dirty_pages[i]? with
      | none => .error .OutOfBounds
      | some dirty =>
        match (if dirty then m.flush prim fuel w else .ok (m, w)) with
        | .error e => .error e
        | .ok (m, w) =>
          match m.m_up_to_date_pages[i]? with
          | none => .error .OutOfBounds
          | some true =>
            .ok { w.setMapping k { m with m_up_to_date_pages := m.m_up_to_date_pages.set i false }
                  with trace := w.trace ++ [.outdated k i] }
          | some false => .ok (w.setMapping k m)

/-- Method `EncryptedFileMapping::mark_up_to_date(i)` (lines 372-378), called on
the mapping of index `k`. -/
def World.mark_up_to_date (w : World) (k i : Nat) : Except Failure World :=
  match w.file.mappings[k]? with
  | none => .error .OutOfBounds
  | some m =>
    if i ≥ m.m_up_to_date_pages.length ∨ m.m_up_to_date_pages[i]? = some true then .ok w
    else .ok (w.setMapping k { m with m_up_to_date_pages := m.m_up_to_date_pages.set i true })

/-- The `for` loop of `copy_up_to_date_page` (lines 382-392) over the mappings
that remain; `this` is the mapping of index `self`. -/
def World.copy_up_to_date_page.loop (self page : Nat) (this : EncryptedFileMapping) :
    List Nat → World → Except Failure (World × Bool)
  | [], w => .ok (w, false)
  | i :: rest, w =>
    match w.file.mappings[i]? with
    | none => .error .OutOfBounds
    | some m =>
      if i = self ∨ page ≥ m.m_page_count then
        World.copy_up_to_date_page.loop self page this rest w
      else
        match m.m_up_to_date_pages[page]? with
        | none => .error .OutOfBounds
        | some true =>
          .ok ({ w with
                 memory := memcpy w.memory (this.page_addr page) (m.page_addr page)
                   (1 <<< this.m_page_shift) }, true)
        | some false => World.copy_up_to_date_page.loop self page this rest w

/-- Method `EncryptedFileMapping::copy_up_to_date_page(page)` (lines 380-393),
called on the mapping of index `self`: the world afterwards and the value
returned. -/
def World.copy_up_to_date_page (w : World) (self page : Nat) : Except Failure (World × Bool) :=
  match w.file.mappings[self]? with
  | none => .error .OutOfBounds
  | some this =>
    World.copy_up_to_date_page.loop self page this (List.range w.file.mappings.length) w

/-- Method `EncryptedFileMapping::refresh_page(i)` (lines 395-403), called on the
mapping of index `self`.  What `read` returns is not looked at; an exception
leaves the method before the page is marked. -/
def World.refresh_page (prim : Primitives) (w : World) (self i : Nat) : Except Failure World :=
  match w.file.mappings[self]? with
  | none => .error .OutOfBounds
  | some this =>
    let addr := this.page_addr i
    match w.copy_up_to_date_page self i with
    | .error e => .error e
    | .ok (w, copied) =>
      let read : Except Failure World :=
        if copied then .ok w
        else
          match w.file.cryptor.read prim w.file.fd (i <<< this.m_page_shift)
              (1 <<< this.m_page_shift) with
          | .error e => .error e
          | .ok (cryptor, dst, _) =>
            .ok { w with
                  file := { w.file with cryptor := cryptor },
                  memory := memory_write w.memory addr dst,
                  trace := w.trace
                    ++ [.cryptor_read (i <<< this.m_page_shift) addr (1 <<< this.m_page_shift)] }
      match read with
      | .error e => .error e
      | .ok w =>
        match w.file.mappings[self]? with
        | none => .error .OutOfBounds
        | some this =>
          if i < this.m_up_to_date_pages.length then
            .ok (w.setMapping self
              { this with m_up_to_date_pages := this.m_up_to_date_pages.set i true })
          else .error .OutOfBounds

/-- The `for` loop of `write_page` (lines 409-416) over the mappings that
remain. -/
def World.write_page.loop (prim : Primitives) (fuel : Nat) (self page : Nat) :
    List Nat → World → Except Failure World
  | [], w => .ok w
  | i :: rest, w =>
    match w.file.mappings[i]? with
    | none => .error .OutOfBounds
    | some m =>
      if i ≠ self ∧ page < m.m_page_count then
        match w.mark_outdated prim fuel i page with
        | .error e => .error e
        | .ok w => World.write_page.loop prim fuel self page rest w
      else World.write_page.loop prim fuel self page rest w

/-- Method `EncryptedFileMapping::write_page(page)` (lines 405-419), called on the
mapping of index `self`. -/
def World.write_page (prim : Primitives) (fuel : Nat) (w : World) (self page : Nat) :
    Except Failure World :=
  match World.write_page.loop prim fuel self page (List.range w.file.mappings.length) w with
  | .error e => .error e
  | .ok w =>
    match w.file.mappings[self]? with
    | none => .error .OutOfBounds
    | some this =>
      if page < this.m_dirty_pages.length then
        .ok (w.setMapping self { this with m_dirty_pages := this.m_dirty_pages.set page true })
      else .error .OutOfBounds

/-- The index `first_idx` of `write_barrier` (lines 496-499). -/
def EncryptedFileMapping.first_idx (m : EncryptedFileMapping) (addr : Nat) : Nat :=
  size_t_sub (addr >>> m.m_page_shift) m.m_first_page

/-- The index `last_idx` of `write_barrier` (lines 497-500). -/
def EncryptedFileMapping.last_idx (m : EncryptedFileMapping) (addr size : Nat) : Nat :=
  size_t_sub (((addr + size + (SIZE_MOD - 1)) % SIZE_MOD) >>> m.m_page_shift) m.m_first_page

/-- The `for` loop of `write_barrier` (lines 502-507) over the indices that
remain. -/
def World.write_barrier.loop (prim : Primitives) (fuel : Nat) (self : Nat) :
    List Nat → World → Except Failure World
  | [], w => .ok w
  | idx :: rest, w =>
    match w.file.mappings[self]? with
    | none => .error .OutOfBounds
    | some this =>
      match this.m_up_to_date_pages[idx]? with
      | none => .error .OutOfBounds
      | some false => .error .AssertionFailed
      | some true =>
        match w.write_page prim fuel self idx with
        | .error e => .error e
        | .ok w => World.write_barrier.loop prim fuel self rest w

/-- Method `EncryptedFileMapping::write_barrier(addr, size)` (lines 492-508), called
on the mapping of index `self`.  With `last_idx = SIZE_MAX` the test
`idx <= last_idx` never fails and the loop does not end; otherwise `idx` runs
from `first_idx` to `last_idx`. -/
def World.write_barrier (prim : Primitives) (fuel : Nat) (w : World) (self addr size : Nat) :
    Except Failure World :=
  match w.file.mappings[self]? with
  | none => .error .OutOfBounds
  | some this =>
    if this.m_access = .access_ReadWrite then
      if this.last_idx addr size = SIZE_MOD - 1 then .error .OutOfFuel
      else
        World.write_barrier.loop prim fuel self
          (List.range' (this.first_idx addr) (this.last_idx addr size + 1 - this.first_idx addr)) w
    else .error .AssertionFailed

/-- What a run of the loop of `flush` over `pages` makes of a mapping `m` and a
world `w`: only dirty bits change, those of `pages` are false, the calls of the
cryptor are those for the pages that were dirty, in order. -/
structure EncryptedFileMapping.Flushed (m m1 : EncryptedFileMapping) (w w1 : World)
    (pages : List Nat) : Prop where
  geometry : m1 = { m with m_dirty_pages := m1.m_dirty_pages }
  length : m1.m_dirty_pages.length = m.m_dirty_pages.length
  in_range : ∀ i ∈ pages, i < m.m_dirty_pages.length
  dirty : ∀ i, m1.m_dirty_pages[i]?
    = if i ∈ pages then (m.m_dirty_pages[i]?).map (fun _ => false) else m.m_dirty_pages[i]?
  trace : w1.trace
    = w.trace ++ (pages.filter (fun i => m.m_dirty_pages[i]? = some true)).map m.written
  memory : w1.memory = w.memory
  mappings : w1.file.mappings = w.file.mappings

/-- A mapping of one page at address 0 of a file, the page up-to-date and dirty. -/
def exampleMapping : EncryptedFileMapping :=
  { m_page_shift := 12, m_blocks_per_page := 1, m_access := .access_ReadWrite, m_addr := 0,
    m_file_offset := 0, m_first_page := 0, m_page_count := 1, m_up_to_date_pages := [true],
    m_dirty_pages := [true] }

/-- The empty file with the example cryptor and the example mapping, every byte
of memory being 7. -/
def exampleWorld : World :=
  { file := { fd := exampleFile, cryptor := exampleCryptor, mappings := [exampleMapping] },
    memory := fun _ => 7, trace := [] }

/-- Whether the mapping of index `j` is a sibling of the mapping of index `self`
that covers `page` and has it up-to-date. -/
def World.isUpToDateSibling (w : World) (self page j : Nat) : Bool :=
  match w.file.mappings[j]? with
  | none => false
  | some m =>
    decide (j ≠ self) && decide (page < m.m_page_count)
      && (m.m_up_to_date_pages[page]? == some true)

/-- The first mapping of the file, in the order of `SharedFileInfo::mappings`, that
is a sibling of the mapping of index `self`, covers `page` and has it
up-to-date. -/
def World.up_to_date_sibling (w : World) (self page : Nat) : Option Nat :=
  (List.range w.file.mappings.length).find? (w.isUpToDateSibling self page)

/-- The store `m_up_to_date_pages[i] = true`. -/
def EncryptedFileMapping.marked (m : EncryptedFileMapping) (i : Nat) : EncryptedFileMapping :=
  { m with m_up_to_date_pages := m.m_up_to_date_pages.set i true }

/-- A mapping of one page at address 0, the page neither up-to-date nor dirty. -/
def exampleStale : EncryptedFileMapping :=
  { exampleMapping with m_up_to_date_pages := [false], m_dirty_pages := [false] }

/-- A mapping of one page at address 4096, the page up-to-date and not dirty. -/
def exampleFresh : EncryptedFileMapping :=
  { exampleMapping with m_addr := 4096, m_first_page := 1, m_dirty_pages := [false] }

/-- The two mappings `exampleStale` and `exampleFresh` over the example file; the
memory of the first holds bytes 0, that of the second bytes 7. -/
def exampleSiblings : World :=
  { file := { fd := exampleFile, cryptor := exampleCryptor,
              mappings := [exampleStale, exampleFresh] },
    memory := fun a => if a < 4096 then 0 else 7, trace := [] }

/-- The mapping `m1` is `m` with other bits. -/
structure EncryptedFileMapping.SameGeometry (m m1 : EncryptedFileMapping) : Prop where
  fields : m1 = { m with m_up_to_date_pages := m1.m_up_to_date_pages,
                         m_dirty_pages := m1.m_dirty_pages }
  up_length : m1.m_up_to_date_pages.length = m.m_up_to_date_pages.length
  dirty_length : m1.m_dirty_pages.length = m.m_dirty_pages.length

/-- What the steps of `write_barrier` on the mapping of index `own` make of a
world `w`: the mappings keep their geometry, siblings only lose bits, the
mapping itself keeps its up-to-date bits and only gains dirty bits, the memory
is as before, every page that a mapping had dirty is either still dirty, its
up-to-date bit not yet cleared, or has been written through the cryptor before
any clearing of its up-to-date bit, and every clearing of an up-to-date bit is
in the trace. -/
structure World.Outdates (own : Nat) (w w1 : World) : Prop where
  length : w1.file.mappings.length = w.file.mappings.length
  memory : w1.memory = w.memory
  geometry : ∀ (k : Nat) (m : EncryptedFileMapping), w.file.mappings[k]? = some m →
    ∃ m1, w1.file.mappings[k]? = some m1 ∧ m.SameGeometry m1
  sibling_dirty : ∀ (k : Nat) (m m1 : EncryptedFileMapping) (p : Nat), k ≠ own → w.file.mappings[k]? = some m →
    w1.file.mappings[k]? = some m1 → m1.m_dirty_pages[p]? = some true →
    m.m_dirty_pages[p]? = some true
  sibling_up : ∀ (k : Nat) (m m1 : EncryptedFileMapping) (p : Nat), k ≠ own → w.file.mappings[k]? = some m →
    w1.file.mappings[k]? = some m1 → m1.m_up_to_date_pages[p]? = some true →
    m.m_up_to_date_pages[p]? = some true
  own_up : ∀ (m m1 : EncryptedFileMapping), w.file.mappings[own]? = some m → w1.file.mappings[own]? = some m1 →
    m1.m_up_to_date_pages = m.m_up_to_date_pages
  own_dirty : ∀ (m m1 : EncryptedFileMapping) (p : Nat), w.file.mappings[own]? = some m → w1.file.mappings[own]? = some m1 →
    m.m_dirty_pages[p]? = some true → m1.m_dirty_pages[p]? = some true
  trace : ∃ new, w1.trace = w.trace ++ new ∧
    (∀ (k p : Nat) (m : EncryptedFileMapping), w.file.mappings[k]? = some m →
      m.m_dirty_pages[p]? = some true →
      (∃ m1, w1.file.mappings[k]? = some m1 ∧ m1.m_dirty_pages[p]? = some true ∧
        Event.outdated k p ∉ new) ∨
      (∃ pre post, new = pre ++ m.written p :: post ∧ Event.outdated k p ∉ pre)) ∧
    ∀ (k p : Nat) (m m1 : EncryptedFileMapping), w.file.mappings[k]? = some m →
      w1.file.mappings[k]? = some m1 → m.m_up_to_date_pages[p]? = some true →
      m1.m_up_to_date_pages[p]? ≠ some true → Event.outdated k p ∈ new

/-- A mapping of one page at address 0, the page up-to-date and not dirty. -/
def exampleOwn : EncryptedFileMapping := { exampleMapping with m_dirty_pages := [false] }

/-- A mapping of one page at address 4096, the page up-to-date and dirty. -/
def exampleDirty : EncryptedFileMapping :=
  { exampleMapping with m_addr := 4096, m_first_page := 1 }

/-- The two mappings `exampleOwn` and `exampleDirty` over the example file, every
byte of memory being 7. -/
def exampleBarrier : World :=
  { file := { fd := exampleFile, cryptor := exampleCryptor,
              mappings := [exampleOwn, exampleDirty] },
    memory := fun _ => 7, trace := [] }

/-! ## The registries of mappings (`file_mapper.cpp`, lines 82-195)

Of the two branches of `#ifdef _WIN32` the one taken is the first: the other
names a variable `st` whose declaration is commented out.  A call returns the
registries it leaves together with its result, so that what an exception
leaves behind can be stated. -/

/-- What the missing class declaration leaves of a mapping before the constructor
calls `set`: an object of no page.  Modelled from the spec: the mapping has
"`m_addr, m_file_offset, m_first_page, m_page_count`" and the two bit-vectors. -/
def EncryptedFileMapping.blank (m_page_shift m_blocks_per_page : Nat) (access : AccessMode) :
    EncryptedFileMapping :=
  { m_page_shift := m_page_shift, m_blocks_per_page := m_blocks_per_page, m_access := access,
    m_addr := 0, m_file_offset := 0, m_first_page := 0, m_page_count := 0,
    m_up_to_date_pages := [], m_dirty_pages := [] }

/-- Constructor `EncryptedFileMapping::EncryptedFileMapping(file, file_offset, addr,
size, access)` (lines 332-345); `page_size` is what `realm::util::page_size()`
returns. -/
def EncryptedFileMapping.new (prim : Primitives) (fuel : Nat) (page_size : Nat) (w : World)
    (file_offset addr size : Nat) (access : AccessMode) : Except Failure World :=
  let m_page_shift := Nat.log2 page_size
  let m_blocks_per_page := (1 <<< m_page_shift) / block_size
  if m_blocks_per_page * block_size = 1 <<< m_page_shift then
    match (EncryptedFileMapping.blank m_page_shift m_blocks_per_page access).set prim fuel w
        addr size file_offset with
    | .error e => .error e
    | .ok (m, w) => .ok { w with file := { w.file with mappings := w.file.mappings ++ [m] } }
  else .error .AssertionFailed

/-- The mapping the constructor makes when its assertions hold. -/
def EncryptedFileMapping.created (page_size file_offset addr size : Nat) (access : AccessMode) :
    EncryptedFileMapping :=
  { m_page_shift := Nat.log2 page_size,
    m_blocks_per_page := (1 <<< Nat.log2 page_size) / block_size,
    m_access := access, m_addr := addr, m_file_offset := file_offset,
    m_first_page := (size_t_sub addr file_offset) >>> Nat.log2 page_size,
    m_page_count := ((size + file_offset) % SIZE_MOD) >>> Nat.log2 page_size,
    m_up_to_date_pages :=
      List.replicate (((size + file_offset) % SIZE_MOD) >>> Nat.log2 page_size) false,
    m_dirty_pages :=
      List.replicate (((size + file_offset) % SIZE_MOD) >>> Nat.log2 page_size) false }

/-- Record `struct mappings_for_file` (lines 82-90), with `handle`. -/
structure mappings_for_file where
  handle : Nat
  info : SharedFileInfo

/-- Record `struct mapping_and_addr` (lines 95-99); the pointer `mapping` is the
index of the file in `mappings_by_file` and the index of the mapping in the
`mappings` of that file. -/
structure mapping_and_addr where
  mapping : Nat × Nat
  addr : Nat
  size : Nat
  deriving DecidableEq, Repr

/-- The globals `mappings_by_addr` and `mappings_by_file` (lines 103-104), with the
memory of the process and the trace. -/
structure Registries where
  mappings_by_addr : List mapping_and_addr
  mappings_by_file : List mappings_for_file
  memory : Nat → Nat
  trace : List Event

/-- The `for` loop of `add_mapping` (lines 135-143): the position at which the
iterator `it` stops, the length of `mappings_by_file` for `end()`.  The test is
`it->handle == it->handle`. -/
def add_mapping.find (mappings_by_file : List mappings_for_file) : Nat :=
  mappings_by_file.findIdx (fun it => it.handle == it.handle)

/-- The part of `add_mapping` under the lock (lines 133-186).  `rw_buffer` is the
content of the buffer the constructor of a new cryptor allocates.  The handler
`catch (...)` is entered by an exception, which is `DecryptionFailed` here; a
failed assertion ends the process. -/
def add_mapping.locked (prim : Primitives) (fuel : Nat) (page_size : Nat) (rw_buffer : List Nat)
    (r : Registries) (addr size : Nat) (fd : File) (file_offset : Nat) (access : AccessMode)
    (encryption_key : List Nat) : Registries × Except Failure (Nat × Nat) :=
  let it := add_mapping.find r.mappings_by_file
  let r : Registries :=
    if it = r.mappings_by_file.length then
      { r with
        mappings_by_file := r.mappings_by_file
          ++ [{ handle := fd.m_handle,
                info := { fd := fd, cryptor := AESCryptor.new encryption_key rw_buffer,
                          mappings := [] } }] }
    else r
  match r.mappings_by_file[it]? with
  | none => (r, .error .OutOfBounds)
  | some f =>
    match EncryptedFileMapping.new prim fuel page_size
        { file := f.info, memory := r.memory, trace := r.trace } file_offset addr size access with
    | .ok w =>
      ({ mappings_by_addr := r.mappings_by_addr
           ++ [{ mapping := (it, w.file.mappings.length - 1), addr := addr, size := size }],
         mappings_by_file := r.mappings_by_file.set it { f with info := w.file },
         memory := w.memory, trace := w.trace }, .ok (it, w.file.mappings.length - 1))
    | .error .DecryptionFailed =>
      (if f.info.mappings.isEmpty then
          { r with mappings_by_file := r.mappings_by_file.eraseIdx it }
        else r, .error .DecryptionFailed)
    | .error e => (r, .error e)

/-- Function `add_mapping(addr, size, fd, file_offset, access, encryption_key)`
(lines 119-195): the registries afterwards, and the mapping returned or the
failure. -/
def add_mapping (prim : Primitives) (fuel : Nat) (page_size : Nat) (rw_buffer : List Nat)
    (r : Registries) (addr size : Nat) (fd : File) (file_offset : Nat) (access : AccessMode)
    (encryption_key : List Nat) : Registries × Except Failure (Nat × Nat) :=
  if 0 < fd.size ∧ fd.size % SIZE_MOD < page_size then (r, .error .DecryptionFailed)
  else
    add_mapping.locked prim fuel page_size rw_buffer r addr size fd file_offset access
      encryption_key

/-- Registries just created: no mapping, no file. -/
def exampleRegistries : Registries :=
  { mappings_by_addr := [], mappings_by_file := [], memory := fun _ => 0, trace := [] }

/-- An empty file with handle 1. -/
def exampleFileOne : File := { bytes := fun _ => 0, size := 0, m_handle := 1 }

/-- An empty file with handle 2. -/
def exampleFileTwo : File := { bytes := fun _ => 0, size := 0, m_handle := 2 }

/-- The entry of `mappings_by_file` after a mapping of one page of the file with
handle 1, at address 0. -/
def exampleFirstEntry : mappings_for_file :=
  { handle := 1,
    info := { fd := exampleFileOne,
              cryptor := AESCryptor.set_file_size.reserve (AESCryptor.new [] [])
                ((4096 + 0) % SIZE_MOD),
              mappings := [EncryptedFileMapping.created 4096 0 0 4096 .access_ReadWrite] } }

/-- A file of 100 bytes. -/
def exampleSmallFile : File := { bytes := fun _ => 0, size := 100, m_handle := 3 }

/-! ## Tables: reading cells and the JSON export (`Table.cpp`, lines 340-363, 599-832, 1085-1204)

The methods that read are `const`: they use the `const` overloads of the
`GetColumn...` methods, which do not instantiate the columns.  A `const` overload
has the name of the method with `_const` appended. -/

namespace tightdb

/-- Modelled from the spec: `Spec::GetColumnName(ndx)`. -/
def Spec.GetColumnName (s : Spec) (ndx : Nat) : Option String := s.m_names[ndx]?

/-- Modelled from the spec: `Spec::GetColumnType(ndx)`, which folds STRING_ENUM
into STRING for the user surface. -/
def Spec.GetColumnType (s : Spec) (ndx : Nat) : Option ColumnType :=
  (s.GetRealColumnType ndx).map
    (fun type => if type = .COLUMN_TYPE_STRING_ENUM then .COLUMN_TYPE_STRING else type)

/-- Modelled from the spec: `Table::GetSize()`, defined in the header. -/
def Table.GetSize (t : Table) : Nat := t.m_size

/-- Method `Table::GetColumnName(ndx)` (lines 340-344). -/
def Table.GetColumnName (t : Table) (ndx : Nat) : Except Failure String :=
  if ndx < t.GetColumnCount then
    match t.m_spec_set.GetColumnName ndx with
    | none => .error .OutOfBounds
    | some name => .ok name
  else .error .AssertionFailed

/-- Method `Table::GetColumnType(ndx)` (lines 357-363). -/
def Table.GetColumnType (t : Table) (ndx : Nat) : Except Failure ColumnType :=
  if ndx < t.GetColumnCount then
    match t.m_spec_set.GetColumnType ndx with
    | none => .error .OutOfBounds
    | some type => .ok type
  else .error .AssertionFailed

/-- Method `Table::GetColumnBase(ndx) const` (lines 458-462). -/
def Table.GetColumnBase_const (t : Table) (ndx : Nat) : Except Failure ColumnBase :=
  if ndx < t.GetColumnCount then
    match t.m_cols[ndx]? with
    | none => .error .OutOfBounds
    | some column => .ok column
  else .error .AssertionFailed

/-- Method `Table::GetColumn(ndx) const` (lines 471-476). -/
def Table.GetColumn_const (t : Table) (ndx : Nat) : Except Failure ColumnBase :=
  match t.GetColumnBase_const ndx with
  | .error e => .error e
  | .ok column => if column.data.IsIntColumn then .ok column else .error .AssertionFailed

/-- Method `Table::GetColumnString(ndx) const` (lines 485-490). -/
def Table.GetColumnString_const (t : Table) (ndx : Nat) : Except Failure ColumnBase :=
  match t.GetColumnBase_const ndx with
  | .error e => .error e
  | .ok column => if column.data.IsStringColumn then .ok column else .error .AssertionFailed

/-- Method `Table::GetColumnStringEnum(ndx) const` (lines 500-504): the assertion,
then a cast of `m_cols.Get(ndx)` that checks nothing. -/
def Table.GetColumnStringEnum_const (t : Table) (ndx : Nat) : Except Failure ColumnBase :=
  if ndx < t.GetColumnCount then
    match t.m_cols[ndx]? with
    | none => .error .OutOfBounds
    | some column => .ok column
  else .error .AssertionFailed

/-- Method `Table::GetColumnBinary(ndx) const` (lines 513-518). -/
def Table.GetColumnBinary_const (t : Table) (ndx : Nat) : Except Failure ColumnBase :=
  match t.GetColumnBase_const ndx with
  | .error e => .error e
  | .ok column => if column.data.IsBinaryColumn then .ok column else .error .AssertionFailed

/-- Method `Table::GetColumnTable(ndx) const` (lines 527-531). -/
def Table.GetColumnTable_const (t : Table) (ndx : Nat) : Except Failure ColumnBase :=
  if ndx < t.GetColumnCount then
    match t.m_cols[ndx]? with
    | none => .error .OutOfBounds
    | some column => .ok column
  else .error .AssertionFailed

/-- Method `Table::GetColumnMixed(ndx) const` (lines 540-544). -/
def Table.GetColumnMixed_const (t : Table) (ndx : Nat) : Except Failure ColumnBase :=
  if ndx < t.GetColumnCount then
    match t.m_cols[ndx]? with
    | none => .error .OutOfBounds
    | some column => .ok column
  else .error .AssertionFailed

/-- Modelled from the spec: `Column::Get(ndx)`. -/
def Column.Get (data : ColumnData) (ndx : Nat) : Except Failure Int :=
  match data with
  | .Column values =>
    match values[ndx]? with
    | none => .error .OutOfBounds
    | some value => .ok value
  | .ColumnTable _ values =>
    match values[ndx]? with
    | none => .error .OutOfBounds
    | some value => .ok value
  | _ => .error .BadCast

/-- Modelled from the spec: `AdaptiveStringColumn::Get(ndx)`. -/
def AdaptiveStringColumn.Get (data : ColumnData) (ndx : Nat) : Except Failure String :=
  match data with
  | .AdaptiveStringColumn values =>
    match values[ndx]? with
    | none => .error .OutOfBounds
    | some value => .ok value
  | _ => .error .BadCast

/-- Modelled from the spec: `ColumnStringEnum::Get(ndx)`, the key at the index that
row `ndx` stores. -/
def ColumnStringEnum.Get (data : ColumnData) (ndx : Nat) : Except Failure String :=
  match data with
  | .ColumnStringEnum keys values =>
    match values[ndx]? with
    | none => .error .OutOfBounds
    | some key_ndx =>
      match keys[key_ndx]? with
      | none => .error .OutOfBounds
      | some value => .ok value
  | _ => .error .BadCast

/-- Modelled from the spec: `ColumnBinary::Get(ndx)`, the bytes of the view. -/
def ColumnBinary.Get (data : ColumnData) (ndx : Nat) : Except Failure (List Nat) :=
  match data with
  | .ColumnBinary values =>
    match values[ndx]? with
    | none => .error .OutOfBounds
    | some value => .ok value
  | _ => .error .BadCast

/-- Modelled from the spec: the cell of row `ndx` of a `ColumnMixed`, which its
methods `GetType`, `GetInt`, `GetBool`, `GetDate`, `GetString` and `GetBinary`
read. -/
def ColumnMixed.Get (data : ColumnData) (ndx : Nat) : Except Failure Mixed :=
  match data with
  | .ColumnMixed values =>
    match values[ndx]? with
    | none => .error .OutOfBounds
    | some value => .ok value
  | _ => .error .BadCast

/-- Modelled from the spec: `ColumnMixed::GetType(ndx)`. -/
def ColumnMixed.GetType (data : ColumnData) (ndx : Nat) : Except Failure ColumnType :=
  (ColumnMixed.Get data ndx).map Mixed.GetType

/-- Method `Table::Get(column_id, ndx)` (lines 650-657). -/
def Table.Get (t : Table) (column_id ndx : Nat) : Except Failure Int :=
  if column_id < t.GetColumnCount then
    if ndx < t.m_size then
      match t.GetColumn_const column_id with
      | .error e => .error e
      | .ok column => Column.Get column.data ndx
    else .error .AssertionFailed
  else .error .AssertionFailed

/-- What `GetBool` and `GetDate` share (lines 668-676, 688-696): the three
assertions, then `GetColumn(column_id).Get(ndx)`. -/
def Table.getTyped (expected : ColumnType) (t : Table) (column_id ndx : Nat) :
    Except Failure Int :=
  if column_id < t.GetColumnCount then
    match t.GetRealColumnType column_id with
    | .error e => .error e
    | .ok type =>
      if type = expected then
        if ndx < t.m_size then
          match t.GetColumn_const column_id with
          | .error e => .error e
          | .ok column => Column.Get column.data ndx
        else .error .AssertionFailed
      else .error .AssertionFailed
  else .error .AssertionFailed

/-- Method `Table::GetBool(column_id, ndx)` (lines 668-676). -/
def Table.GetBool (t : Table) (column_id ndx : Nat) : Except Failure Bool :=
  (Table.getTyped .COLUMN_TYPE_BOOL t column_id ndx).map (fun value => decide (value ≠ 0))

/-- Method `Table::GetDate(column_id, ndx)` (lines 688-696). -/
def Table.GetDate (t : Table) (column_id ndx : Nat) : Except Failure Int :=
  Table.getTyped .COLUMN_TYPE_DATE t column_id ndx

/-- Method `Table::GetString(column_id, ndx)` (lines 717-733); its first assertion
compares with `m_columns.Size()`. -/
def Table.GetString (t : Table) (column_id ndx : Nat) : Except Failure String :=
  if column_id < t.m_columns.length then
    if ndx < t.m_size then
      match t.GetRealColumnType column_id with
      | .error e => .error e
      | .ok type =>
        if type = .COLUMN_TYPE_STRING then
          match t.GetColumnString_const column_id with
          | .error e => .error e
          | .ok column => AdaptiveStringColumn.Get column.data ndx
        else if type = .COLUMN_TYPE_STRING_ENUM then
          match t.GetColumnStringEnum_const column_id with
          | .error e => .error e
          | .ok column => ColumnStringEnum.Get column.data ndx
        else .error .AssertionFailed
    else .error .AssertionFailed
  else .error .AssertionFailed

/-- Method `Table::GetBinary(column_id, ndx)` (lines 771-778). -/
def Table.GetBinary (t : Table) (column_id ndx : Nat) : Except Failure (List Nat) :=
  if column_id < t.m_columns.length then
    if ndx < t.m_size then
      match t.GetColumnBinary_const column_id with
      | .error e => .error e
      | .ok column => ColumnBinary.Get column.data ndx
    else .error .AssertionFailed
  else .error .AssertionFailed

/-- Method `Table::GetMixed(column_id, ndx)` (lines 798-823): the switch on
`column.GetType(ndx)` builds a `Mixed` of the cell's payload. -/
def Table.GetMixed (t : Table) (column_id ndx : Nat) : Except Failure Mixed :=
  if column_id < t.m_columns.length then
    if ndx < t.m_size then
      match t.GetColumnMixed_const column_id with
      | .error e => .error e
      | .ok column =>
        match ColumnMixed.Get column.data ndx with
        | .error e => .error e
        | .ok (.Int value) => .ok (.Int value)
        | .ok (.Bool value) => .ok (.Bool value)
        | .ok (.Date value) => .ok (.Date value)
        | .ok (.String value) => .ok (.String value)
        | .ok (.Binary value) => .ok (.Binary value)
        | .ok .Table => .ok .Table
    else .error .AssertionFailed
  else .error .AssertionFailed

/-- Method `Table::GetMixedType(column_id, ndx)` (lines 825-832). -/
def Table.GetMixedType (t : Table) (column_id ndx : Nat) : Except Failure ColumnType :=
  if column_id < t.m_columns.length then
    if ndx < t.m_size then
      match t.GetColumnMixed_const column_id with
      | .error e => .error e
      | .ok column => ColumnMixed.GetType column.data ndx
    else .error .AssertionFailed
  else .error .AssertionFailed

/-- What `to_json` takes from outside `Table.cpp`: whether `char` is a signed type;
`gmtime` followed by `strftime` with the format of lines 1122 and 1168, `none`
when `strftime` returns 0; and, modelled from the spec, the methods
`get_subtable_ptr(ndx)` of `ColumnTable` and of `ColumnMixed`, which make the
Table view of a row from the rows of the column and the allocator's memory. -/
structure Environment where
  char_is_signed : Bool
  strftime : Int → Option String
  ColumnTable_get_subtable_ptr : ColumnData → Nat → Except Failure Table
  ColumnMixed_get_subtable_ptr : ColumnData → Nat → Except Failure Table

/-- Method `Table::get_subtable_ptr(col_idx, row_idx) const` (lines 619-637). -/
def Table.get_subtable_ptr (env : Environment) (t : Table) (col_idx row_idx : Nat) :
    Except Failure Table :=
  if col_idx < t.GetColumnCount then
    if row_idx < t.m_size then
      match t.GetRealColumnType col_idx with
      | .error e => .error e
      | .ok type =>
        if type = .COLUMN_TYPE_TABLE then
          match t.GetColumnTable_const col_idx with
          | .error e => .error e
          | .ok subtables => env.ColumnTable_get_subtable_ptr subtables.data row_idx
        else if type = .COLUMN_TYPE_MIXED then
          match t.GetColumnMixed_const col_idx with
          | .error e => .error e
          | .ok subtables => env.ColumnMixed_get_subtable_ptr subtables.data row_idx
        else .error .AssertionFailed
    else .error .AssertionFailed
  else .error .AssertionFailed

/-- Modelled from the spec: `Table::GetTable(column_id, ndx)`, defined in the
header: the subtable of a cell, as `get_subtable_ptr` returns it. -/
def Table.GetTable (env : Environment) (t : Table) (column_id ndx : Nat) : Except Failure Table :=
  t.get_subtable_ptr env column_id ndx

/-- The value of `(unsigned int)p[i]` (lines 1135, 1181) for the byte `b` that a
`char* p` points to: a `char` that is signed is negative from 0x80 on, and the
conversion to the 32 bits of `unsigned int` adds `2^32`. -/
def char_to_unsigned_int (char_is_signed : Bool) (b : Nat) : Nat :=
  if char_is_signed && decide (128 ≤ b % 256) then b % 256 + (2 ^ 32 - 256) else b % 256

/-- The text that `sprintf(buffer, "%02x", value)` writes: the digits of `value` to
the base 16 in lower case, with a zero before a single digit. -/
def sprintf_02x (value : Nat) : String :=
  String.mk (List.replicate (2 - (Nat.toDigits 16 value).length) '0' ++ Nat.toDigits 16 value)

/-- The text written for a binary value (lines 1133-1138, 1179-1184): a quote, the
bytes one after the other, a quote. -/
def Table.to_json.binary (env : Environment) (bin : List Nat) : String :=
  "\"" ++ String.join (bin.map (fun b => sprintf_02x (char_to_unsigned_int env.char_is_signed b)))
    ++ "\""

/-- The text written for a date (lines 1120-1126, 1166-1172): nothing when
`strftime` returns 0. -/
def Table.to_json.date (env : Environment) (rawtime : Int) : String :=
  match env.strftime rawtime with
  | none => ""
  | some buffer => buffer

/-- The text written by `case COLUMN_TYPE_MIXED` of `to_json` (lines 1146-1193) for
the cell of column `i` in row `r`; `sub` is `to_json` of a subtable.  A stream
in its default state writes a `bool` as `1` or `0`. -/
def Table.to_json.mixed (env : Environment) (sub : Table → Except Failure String) (t : Table)
    (i r : Nat) : Except Failure String :=
  match t.GetMixedType i r with
  | .error e => .error e
  | .ok mtype =>
    if mtype = .COLUMN_TYPE_TABLE then
      match t.GetTable env i r with
      | .error e => .error e
      | .ok table => sub table
    else
      match t.GetMixed i r with
      | .error e => .error e
      | .ok m =>
        match mtype, m with
        | .COLUMN_TYPE_INT, .Int value => .ok (toString value)
        | .COLUMN_TYPE_BOOL, .Bool value => .ok (if value then "1" else "0")
        | .COLUMN_TYPE_STRING, .String value => .ok ("\"" ++ value ++ "\"")
        | .COLUMN_TYPE_DATE, .Date value => .ok (Table.to_json.date env value)
        | .COLUMN_TYPE_BINARY, .Binary value => .ok (Table.to_json.binary env value)
        | _, _ => .error .AssertionFailed

/-- The text written by the switch of `to_json` (lines 1107-1197) for the cell of
column `i` in row `r`; `sub` is `to_json` of a subtable. -/
def Table.to_json.value (env : Environment) (sub : Table → Except Failure String) (t : Table)
    (i r : Nat) : Except Failure String :=
  match t.GetColumnType i with
  | .error e => .error e
  | .ok .COLUMN_TYPE_INT => (t.Get i r).map (fun value => toString value)
  | .ok .COLUMN_TYPE_BOOL => (t.GetBool i r).map (fun value => if value then "true" else "false")
  | .ok .COLUMN_TYPE_STRING => (t.GetString i r).map (fun value => "\"" ++ value ++ "\"")
  | .ok .COLUMN_TYPE_DATE => (t.GetDate i r).map (Table.to_json.date env)
  | .ok .COLUMN_TYPE_BINARY => (t.GetBinary i r).map (Table.to_json.binary env)
  | .ok .COLUMN_TYPE_TABLE =>
    match t.GetTable env i r with
    | .error e => .error e
    | .ok table => sub table
  | .ok .COLUMN_TYPE_MIXED => Table.to_json.mixed env sub t i r
  | .ok _ => .error .AssertionFailed

/-- The loop over the columns of row `r` (lines 1101-1198), for the column indices
that remain; `out` is what the stream holds. -/
def Table.to_json.columns (env : Environment) (sub : Table → Except Failure String) (t : Table)
    (r : Nat) : List Nat → String → Except Failure String
  | [], out => .ok out
  | i :: rest, out =>
    match t.GetColumnName i with
    | .error e => .error e
    | .ok name =>
      match Table.to_json.value env sub t i r with
      | .error e => .error e
      | .ok value =>
        Table.to_json.columns env sub t r rest
          ((if i ≠ 0 then out ++ "," else out) ++ "\"" ++ name ++ "\":" ++ value)

/-- The loop over the rows (lines 1097-1201), for the row indices that remain. -/
def Table.to_json.rows (env : Environment) (sub : Table → Except Failure String) (t : Table) :
    List Nat → String → Except Failure String
  | [], out => .ok out
  | r :: rest, out =>
    match Table.to_json.columns env sub t r (List.range t.GetColumnCount)
        ((if r ≠ 0 then out ++ "," else out) ++ "\x7b") with
    | .error e => .error e
    | .ok out => Table.to_json.rows env sub t rest (out ++ "\x7d")

/-- The body of `Table::to_json(out)` (lines 1085-1204) on an empty stream; `sub`
is `to_json` of a subtable. -/
def Table.to_json.body (env : Environment) (sub : Table → Except Failure String) (t : Table) :
    Except Failure String :=
  match Table.to_json.rows env sub t (List.range t.GetSize) "[" with
  | .error e => .error e
  | .ok out => .ok (out ++ "]")

/-- Method `Table::to_json(out)` (lines 1085-1204): what it writes to an empty
stream.  The fuel bounds the depth of subtables in subtables. -/
def Table.to_json (env : Environment) : Nat → Table → Except Failure String
  | 0, t => Table.to_json.body env (fun _ => .error .OutOfFuel) t
  | fuel + 1, t => Table.to_json.body env (Table.to_json env fuel) t

/-- An environment with a signed `char`, as on x86; no date is formatted and no
subtable is read. -/
def exampleEnvironment : Environment :=
  { char_is_signed := true,
    strftime := fun _ => none,
    ColumnTable_get_subtable_ptr := fun _ _ => .error .OutOfBounds,
    ColumnMixed_get_subtable_ptr := fun _ _ => .error .OutOfBounds }

/-- The table of the columns `x : INT` and `name : STRING` with the rows
`(42, "ada")` and `(7, "ada")`. -/
def exampleAda : Table :=
  { m_size := 2,
    m_spec_set := { m_spec := [.COLUMN_TYPE_INT, .COLUMN_TYPE_STRING],
                    m_names := ["x", "name"], m_subSpecs := [] },
    m_columns := [1, 2], m_columns_valid := true,
    m_cols := [{ data := .Column [42, 7], m_parentNdx := 0 },
               { data := .AdaptiveStringColumn ["ada", "ada"], m_parentNdx := 1 }],
    alloc := 3 }

end tightdb

/-! ## Tables: attaching to refs (`Table.cpp`, lines 73-92, 189-274), and `ColumnTable.cpp` -/

namespace tightdb

/-- Modelled from the spec: the memory behind an `Allocator`: the rows that a
column object attached to a ref finds there, the refs in an array of refs, the
Spec at a ref. -/
structure Allocator where
  column_rows : Nat → List Int
  string_rows : Nat → List String
  binary_rows : Nat → List (List Nat)
  mixed_rows : Nat → List Mixed
  array_refs : Nat → List Nat
  spec_at : Nat → Spec

/-- The switch of `Table::CacheColumns` (lines 207-252) together with lines 257-263
for the entry `type`, where `ref` is `m_columns.GetAsRef(column_ndx)`: the
column attached, `column_ndx` and `subtable_count` afterwards.  For an attribute
entry `newColumn` is still null when line 259 calls `SetIndexRef` through it. -/
def Table.CacheColumns.newColumn (memory : Allocator) (t : Table) (type : ColumnType)
    (column_ndx subtable_count ref : Nat) : Except Failure (ColumnData × Nat × Nat) :=
  match type with
  | .COLUMN_TYPE_INT | .COLUMN_TYPE_BOOL | .COLUMN_TYPE_DATE =>
    .ok (.Column (memory.column_rows ref), column_ndx, subtable_count)
  | .COLUMN_TYPE_STRING =>
    .ok (.AdaptiveStringColumn (memory.string_rows ref), column_ndx, subtable_count)
  | .COLUMN_TYPE_BINARY => .ok (.ColumnBinary (memory.binary_rows ref), column_ndx, subtable_count)
  | .COLUMN_TYPE_STRING_ENUM =>
    match t.m_columns[column_ndx + 1]? with
    | none => .error .OutOfBounds
    | some ref_values =>
      .ok (.ColumnStringEnum (memory.string_rows ref)
        ((memory.column_rows ref_values).map Int.toNat), column_ndx + 1, subtable_count)
  | .COLUMN_TYPE_TABLE =>
    match t.m_spec_set.GetSubSpecRef subtable_count with
    | none => .error .OutOfBounds
    | some ref_specSet =>
      .ok (.ColumnTable ref_specSet (memory.column_rows ref), column_ndx, subtable_count + 1)
  | .COLUMN_TYPE_MIXED => .ok (.ColumnMixed (memory.mixed_rows ref), column_ndx, subtable_count)
  | .COLUMN_ATTR_INDEXED | .COLUMN_ATTR_UNIQUE =>
    match t.m_columns[column_ndx + 1]? with
    | none => .error .OutOfBounds
    | some _ => .error .NullPointer
  | _ => .error .AssertionFailed

/-- The `for` loop of `Table::CacheColumns` (lines 201-271) over the entries that
remain; `size` is `none` while the variable holds `(size_t)-1`.  The column of
an entry gets `column_ndx` as parent index, the slot its root ref is read
from. -/
def Table.CacheColumns.loop (memory : Allocator) :
    List ColumnType → Nat → Nat → Option Nat → Table → Except Failure Table
  | [], _, _, size, t =>
    match size with
    | none => .ok t
    | some size => .ok { t with m_size := size }
  | type :: rest, column_ndx, subtable_count, size, t =>
    match t.m_columns[column_ndx]? with
    | none => .error .OutOfBounds
    | some ref =>
      match Table.CacheColumns.newColumn memory t type column_ndx subtable_count ref with
      | .error e => .error e
      | .ok (data, column_ndx1, subtable_count1) =>
        if size = none ∨ size = some data.Size then
          Table.CacheColumns.loop memory rest (column_ndx1 + 1) subtable_count1 (some data.Size)
            { t with m_cols := t.m_cols ++ [{ data := data, m_parentNdx := column_ndx }] }
        else .error .AssertionFailed

/-- Method `Table::CacheColumns()` (lines 189-274). -/
def Table.CacheColumns (memory : Allocator) (t : Table) : Except Failure Table :=
  if t.m_cols.isEmpty then Table.CacheColumns.loop memory t.m_spec_set.m_spec 0 0 none t
  else .error .AssertionFailed

/-- Method `Table::Create(ref_specSet, columns_ref, parent, ndx_in_parent)` (lines
80-92). -/
def Table.Create (memory : Allocator) (t : Table) (ref_specSet columns_ref : Nat) :
    Except Failure Table :=
  if columns_ref ≠ 0 then
    Table.CacheColumns memory
      { t with m_spec_set := memory.spec_at ref_specSet,
               m_columns := memory.array_refs columns_ref, m_columns_valid := true }
  else .ok { t with m_spec_set := memory.spec_at ref_specSet }

/-- Constructor `Table::Table(SubtableTag, alloc, schema_ref, columns_ref, parent,
ndx_in_parent)` (lines 73-78): members that are not attached, then `Create`. -/
def Table.attached (memory : Allocator) (alloc schema_ref columns_ref : Nat) :
    Except Failure Table :=
  Table.Create memory
    { m_size := 0, m_spec_set := { m_spec := [], m_names := [], m_subSpecs := [] },
      m_columns := [], m_columns_valid := false, m_cols := [], alloc := alloc }
    schema_ref columns_ref

/-- Modelled from the spec: `GetAsRef(ndx)` of a `Column`, the row as a `size_t`. -/
def Column.GetAsRef (values : List Int) (ndx : Nat) : Option Nat :=
  (values[ndx]?).map (fun value => (value % (2 ^ 64 : Int)).toNat)

/-- Method `ColumnTable::GetTableSize(ndx)` (`ColumnTable.cpp`, lines 55-66).  The
constructor called on line 63 is the one of `Table.cpp`, lines 73-78. -/
def ColumnTable.GetTableSize (memory : Allocator) (alloc : Nat) (data : ColumnData) (ndx : Nat) :
    Except Failure Nat :=
  match data with
  | .ColumnTable m_ref_specSet values =>
    if ndx < data.Size then
      match Column.GetAsRef values ndx with
      | none => .error .OutOfBounds
      | some ref_columns =>
        if ref_columns = 0 then .ok 0
        else
          match Table.attached memory alloc m_ref_specSet ref_columns with
          | .error e => .error e
          | .ok table => .ok table.GetSize
    else .error .AssertionFailed
  | _ => .error .BadCast

/-- Method `ColumnTable::Add()` (`ColumnTable.cpp`, lines 68-71): the column
afterwards and the value returned. -/
def ColumnTable.Add (data : ColumnData) : Except Failure (ColumnData × Bool) :=
  match ColumnTable.Insert data data.Size with
  | .error e => .error e
  | .ok data => .ok (data, true)

/-- Method `ColumnTable::Clear(ndx)` (`ColumnTable.cpp`, lines 95-108): the column
afterwards and the refs of the arrays on which `Destroy()` was called. -/
def ColumnTable.Clear (data : ColumnData) (ndx : Nat) : Except Failure (ColumnData × List Nat) :=
  match data with
  | .ColumnTable _ values =>
    if ndx < data.Size then
      match Column.GetAsRef values ndx with
      | none => .error .OutOfBounds
      | some ref_columns =>
        if ref_columns = 0 then .ok (data, [])
        else
          match Column.Set data ndx 0 with
          | .error e => .error e
          | .ok data => .ok (data, [ref_columns])
    else .error .AssertionFailed
  | _ => .error .BadCast

/-- A memory that holds, at ref 20, the rows 1 and 2 of a column, at ref 10 the
array of refs with that column as its only entry, and at ref 7 the Spec with
the one column `v : INT`. -/
def exampleMemory : Allocator :=
  { column_rows := fun ref => if ref = 20 then [1, 2] else [],
    string_rows := fun _ => [],
    binary_rows := fun _ => [],
    mixed_rows := fun _ => [],
    array_refs := fun ref => if ref = 10 then [20] else [],
    spec_at := fun ref =>
      if ref = 7 then { m_spec := [.COLUMN_TYPE_INT], m_names := ["v"], m_subSpecs := [] }
      else { m_spec := [], m_names := [], m_subSpecs := [] } }

/-- A `ColumnTable` of the sub-Spec at ref 7 with three rows: an empty subtable,
the subtable at ref 10, an empty subtable. -/
def exampleSubtables : ColumnData := .ColumnTable 7 [0, 10, 0]

/-- A table attached to an `m_columns` of three refs whose Spec has the entries
INT, ATTR_INDEXED, INT: the first column comes with an index. -/
def exampleIndexed : Table :=
  { m_size := 0,
    m_spec_set := { m_spec := [.COLUMN_TYPE_INT, .COLUMN_ATTR_INDEXED, .COLUMN_TYPE_INT],
                    m_names := ["a", "b"], m_subSpecs := [] },
    m_columns := [20, 21, 22], m_columns_valid := true, m_cols := [], alloc := 23 }

/-- A table just created whose Spec has the one entry STRING_ENUM: no attribute
entry. -/
def exampleEnumSpec : Table :=
  { Table.new 1 with
    m_spec_set := { m_spec := [.COLUMN_TYPE_STRING_ENUM], m_names := ["a"], m_subSpecs := [] } }

/-- A table that is not attached, with the Spec `x : INT`, `children : TABLE`,
`name : STRING` and the sub-Spec ref 7. -/
def exampleZeroRef : Table :=
  { m_size := 0,
    m_spec_set := { m_spec := [.COLUMN_TYPE_INT, .COLUMN_TYPE_TABLE, .COLUMN_TYPE_STRING],
                    m_names := ["x", "children", "name"], m_subSpecs := [7] },
    m_columns := [], m_columns_valid := false, m_cols := [], alloc := 30 }

/-- What `exampleZeroRef` is once its columns are created. -/
def exampleCreated : Table :=
  { exampleZeroRef with
    m_columns := [30, 31, 32], m_columns_valid := true,
    m_cols := [{ data := .Column [], m_parentNdx := 0 },
               { data := .ColumnTable 7 [], m_parentNdx := 1 },
               { data := .AdaptiveStringColumn [], m_parentNdx := 2 }],
    alloc := 33 }

/-- A table just created whose Spec has the entries INT, ATTR_INDEXED, INT. -/
def exampleIndexedNew : Table := { Table.new 1 with m_spec_set := exampleIndexed.m_spec_set }

/-- The properties of a table `t1` that has the columns of `t` and after them `n`
new ones, each with one ref in `m_columns`, the `k`-th of them in the `k`-th
new slot. -/
structure Table.Appended (n : Nat) (t t1 : Table) : Prop where
  m_columns : t1.m_columns.length = t.m_columns.length + n
  m_cols : t1.m_cols.length = t.m_cols.length + n
  old_cols : ∀ j : Nat, j < t.m_cols.length → t1.m_cols[j]? = t.m_cols[j]?
  old_columns : ∀ j : Nat, j < t.m_columns.length → t1.m_columns[j]? = t.m_columns[j]?
  parent : ∀ k : Nat, k < n →
    (t1.m_cols[t.m_cols.length + k]?).map ColumnBase.m_parentNdx = some (t.m_columns.length + k)
  spec : t1.m_spec_set = t.m_spec_set
  m_size : t1.m_size = t.m_size
  valid : t1.m_columns_valid = t.m_columns_valid

/-- The table that the constructor of `Table.cpp`, lines 73-78, has before
`CacheColumns` when it attaches to the Spec at ref 7 and the columns at ref 10 of
`exampleMemory`. -/
def exampleUncached : Table :=
  { m_size := 0,
    m_spec_set := { m_spec := [.COLUMN_TYPE_INT], m_names := ["v"], m_subSpecs := [] },
    m_columns := [20], m_columns_valid := true, m_cols := [], alloc := 0 }

/-- What `CacheColumns` makes of `exampleUncached`. -/
def exampleCached : Table :=
  { exampleUncached with m_size := 2, m_cols := [{ data := .Column [1, 2], m_parentNdx := 0 }] }

/-- A table with the columns `flag : BOOL` and `when : DATE` and one row, the cells
1 and 1000. -/
def exampleFlags : Table :=
  { m_size := 1,
    m_spec_set := { m_spec := [.COLUMN_TYPE_BOOL, .COLUMN_TYPE_DATE],
                    m_names := ["flag", "when"], m_subSpecs := [] },
    m_columns := [1, 2], m_columns_valid := true,
    m_cols := [{ data := .Column [1], m_parentNdx := 0 },
               { data := .Column [1000], m_parentNdx := 1 }],
    alloc := 3 }

/-- The text of the cell of column `i` in row `r` as the specification words it for
the column types INT, BOOL and STRING: a decimal number, `true` or `false`, the
string in double quotes.  A STRING column is stored flat or enumerated. -/
def Table.cellText (t : Table) (i r : Nat) : Option String :=
  match t.m_spec_set.GetRealColumnType i, (t.m_cols[i]?).map ColumnBase.data with
  | some .COLUMN_TYPE_INT, some (.Column values) =>
    (values[r]?).map (fun value => toString value)
  | some .COLUMN_TYPE_BOOL, some (.Column values) =>
    (values[r]?).map (fun value => if value ≠ 0 then "true" else "false")
  | some .COLUMN_TYPE_STRING, some (.AdaptiveStringColumn values) =>
    (values[r]?).map (fun value => "\"" ++ value ++ "\"")
  | some .COLUMN_TYPE_STRING_ENUM, some (.ColumnStringEnum keys values) =>
    ((values[r]?).bind (fun key_ndx => keys[key_ndx]?)).map (fun value => "\"" ++ value ++ "\"")
  | _, _ => none

/-- The text of row `r` as the specification words it: `\x7b`, the pairs
`"name":value` in column order separated by `,`, `\x7d`. -/
def Table.rowText (t : Table) (r : Nat) : String :=
  "\x7b" ++ ",".intercalate ((List.range t.GetColumnCount).map
    (fun i => "\"" ++ t.m_spec_set.m_names.getD i "" ++ "\":" ++ (t.cellText i r).getD ""))
    ++ "\x7d"

/-- The JSON text as the specification words it: `[`, the rows separated by `,`,
`]`. -/
def Table.jsonText (t : Table) : String :=
  "[" ++ ",".intercalate ((List.range t.m_size).map t.rowText) ++ "]"

/-- A table with the column `b : BINARY` and one row, the cell of the two bytes
0x7f and 0x80. -/
def exampleBlob : Table :=
  { m_size := 1,
    m_spec_set := { m_spec := [.COLUMN_TYPE_BINARY], m_names := ["b"], m_subSpecs := [] },
    m_columns := [1], m_columns_valid := true,
    m_cols := [{ data := .ColumnBinary [[0x7f, 0x80]], m_parentNdx := 0 }], alloc := 2 }

/-- A table with the column `m : MIXED` and one row, the cell a boolean that is
true. -/
def exampleMixedFlag : Table :=
  { m_size := 1,
    m_spec_set := { m_spec := [.COLUMN_TYPE_MIXED], m_names := ["m"], m_subSpecs := [] },
    m_columns := [1], m_columns_valid := true,
    m_cols := [{ data := .ColumnMixed [.Bool true], m_parentNdx := 0 }], alloc := 2 }

/-- A table with the column `m : BOOL` and one row, the cell true. -/
def exampleBoolFlag : Table :=
  { m_size := 1,
    m_spec_set := { m_spec := [.COLUMN_TYPE_BOOL], m_names := ["m"], m_subSpecs := [] },
    m_columns := [1], m_columns_valid := true,
    m_cols := [{ data := .Column [1], m_parentNdx := 0 }], alloc := 2 }

/-- The assumption on what `AutoEnumerate` hands back for the rows `strings`: the
key at the index stored for row `r` is the string of row `r`. -/
def Enumerated.Faithful (strings : List String) (e : Enumerated) : Prop :=
  ∀ (r : Nat) (s : String), strings[r]? = some s →
    ∃ key_ndx : Nat, e.values[r]? = some key_ndx ∧ e.keys[key_ndx]? = some s

/-- `Optimize` converts column `i`: the column is a STRING column and
`AutoEnumerate` returns `true` on its rows. -/
def Table.converts (AutoEnumerate : List String → Option Enumerated) (t : Table) (i : Nat) :
    Bool :=
  match t.m_spec_set.GetRealColumnType i, (t.m_cols[i]?).map ColumnBase.data with
  | some .COLUMN_TYPE_STRING, some (.AdaptiveStringColumn values) =>
    (AutoEnumerate values).isSome
  | _, _ => false

/-- What the readers of cells use of a table apart from the columns: `t1` has it
as `t` has, and at least the slots of `t` in `m_columns`. -/
structure Table.SameFrame (t t1 : Table) : Prop where
  valid : t1.m_columns_valid = t.m_columns_valid
  m_size : t1.m_size = t.m_size
  names : t1.m_spec_set.m_names = t.m_spec_set.m_names
  count : t1.GetColumnCount = t.GetColumnCount
  m_columns : t.m_columns.length ≤ t1.m_columns.length

/-- Column `i` has the same type and the same rows in `t1` as in `t`. -/
structure Table.SameColumn (t t1 : Table) (i : Nat) : Prop where
  type : t1.m_spec_set.GetRealColumnType i = t.m_spec_set.GetRealColumnType i
  data : (t1.m_cols[i]?).map ColumnBase.data = (t.m_cols[i]?).map ColumnBase.data

/-- Column `i` is a STRING column of `t` on whose rows `AutoEnumerate` returns
`true`, and in `t1` the STRING_ENUM column of what it has handed back. -/
structure Table.EnumeratedColumn (AutoEnumerate : List String → Option Enumerated)
    (t t1 : Table) (i : Nat) : Prop where
  before : t.m_spec_set.GetRealColumnType i = some .COLUMN_TYPE_STRING
  after : t1.m_spec_set.GetRealColumnType i = some .COLUMN_TYPE_STRING_ENUM
  data : ∃ (strings : List String) (e : Enumerated),
    (t.m_cols[i]?).map ColumnBase.data = some (.AdaptiveStringColumn strings)
    ∧ AutoEnumerate strings = some e
    ∧ (t1.m_cols[i]?).map ColumnBase.data = some (.ColumnStringEnum e.keys e.values)

/-- Column `i` of `t1` is what `Optimize` makes of column `i` of `t`. -/
def Table.OptimizedColumn (AutoEnumerate : List String → Option Enumerated) (t t1 : Table)
    (i : Nat) : Prop :=
  if t.converts AutoEnumerate i = true then Table.EnumeratedColumn AutoEnumerate t t1 i
  else Table.SameColumn t t1 i

/-- An `AutoEnumerate` that returns `true` on the one row "x" only. -/
def exampleEnumerateOnce (values : List String) : Option Enumerated :=
  if values = ["x"] then some { ref_keys := 100, ref_values := 101, keys := ["x"], values := [0] }
  else none

/-- What `Optimize` with `exampleEnumerateOnce` makes of `exampleStrings`: column `a`
is enumerated, and the parent index of column `b` has moved on. -/
def exampleOptimized : Table :=
  { exampleStrings with
    m_spec_set := { m_spec := [.COLUMN_TYPE_STRING_ENUM, .COLUMN_TYPE_STRING, .COLUMN_TYPE_INT],
                    m_names := ["a", "b", "c"], m_subSpecs := [] },
    m_columns := [100, 101, 2, 3],
    m_cols := [{ data := .ColumnStringEnum ["x"] [0], m_parentNdx := 0 },
               { data := .AdaptiveStringColumn ["y"], m_parentNdx := 2 },
               { data := .Column [5], m_parentNdx := 3 }] }

end tightdb

/-! ## Offsets and sizes (`encrypted_file_mapping.cpp`, lines 88-116, 532-543) -/

/-- The value of `~a` computed on `size_t`. -/
def size_t_not (a : Nat) : Nat := SIZE_MOD - 1 - a % SIZE_MOD

/-- Function `real_offset(pos)` (lines 88-96) with `Int = off_t`, as
`AESCryptor::read` and `AESCryptor::write` call it: the assertion, the sum, which
is computed on `size_t`, and its conversion to the `off_t` returned.
`File::SizeType` is the same signed type of 64 bits. -/
def real_offset_off_t (pos : Int) : Except Failure Int :=
  if 0 ≤ pos then
    let index := size_t_cast pos / block_size
    let metadata_page_count := index / blocks_per_metadata_block + 1
    .ok (off_t_cast ((size_t_cast pos + metadata_page_count * block_size) % SIZE_MOD))
  else .error .AssertionFailed

/-- Function `real_offset(pos)` (lines 88-96) with `Int = size_t`, as
`data_size_to_encrypted_size` calls it: the assertion `pos >= 0` holds of every
`size_t`, and the sum is computed on `size_t`. -/
def real_offset_size_t (pos : Nat) : Nat :=
  let index := pos / block_size
  let metadata_page_count := index / blocks_per_metadata_block + 1
  (pos + metadata_page_count * block_size) % SIZE_MOD

/-- Function `iv_table_pos(pos)` (lines 108-116): the assertion, the sum, which is
computed on `size_t`, and its conversion to the `off_t` returned. -/
def iv_table_pos_off_t (pos : Int) : Except Failure Int :=
  if 0 ≤ pos then
    let index := size_t_cast pos / block_size
    let metadata_block := index / blocks_per_metadata_block
    let metadata_index := index &&& (blocks_per_metadata_block - 1)
    .ok (off_t_cast ((metadata_block * (blocks_per_metadata_block + 1) * block_size
      + metadata_index * metadata_size) % SIZE_MOD))
  else .error .AssertionFailed

/-- Function `fake_offset(pos)` (lines 98-106) with `Int = File::SizeType`, as
`encrypted_size_to_data_size` calls it: the assertion, the difference, which is
computed on `size_t`, and its conversion to the `File::SizeType` returned. -/
def fake_offset (pos : Int) : Except Failure Int :=
  if 0 ≤ pos then
    let index := size_t_cast pos / block_size
    let metadata_page_count :=
      (index + blocks_per_metadata_block) / (blocks_per_metadata_block + 1)
    .ok (off_t_cast (size_t_sub (size_t_cast pos) (metadata_page_count * block_size)))
  else .error .AssertionFailed

/-- Function `encrypted_size_to_data_size(size)` (lines 532-537). -/
def encrypted_size_to_data_size (size : Int) : Except Failure Int :=
  if size = 0 then .ok 0 else fake_offset size

/-- Function `data_size_to_encrypted_size(size)` (lines 539-543); `page_size` is
what `page_size()` returns.  `size` is converted to `size_t` for the sum with
`ps`; the sum, the difference and the complement are computed on `size_t`, as
is `real_offset`, whose result is converted to the `File::SizeType` returned. -/
def data_size_to_encrypted_size (page_size : Nat) (size : Int) : Int :=
  let ps := page_size
  off_t_cast (real_offset_size_t
    (size_t_dec ((size_t_cast size + ps) % SIZE_MOD) &&& size_t_not (size_t_dec ps)))

/-! ## The file writes of `AESCryptor::write` in the order in which they are issued -/

/-- A call `check_write(fd, pos, data, len)` as a trace keeps it: the position in
the file and the number of bytes. -/
structure FileWrite where
  pos : Nat
  len : Nat
  deriving DecidableEq, Repr

/-- The body of the `while` loop of `AESCryptor::write` (lines 257-274) with each
call of `check_write` appended to `trace` when it is made; the trace is handed
back also when the body does not end. -/
def AESCryptor.write_block_traced (prim : Primitives) (fuel : Nat) (c : AESCryptor) (fd : File)
    (pos : Nat) (src : List Nat) (trace : List FileWrite) :
    List FileWrite × Except Failure (AESCryptor × File) :=
  match c.write_prepare prim fuel fd pos src with
  | .error e => (trace, .error e)
  | .ok (c, idx) =>
    let fd := check_write fd (iv_table_pos pos)
      (c.m_iv_buffer.getD idx iv_table.zero).toBytes metadata_size
    let trace := trace ++ [{ pos := iv_table_pos pos, len := metadata_size }]
    let fd := check_write fd (real_offset pos) c.m_rw_buffer block_size
    let trace := trace ++ [{ pos := real_offset pos, len := block_size }]
    (trace, .ok (c, fd))

/-- The `while` loop of `AESCryptor::write` over `n` blocks, with the trace. -/
def AESCryptor.write_blocks_traced (prim : Primitives) (fuel : Nat) :
    Nat → AESCryptor → File → Nat → List Nat → List FileWrite →
      List FileWrite × Except Failure (AESCryptor × File)
  | 0, c, fd, _, _, trace => (trace, .ok (c, fd))
  | n + 1, c, fd, pos, src, trace =>
    match c.write_block_traced prim fuel fd pos src trace with
    | (trace, .error e) => (trace, .error e)
    | (trace, .ok (c, fd)) =>
      AESCryptor.write_blocks_traced prim fuel n c fd (pos + block_size) (src.drop block_size)
        trace

/-- Method `AESCryptor::write(fd, pos, src, size)` (lines 253-280) with the trace of
its calls of `check_write`. -/
def AESCryptor.write_traced (prim : Primitives) (fuel : Nat) (c : AESCryptor) (fd : File)
    (pos : Nat) (src : List Nat) (size : Nat) (trace : List FileWrite) :
    List FileWrite × Except Failure (AESCryptor × File) :=
  if size % block_size = 0 then
    AESCryptor.write_blocks_traced prim fuel (size / block_size) c fd pos src trace
  else (trace, .error .AssertionFailed)

/-- The writes of `m` blocks from data position `pos` on, block after block: the
64 bytes of the record at `iv_table_pos`, then the 4096 bytes of ciphertext at
`real_offset`. -/
def block_writes (pos m : Nat) : List FileWrite :=
  (List.range m).flatMap (fun k =>
    [{ pos := iv_table_pos (pos + k * block_size), len := metadata_size },
     { pos := real_offset (pos + k * block_size), len := block_size }])

/-- A cryptor holding, for block 0, a record whose `iv1` is `0xFFFFFFFF`. -/
def exampleWrapCryptor : AESCryptor :=
  { m_key := List.range 32, m_hmacKey := List.range 32, m_rw_buffer := List.replicate 4096 0,
    m_iv_buffer := { iv1 := 4294967295, hmac1 := List.replicate 28 0, iv2 := 4294967294,
                     hmac2 := List.replicate 28 3 } :: List.replicate 63 iv_table.zero,
    m_iv_capacity := 64 }

/-! ## Tables: `ClearTable` (`Table.cpp`, lines 589-597) -/

namespace tightdb

/-- Method `Table::ClearTable(column_id, ndx)` (lines 589-597): the table
afterwards and the refs of the arrays on which `ColumnTable::Clear` has called
`Destroy()`. -/
def Table.ClearTable (t : Table) (column_id ndx : Nat) : Except Failure (Table × List Nat) :=
  if column_id < t.GetColumnCount then
    match t.GetRealColumnType column_id with
    | .error e => .error e
    | .ok type =>
      if type = .COLUMN_TYPE_TABLE then
        if ndx ≤ t.m_size then
          match t.GetColumnTable column_id with
          | .error e => .error e
          | .ok (t, subtables) =>
            match ColumnTable.Clear subtables.data ndx with
            | .error e => .error e
            | .ok (data, destroyed) =>
              .ok (t.setColumn column_id { subtables with data := data }, destroyed)
        else .error .AssertionFailed
      else .error .AssertionFailed
  else .error .AssertionFailed

/-- A table with the one column `children : TABLE` and three rows: an empty
subtable, the subtable at ref 10, an empty subtable. -/
def exampleParent : Table :=
  { m_size := 3,
    m_spec_set := { m_spec := [.COLUMN_TYPE_TABLE], m_names := ["children"], m_subSpecs := [7] },
    m_columns := [5], m_columns_valid := true,
    m_cols := [{ data := exampleSubtables, m_parentNdx := 0 }], alloc := 6 }

end tightdb

/-! ## Tables: the updates of `Optimize` in the order in which they are made -/

namespace tightdb

/-- A call by which `Table::Optimize` updates the table, as a trace keeps it:
`CreateColumns()`, which `InstantiateBeforeChange()` calls in `GetColumnString`
when `m_columns` is not attached and which adds to `m_columns` and `m_cols`;
`m_spec_set.SetColumnType(column_ndx, type)`; `m_columns.Set(ndx, ref)`;
`m_columns.Insert(ndx, ref)`; `UpdateColumnRefs(column_ndx, diff)`, which
changes the parent index of cached columns; `m_cols.Set(ndx, e)`. -/
inductive Update
  | CreateColumns
  | SetColumnType (column_ndx : Nat) (type : ColumnType)
  | m_columns_Set (ndx ref : Nat)
  | m_columns_Insert (ndx ref : Nat)
  | UpdateColumnRefs (column_ndx : Nat) (diff : Int)
  | m_cols_Set (ndx : Nat)
  deriving DecidableEq, Repr

/-- The body of the `for` loop of `Table::Optimize` (lines 1012-1038) for column
`i`, with each updating call appended to `trace` when it is made; the trace is
handed back also when the body fails. -/
def Table.Optimize.step_traced (AutoEnumerate : List String → Option Enumerated) (t : Table)
    (i : Nat) (trace : List Update) : List Update × Except Failure Table :=
  match t.GetRealColumnType i with
  | .error e => (trace, .error e)
  | .ok type =>
    if type = .COLUMN_TYPE_STRING then
      let trace := if !t.m_columns_valid then trace ++ [.CreateColumns] else trace
      match t.GetColumnString i with
      | .error e => (trace, .error e)
      | .ok (t, column) =>
        match column.data with
        | .AdaptiveStringColumn values =>
          match AutoEnumerate values with
          | none => (trace, .ok t)
          | some e =>
            let t := { t with
              m_spec_set := t.m_spec_set.SetColumnType i .COLUMN_TYPE_STRING_ENUM }
            let trace := trace ++ [.SetColumnType i .COLUMN_TYPE_STRING_ENUM]
            match t.GetColumnRefPos i with
            | none => (trace, .error .AssertionFailed)
            | some column_ndx =>
              if column_ndx < t.m_columns.length then
                let t := { t with m_columns := t.m_columns.set column_ndx e.ref_keys }
                let trace := trace ++ [.m_columns_Set column_ndx e.ref_keys]
                let t := { t with
                  m_columns := t.m_columns.take (column_ndx + 1)
                    ++ e.ref_values :: t.m_columns.drop (column_ndx + 1) }
                let trace := trace ++ [.m_columns_Insert (column_ndx + 1) e.ref_values]
                let t := t.UpdateColumnRefs (column_ndx + 1) 1
                let trace := trace ++ [.UpdateColumnRefs (column_ndx + 1) 1]
                (trace ++ [.m_cols_Set i],
                  .ok (t.setColumn i
                    { data := .ColumnStringEnum e.keys e.values, m_parentNdx := column_ndx }))
              else (trace, .error .OutOfBounds)
        | _ => (trace, .error .BadCast)
    else (trace, .ok t)

/-- The `for` loop of `Table::Optimize` over the column indices that remain, with
the trace. -/
def Table.Optimize.loop_traced (AutoEnumerate : List String → Option Enumerated) :
    List Nat → Table → List Update → List Update × Except Failure Table
  | [], t, trace => (trace, .ok t)
  | i :: rest, t, trace =>
    match Table.Optimize.step_traced AutoEnumerate t i trace with
    | (trace, .error e) => (trace, .error e)
    | (trace, .ok t) => Table.Optimize.loop_traced AutoEnumerate rest t trace

/-- Method `Table::Optimize()` (lines 1006-1040) with the trace of its updates. -/
def Table.Optimize_traced (AutoEnumerate : List String → Option Enumerated) (t : Table)
    (trace : List Update) : List Update × Except Failure Table :=
  Table.Optimize.loop_traced AutoEnumerate (List.range t.GetColumnCount) t trace

/-- The updates by which `Optimize` converts column `i`, whose root ref is in slot
`column_ndx` of `m_columns`, to what `AutoEnumerate` has handed back: the Spec,
then `m_columns`, then the parent indices, then `m_cols`. -/
def Table.Optimize.updates (i column_ndx : Nat) (e : Enumerated) : List Update :=
  [.SetColumnType i .COLUMN_TYPE_STRING_ENUM,
   .m_columns_Set column_ndx e.ref_keys,
   .m_columns_Insert (column_ndx + 1) e.ref_values,
   .UpdateColumnRefs (column_ndx + 1) 1,
   .m_cols_Set i]

/-- A table that is not attached, with the Spec `a : STRING`. -/
def exampleZeroRefString : Table :=
  { m_size := 0,
    m_spec_set := { m_spec := [.COLUMN_TYPE_STRING], m_names := ["a"], m_subSpecs := [] },
    m_columns := [], m_columns_valid := false, m_cols := [], alloc := 30 }

/-- An `AutoEnumerate` that always returns `false`. -/
def exampleEnumerateNever (_ : List String) : Option Enumerated := none

end tightdb

/-! ## The states that the mappings of a file reach -/

/-- Method `EncryptedFileMapping::flush()` (lines 459-472), called on the mapping of
index `k`. -/
def World.flush (prim : Primitives) (fuel : Nat) (w : World) (k : Nat) : Except Failure World :=
  match w.file.mappings[k]? with
  | none => .error .OutOfBounds
  | some m =>
    match m.flush prim fuel w with
    | .error e => .error e
    | .ok (m, w) => .ok (w.setMapping k m)

/-- Method `EncryptedFileMapping::set(new_addr, new_size, new_file_offset)` (lines
510-530), called on the mapping of index `k`. -/
def World.set (prim : Primitives) (fuel : Nat) (w : World) (k : Nat)
    (new_addr new_size new_file_offset : Nat) : Except Failure World :=
  match w.file.mappings[k]? with
  | none => .error .OutOfBounds
  | some m =>
    match m.set prim fuel w new_addr new_size new_file_offset with
    | .error e => .error e
    | .ok (m, w) => .ok (w.setMapping k m)

/-- A page that is dirty is up-to-date, and the two bit-vectors have
`m_page_count` bits. -/
structure EncryptedFileMapping.Coherent (m : EncryptedFileMapping) : Prop where
  up_length : m.m_up_to_date_pages.length = m.m_page_count
  dirty_length : m.m_dirty_pages.length = m.m_page_count
  dirty_up : ∀ p : Nat, m.m_dirty_pages[p]? = some true → m.m_up_to_date_pages[p]? = some true

/-- No page is dirty in two of the mappings. -/
def SingleDirtyOwner (mappings : List EncryptedFileMapping) : Prop :=
  ∀ (p k1 k2 : Nat) (m1 m2 : EncryptedFileMapping),
    mappings[k1]? = some m1 → mappings[k2]? = some m2 →
    m1.m_dirty_pages[p]? = some true → m2.m_dirty_pages[p]? = some true → k1 = k2

/-- What the loop of `write_page` leaves of the mappings: the mapping of index
`index`, on which `write_page` was called, as it was, the others with dirty bits cleared only, coherent if they
were. -/
structure Settled (index : Nat) (l l1 : List EncryptedFileMapping) : Prop where
  length : l1.length = l.length
  own : l1[index]? = l[index]?
  each : ∀ (k : Nat) (m1 : EncryptedFileMapping), l1[k]? = some m1 →
    ∃ m, l[k]? = some m ∧ (m.Coherent → m1.Coherent)
      ∧ (∀ p : Nat, m1.m_dirty_pages[p]? = some true → m.m_dirty_pages[p]? = some true)
      ∧ m1.m_page_count = m.m_page_count

/-- The states that the mappings of one file reach: from a `SharedFileInfo` without
mappings, by the constructor of a mapping and by `refresh_page`, `write_barrier`,
`mark_outdated`, `mark_up_to_date`, `flush` and `set` on a mapping, each with
any bound on the passes of the loops of the cryptor, when they return; in
between the program may store to the memory.  `page_size` is what
`realm::util::page_size()` returns. -/
inductive World.Reachable (prim : Primitives) (page_size : Nat) : World → Prop
  | start (fd : File) (cryptor : AESCryptor) (memory : Nat → Nat) (trace : List Event) :
      World.Reachable prim page_size
        { file := { fd := fd, cryptor := cryptor, mappings := [] }, memory := memory,
          trace := trace }
  | store (w : World) (memory : Nat → Nat) :
      World.Reachable prim page_size w →
      World.Reachable prim page_size { w with memory := memory }
  | construct (w w1 : World) (fuel file_offset addr size : Nat) (access : AccessMode) :
      World.Reachable prim page_size w →
      EncryptedFileMapping.new prim fuel page_size w file_offset addr size access = .ok w1 →
      World.Reachable prim page_size w1
  | refresh_page (w w1 : World) (k i : Nat) :
      World.Reachable prim page_size w → w.refresh_page prim k i = .ok w1 →
      World.Reachable prim page_size w1
  | write_barrier (w w1 : World) (fuel k addr size : Nat) :
      World.Reachable prim page_size w → w.write_barrier prim fuel k addr size = .ok w1 →
      World.Reachable prim page_size w1
  | mark_outdated (w w1 : World) (fuel k i : Nat) :
      World.Reachable prim page_size w → w.mark_outdated prim fuel k i = .ok w1 →
      World.Reachable prim page_size w1
  | mark_up_to_date (w w1 : World) (k i : Nat) :
      World.Reachable prim page_size w → w.mark_up_to_date k i = .ok w1 →
      World.Reachable prim page_size w1
  | flush (w w1 : World) (fuel k : Nat) :
      World.Reachable prim page_size w → w.flush prim fuel k = .ok w1 →
      World.Reachable prim page_size w1
  | set (w w1 : World) (fuel k new_addr new_size new_file_offset : Nat) :
      World.Reachable prim page_size w →
      w.set prim fuel k new_addr new_size new_file_offset = .ok w1 →
      World.Reachable prim page_size w1

/-- The example file and cryptor without a mapping, every byte of memory being 7. -/
def exampleStart : World :=
  { file := { fd := exampleFile, cryptor := exampleCryptor, mappings := [] },
    memory := fun _ => 7, trace := [] }

/-- The example file and cryptor after the constructor of a mapping of one page at
address 0, the constructor of a mapping of that page at address 4096,
`mark_up_to_date(0)` on the first and `write_barrier(0, 1)` on the first: the
page is up-to-date and dirty in the first mapping. -/
def exampleReached : World :=
  { file := { fd := exampleFile,
              cryptor := AESCryptor.set_file_size.reserve
                (AESCryptor.set_file_size.reserve exampleCryptor 4096) 4096,
              mappings := [exampleMapping,
                { exampleFresh with m_up_to_date_pages := [false] }] },
    memory := fun _ => 7, trace := [] }

/-! # Properties -/

/-! ## Properties of the query engine -/

theorem size_t_inc_dec {a : Nat} (h : a < SIZE_MOD) : size_t_inc (size_t_dec a) = a := by
  unfold size_t_inc size_t_dec SIZE_MOD at *
  omega

theorem size_t_inc_lt {s e : Nat} (h : s < e) (he : e < SIZE_MOD) : size_t_inc s = s + 1 := by
  unfold size_t_inc SIZE_MOD at *
  omega

theorem IsFirstMatch.le {P : Nat → Prop} {s e r : Nat} (hse : s ≤ e)
    (h : IsFirstMatch P s e r) : s ≤ r ∧ r ≤ e := by
  rcases h with ⟨h1, h2, _, _⟩ | ⟨h1, _⟩
  · exact ⟨h1, Nat.le_of_lt h2⟩
  · subst h1; exact ⟨hse, Nat.le_refl _⟩

theorem IsFirstMatch.extend {P : Nat → Prop} {s a e r : Nat} (hsa : s ≤ a)
    (hno : ∀ i, s ≤ i → i < a → ¬ P i) (h : IsFirstMatch P a e r) :
    IsFirstMatch P s e r := by
  rcases h with ⟨h1, h2, h3, h4⟩ | ⟨h1, h2⟩
  · refine Or.inl ⟨Nat.le_trans hsa h1, h2, h3, fun i hi hir => ?_⟩
    by_cases hia : i < a
    · exact hno i hi hia
    · exact h4 i (Nat.le_of_not_lt hia) hir
  · refine Or.inr ⟨h1, fun i hi hie => ?_⟩
    by_cases hia : i < a
    · exact hno i hi hia
    · exact h2 i (Nat.le_of_not_lt hia) hie

theorem IsFirstMatch.unique {P : Nat → Prop} {s e r r2 : Nat}
    (h : IsFirstMatch P s e r) (h2 : IsFirstMatch P s e r2) : r = r2 := by
  rcases h with ⟨a1, a2, a3, a4⟩ | ⟨a1, a2⟩ <;> rcases h2 with ⟨b1, b2, b3, b4⟩ | ⟨b1, b2⟩
  · by_contra hne
    rcases Nat.lt_or_gt_of_ne hne with hlt | hgt
    · exact b4 r a1 hlt a3
    · exact a4 r2 b1 hgt b3
  · exact absurd a3 (b2 r a1 a2)
  · exact absurd b3 (a2 r2 b1 b2)
  · rw [a1, b1]

theorem IsFirstMatch.congr {P Q : Nat → Prop} {s e r : Nat}
    (hPQ : ∀ i, s ≤ i → i < e → (P i ↔ Q i)) (h : IsFirstMatch P s e r) :
    IsFirstMatch Q s e r := by
  rcases h with ⟨h1, h2, h3, h4⟩ | ⟨h1, h2⟩
  · exact Or.inl ⟨h1, h2, (hPQ r h1 h2).1 h3,
      fun i hi hir hq => h4 i hi hir ((hPQ i hi (Nat.lt_trans hir h2)).2 hq)⟩
  · exact Or.inr ⟨h1, fun i hi hie hq => h2 i hi hie ((hPQ i hi hie).2 hq)⟩

theorem ChildAnswers.mono {m_child : Option FindFn} {P : Nat → Prop} {s s2 e : Nat}
    (h : ChildAnswers m_child P s e) (hs : s ≤ s2) : ChildAnswers m_child P s2 e := by
  cases m_child with
  | none => exact h
  | some cf => exact fun t ht hte => h t (Nat.le_trans hs ht) hte

theorem ChildContract.answers {m_child : Option FindFn} {P : Nat → Prop} {size s e : Nat}
    (h : ChildContract m_child P size) (he : e ≤ size) : ChildAnswers m_child P s e := by
  cases m_child with
  | none => exact h
  | some cf => exact fun t _ hte => h t e hte he

/-- Loop invariant of `findLoop`: started at `s ≤ end_` with more fuel than rows
left, it returns the first row of `[s, end_)` passing the test and `P`. -/
theorem findLoop_spec (test : Nat → Option Bool) (m_child : Option FindFn) (P : Nat → Prop)
    (end_ : Nat) (hend : end_ < SIZE_MOD)
    (hread : ∀ i, i < end_ → (test i).isSome) :
    ∀ (fuel s : Nat), s ≤ end_ → end_ - s < fuel → ChildAnswers m_child P s end_ →
      ∃ r, findLoop test m_child end_ fuel s = some r ∧
        IsFirstMatch (fun i => test i = some true ∧ P i) s end_ r := by
  intro fuel
  induction fuel with
  | zero => intro s _ h; omega
  | succ fuel ih =>
    intro s hs hfuel hchild
    by_cases hlt : s < end_
    · have hr := hread s hlt
      cases htest : test s with
      | none => rw [htest] at hr; cases hr
      | some b =>
        cases b with
        | false =>
          obtain ⟨r, hr1, hr2⟩ := ih (s + 1) hlt (by omega) (hchild.mono (Nat.le_succ s))
          refine ⟨r, ?_, ?_⟩
          · simp only [findLoop, hlt, if_true, htest, size_t_inc_lt hlt hend]
            exact hr1
          · refine IsFirstMatch.extend (Nat.le_succ s) (fun i hi hi2 hP => ?_) hr2
            have : i = s := by omega
            subst this
            rw [htest] at hP
            cases hP.1
        | true =>
          cases m_child with
          | none =>
            refine ⟨s, ?_, Or.inl ⟨Nat.le_refl s, hlt, ⟨htest, hchild s⟩,
              fun i hi hi2 => absurd hi (by omega)⟩⟩
            simp only [findLoop, hlt, if_true, htest]
          | some cf =>
            obtain ⟨a, ha1, ha2⟩ := hchild s (Nat.le_refl s) hs
            have hle := ha2.le hs
            by_cases hsa : s = a
            · subst hsa
              refine ⟨s, ?_, ?_⟩
              · simp only [findLoop, hlt, if_true, htest, ha1]
              · rcases ha2 with ⟨_, _, h3, _⟩ | ⟨h1, _⟩
                · exact Or.inl ⟨Nat.le_refl s, hlt, ⟨htest, h3⟩,
                    fun i hi hi2 => absurd hi (by omega)⟩
                · omega
            · have hsa2 : s < a := by omega
              obtain ⟨r, hr1, hr2⟩ := ih a hle.2 (by omega)
                (ChildAnswers.mono hchild hle.1)
              refine ⟨r, ?_, ?_⟩
              · simp only [findLoop, hlt, if_true, htest, ha1, hsa, if_false,
                  size_t_inc_dec (Nat.lt_of_le_of_lt hle.2 hend)]
                exact hr1
              · refine IsFirstMatch.extend hle.1 (fun i hi hi2 hP => ?_) hr2
                rcases ha2 with ⟨_, _, _, h4⟩ | ⟨h1, h2⟩
                · exact h4 i hi hi2 hP.2
                · exact h2 i hi (by omega) hP.2
    · have : s = end_ := by omega
      subst this
      refine ⟨s, ?_, Or.inr ⟨rfl, fun i hi hi2 => absurd hi (by omega)⟩⟩
      simp only [findLoop, hlt, if_false]

theorem isFirstMatch_iff {P : Nat → Prop} {s e r : Nat} (hse : s ≤ e) :
    IsFirstMatch P s e r ↔
      s ≤ r ∧ r ≤ e ∧ (r < e → P r) ∧ ∀ i, s ≤ i → i < r → ¬ P i := by
  constructor
  · rintro (⟨h1, h2, h3, h4⟩ | ⟨h1, h2⟩)
    · exact ⟨h1, Nat.le_of_lt h2, fun _ => h3, h4⟩
    · subst h1
      exact ⟨hse, Nat.le_refl _, fun h => absurd h (Nat.lt_irrefl _), h2⟩
  · rintro ⟨h1, h2, h3, h4⟩
    by_cases hlt : r < e
    · exact Or.inl ⟨h1, hlt, h3 hlt, h4⟩
    · have : r = e := by omega
      subst this
      exact Or.inr ⟨rfl, h4⟩

/-- Loop invariant of `equalLoop`. -/
theorem equalLoop_spec (column_Find : Nat → Nat → Nat) (m_child : Option FindFn)
    (Q P : Nat → Prop) (size end_ : Nat) (hend : end_ < SIZE_MOD) (hsize : end_ ≤ size)
    (hfind : ColumnFindSpec column_Find Q size) :
    ∀ (fuel s : Nat), s ≤ end_ → end_ - s < fuel → ChildAnswers m_child P s end_ →
      ∃ r, equalLoop column_Find m_child end_ fuel s = some r ∧
        IsFirstMatch (fun i => Q i ∧ P i) s end_ r := by
  intro fuel
  induction fuel with
  | zero => intro s _ h; omega
  | succ fuel ih =>
    intro s hs hfuel hchild
    by_cases hlt : s < end_
    · -- the row `s2` the column search lands on
      obtain ⟨s2, hdef, hs2⟩ : ∃ s2,
          (if column_Find s end_ = NOT_FOUND then end_ else column_Find s end_) = s2 ∧
            IsFirstMatch Q s end_ s2 := by
        refine ⟨_, rfl, ?_⟩
        rcases hfind s end_ hs hsize with ⟨h1, h2, h3, h4⟩ | ⟨h1, h2⟩
        · have hne : column_Find s end_ ≠ NOT_FOUND := by
            unfold NOT_FOUND; unfold SIZE_MOD at hend; omega
          rw [if_neg hne]
          exact Or.inl ⟨h1, h2, h3, h4⟩
        · rw [if_pos h1]
          exact Or.inr ⟨rfl, h2⟩
      obtain ⟨q1, q2, q3, q4⟩ := (isFirstMatch_iff hs).1 hs2
      cases m_child with
      | none =>
        refine ⟨s2, ?_, (isFirstMatch_iff hs).2
          ⟨q1, q2, fun h => ⟨q3 h, hchild s2⟩, fun i hi hi2 hP => q4 i hi hi2 hP.1⟩⟩
        simp only [equalLoop, hlt, if_true, hdef]
      | some cf =>
        obtain ⟨a, ha1, ha2⟩ := hchild s2 q1 q2
        obtain ⟨p1, p2, p3, p4⟩ := (isFirstMatch_iff q2).1 ha2
        by_cases hsa : s2 = a
        · subst hsa
          refine ⟨s2, ?_, (isFirstMatch_iff hs).2
            ⟨q1, q2, fun h => ⟨q3 h, p3 h⟩, fun i hi hi2 hP => q4 i hi hi2 hP.1⟩⟩
          simp only [equalLoop, hlt, if_true, hdef, ha1]
        · have hlt2 : s2 < a := by omega
          obtain ⟨r, hr1, hr2⟩ := ih a p2 (by omega)
            (ChildAnswers.mono hchild (Nat.le_trans q1 p1))
          refine ⟨r, ?_, ?_⟩
          · simp only [equalLoop, hlt, if_true, hdef, ha1, hsa, if_false,
              size_t_inc_dec (Nat.lt_of_le_of_lt p2 hend)]
            exact hr1
          · refine IsFirstMatch.extend (Nat.le_trans q1 p1) (fun i hi hi2 hP => ?_) hr2
            by_cases hi3 : i < s2
            · exact q4 i hi hi3 hP.1
            · exact p4 i (by omega) hi2 hP.2
    · have : s = end_ := by omega
      subst this
      refine ⟨s, ?_, Or.inr ⟨rfl, fun i hi hi2 => absurd hi (by omega)⟩⟩
      simp only [equalLoop, hlt, if_false]

/-- An `OR_NODE` without child: one pass of the loop body returns the smaller of
the two first matches. -/
theorem orLoop_no_child (cond1 cond2 : FindFn) (P1 P2 : Nat → Prop)
    (size start end_ fuel : Nat)
    (h1 : FindContract cond1 P1 size) (h2 : FindContract cond2 P2 size)
    (hse : start ≤ end_) (hsize : end_ ≤ size) (hfuel : 0 < fuel) :
    ∃ f1 f2, cond1 start end_ = some f1 ∧ cond2 start end_ = some f2 ∧
      IsFirstMatch P1 start end_ f1 ∧ IsFirstMatch P2 start end_ f2 ∧
      orLoop (some cond1) (some cond2) none end_ fuel start = some (min f1 f2) ∧
      IsFirstMatch (fun i => P1 i ∨ P2 i) start end_ (min f1 f2) := by
  obtain ⟨f1, hf1, hF1⟩ := h1 start end_ hse hsize
  obtain ⟨g2, hg2, hG2⟩ := h2 start end_ hse hsize
  obtain ⟨a1, a2, a3, a4⟩ := (isFirstMatch_iff hse).1 hF1
  obtain ⟨b1, b2, b3, b4⟩ := (isFirstMatch_iff hse).1 hG2
  obtain ⟨f2, hf2, hF2⟩ := h2 start f1 a1 (Nat.le_trans a2 hsize)
  refine ⟨f1, g2, hf1, hg2, hF1, hG2, ?_, ?_⟩
  · obtain ⟨n, rfl⟩ : ∃ n, fuel = n + 1 := ⟨fuel - 1, by omega⟩
    by_cases hlt : start < end_
    · simp only [orLoop, hlt, if_true, hf1, hf2]
      congr 1
      by_cases hc : g2 < f1
      · have : IsFirstMatch P2 start f1 g2 :=
          (isFirstMatch_iff a1).2 ⟨b1, Nat.le_of_lt hc, fun _ => b3 (by omega), b4⟩
        have hfg : f2 = g2 := hF2.unique this
        subst hfg
        rw [if_neg (by omega), Nat.min_def, if_neg (by omega)]
      · have : IsFirstMatch P2 start f1 f1 :=
          (isFirstMatch_iff a1).2 ⟨a1, Nat.le_refl _, fun h => absurd h (Nat.lt_irrefl _),
            fun i hi hi2 => b4 i hi (by omega)⟩
        have hfg : f2 = f1 := hF2.unique this
        subst hfg
        rw [if_neg (Nat.lt_irrefl _), Nat.min_def, if_pos (by omega)]
    · have e1 : f1 = end_ := by omega
      have e2 : g2 = end_ := by omega
      subst e1; subst e2
      simp only [orLoop, hlt, if_false, Nat.min_self]
  · refine (isFirstMatch_iff hse).2 ⟨Nat.le_min.2 ⟨a1, b1⟩,
      Nat.le_trans (Nat.min_le_left _ _) a2, fun h => ?_, fun i hi hi2 hP => ?_⟩
    · by_cases hc : f1 ≤ g2
      · rw [Nat.min_eq_left hc] at h ⊢
        exact Or.inl (a3 h)
      · rw [Nat.min_eq_right (by omega)] at h ⊢
        exact Or.inr (b3 h)
    · rcases hP with hP | hP
      · exact a4 i hi (Nat.lt_of_lt_of_le hi2 (Nat.min_le_left _ _)) hP
      · exact b4 i hi (Nat.lt_of_lt_of_le hi2 (Nat.min_le_right _ _)) hP

theorem Column.FindFrom_spec (values : List Int) (value : Int) :
    ∀ (n s : Nat),
      (s ≤ Column.FindFrom values value n s ∧ Column.FindFrom values value n s < s + n ∧
        values[Column.FindFrom values value n s]? = some value ∧
        ∀ i, s ≤ i → i < Column.FindFrom values value n s → ¬ values[i]? = some value) ∨
      (Column.FindFrom values value n s = NOT_FOUND ∧
        ∀ i, s ≤ i → i < s + n → ¬ values[i]? = some value) := by
  intro n
  induction n with
  | zero =>
    intro s
    exact Or.inr ⟨rfl, fun i hi hi2 => absurd hi (by omega)⟩
  | succ n ih =>
    intro s
    by_cases h : values[s]? = some value
    · left
      have e : Column.FindFrom values value (n + 1) s = s := by
        simp only [Column.FindFrom, h, if_true]
      rw [e]
      exact ⟨Nat.le_refl _, by omega, h, fun i hi hi2 => absurd hi (by omega)⟩
    · have e : Column.FindFrom values value (n + 1) s =
          Column.FindFrom values value n (s + 1) := by
        simp only [Column.FindFrom, h, if_false]
      rw [e]
      rcases ih (s + 1) with ⟨h1, h2, h3, h4⟩ | ⟨h1, h2⟩
      · left
        refine ⟨by omega, by omega, h3, fun i hi hi2 => ?_⟩
        by_cases his : i = s
        · subst his; exact h
        · exact h4 i (by omega) hi2
      · right
        refine ⟨h1, fun i hi hi2 => ?_⟩
        by_cases his : i = s
        · subst his; exact h
        · exact h2 i (by omega) (by omega)

theorem Column.Find_spec (values : List Int) (value : Int) (size : Nat) :
    ColumnFindSpec (Column.Find values value) (fun i => values[i]? = some value) size := by
  intro s e hse _
  have := Column.FindFrom_spec values value (e - s) s
  have he : s + (e - s) = e := by omega
  rw [he] at this
  exact this

theorem ParentNode.callee_answers (table : Table) (child : ParentNode) (fuel s e : Nat)
    (h : child.isNull = false → ∀ t, s ≤ t → t ≤ e →
      ∃ a, child.Find fuel t e table = some a ∧
        IsFirstMatch (fun i => child.holdsAt table i = true) t e a) :
    ChildAnswers (child.callee (fun s e => child.Find fuel s e table))
      (fun i => child.holdsAt table i = true) s e := by
  cases hnull : child.isNull with
  | true =>
    have hc : child = .null := by
      cases child <;> simp [ParentNode.isNull] at hnull
      rfl
    subst hc
    simp only [ParentNode.callee, ParentNode.isNull, if_true, ChildAnswers]
    intro i
    rfl
  | false =>
    simp only [ParentNode.callee, hnull, ChildAnswers]
    exact h hnull

/-- Every non-null conjunction chain satisfies the `Find` contract for its
conjunction, on any range with fewer rows than fuel. -/
theorem ParentNode.chain_Find (table : Table) (size : Nat) (hsize : size < SIZE_MOD) :
    ∀ (node : ParentNode), node.isChain table size = true → node.isNull = false →
      ∀ (fuel s e : Nat), s ≤ e → e ≤ size → e - s < fuel →
        ∃ r, node.Find fuel s e table = some r ∧
          IsFirstMatch (fun i => node.holdsAt table i = true) s e r := by
  intro node
  induction node with
  | null => intro _ h; simp [ParentNode.isNull] at h
  | NODE F m_value m_column m_child ih =>
    intro hchain _ fuel s e hse he hfuel
    simp only [ParentNode.isChain, Bool.and_eq_true] at hchain
    obtain ⟨hcol, hchild⟩ := hchain
    have hans := ParentNode.callee_answers table m_child fuel s e
      (fun hn t ht hte => ih hchild hn fuel t e hte he (by omega))
    cases hc : table.GetColumnBase m_column with
    | none => rw [hc] at hcol; simp at hcol
    | some col =>
      cases col with
      | Column values =>
        rw [hc] at hcol
        simp only [decide_eq_true_eq] at hcol
        by_cases hF : F = .EQUAL
        · subst hF
          obtain ⟨r, hr1, hr2⟩ := equalLoop_spec (Column.Find values m_value) _
            (fun i => values[i]? = some m_value) _ size e (by omega) he
            (Column.Find_spec values m_value size) fuel s hse hfuel hans
          refine ⟨r, ?_, hr2.congr (fun i _ hi => ?_)⟩
          · simp only [ParentNode.Find, hc, if_true, NODE_EQUAL.Find]
            exact hr1
          · have hi2 : i < values.length := by omega
            simp [ParentNode.holdsAt, hc, Column.Get, List.getElem?_eq_getElem hi2,
              Functor.call, EQUAL]
        · obtain ⟨r, hr1, hr2⟩ := findLoop_spec
            (fun s => (Column.Get values s).map (fun t => F.call t m_value)) _
            (fun i => m_child.holdsAt table i = true) e (by omega)
            (fun i hi => by
              have hi2 : i < values.length := by omega
              simp [Column.Get, List.getElem?_eq_getElem hi2]) fuel s hse hfuel hans
          refine ⟨r, ?_, hr2.congr (fun i _ hi => ?_)⟩
          · simp only [ParentNode.Find, hc, hF, if_false, NODE.Find]
            exact hr1
          · have hi2 : i < values.length := by omega
            simp [ParentNode.holdsAt, hc, Column.Get, List.getElem?_eq_getElem hi2]
      | AdaptiveStringColumn values => rw [hc] at hcol; simp at hcol
      | ColumnStringEnum keys values => rw [hc] at hcol; simp at hcol
  | STRINGNODE F m_value m_column m_child ih =>
    intro hchain _ fuel s e hse he hfuel
    simp only [ParentNode.isChain, Bool.and_eq_true, List.all_eq_true, List.mem_range]
      at hchain
    obtain ⟨hcol, hchild⟩ := hchain
    have hans := ParentNode.callee_answers table m_child fuel s e
      (fun hn t ht hte => ih hchild hn fuel t e hte he (by omega))
    obtain ⟨r, hr1, hr2⟩ := findLoop_spec
      (fun s => (STRINGNODE.fetch table m_column s).map (fun t => F.call t m_value)) _
      (fun i => m_child.holdsAt table i = true) e (by omega)
      (fun i hi => by
        have := hcol i (by omega)
        simp only [Option.isSome_map']
        exact this) fuel s hse hfuel hans
    refine ⟨r, ?_, hr2.congr (fun i _ hi => ?_)⟩
    · simp only [ParentNode.Find, STRINGNODE.Find]
      exact hr1
    · have := hcol i (by omega)
      cases hf : STRINGNODE.fetch table m_column i with
      | none => rw [hf] at this; cases this
      | some t => simp [ParentNode.holdsAt, hf]
  | OR_NODE c1 c2 child _ _ _ =>
    intro h
    simp [ParentNode.isChain] at h

theorem filter_range_skip (p : Nat → Bool) (e : Nat) :
    ∀ (d s r : Nat), r = s + d → r ≤ e → (∀ i, s ≤ i → i < r → p i = false) →
      (List.range' s (e - s)).filter p = (List.range' r (e - r)).filter p := by
  intro d
  induction d with
  | zero => intro s r hr _ _; subst hr; rfl
  | succ d ih =>
    intro s r hr hre hno
    have h1 : e - s = (e - (s + 1)) + 1 := by omega
    rw [h1, List.range'_succ, List.filter_cons_of_neg (by simp [hno s (Nat.le_refl s) (by omega)])]
    exact ih (s + 1) r (by omega) hre (fun i hi hi2 => hno i (by omega) hi2)

/-- Repeating a contract-abiding `find` from `s` lists the matching rows of
`[s, end_)` in order, then `end_`. -/
theorem repeatedFind_spec (find : FindFn) (p : Nat → Bool) (end_ : Nat)
    (hfind : ∀ s, s ≤ end_ → ∃ r, find s end_ = some r ∧
      IsFirstMatch (fun i => p i = true) s end_ r) :
    ∀ (n s : Nat), s ≤ end_ → end_ - s < n →
      repeatedFind find end_ n s = some ((List.range' s (end_ - s)).filter p ++ [end_]) := by
  intro n
  induction n with
  | zero => intro s _ h; omega
  | succ n ih =>
    intro s hs hn
    obtain ⟨r, hr1, hr2⟩ := hfind s hs
    obtain ⟨q1, q2, q3, q4⟩ := (isFirstMatch_iff hs).1 hr2
    have hskip := filter_range_skip p end_ (r - s) s r (by omega) q2
      (fun i hi hi2 => by simpa using q4 i hi hi2)
    by_cases hre : r = end_
    · subst hre
      simp only [repeatedFind, hr1, if_true, hskip, Nat.sub_self, List.range'_zero,
        List.filter_nil, List.nil_append]
    · have hlt : r < end_ := by omega
      have h1 : end_ - r = (end_ - (r + 1)) + 1 := by omega
      simp only [repeatedFind, hr1, hre, if_false, ih (r + 1) hlt (by omega), Option.map_some',
        hskip]
      rw [h1, List.range'_succ, List.filter_cons_of_pos (q3 hlt)]
      rfl

/-- C1: for a generic comparison node `NODE<T,C,F>` and for `STRINGNODE<F>`, on
every range `start ≤ end_ ≤ size` of a column of `size` readable rows, when the
node has no child or its child's `Find` satisfies the contract for `P`, `Find`
returns (with more fuel than rows in the range) the smallest row of
`[start, end_)` at which the node's comparison holds and `P` holds, and `end_`
when there is no such row. -/
theorem NODE_Find_contract (m_child : Option FindFn) (P : Nat → Prop)
    (size start end_ fuel : Nat) (hse : start ≤ end_) (hes : end_ ≤ size)
    (hsize : size < SIZE_MOD) (hchild : ChildContract m_child P size)
    (hfuel : end_ - start < fuel) :
    (∀ (T : Type) (column_Get : Nat → Option T) (function : T → T → Bool) (m_value : T),
      (∀ i, i < size → (column_Get i).isSome) →
      ∃ r, NODE.Find column_Get function m_value m_child fuel start end_ = some r ∧
        IsFirstMatch
          (fun i => (∃ t, column_Get i = some t ∧ function t m_value = true) ∧ P i)
          start end_ r) ∧
    (∀ (function : String → String → Bool) (m_value : String) (m_column : Nat)
      (table : Table),
      (∀ i, i < size → (STRINGNODE.fetch table m_column i).isSome) →
      ∃ r, STRINGNODE.Find function m_value m_column m_child fuel start end_ table = some r ∧
        IsFirstMatch
          (fun i => (∃ t, STRINGNODE.fetch table m_column i = some t ∧
            function t m_value = true) ∧ P i)
          start end_ r) := by
  constructor
  · intro T column_Get function m_value hread
    obtain ⟨r, hr1, hr2⟩ := findLoop_spec
      (fun s => (column_Get s).map (fun t => function t m_value)) m_child P end_
      (by omega) (fun i hi => by simpa using hread i (by omega)) fuel start hse hfuel
      (hchild.answers hes)
    exact ⟨r, hr1, hr2.congr (fun i _ _ => by simp)⟩
  · intro function m_value m_column table hread
    obtain ⟨r, hr1, hr2⟩ := findLoop_spec
      (fun s => (STRINGNODE.fetch table m_column s).map (fun t => function t m_value))
      m_child P end_ (by omega) (fun i hi => by simpa using hread i (by omega)) fuel start
      hse hfuel (hchild.answers hes)
    exact ⟨r, hr1, hr2.congr (fun i _ _ => by simp)⟩

/-- C1, at a concrete input: `GREATER 10` on the column `[5, 50, 150, 25]` with
child `LESS 100` (whose contract is obtained from the same theorem), searched on
`[0, 4)`. -/
theorem NODE_Find_contract_witness :
    ∃ r, NODE.Find (Column.Get [5, 50, 150, 25]) GREATER 10
        (some (fun s e => NODE.Find (Column.Get [5, 50, 150, 25]) LESS 100 none 5 s e))
        5 0 4 = some r ∧
      IsFirstMatch
        (fun i => (∃ t, Column.Get [5, 50, 150, 25] i = some t ∧ GREATER t 10 = true) ∧
          ((∃ t, Column.Get [5, 50, 150, 25] i = some t ∧ LESS t 100 = true) ∧ True))
        0 4 r :=
  (NODE_Find_contract
    (some (fun s e => NODE.Find (Column.Get [5, 50, 150, 25]) LESS 100 none 5 s e))
    (fun i => (∃ t, Column.Get [5, 50, 150, 25] i = some t ∧ LESS t 100 = true) ∧ True)
    4 0 4 5 (by decide) (by decide) (by decide)
    (fun s e hse he =>
      (NODE_Find_contract none (fun _ => True) 4 s e 5 hse he (by decide)
        (fun _ => trivial) (by omega)).1 Int (Column.Get [5, 50, 150, 25]) LESS 100
        (by decide))
    (by decide)).1 Int (Column.Get [5, 50, 150, 25]) GREATER 10 (by decide)

/-- C2, evaluated on the code: `(EQUAL "ada" OR EQUAL "eve")` with child
`EQUAL "ada"` over `["ada", "bob", "eve"]`.  Row 0 satisfies the disjunction and
the child, row 2 does not satisfy the child, yet `Find(0, 3)` returns 2: the
branch for a non-null `m_child` asks `m_cond2`, never `m_child`. -/
theorem OR_NODE_Find_ignores_child :
    (ParentNode.OR_NODE exampleAda exampleEve exampleAda).Find 5 0 3 exampleNames = some 2 ∧
    (ParentNode.OR_NODE exampleAda exampleEve exampleAda).holdsAt exampleNames 0 = true ∧
    (ParentNode.OR_NODE exampleAda exampleEve exampleAda).holdsAt exampleNames 2 = false := by
  decide

/-- C3: an `OR_NODE` with no child whose two conditions satisfy the `Find`
contract for `P1` and `P2` returns, on every range `start ≤ end_ ≤ size`,
`min f1 f2` where `f1` and `f2` are the first matches of the two conditions in
`[start, end_)` (`end_` if none); this is the smallest row matching either
condition, a single row also when both match. -/
theorem OR_NODE_Find_no_child (cond1 cond2 : FindFn) (P1 P2 : Nat → Prop)
    (size start end_ fuel : Nat)
    (h1 : FindContract cond1 P1 size) (h2 : FindContract cond2 P2 size)
    (hse : start ≤ end_) (hes : end_ ≤ size) (hfuel : 0 < fuel) :
    ∃ f1 f2, cond1 start end_ = some f1 ∧ cond2 start end_ = some f2 ∧
      IsFirstMatch P1 start end_ f1 ∧ IsFirstMatch P2 start end_ f2 ∧
      OR_NODE.Find (some cond1) (some cond2) none fuel start end_ = some (min f1 f2) ∧
      IsFirstMatch (fun i => P1 i ∨ P2 i) start end_ (min f1 f2) :=
  orLoop_no_child cond1 cond2 P1 P2 size start end_ fuel h1 h2 hse hes hfuel

/-- C3, at the concrete input of the claim: `EQUAL "ada"` OR `EQUAL "eve"` over
`["ada", "bob", "eve", "ada"]`; searched from 0, 1, 3, 4 the tree yields
0, 2, 3, 4. -/
theorem OR_NODE_Find_no_child_witness :
    (∃ f1 f2, exampleAda.Find 5 1 4 exampleNames = some f1 ∧
      exampleEve.Find 5 1 4 exampleNames = some f2 ∧
      IsFirstMatch (fun i => exampleAda.holdsAt exampleNames i = true) 1 4 f1 ∧
      IsFirstMatch (fun i => exampleEve.holdsAt exampleNames i = true) 1 4 f2 ∧
      OR_NODE.Find (some (fun s e => exampleAda.Find 5 s e exampleNames))
        (some (fun s e => exampleEve.Find 5 s e exampleNames)) none 5 1 4
        = some (min f1 f2) ∧
      IsFirstMatch (fun i => exampleAda.holdsAt exampleNames i = true ∨
        exampleEve.holdsAt exampleNames i = true) 1 4 (min f1 f2)) ∧
    (ParentNode.OR_NODE exampleAda exampleEve .null).Find 5 0 4 exampleNames = some 0 ∧
    (ParentNode.OR_NODE exampleAda exampleEve .null).Find 5 1 4 exampleNames = some 2 ∧
    (ParentNode.OR_NODE exampleAda exampleEve .null).Find 5 3 4 exampleNames = some 3 ∧
    (ParentNode.OR_NODE exampleAda exampleEve .null).Find 5 4 4 exampleNames = some 4 :=
  ⟨OR_NODE_Find_no_child (fun s e => exampleAda.Find 5 s e exampleNames)
      (fun s e => exampleEve.Find 5 s e exampleNames)
      (fun i => exampleAda.holdsAt exampleNames i = true)
      (fun i => exampleEve.holdsAt exampleNames i = true) 4 1 4 5
      (fun s e hse he => ParentNode.chain_Find exampleNames 4 (by decide) exampleAda
        (by decide) (by decide) 5 s e hse he (by omega))
      (fun s e hse he => ParentNode.chain_Find exampleNames 4 (by decide) exampleEve
        (by decide) (by decide) 5 s e hse he (by omega))
      (by decide) (by decide) (by decide),
    by decide, by decide, by decide, by decide⟩

/-- C4: the `EQUAL` specialisation agrees with the generic linear scan run with
the functor `EQUAL`.  Assuming `column_Find s e` is the smallest row of `[s, e)`
holding `m_value` and `size_t(-1)` if none, on every range `start ≤ end_ ≤ size`
of a column of `size` readable rows and for every child that is absent or
satisfies the contract, both return the same row: the first row holding
`m_value` at which the child chain holds, or `end_`. -/
theorem NODE_EQUAL_Find_eq_generic {T : Type} [DecidableEq T] (column_Get : Nat → Option T)
    (column_Find : Nat → Nat → Nat) (m_value : T) (m_child : Option FindFn) (P : Nat → Prop)
    (size start end_ fuel : Nat) (hse : start ≤ end_) (hes : end_ ≤ size)
    (hsize : size < SIZE_MOD) (hread : ∀ i, i < size → (column_Get i).isSome)
    (hfind : ColumnFindSpec column_Find (fun i => column_Get i = some m_value) size)
    (hchild : ChildContract m_child P size) (hfuel : end_ - start < fuel) :
    ∃ r, NODE_EQUAL.Find column_Find m_child fuel start end_ = some r ∧
      NODE.Find column_Get EQUAL m_value m_child fuel start end_ = some r ∧
      IsFirstMatch (fun i => column_Get i = some m_value ∧ P i) start end_ r := by
  obtain ⟨r, hr1, hr2⟩ := equalLoop_spec column_Find m_child
    (fun i => column_Get i = some m_value) P size end_ (by omega) hes hfind fuel start hse
    hfuel (hchild.answers hes)
  obtain ⟨r2, hg1, hg2⟩ := findLoop_spec
    (fun s => (column_Get s).map (fun t => EQUAL t m_value)) m_child P end_
    (by omega) (fun i hi => by simpa using hread i (by omega)) fuel start hse hfuel
    (hchild.answers hes)
  have hg3 : IsFirstMatch (fun i => column_Get i = some m_value ∧ P i) start end_ r2 :=
    hg2.congr (fun i _ _ => by simp [EQUAL])
  have hrr : r = r2 := hr2.unique hg3
  subst hrr
  exact ⟨r, hr1, hg1, hr2⟩

/-- C4, at a concrete input: value 50 in the column `[5, 50, 150, 50]` with child
`LESS 100`, searched on `[0, 4)`; the column search is the linear `Column.Find`. -/
theorem NODE_EQUAL_Find_eq_generic_witness :
    ∃ r, NODE_EQUAL.Find (Column.Find [5, 50, 150, 50] 50)
        (some (fun s e => exampleRange.Find 5 s e exampleInts)) 5 0 4 = some r ∧
      NODE.Find (Column.Get [5, 50, 150, 50]) EQUAL 50
        (some (fun s e => exampleRange.Find 5 s e exampleInts)) 5 0 4 = some r ∧
      IsFirstMatch (fun i => Column.Get [5, 50, 150, 50] i = some 50 ∧
        exampleRange.holdsAt exampleInts i = true) 0 4 r :=
  NODE_EQUAL_Find_eq_generic (Column.Get [5, 50, 150, 50]) (Column.Find [5, 50, 150, 50] 50)
    50 (some (fun s e => exampleRange.Find 5 s e exampleInts))
    (fun i => exampleRange.holdsAt exampleInts i = true) 4 0 4 5
    (by decide) (by decide) (by decide) (by decide)
    (Column.Find_spec [5, 50, 150, 50] 50 4)
    (fun s e hse he => ParentNode.chain_Find exampleInts 4 (by decide) exampleRange
      (by decide) (by decide) 5 s e hse he (by omega))
    (by decide)

/-- C5: for a table and a conjunction chain of comparison nodes on columns of at
least `end_` rows, calling `Find(start, end_)` repeatedly with `start` the
previous result plus one, from `start = 0`, yields exactly the rows of
`[0, end_)` satisfying every conjunct, as obtained by filtering all rows in one
pass, followed by `end_`; the sequence is strictly increasing. -/
theorem repeatedFind_chain_eq_filter (table : Table) (node : ParentNode) (end_ fuel : Nat)
    (hchain : node.isChain table end_ = true) (hnull : node.isNull = false)
    (hend : end_ < SIZE_MOD) (hfuel : end_ < fuel) :
    repeatedFind (fun s e => node.Find fuel s e table) end_ fuel 0
        = some ((List.range end_).filter (node.holdsAt table) ++ [end_]) ∧
      List.Pairwise (fun a b => a < b)
        ((List.range end_).filter (node.holdsAt table) ++ [end_]) := by
  constructor
  · have h := repeatedFind_spec (fun s e => node.Find fuel s e table) (node.holdsAt table) end_
      (fun s hs => ParentNode.chain_Find table end_ hend node hchain hnull fuel s end_ hs
        (Nat.le_refl _) (by omega)) fuel 0 (Nat.zero_le _) (by omega)
    rw [h, Nat.sub_zero, List.range_eq_range']
  · rw [List.pairwise_append]
    refine ⟨List.Pairwise.filter _ (List.pairwise_lt_range end_), List.pairwise_singleton _ _, ?_⟩
    intro a ha b hb
    rw [List.mem_singleton] at hb
    subst hb
    exact List.mem_range.1 (List.mem_filter.1 ha).1

/-- C5, at the concrete input of the claim: `GREATER 10 AND LESS 100` over
`[5, 50, 150, 25]` gives `Find(0,4) = 1`, `Find(2,4) = 3`, `Find(4,4) = 4`, the
sequence `[1, 3, 4]`. -/
theorem repeatedFind_chain_eq_filter_witness :
    (repeatedFind (fun s e => exampleRange.Find 5 s e exampleInts) 4 5 0
        = some ((List.range 4).filter (exampleRange.holdsAt exampleInts) ++ [4]) ∧
      List.Pairwise (fun a b => a < b)
        ((List.range 4).filter (exampleRange.holdsAt exampleInts) ++ [4])) ∧
    (List.range 4).filter (exampleRange.holdsAt exampleInts) ++ [4] = [1, 3, 4] ∧
    exampleRange.Find 5 0 4 exampleInts = some 1 ∧
    exampleRange.Find 5 2 4 exampleInts = some 3 ∧
    exampleRange.Find 5 4 4 exampleInts = some 4 :=
  ⟨repeatedFind_chain_eq_filter exampleInts exampleRange 4 5 (by decide) (by decide)
    (by decide) (by decide), by decide, by decide, by decide, by decide⟩

/-! ## Properties of the AES cryptor -/

theorem fixed_bytes_length (n : Nat) (l : List Nat) : (fixed_bytes n l).length = n := by
  simp [fixed_bytes]

theorem fixed_bytes_eq_self {n : Nat} {l : List Nat} (h : l.length = n) : fixed_bytes n l = l := by
  apply List.ext_getElem
  · simp [fixed_bytes, h]
  · intro i h1 h2
    simp [fixed_bytes, List.getElem?_eq_getElem h2]

theorem le_bytes_length (n v : Nat) : (le_bytes n v).length = n := by
  induction n generalizing v with
  | zero => rfl
  | succ n ih => simp [le_bytes, ih]

theorem le_value_le_bytes (n : Nat) : ∀ v, v < 256 ^ n → le_value (le_bytes n v) = v := by
  induction n with
  | zero => intro v hv; simp at hv; subst hv; rfl
  | succ n ih =>
    intro v hv
    have h1 : v / 256 < 256 ^ n := by
      rw [Nat.div_lt_iff_lt_mul (by decide)]
      rw [Nat.pow_succ] at hv
      exact hv
    simp only [le_bytes, le_value, ih _ h1]
    omega

theorem iv_table.toBytes_length (iv : iv_table) : iv.toBytes.length = 64 := by
  simp [iv_table.toBytes, le_bytes_length, fixed_bytes_length]

theorem iv_table.ofBytes_toBytes (iv : iv_table) (h : iv.WellFormed) :
    iv_table.ofBytes iv.toBytes = iv := by
  obtain ⟨h1, h2, h3, h4⟩ := h
  have e1 : fixed_bytes 28 iv.hmac1 = iv.hmac1 := fixed_bytes_eq_self h3
  have e2 : fixed_bytes 28 iv.hmac2 = iv.hmac2 := fixed_bytes_eq_self h4
  have l1 : (le_bytes 4 iv.iv1).length = 4 := le_bytes_length _ _
  have l2 : (le_bytes 4 iv.iv2).length = 4 := le_bytes_length _ _
  have v1 := le_value_le_bytes 4 iv.iv1 (by simpa using h1)
  have v2 := le_value_le_bytes 4 iv.iv2 (by simpa using h2)
  cases iv with
  | mk a b c d =>
    simp only at *
    simp only [iv_table.ofBytes, iv_table.toBytes, e1, e2, iv_table.mk.injEq]
    refine ⟨?_, ?_, ?_, ?_⟩
    · rw [List.append_assoc, List.append_assoc, List.take_left' l1]
      exact v1
    · rw [List.append_assoc, List.append_assoc, List.drop_left' l1, List.take_left' h3]
    · have : (le_bytes 4 a ++ b).length = 32 := by simp [l1, h3]
      rw [List.append_assoc, List.drop_left' this, List.take_left' l2]
      exact v2
    · have : (le_bytes 4 a ++ b ++ le_bytes 4 c).length = 36 := by simp [l1, l2, h3]
      rw [List.drop_left' this, List.take_of_length_le (by omega)]

theorem lor_eq_zero {a b : Nat} : a ||| b = 0 ↔ a = 0 ∧ b = 0 := by
  constructor
  · intro h
    have hbit : ∀ i, (a.testBit i || b.testBit i) = false := by
      intro i
      rw [← Nat.testBit_or, h, Nat.zero_testBit]
    constructor
    · apply Nat.eq_of_testBit_eq
      intro i
      have := hbit i
      rw [Bool.or_eq_false_iff] at this
      rw [this.1, Nat.zero_testBit]
    · apply Nat.eq_of_testBit_eq
      intro i
      have := hbit i
      rw [Bool.or_eq_false_iff] at this
      rw [this.2, Nat.zero_testBit]
  · rintro ⟨rfl, rfl⟩
    rfl

theorem foldl_lor_eq_zero (f : Nat → Nat) (l : List Nat) :
    ∀ r0, l.foldl (fun r i => r ||| f i) r0 = 0 ↔ r0 = 0 ∧ ∀ i ∈ l, f i = 0 := by
  induction l with
  | nil => intro r0; simp
  | cons x xs ih =>
    intro r0
    rw [List.foldl_cons, ih, lor_eq_zero]
    simp only [List.mem_cons, forall_eq_or_imp]
    tauto

/-- The constant-time comparison of `check_hmac` is equality of the 28 bytes. -/
theorem AESCryptor.check_hmac_iff (prim : Primitives) (c : AESCryptor) (src : List Nat)
    (len : Nat) (hmac : List Nat) :
    c.check_hmac prim src len hmac = true ↔
      ∀ i, i < 28 → (calc_hmac prim src len c.m_hmacKey).getD i 0 = hmac.getD i 0 := by
  simp only [AESCryptor.check_hmac, beq_iff_eq, foldl_lor_eq_zero, List.mem_range,
    Nat.xor_eq_zero, true_and]

theorem AESCryptor.check_hmac_self (prim : Primitives) (c : AESCryptor) (src : List Nat)
    (len : Nat) : c.check_hmac prim src len (calc_hmac prim src len c.m_hmacKey) = true :=
  (c.check_hmac_iff prim src len _).2 (fun _ _ => rfl)

theorem calc_hmac_length (prim : Primitives) (hprim : prim.Lawful) (src : List Nat) (len : Nat)
    (key : List Nat) : (calc_hmac prim src len key).length = 28 := by
  simp only [calc_hmac]
  exact hprim.digest_length _

/-- A digest whose first four bytes differ from those of the computed one is
rejected by `check_hmac`. -/
theorem AESCryptor.check_hmac_of_take_ne (prim : Primitives) (c : AESCryptor) (src : List Nat)
    (len : Nat) (hmac : List Nat)
    (h : (calc_hmac prim src len c.m_hmacKey).take 4 ≠ hmac.take 4)
    (h1 : (calc_hmac prim src len c.m_hmacKey).length = 28) (h2 : hmac.length = 28) :
    c.check_hmac prim src len hmac = false := by
  rw [Bool.eq_false_iff]
  intro ht
  rw [AESCryptor.check_hmac_iff] at ht
  apply h
  apply List.ext_getElem
  · simp [h1, h2]
  · intro i hi1 hi2
    simp only [List.length_take, h1, h2] at hi1 hi2
    have hi : i < 4 := by omega
    have := ht i (by omega)
    rw [List.getD_eq_getElem (calc_hmac prim src len c.m_hmacKey) 0 (by omega),
      List.getD_eq_getElem hmac 0 (by omega)] at this
    simp only [List.getElem_take]
    exact this

theorem check_read_snd (fd : File) (pos : Nat) (dst : List Nat) (len : Nat) :
    (check_read fd pos dst len).2 = len := rfl

theorem check_read_length (fd : File) (pos : Nat) (dst : List Nat) (len : Nat) :
    (check_read fd pos dst len).1.length = len := by
  simp [check_read]

theorem check_read_covered (fd : File) (pos : Nat) (dst : List Nat) (len : Nat)
    (h : pos + len ≤ fd.size) : (check_read fd pos dst len).1 = fd.slice pos len := by
  simp only [check_read, File.slice]
  apply List.map_congr_left
  intro j hj
  rw [List.mem_range] at hj
  rw [if_pos (by omega)]

theorem check_write_size (fd : File) (pos : Nat) (data : List Nat) (len : Nat) :
    (check_write fd pos data len).size = max fd.size (pos + len) := rfl

theorem slice_check_write_same (fd : File) (pos : Nat) (data : List Nat) (len : Nat) :
    (check_write fd pos data len).slice pos len = fixed_bytes len data := by
  simp only [check_write, File.slice, fixed_bytes]
  apply List.map_congr_left
  intro j hj
  rw [List.mem_range] at hj
  rw [if_pos ⟨by omega, by omega⟩, Nat.add_sub_cancel_left]

theorem slice_check_write_disjoint (fd : File) (pos : Nat) (data : List Nat) (len o n : Nat)
    (h : o + n ≤ pos ∨ pos + len ≤ o) (hn : o + n ≤ fd.size) :
    (check_write fd pos data len).slice o n = fd.slice o n := by
  simp only [check_write, File.slice]
  apply List.map_congr_left
  intro j hj
  rw [List.mem_range] at hj
  rw [if_neg (by omega), if_pos (by omega)]

theorem iv_table_pos_eq (pos : Nat) :
    iv_table_pos pos = pos / 4096 / 64 * 65 * 4096 + pos / 4096 % 64 * 64 := by
  have h := Nat.and_pow_two_sub_one_eq_mod (pos / 4096) 6
  simp only [iv_table_pos, block_size, blocks_per_metadata_block, metadata_size]
  norm_num at h ⊢
  exact h

theorem real_offset_eq (pos : Nat) : real_offset pos = pos + (pos / 4096 / 64 + 1) * 4096 := by
  simp only [real_offset, block_size, blocks_per_metadata_block, metadata_size]

/-- The record of a block lies before its ciphertext in the file. -/
theorem iv_table_pos_add_le_real_offset (pos : Nat) :
    iv_table_pos pos + 64 ≤ real_offset pos := by
  rw [iv_table_pos_eq, real_offset_eq]
  omega

/-- What the `do ... while` loop of `write` leaves behind, whatever the number of
passes: a non-zero 32-bit `iv1`, the ciphertext under that `iv1`, its digest in
`hmac1`, an untouched `(iv2, hmac2)` whose first four digest bytes differ. -/
theorem AESCryptor.bump_iv_spec (prim : Primitives) (c : AESCryptor) (pos : Nat)
    (src : List Nat) :
    ∀ (fuel : Nat) (iv iv1 : iv_table) (buf : List Nat),
      c.bump_iv prim pos src fuel iv = .ok (iv1, buf) →
      iv1.iv1 ≠ 0 ∧ iv1.iv1 < 4294967296 ∧ iv1.iv2 = iv.iv2 ∧ iv1.hmac2 = iv.hmac2 ∧
        buf = c.crypt prim .mode_Encrypt pos src iv1.iv1 ∧
        iv1.hmac1 = calc_hmac prim buf block_size c.m_hmacKey ∧
        iv1.hmac1.take 4 ≠ iv1.hmac2.take 4 := by
  intro fuel
  induction fuel with
  | zero => intro iv iv1 buf h; simp [AESCryptor.bump_iv] at h
  | succ fuel ih =>
    intro iv iv1 buf h
    simp only [AESCryptor.bump_iv] at h
    generalize hv : (if (iv.iv1 + 1) % 4294967296 = 0
      then ((iv.iv1 + 1) % 4294967296 + 1) % 4294967296
      else (iv.iv1 + 1) % 4294967296) = v at h
    have hv2 : v ≠ 0 ∧ v < 4294967296 := by
      rw [← hv]
      split <;> omega
    split at h
    · have hrec := ih _ _ _ h
      exact hrec
    · rename_i hne
      simp only [Except.ok.injEq, Prod.mk.injEq] at h
      obtain ⟨rfl, rfl⟩ := h
      exact ⟨hv2.1, hv2.2, rfl, rfl, rfl, rfl, hne⟩

theorem read_iv_block_length (fd : File) (i : Nat) (buf out : List iv_table)
    (h : read_iv_block fd i buf = .ok out) : out.length = buf.length := by
  simp only [read_iv_block] at h
  split at h
  · rename_i hle
    simp only [Except.ok.injEq] at h
    subst h
    simp only [blocks_per_metadata_block, block_size, metadata_size] at hle ⊢
    simp only [List.length_append, List.length_take, List.length_map, List.length_range,
      List.length_drop]
    omega
  · cases h

theorem load_iv_blocks_length (fd : File) (n : Nat) :
    ∀ (fuel i : Nat) (buf out : List iv_table),
      load_iv_blocks fd n fuel i buf = .ok out → out.length = buf.length := by
  intro fuel
  induction fuel with
  | zero => intro i buf out h; simp [load_iv_blocks] at h
  | succ fuel ih =>
    intro i buf out h
    simp only [load_iv_blocks] at h
    split at h
    · cases hr : read_iv_block fd i buf with
      | error e => rw [hr] at h; cases h
      | ok buf1 =>
        rw [hr] at h
        rw [ih _ _ _ h, read_iv_block_length fd i buf buf1 hr]
    · simp only [Except.ok.injEq] at h
      rw [h]

/-- A successful `get_iv_table` returns the index of the block, inside the
buffer, and changes nothing but `m_iv_buffer`. -/
theorem AESCryptor.get_iv_table_ok (c c1 : AESCryptor) (fd : File) (pos idx : Nat)
    (h : c.get_iv_table fd pos = .ok (c1, idx)) :
    idx = pos / block_size ∧ idx < c1.m_iv_buffer.length ∧ c1.m_key = c.m_key ∧
      c1.m_hmacKey = c.m_hmacKey ∧ c1.m_rw_buffer = c.m_rw_buffer ∧
      c1.m_iv_capacity = c.m_iv_capacity := by
  simp only [AESCryptor.get_iv_table] at h
  split at h
  · rename_i hlt
    simp only [Except.ok.injEq, Prod.mk.injEq] at h
    obtain ⟨rfl, rfl⟩ := h
    exact ⟨rfl, hlt, rfl, rfl, rfl, rfl⟩
  · rename_i hge
    split at h
    · split at h
      · cases h
      · rename_i loaded hl
        simp only [Except.ok.injEq, Prod.mk.injEq] at h
        obtain ⟨rfl, rfl⟩ := h
        refine ⟨rfl, ?_, rfl, rfl, rfl, rfl⟩
        have := load_iv_blocks_length _ _ _ _ _ _ hl
        simp only [this, List.length_append, List.length_replicate,
          blocks_per_metadata_block, block_size, metadata_size] at hge ⊢
        omega
    · cases h

theorem AESCryptor.get_iv_table_cached (c : AESCryptor) (fd : File) (pos : Nat)
    (h : pos / block_size < c.m_iv_buffer.length) :
    c.get_iv_table fd pos = .ok (c, pos / block_size) := by
  simp only [AESCryptor.get_iv_table, h, if_true]

theorem AESCryptor.crypt_congr (prim : Primitives) (c c1 : AESCryptor) (h : c1.m_key = c.m_key)
    (mode : EncryptionMode) (pos : Nat) (src : List Nat) (stored_iv : Nat) :
    c1.crypt prim mode pos src stored_iv = c.crypt prim mode pos src stored_iv := by
  simp only [AESCryptor.crypt, h]

theorem AESCryptor.check_hmac_congr (prim : Primitives) (c c1 : AESCryptor)
    (h : c1.m_hmacKey = c.m_hmacKey) (src : List Nat) (len : Nat) (hmac : List Nat) :
    c1.check_hmac prim src len hmac = c.check_hmac prim src len hmac := by
  simp only [AESCryptor.check_hmac, h]

theorem AESCryptor.crypt_encrypt_length (prim : Primitives) (hprim : prim.Lawful)
    (c : AESCryptor) (pos : Nat) (src : List Nat) (stored_iv : Nat)
    (hsrc : block_size ≤ src.length) :
    (c.crypt prim .mode_Encrypt pos src stored_iv).length = block_size := by
  simp only [AESCryptor.crypt, hprim.encrypt_length, List.length_take]
  omega

/-- Decrypting with the key, position and stored IV used to encrypt gives the
block back. -/
theorem AESCryptor.crypt_decrypt_encrypt (prim : Primitives) (hprim : prim.Lawful)
    (c c1 : AESCryptor) (hkey : c1.m_key = c.m_key) (pos : Nat) (src : List Nat)
    (stored_iv : Nat) (hsrc : src.length = block_size) :
    c1.crypt prim .mode_Decrypt pos (c.crypt prim .mode_Encrypt pos src stored_iv) stored_iv
      = src := by
  have hlen := c.crypt_encrypt_length prim hprim pos src stored_iv (Nat.le_of_eq hsrc.symm)
  have htake : (c.crypt prim .mode_Encrypt pos src stored_iv).take block_size
      = c.crypt prim .mode_Encrypt pos src stored_iv := List.take_of_length_le (Nat.le_of_eq hlen)
  rw [AESCryptor.crypt, htake, hkey, AESCryptor.crypt, hprim.decrypt_encrypt]
  exact List.take_of_length_le (Nat.le_of_eq hsrc)

/-- The body of the `while` loop of `read`, once the record of the block has
been obtained, as a cascade of tests on the record and the bytes read. -/
theorem AESCryptor.read_block_eq (prim : Primitives) (c c1 : AESCryptor) (fd : File)
    (pos idx : Nat)
    (hget : AESCryptor.get_iv_table
      { c with m_rw_buffer := (check_read fd (real_offset pos) c.m_rw_buffer block_size).1 }
      fd pos = .ok (c1, idx)) :
    c.read_block prim fd pos =
      if (c1.m_iv_buffer.getD idx iv_table.zero).iv1 = 0 then .ok (c1, .returned false)
      else if c1.check_hmac prim c1.m_rw_buffer block_size
          (c1.m_iv_buffer.getD idx iv_table.zero).hmac1 = true then
        .ok (c1, .decrypted (c1.crypt prim .mode_Decrypt pos c1.m_rw_buffer
          (c1.m_iv_buffer.getD idx iv_table.zero).iv1))
      else if (c1.m_iv_buffer.getD idx iv_table.zero).iv2 = 0 then .ok (c1, .returned false)
      else if c1.check_hmac prim c1.m_rw_buffer block_size
          (c1.m_iv_buffer.getD idx iv_table.zero).hmac2 = true then
        .ok ({ c1 with m_iv_buffer :=
                c1.m_iv_buffer.set idx (c1.m_iv_buffer.getD idx iv_table.zero).unbump },
          .decrypted (c1.crypt prim .mode_Decrypt pos c1.m_rw_buffer
            (c1.m_iv_buffer.getD idx iv_table.zero).iv2))
      else if (c1.m_rw_buffer.take block_size).all (fun b => b == 0) = true then
        .ok (c1, .returned false)
      else .error .DecryptionFailed := by
  have hbs : block_size ≠ 0 := by decide
  simp only [AESCryptor.read_block, check_read_snd, hbs, if_false, hget]
  by_cases h1 : (c1.m_iv_buffer.getD idx iv_table.zero).iv1 = 0
  · simp only [h1, if_true]
  · simp only [h1, if_false]
    cases hc1 : c1.check_hmac prim c1.m_rw_buffer block_size
        (c1.m_iv_buffer.getD idx iv_table.zero).hmac1 with
    | true => simp [AESCryptor.crypt]
    | false =>
      simp only [Bool.not_false, if_true, Bool.false_eq_true, if_false]
      by_cases h2 : (c1.m_iv_buffer.getD idx iv_table.zero).iv2 = 0
      · simp only [h2, if_true]
      · simp only [h2, if_false]
        cases hc2 : c1.check_hmac prim c1.m_rw_buffer block_size
            (c1.m_iv_buffer.getD idx iv_table.zero).hmac2 with
        | true => simp [AESCryptor.crypt, iv_table.unbump]
        | false => simp

theorem getD_set_self {α : Type} (l : List α) (i : Nat) (a d : α) (h : i < l.length) :
    (l.set i a).getD i d = a := by
  simp [h]

theorem AESCryptor.write_prepare_spec (prim : Primitives) (fuel : Nat) (c c2 : AESCryptor)
    (fd : File) (pos : Nat) (src : List Nat) (idx : Nat)
    (h : c.write_prepare prim fuel fd pos src = .ok (c2, idx)) :
    ∃ c1, c.get_iv_table fd pos = .ok (c1, idx) ∧ AESCryptor.Prepared prim c c1 c2 pos src idx := by
  simp only [AESCryptor.write_prepare] at h
  cases hget : c.get_iv_table fd pos with
  | error e => rw [hget] at h; cases h
  | ok r =>
    obtain ⟨c1, idx1⟩ := r
    rw [hget] at h
    simp only at h
    cases hb : c1.bump_iv prim pos src fuel
        (c1.m_iv_buffer.getD idx1 iv_table.zero).keep_previous with
    | error e => rw [hb] at h; cases h
    | ok r2 =>
      obtain ⟨iv1, buf⟩ := r2
      rw [hb] at h
      simp only [Except.ok.injEq, Prod.mk.injEq] at h
      obtain ⟨rfl, rfl⟩ := h
      obtain ⟨g1, g2, g3, g4, g5, g6⟩ := c.get_iv_table_ok c1 fd pos idx1 hget
      obtain ⟨b1, b2, b3, b4, b5, b6, b7⟩ := c1.bump_iv_spec prim pos src fuel _ _ _ hb
      have hrec : (c1.m_iv_buffer.set idx1 iv1).getD idx1 iv_table.zero = iv1 :=
        getD_set_self _ _ _ _ g2
      refine ⟨c1, rfl, ?_⟩
      constructor
      · exact g1
      · exact g2
      · exact g3
      · exact g4
      · exact g6
      · simp only [hrec]
      · simp only [hrec]; exact b1
      · simp only [hrec]; exact b2
      · simp only [hrec]; exact b3
      · simp only [hrec]; exact b4
      · simp only [hrec]; rw [b5]; exact c.crypt_congr prim c1 g3 _ _ _ _
      · simp only [hrec]; rw [b6, g4]
      · simp only [hrec]; exact b7

/-- A successful `write_block` is a successful preparation followed by the write
of the record and the write of the ciphertext. -/
theorem AESCryptor.write_block_inv (prim : Primitives) (fuel : Nat) (c c2 : AESCryptor)
    (fd fd2 : File) (pos : Nat) (src : List Nat)
    (h : c.write_block prim fuel fd pos src = .ok (c2, fd2)) :
    ∃ idx, c.write_prepare prim fuel fd pos src = .ok (c2, idx) ∧
      fd2 = check_write
        (check_write fd (iv_table_pos pos)
          (c2.m_iv_buffer.getD idx iv_table.zero).toBytes metadata_size)
        (real_offset pos) c2.m_rw_buffer block_size := by
  simp only [AESCryptor.write_block] at h
  cases hp : c.write_prepare prim fuel fd pos src with
  | error e => rw [hp] at h; cases h
  | ok r =>
    obtain ⟨c3, idx⟩ := r
    rw [hp] at h
    simp only [Except.ok.injEq, Prod.mk.injEq] at h
    obtain ⟨rfl, rfl⟩ := h
    exact ⟨idx, rfl, rfl⟩

/-- A successful one-block `write` is a successful `write_block`. -/
theorem AESCryptor.write_one_block (prim : Primitives) (fuel : Nat) (c c2 : AESCryptor)
    (fd fd2 : File) (pos : Nat) (src : List Nat)
    (h : c.write prim fuel fd pos src block_size = .ok (c2, fd2)) :
    c.write_block prim fuel fd pos src = .ok (c2, fd2) := by
  have e1 : block_size % block_size = 0 := by decide
  have e2 : block_size / block_size = 1 := by decide
  simp only [AESCryptor.write, e1, e2, if_true, AESCryptor.write_blocks] at h
  cases hb : c.write_block prim fuel fd pos src with
  | error e => rw [hb] at h; cases h
  | ok r =>
    obtain ⟨c3, fd3⟩ := r
    rw [hb] at h
    exact h

/-- One-block `read` in terms of `read_block`. -/
theorem AESCryptor.read_one_block (prim : Primitives) (c : AESCryptor) (fd : File) (pos : Nat) :
    c.read prim fd pos block_size =
      match c.read_block prim fd pos with
      | .error e => .error e
      | .ok (c1, .returned result) => .ok (c1, [], result)
      | .ok (c1, .decrypted block) => .ok (c1, block, true) := by
  have e1 : block_size % block_size = 0 := by decide
  have e2 : block_size / block_size = 1 := by decide
  simp only [AESCryptor.read, e1, e2, if_true, AESCryptor.read_blocks]
  cases c.read_block prim fd pos with
  | error e => rfl
  | ok r =>
    obtain ⟨c1, step⟩ := r
    cases step with
    | returned b => rfl
    | decrypted block => simp

theorem AESCryptor.Prepared.idx_lt2 {prim : Primitives} {c c1 c2 : AESCryptor} {pos : Nat}
    {src : List Nat} {idx : Nat} (h : AESCryptor.Prepared prim c c1 c2 pos src idx) :
    idx < c2.m_iv_buffer.length := by
  rw [h.buffer, List.length_set]
  exact h.idx_lt

theorem AESCryptor.Prepared.rw_buffer_length {prim : Primitives} {c c1 c2 : AESCryptor}
    {pos : Nat} {src : List Nat} {idx : Nat} (h : AESCryptor.Prepared prim c c1 c2 pos src idx)
    (hprim : prim.Lawful) (hsrc : src.length = block_size) :
    c2.m_rw_buffer.length = block_size := by
  rw [h.rw_buffer]
  exact c.crypt_encrypt_length prim hprim pos src _ (Nat.le_of_eq hsrc.symm)

/-- Reading a block back through the cryptor that wrote it. -/
theorem AESCryptor.read_after_write_block (prim : Primitives) (hprim : prim.Lawful)
    (fuel : Nat) (c c1 : AESCryptor) (fd fd1 : File) (pos : Nat) (P : List Nat)
    (hP : P.length = block_size)
    (hw : c.write_block prim fuel fd pos P = .ok (c1, fd1)) :
    c1.read prim fd1 pos block_size = .ok (c1, P, true) := by
  obtain ⟨idx, hprep, hfd⟩ := c.write_block_inv prim fuel c1 fd fd1 pos P hw
  obtain ⟨c0, _, hp⟩ := c.write_prepare_spec prim fuel c1 fd pos P idx hprep
  have hlen := hp.rw_buffer_length hprim hP
  have hbuf : (check_read fd1 (real_offset pos) c1.m_rw_buffer block_size).1
      = c1.m_rw_buffer := by
    rw [check_read_covered _ _ _ _ (by rw [hfd, check_write_size]; exact Nat.le_max_right _ _),
      hfd, slice_check_write_same, fixed_bytes_eq_self hlen]
  have hget : AESCryptor.get_iv_table
      { c1 with m_rw_buffer := (check_read fd1 (real_offset pos) c1.m_rw_buffer block_size).1 }
      fd1 pos = .ok (c1, idx) := by
    rw [hbuf, hp.idx_eq]
    exact c1.get_iv_table_cached fd1 pos (hp.idx_eq ▸ hp.idx_lt2)
  have hcheck : c1.check_hmac prim c1.m_rw_buffer block_size
      (c1.m_iv_buffer.getD idx iv_table.zero).hmac1 = true := by
    rw [hp.hmac1_eq, ← hp.hmacKey]
    exact c1.check_hmac_self prim _ _
  have hdec : c1.crypt prim .mode_Decrypt pos c1.m_rw_buffer
      (c1.m_iv_buffer.getD idx iv_table.zero).iv1 = P := by
    rw [hp.rw_buffer]
    exact c.crypt_decrypt_encrypt prim hprim c1 hp.key pos P _ hP
  rw [AESCryptor.read_one_block, AESCryptor.read_block_eq prim c1 c1 fd1 pos idx hget,
    if_neg hp.iv1_ne, if_pos hcheck, hdec]

/-- C6: cryptor round trip.  For every cryptor state (hence every key), every data
position `pos` and every 4096-byte plaintext `P`, once `write(fd, pos, P, 4096)`
has returned, `read(fd, pos, dst, 4096)` returns `true` with `dst = P`, given
that CBC decryption inverts encryption under the same key and IV (and keeps the
length). -/
theorem AESCryptor.write_read_round_trip (prim : Primitives) (hprim : prim.Lawful)
    (fuel : Nat) (c c1 : AESCryptor) (fd fd1 : File) (pos : Nat) (P : List Nat)
    (hP : P.length = block_size)
    (hw : c.write prim fuel fd pos P block_size = .ok (c1, fd1)) :
    c1.read prim fd1 pos block_size = .ok (c1, P, true) :=
  AESCryptor.read_after_write_block prim hprim fuel c c1 fd fd1 pos P hP
    (c.write_one_block prim fuel c1 fd fd1 pos P hw)

theorem getD_flatten_uniform (n : Nat) :
    ∀ (L : List (List Nat)) (k t : Nat), (∀ x ∈ L, x.length = n) → k < L.length → t < n →
      L.flatten.getD (n * k + t) 0 = (L.getD k []).getD t 0 := by
  intro L
  induction L with
  | nil => intro k t _ hk; simp at hk
  | cons x xs ih =>
    intro k t hall hk ht
    have hx : x.length = n := hall x (List.mem_cons_self _ _)
    cases k with
    | zero =>
      simp only [List.flatten_cons, Nat.mul_zero, Nat.zero_add, List.getD_eq_getElem?_getD,
        List.getElem?_cons_zero, Option.getD_some]
      rw [List.getElem?_append_left (by omega)]
    | succ k =>
      have hxs := ih k t (fun y hy => hall y (List.mem_cons_of_mem _ hy))
        (by simpa using hk) ht
      simp only [List.getD_eq_getElem?_getD, List.flatten_cons, List.getElem?_cons_succ] at hxs ⊢
      rw [List.getElem?_append_right (by rw [hx, Nat.mul_succ]; omega)]
      have e : n * (k + 1) + t - x.length = n * k + t := by
        rw [hx, Nat.mul_succ]; omega
      rw [e]
      exact hxs

theorem iv_table_pos_block (i k : Nat) (hi : i % 64 = 0) (hk : k < 64) :
    iv_table_pos (i * block_size) + 64 * k = iv_table_pos ((i + k) * block_size) := by
  simp only [iv_table_pos_eq, block_size]
  omega

/-- Reading a metadata block over 64 records is reading each record's 64 bytes. -/
theorem read_iv_block_spec (fd : File) (i : Nat) (buf : List iv_table) (hi : i % 64 = 0)
    (hlen : i + 64 ≤ buf.length) :
    ∃ out, read_iv_block fd i buf = .ok out ∧ out.length = buf.length ∧
      ∀ j, out.getD j iv_table.zero =
        if i ≤ j ∧ j < i + 64 then load_iv_record fd j (buf.getD j iv_table.zero)
        else buf.getD j iv_table.zero := by
  have hb : blocks_per_metadata_block = 64 := rfl
  have hm : metadata_size = 64 := rfl
  have hbs : block_size = 4096 := rfl
  have hok : read_iv_block fd i buf = .ok (buf.take i
      ++ (List.range 64).map (fun k => iv_table.ofBytes
          (((check_read fd (iv_table_pos (i * block_size))
            (((buf.drop i).take 64).map iv_table.toBytes).flatten block_size).1.drop
              (64 * k)).take 64))
      ++ buf.drop (i + 64)) := by
    simp only [read_iv_block, hb, hm, hlen, if_true]
  refine ⟨_, hok, ?_, ?_⟩
  · simp only [List.length_append, List.length_take, List.length_map, List.length_range,
      List.length_drop]
    omega
  · intro j
    by_cases h1 : j < i
    · rw [if_neg (by omega)]
      simp only [List.getD_eq_getElem?_getD]
      rw [List.append_assoc, List.getElem?_append_left (by simp; omega), List.getElem?_take_of_lt h1]
    · by_cases h2 : j < i + 64
      · rw [if_pos ⟨by omega, h2⟩]
        obtain ⟨k, rfl⟩ : ∃ k, j = i + k := ⟨j - i, by omega⟩
        have hk : k < 64 := by omega
        simp only [List.getD_eq_getElem?_getD]
        rw [List.getElem?_append_left (by simp; omega),
          List.getElem?_append_right (by simp)]
        have e1 : i + k - (List.take i buf).length = k := by
          simp only [List.length_take]; omega
        rw [e1, List.getElem?_map, List.getElem?_range hk]
        simp only [Option.map_some', Option.getD_some, load_iv_record, hm]
        congr 1
        apply List.ext_getElem
        · simp only [List.length_take, List.length_drop, check_read_length, hbs]
          omega
        · intro t ht1 ht2
          simp only [check_read_length, List.length_take] at ht2
          have ht : t < 64 := by omega
          simp only [List.getElem_take, List.getElem_drop, check_read, List.getElem_map,
            List.getElem_range]
          rw [← iv_table_pos_block i k hi hk]
          have hflat := getD_flatten_uniform 64
            (((buf.drop i).take 64).map iv_table.toBytes) k t
            (fun x hx => by
              obtain ⟨r, _, rfl⟩ := List.mem_map.1 hx
              exact r.toBytes_length)
            (by simp; omega) ht
          rw [hflat]
          have hrec : (((buf.drop i).take 64).map iv_table.toBytes).getD k []
              = (buf.getD (i + k) iv_table.zero).toBytes := by
            simp only [List.getD_eq_getElem?_getD, List.getElem?_map,
              List.getElem?_take_of_lt hk, List.getElem?_drop]
            rw [List.getElem?_eq_getElem (by omega)]
            rfl
          rw [hrec]
          simp only [Nat.add_assoc, List.getD_eq_getElem?_getD]
      · rw [if_neg (by omega)]
        simp only [List.getD_eq_getElem?_getD]
        rw [List.getElem?_append_right (by simp; omega), List.getElem?_drop]
        congr 2
        simp only [List.length_append, List.length_take, List.length_map, List.length_range]
        omega

/-- The `for` loop of `get_iv_table` reloads every record from index `i` on. -/
theorem load_iv_blocks_spec (fd : File) (n : Nat) (hn : n % 64 = 0) :
    ∀ (fuel i : Nat) (buf : List iv_table), i % 64 = 0 → buf.length = n →
      (n - i) / 64 < fuel →
      ∃ out, load_iv_blocks fd n fuel i buf = .ok out ∧ out.length = n ∧
        ∀ j, out.getD j iv_table.zero =
          if i ≤ j ∧ j < n then load_iv_record fd j (buf.getD j iv_table.zero)
          else buf.getD j iv_table.zero := by
  intro fuel
  induction fuel with
  | zero => intro i buf _ _ h; omega
  | succ fuel ih =>
    intro i buf hi hlen hfuel
    by_cases hin : i < n
    · obtain ⟨buf1, hr, hl1, hg1⟩ := read_iv_block_spec fd i buf hi (by omega)
      obtain ⟨out, ho, hl2, hg2⟩ := ih (i + 64) buf1 (by omega) (by omega) (by omega)
      refine ⟨out, ?_, hl2, fun j => ?_⟩
      · have hb : blocks_per_metadata_block = 64 := rfl
        simp only [load_iv_blocks, hin, if_true, hr, hb]
        exact ho
      · rw [hg2 j, hg1 j]
        by_cases h1 : i + 64 ≤ j ∧ j < n
        · rw [if_pos h1, if_neg (by omega), if_pos (by omega)]
        · rw [if_neg h1]
          by_cases h2 : i ≤ j ∧ j < i + 64
          · rw [if_pos h2, if_pos (by omega)]
          · rw [if_neg h2, if_neg (by omega)]
    · refine ⟨buf, ?_, hlen, fun j => ?_⟩
      · simp only [load_iv_blocks, hin, if_false]
      · rw [if_neg (by omega)]

theorem getD_append_replicate_zero (buf : List iv_table) (m j : Nat) :
    (buf ++ List.replicate m iv_table.zero).getD j iv_table.zero = buf.getD j iv_table.zero := by
  simp only [List.getD_eq_getElem?_getD]
  by_cases h : j < buf.length
  · rw [List.getElem?_append_left h]
  · rw [List.getElem?_append_right (by omega), List.getElem?_eq_none (l := buf) (by omega)]
    by_cases h2 : j - buf.length < m
    · rw [List.getElem?_replicate_of_lt h2]
      rfl
    · rw [List.getElem?_eq_none (by simp; omega)]

/-- The slow path of `get_iv_table`: with the capacity reserved and a buffer of
whole metadata blocks, the buffer grows to cover the block, the records already
held are kept and the new ones are loaded from the file. -/
theorem AESCryptor.get_iv_table_load (c : AESCryptor) (fd : File) (pos : Nat)
    (hlen : c.m_iv_buffer.length % 64 = 0) (hidx : c.m_iv_buffer.length ≤ pos / block_size)
    (hcap : (1 + pos / block_size / 64) * 64 ≤ c.m_iv_capacity) :
    ∃ c1, c.get_iv_table fd pos = .ok (c1, pos / block_size) ∧
      c1.m_iv_buffer.length = (1 + pos / block_size / 64) * 64 ∧
      ∀ j, c1.m_iv_buffer.getD j iv_table.zero =
        if c.m_iv_buffer.length ≤ j ∧ j < (1 + pos / block_size / 64) * 64
        then load_iv_record fd j (c.m_iv_buffer.getD j iv_table.zero)
        else c.m_iv_buffer.getD j iv_table.zero := by
  have hb : blocks_per_metadata_block = 64 := rfl
  obtain ⟨out, ho, hl, hg⟩ := load_iv_blocks_spec fd ((1 + pos / block_size / 64) * 64)
    (by omega) ((1 + pos / block_size / 64) * 64 + 1) c.m_iv_buffer.length
    (c.m_iv_buffer ++ List.replicate ((1 + pos / block_size / 64) * 64 - c.m_iv_buffer.length)
      iv_table.zero) hlen (by simp; omega) (by omega)
  refine ⟨{ c with m_iv_buffer := out }, ?_, hl, fun j => ?_⟩
  · simp only [AESCryptor.get_iv_table, hb, if_neg (Nat.not_lt.2 hidx), hcap, if_true, ho]
  · simp only [hg j, getD_append_replicate_zero]

theorem iv_table_pos_idx (pos : Nat) :
    iv_table_pos (pos / block_size * block_size) = iv_table_pos pos := by
  simp only [iv_table_pos_eq, block_size]
  omega

/-- A record the file holds in full is loaded as the file has it. -/
theorem load_iv_record_covered (fd : File) (j : Nat) (old : iv_table)
    (h : iv_table_pos (j * block_size) + 64 ≤ fd.size) :
    load_iv_record fd j old = iv_table.ofBytes (fd.slice (iv_table_pos (j * block_size)) 64) := by
  simp only [load_iv_record, metadata_size]
  rw [check_read_covered _ _ _ _ h]

/-- A record beyond the end of the file stays as it was. -/
theorem load_iv_record_beyond (fd : File) (j : Nat) (old : iv_table) (hold : old.WellFormed)
    (h : fd.size ≤ iv_table_pos (j * block_size)) : load_iv_record fd j old = old := by
  have e : (check_read fd (iv_table_pos (j * block_size)) old.toBytes metadata_size).1
      = fixed_bytes 64 old.toBytes := by
    simp only [check_read, fixed_bytes, metadata_size]
    apply List.map_congr_left
    intro t _
    rw [if_neg (by omega)]
  rw [load_iv_record, e, fixed_bytes_eq_self old.toBytes_length, iv_table.ofBytes_toBytes old hold]

theorem iv_table.zero_wellFormed : iv_table.zero.WellFormed :=
  ⟨by decide, by decide, by decide, by decide⟩

/-- What a cryptor that has the record of the block not yet in memory obtains
from the file: the bytes at `real_offset(pos)` in `m_rw_buffer`, and the record
stored at `iv_table_pos(pos)`. -/
theorem AESCryptor.get_iv_table_from_file (cr : AESCryptor) (fd : File) (pos : Nat)
    (R : iv_table) (hR : R.WellFormed)
    (hrec : fd.slice (iv_table_pos pos) 64 = R.toBytes)
    (hsize : iv_table_pos pos + 64 ≤ fd.size)
    (hlen : cr.m_iv_buffer.length % 64 = 0) (hfresh : cr.m_iv_buffer.length ≤ pos / block_size)
    (hcap : (1 + pos / block_size / 64) * 64 ≤ cr.m_iv_capacity) (buf : List Nat) :
    ∃ cr1, AESCryptor.get_iv_table { cr with m_rw_buffer := buf } fd pos
        = .ok (cr1, pos / block_size) ∧
      cr1.m_iv_buffer.getD (pos / block_size) iv_table.zero = R ∧
      pos / block_size < cr1.m_iv_buffer.length ∧
      cr1.m_rw_buffer = buf ∧ cr1.m_key = cr.m_key ∧ cr1.m_hmacKey = cr.m_hmacKey := by
  obtain ⟨cr1, hget, hl, hg⟩ := AESCryptor.get_iv_table_load
    { cr with m_rw_buffer := buf } fd pos hlen hfresh hcap
  obtain ⟨_, g2, g3, g4, g5, _⟩ := AESCryptor.get_iv_table_ok _ cr1 fd pos _ hget
  refine ⟨cr1, hget, ?_, g2, g5, g3, g4⟩
  have hlt : pos / block_size < (1 + pos / block_size / 64) * 64 := by omega
  rw [hg, if_pos ⟨hfresh, hlt⟩, load_iv_record_covered _ _ _ (by rw [iv_table_pos_idx]; exact hsize),
    iv_table_pos_idx, hrec, iv_table.ofBytes_toBytes R hR]

/-- A completed block write followed by the preparation of a second one at the
same position: both preparations concern the same record, and the second one
starts from the cryptor the first one left. -/
theorem AESCryptor.two_writes (prim : Primitives) (fuel fuel2 : Nat) (c c1 c2 : AESCryptor)
    (fd fd1 : File) (pos idx : Nat) (P_old P_new : List Nat)
    (hw1 : c.write_block prim fuel fd pos P_old = .ok (c1, fd1))
    (hw2 : c1.write_prepare prim fuel2 fd1 pos P_new = .ok (c2, idx)) :
    ∃ c0, AESCryptor.Prepared prim c c0 c1 pos P_old idx ∧
      AESCryptor.Prepared prim c1 c1 c2 pos P_new idx ∧
      fd1 = check_write
        (check_write fd (iv_table_pos pos)
          (c1.m_iv_buffer.getD idx iv_table.zero).toBytes metadata_size)
        (real_offset pos) c1.m_rw_buffer block_size := by
  obtain ⟨idx1, hprep, hfd⟩ := c.write_block_inv prim fuel c1 fd fd1 pos P_old hw1
  obtain ⟨c0, _, hp1⟩ := c.write_prepare_spec prim fuel c1 fd pos P_old idx1 hprep
  obtain ⟨c1', hget, hp2⟩ := c1.write_prepare_spec prim fuel2 c2 fd1 pos P_new idx hw2
  have hcached := c1.get_iv_table_cached fd1 pos (hp1.idx_eq ▸ hp1.idx_lt2)
  rw [hcached] at hget
  simp only [Except.ok.injEq, Prod.mk.injEq] at hget
  obtain ⟨rfl, hidx⟩ := hget
  have hii : idx1 = idx := by rw [hp1.idx_eq, hidx]
  subst hii
  exact ⟨c0, hp1, hp2, hfd⟩

theorem AESCryptor.Prepared.wellFormed_of_previous {prim : Primitives} {c c1 c2 : AESCryptor}
    {pos : Nat} {src : List Nat} {idx : Nat} (h : AESCryptor.Prepared prim c c1 c2 pos src idx)
    (hprim : prim.Lawful) (h1 : (c1.m_iv_buffer.getD idx iv_table.zero).iv1 < 4294967296)
    (h2 : (c1.m_iv_buffer.getD idx iv_table.zero).hmac1.length = 28) :
    (c2.m_iv_buffer.getD idx iv_table.zero).WellFormed := by
  refine ⟨h.iv1_lt, ?_, ?_, ?_⟩
  · rw [h.iv2_eq]; exact h1
  · rw [h.hmac1_eq]; exact calc_hmac_length prim hprim _ _ _
  · rw [h.hmac2_eq]; exact h2

/-- Crash between the write of the record and the write of the ciphertext: a
cryptor that loads the record from the file falls back to `(iv2, hmac2)`. -/
theorem AESCryptor.read_after_torn_record (prim : Primitives) (hprim : prim.Lawful)
    (fuel fuel2 : Nat) (c c1 c2 cr : AESCryptor) (fd fd1 : File) (pos idx : Nat)
    (P_old P_new : List Nat) (hP : P_old.length = block_size)
    (hw1 : c.write_block prim fuel fd pos P_old = .ok (c1, fd1))
    (hw2 : c1.write_prepare prim fuel2 fd1 pos P_new = .ok (c2, idx))
    (hkey : cr.m_key = c.m_key) (hhmac : cr.m_hmacKey = c.m_hmacKey)
    (hlen : cr.m_iv_buffer.length % 64 = 0) (hfresh : cr.m_iv_buffer.length ≤ pos / block_size)
    (hcap : (1 + pos / block_size / 64) * 64 ≤ cr.m_iv_capacity) :
    ∃ cr1, cr.read prim
        (check_write fd1 (iv_table_pos pos)
          (c2.m_iv_buffer.getD idx iv_table.zero).toBytes metadata_size)
        pos block_size = .ok (cr1, P_old, true) ∧
      (cr1.m_iv_buffer.getD idx iv_table.zero).iv1
        = (cr1.m_iv_buffer.getD idx iv_table.zero).iv2 ∧
      (cr1.m_iv_buffer.getD idx iv_table.zero).hmac1
        = (cr1.m_iv_buffer.getD idx iv_table.zero).hmac2 ∧
      (cr1.m_iv_buffer.getD idx iv_table.zero).iv1
        = (c1.m_iv_buffer.getD idx iv_table.zero).iv1 ∧
      (cr1.m_iv_buffer.getD idx iv_table.zero).hmac1
        = (c1.m_iv_buffer.getD idx iv_table.zero).hmac1 := by
  obtain ⟨c0, hp1, hp2, hfd1⟩ := AESCryptor.two_writes prim fuel fuel2 c c1 c2 fd fd1 pos idx
    P_old P_new hw1 hw2
  have hm : metadata_size = 64 := rfl
  have hbs : block_size = 4096 := rfl
  have hpos := iv_table_pos_add_le_real_offset pos
  have hClen := hp1.rw_buffer_length hprim hP
  have hR1hmac : (c1.m_iv_buffer.getD idx iv_table.zero).hmac1.length = 28 := by
    rw [hp1.hmac1_eq]; exact calc_hmac_length prim hprim _ _ _
  have hR2 := hp2.wellFormed_of_previous hprim hp1.iv1_lt hR1hmac
  obtain ⟨R2, hR2def⟩ : ∃ R2, R2 = c2.m_iv_buffer.getD idx iv_table.zero := ⟨_, rfl⟩
  have hR2ne : R2.iv1 ≠ 0 := hR2def ▸ hp2.iv1_ne
  have hR2iv2 : R2.iv2 = (c1.m_iv_buffer.getD idx iv_table.zero).iv1 := hR2def ▸ hp2.iv2_eq
  have hR2hmac2 : R2.hmac2 = (c1.m_iv_buffer.getD idx iv_table.zero).hmac1 :=
    hR2def ▸ hp2.hmac2_eq
  have hR2take : R2.hmac1.take 4 ≠ R2.hmac2.take 4 := hR2def ▸ hp2.take_ne
  rw [← hR2def] at hR2 ⊢
  have hsize1 : real_offset pos + 4096 ≤ fd1.size := by
    rw [hfd1, check_write_size, hbs]; exact Nat.le_max_right _ _
  -- the torn file
  generalize hfd2 : check_write fd1 (iv_table_pos pos) R2.toBytes metadata_size = fd2
  have hsize2 : real_offset pos + 4096 ≤ fd2.size := by
    rw [← hfd2, check_write_size]; exact Nat.le_trans hsize1 (Nat.le_max_left _ _)
  have hcipher : (check_read fd2 (real_offset pos) cr.m_rw_buffer block_size).1
      = c1.m_rw_buffer := by
    rw [check_read_covered _ _ _ _ (by rw [hbs]; exact hsize2), ← hfd2,
      slice_check_write_disjoint _ _ _ _ _ _ (Or.inr (by rw [hm]; exact hpos))
        (by rw [hbs]; exact hsize1),
      hfd1, slice_check_write_same, fixed_bytes_eq_self hClen]
  have hrec : fd2.slice (iv_table_pos pos) 64 = R2.toBytes := by
    rw [← hfd2, hm, slice_check_write_same, fixed_bytes_eq_self R2.toBytes_length]
  obtain ⟨cr1, hget, hrec1, hlt1, hbuf1, hkey1, hhmac1⟩ :=
    AESCryptor.get_iv_table_from_file cr fd2 pos R2 hR2 hrec (by omega) hlen hfresh hcap
      (check_read fd2 (real_offset pos) cr.m_rw_buffer block_size).1
  rw [← hp1.idx_eq] at hget hrec1 hlt1
  rw [hcipher] at hbuf1
  -- the digest of the old ciphertext is `hmac2`, not `hmac1`
  have hdig : calc_hmac prim cr1.m_rw_buffer block_size cr1.m_hmacKey = R2.hmac2 := by
    rw [hbuf1, hhmac1, hhmac, hR2hmac2, hp1.hmac1_eq]
  have hc1 : ¬ cr1.check_hmac prim cr1.m_rw_buffer block_size
      (cr1.m_iv_buffer.getD idx iv_table.zero).hmac1 = true := by
    rw [hrec1, Bool.not_eq_true]
    apply AESCryptor.check_hmac_of_take_ne
    · rw [hdig]; exact fun h => hR2take h.symm
    · exact calc_hmac_length prim hprim _ _ _
    · exact hR2.hmac1_length
  have hc2 : cr1.check_hmac prim cr1.m_rw_buffer block_size
      (cr1.m_iv_buffer.getD idx iv_table.zero).hmac2 = true := by
    rw [hrec1, ← hdig]
    exact cr1.check_hmac_self prim _ _
  have hiv1 : ¬ (cr1.m_iv_buffer.getD idx iv_table.zero).iv1 = 0 := by
    rw [hrec1]; exact hR2ne
  have hiv2 : ¬ (cr1.m_iv_buffer.getD idx iv_table.zero).iv2 = 0 := by
    rw [hrec1, hR2iv2]; exact hp1.iv1_ne
  have hdec : cr1.crypt prim .mode_Decrypt pos cr1.m_rw_buffer
      (cr1.m_iv_buffer.getD idx iv_table.zero).iv2 = P_old := by
    rw [hrec1, hR2iv2, hbuf1, hp1.rw_buffer]
    exact c.crypt_decrypt_encrypt prim hprim cr1 (hkey1.trans hkey) pos P_old _ hP
  refine ⟨{ cr1 with m_iv_buffer :=
      (cr1.m_iv_buffer.set idx (cr1.m_iv_buffer.getD idx iv_table.zero).unbump) }, ?_, ?_⟩
  · rw [AESCryptor.read_one_block, AESCryptor.read_block_eq prim cr cr1 fd2 pos idx hget,
      if_neg hiv1, if_neg hc1, if_neg hiv2, if_pos hc2, hdec]
  · simp only [getD_set_self _ _ _ _ hlt1, iv_table.unbump, hrec1, hR2iv2, hR2hmac2]
    exact ⟨trivial, trivial, trivial, trivial⟩

/-- Crash after the write of the ciphertext with the record of the previous write
still on disk: the new ciphertext fails `hmac1`, and the read goes down the
remaining tests of the cascade. -/
theorem AESCryptor.read_after_torn_ciphertext (prim : Primitives) (hprim : prim.Lawful)
    (fuel fuel2 : Nat) (c c1 c2 cr : AESCryptor) (fd fd1 : File) (pos idx : Nat)
    (P_old P_new : List Nat) (hP : P_new.length = block_size)
    (hw1 : c.write_block prim fuel fd pos P_old = .ok (c1, fd1))
    (hw2 : c1.write_prepare prim fuel2 fd1 pos P_new = .ok (c2, idx))
    (hR1 : (c1.m_iv_buffer.getD idx iv_table.zero).WellFormed)
    (hhmac : cr.m_hmacKey = c.m_hmacKey)
    (hlen : cr.m_iv_buffer.length % 64 = 0) (hfresh : cr.m_iv_buffer.length ≤ pos / block_size)
    (hcap : (1 + pos / block_size / 64) * 64 ≤ cr.m_iv_capacity) :
    ∃ cr1, cr1.m_rw_buffer = c2.m_rw_buffer ∧
      cr1.m_iv_buffer.getD idx iv_table.zero = c1.m_iv_buffer.getD idx iv_table.zero ∧
      cr.read prim (check_write fd1 (real_offset pos) c2.m_rw_buffer block_size)
          pos block_size =
        if (c1.m_iv_buffer.getD idx iv_table.zero).iv2 = 0 then .ok (cr1, [], false)
        else if cr.check_hmac prim c2.m_rw_buffer block_size
            (c1.m_iv_buffer.getD idx iv_table.zero).hmac2 = true then
          .ok ({ cr1 with m_iv_buffer :=
                  (cr1.m_iv_buffer.set idx (c1.m_iv_buffer.getD idx iv_table.zero).unbump) },
            cr1.crypt prim .mode_Decrypt pos c2.m_rw_buffer
              (c1.m_iv_buffer.getD idx iv_table.zero).iv2, true)
        else if (c2.m_rw_buffer.take block_size).all (fun b => b == 0) = true then
          .ok (cr1, [], false)
        else .error .DecryptionFailed := by
  obtain ⟨c0, hp1, hp2, hfd1⟩ := AESCryptor.two_writes prim fuel fuel2 c c1 c2 fd fd1 pos idx
    P_old P_new hw1 hw2
  have hm : metadata_size = 64 := rfl
  have hbs : block_size = 4096 := rfl
  have hpos := iv_table_pos_add_le_real_offset pos
  have hClen := hp2.rw_buffer_length hprim hP
  obtain ⟨R1, hR1def⟩ : ∃ R1, R1 = c1.m_iv_buffer.getD idx iv_table.zero := ⟨_, rfl⟩
  rw [← hR1def] at hR1 hfd1 ⊢
  have hsize1 : real_offset pos + 4096 ≤ fd1.size := by
    rw [hfd1, check_write_size, hbs]; exact Nat.le_max_right _ _
  generalize hfd2 : check_write fd1 (real_offset pos) c2.m_rw_buffer block_size = fd2
  have hsize2 : real_offset pos + 4096 ≤ fd2.size := by
    rw [← hfd2, check_write_size, hbs]; exact Nat.le_max_right _ _
  have hcipher : (check_read fd2 (real_offset pos) cr.m_rw_buffer block_size).1
      = c2.m_rw_buffer := by
    rw [check_read_covered _ _ _ _ (by rw [hbs]; exact hsize2), ← hfd2,
      slice_check_write_same, fixed_bytes_eq_self hClen]
  have hrec : fd2.slice (iv_table_pos pos) 64 = R1.toBytes := by
    rw [← hfd2, slice_check_write_disjoint _ _ _ _ _ _ (Or.inl hpos) (by omega), hfd1,
      slice_check_write_disjoint _ _ _ _ _ _ (Or.inl hpos)
        (by rw [check_write_size, hm]; exact Nat.le_max_right _ _),
      hm, slice_check_write_same, fixed_bytes_eq_self R1.toBytes_length]
  obtain ⟨cr1, hget, hrec1, hlt1, hbuf1, hkey1, hhmac1⟩ :=
    AESCryptor.get_iv_table_from_file cr fd2 pos R1 hR1 hrec (by omega) hlen hfresh hcap
      (check_read fd2 (real_offset pos) cr.m_rw_buffer block_size).1
  rw [← hp1.idx_eq] at hget hrec1 hlt1
  rw [hcipher] at hbuf1
  -- the digest of the new ciphertext differs from `hmac1` of the old record
  have hdig : calc_hmac prim cr1.m_rw_buffer block_size cr1.m_hmacKey
      = (c2.m_iv_buffer.getD idx iv_table.zero).hmac1 := by
    rw [hbuf1, hhmac1, hhmac, hp2.hmac1_eq, hp1.hmacKey]
  have hc1 : ¬ cr1.check_hmac prim cr1.m_rw_buffer block_size
      (cr1.m_iv_buffer.getD idx iv_table.zero).hmac1 = true := by
    rw [hrec1, Bool.not_eq_true]
    apply AESCryptor.check_hmac_of_take_ne
    · rw [hdig, hR1def, ← hp2.hmac2_eq]; exact hp2.take_ne
    · exact calc_hmac_length prim hprim _ _ _
    · exact hR1.hmac1_length
  have hiv1 : ¬ (cr1.m_iv_buffer.getD idx iv_table.zero).iv1 = 0 := by
    rw [hrec1, hR1def]; exact hp1.iv1_ne
  refine ⟨cr1, hbuf1, hrec1, ?_⟩
  rw [AESCryptor.read_one_block, AESCryptor.read_block_eq prim cr cr1 fd2 pos idx hget,
    if_neg hiv1, if_neg hc1, hrec1, hbuf1,
    AESCryptor.check_hmac_congr prim cr cr1 hhmac1]
  by_cases h2 : R1.iv2 = 0
  · simp only [h2, if_true]
  · simp only [h2, if_false]
    by_cases h3 : cr.check_hmac prim c2.m_rw_buffer block_size R1.hmac2 = true
    · simp only [h3, if_true]
    · rw [if_neg h3, if_neg h3]
      by_cases h4 : (c2.m_rw_buffer.take block_size).all (fun b => b == 0) = true
      · rw [if_pos h4, if_pos h4]
      · rw [if_neg h4, if_neg h4]

/-- Never-written block: with `iv1 == 0` in the record, `read` returns `false` at
once. -/
theorem AESCryptor.read_of_iv1_zero (prim : Primitives) (c c1 : AESCryptor) (fd : File)
    (pos idx size : Nat) (hsize : size % block_size = 0) (hpos : 0 < size)
    (hget : AESCryptor.get_iv_table
      { c with m_rw_buffer := (check_read fd (real_offset pos) c.m_rw_buffer block_size).1 }
      fd pos = .ok (c1, idx))
    (hiv : (c1.m_iv_buffer.getD idx iv_table.zero).iv1 = 0) :
    c.read prim fd pos size = .ok (c1, [], false) := by
  obtain ⟨n, hn⟩ : ∃ n, size / block_size = n + 1 := by
    have hbs : block_size = 4096 := rfl
    rw [hbs] at hsize ⊢
    exact ⟨size / 4096 - 1, by omega⟩
  simp only [AESCryptor.read, hsize, if_true, hn, AESCryptor.read_blocks,
    AESCryptor.read_block_eq prim c c1 fd pos idx hget, hiv]

/-- When a one-block `read` raises `DecryptionFailed`. -/
theorem AESCryptor.read_failed_iff (prim : Primitives) (c c1 : AESCryptor) (fd : File)
    (pos idx : Nat)
    (hget : AESCryptor.get_iv_table
      { c with m_rw_buffer := (check_read fd (real_offset pos) c.m_rw_buffer block_size).1 }
      fd pos = .ok (c1, idx)) :
    c.read prim fd pos block_size = .error .DecryptionFailed ↔
      (c1.m_iv_buffer.getD idx iv_table.zero).iv1 ≠ 0 ∧
      c1.check_hmac prim c1.m_rw_buffer block_size
        (c1.m_iv_buffer.getD idx iv_table.zero).hmac1 = false ∧
      (c1.m_iv_buffer.getD idx iv_table.zero).iv2 ≠ 0 ∧
      c1.check_hmac prim c1.m_rw_buffer block_size
        (c1.m_iv_buffer.getD idx iv_table.zero).hmac2 = false ∧
      (c1.m_rw_buffer.take block_size).all (fun b => b == 0) = false := by
  rw [AESCryptor.read_one_block, AESCryptor.read_block_eq prim c c1 fd pos idx hget]
  generalize c1.m_iv_buffer.getD idx iv_table.zero = iv
  generalize (c1.m_rw_buffer.take block_size).all (fun b => b == 0) = zero
  by_cases h1 : iv.iv1 = 0
  · simp [h1]
  · cases hc1 : c1.check_hmac prim c1.m_rw_buffer block_size iv.hmac1
    · by_cases h2 : iv.iv2 = 0
      · simp [h1, h2]
      · cases hc2 : c1.check_hmac prim c1.m_rw_buffer block_size iv.hmac2
        · cases zero
          · simp [h1, h2]
          · simp [h1, h2]
        · simp [h1, h2]
    · simp [h1]

/-- A first write interrupted: non-zero `iv1`, digest mismatch and `iv2 == 0` make
a one-block `read` return `false`. -/
theorem AESCryptor.read_of_iv2_zero (prim : Primitives) (c c1 : AESCryptor) (fd : File)
    (pos idx : Nat)
    (hget : AESCryptor.get_iv_table
      { c with m_rw_buffer := (check_read fd (real_offset pos) c.m_rw_buffer block_size).1 }
      fd pos = .ok (c1, idx))
    (h1 : (c1.m_iv_buffer.getD idx iv_table.zero).iv1 ≠ 0)
    (hc1 : c1.check_hmac prim c1.m_rw_buffer block_size
      (c1.m_iv_buffer.getD idx iv_table.zero).hmac1 = false)
    (h2 : (c1.m_iv_buffer.getD idx iv_table.zero).iv2 = 0) :
    c.read prim fd pos block_size = .ok (c1, [], false) := by
  rw [AESCryptor.read_one_block, AESCryptor.read_block_eq prim c c1 fd pos idx hget,
    if_neg h1, hc1, if_neg Bool.false_ne_true, if_pos h2]

theorem examplePrimitives_lawful : examplePrimitives.Lawful := by
  refine ⟨fun src key ivec => ?_, fun src key ivec => ?_, fun data => ?_⟩
  · simp only [examplePrimitives, List.map_map]
    have : ((fun b => b - ivec.headD 0) ∘ fun b => b + ivec.headD 0) = id := by
      funext b; simp
    rw [this, List.map_id]
  · simp [examplePrimitives]
  · simp [examplePrimitives]

theorem examplePrimitives_calc_hmac (src : List Nat) (len : Nat) (key : List Nat) :
    calc_hmac examplePrimitives src len key = List.replicate 28 ((src.take len).getD 0 0) := by
  have h1 : ∀ (a b : List Nat), a.length = 64 → (a ++ b).getD 64 0 = b.getD 0 0 := by
    intro a b ha
    simp only [List.getD_eq_getElem?_getD]
    rw [List.getElem?_append_right (by omega), ha]
  simp only [calc_hmac, examplePrimitives]
  rw [h1 _ _ (by simp), h1 _ _ (by simp)]
  simp

theorem examplePrimitives_encrypt (c : AESCryptor) (pos : Nat) (b : Nat) (stored_iv : Nat) :
    c.crypt examplePrimitives .mode_Encrypt pos (List.replicate block_size b) stored_iv
      = List.replicate block_size (b + stored_iv % 256) := by
  simp only [AESCryptor.crypt, examplePrimitives, List.take_replicate, Nat.min_self,
    List.map_replicate, le_bytes, List.cons_append, List.headD_cons]

theorem AESCryptor.write_eq_write_block (prim : Primitives) (fuel : Nat) (c : AESCryptor)
    (fd : File) (pos : Nat) (src : List Nat) :
    c.write prim fuel fd pos src block_size = c.write_block prim fuel fd pos src := by
  have e1 : block_size % block_size = 0 := by decide
  have e2 : block_size / block_size = 1 := by decide
  simp only [AESCryptor.write, e1, e2, if_true, AESCryptor.write_blocks]
  cases c.write_block prim fuel fd pos src with
  | error e => rfl
  | ok r => rfl

/-- The preparation of a block write whose first pass of the `do ... while` loop
already yields a digest differing from the previous one in its first four bytes. -/
theorem AESCryptor.write_prepare_first_pass (prim : Primitives) (fuel : Nat)
    (c c0 : AESCryptor) (fd : File) (pos : Nat) (src : List Nat) (idx v : Nat) (R : iv_table)
    (hget : c.get_iv_table fd pos = .ok (c0, idx))
    (hR : c0.m_iv_buffer.getD idx iv_table.zero = R)
    (hv : (if (R.iv1 + 1) % 4294967296 = 0 then ((R.iv1 + 1) % 4294967296 + 1) % 4294967296
      else (R.iv1 + 1) % 4294967296) = v)
    (hne : (calc_hmac prim (c0.crypt prim .mode_Encrypt pos src v) block_size
      c0.m_hmacKey).take 4 ≠ R.hmac1.take 4) :
    c.write_prepare prim (fuel + 1) fd pos src =
      .ok ({ c0 with
              m_rw_buffer := c0.crypt prim .mode_Encrypt pos src v,
              m_iv_buffer := (c0.m_iv_buffer.set idx
                { iv1 := v,
                  hmac1 := calc_hmac prim (c0.crypt prim .mode_Encrypt pos src v) block_size
                    c0.m_hmacKey,
                  iv2 := R.iv1, hmac2 := R.hmac1 }) }, idx) := by
  simp only [AESCryptor.write_prepare, hget, hR, AESCryptor.bump_iv, iv_table.keep_previous, hv,
    if_neg hne]

theorem AESCryptor.write_block_of_prepare (prim : Primitives) (fuel : Nat) (c c2 : AESCryptor)
    (fd : File) (pos : Nat) (src : List Nat) (idx : Nat)
    (h : c.write_prepare prim fuel fd pos src = .ok (c2, idx)) :
    c.write_block prim fuel fd pos src = .ok (c2,
      check_write
        (check_write fd (iv_table_pos pos)
          (c2.m_iv_buffer.getD idx iv_table.zero).toBytes metadata_size)
        (real_offset pos) c2.m_rw_buffer block_size) := by
  simp only [AESCryptor.write_block, h]

theorem examplePrimitives_digest (c : AESCryptor) (pos b v : Nat) (key : List Nat) :
    calc_hmac examplePrimitives
        (c.crypt examplePrimitives .mode_Encrypt pos (List.replicate block_size b) v)
        block_size key
      = List.replicate 28 (b + v % 256) := by
  rw [examplePrimitives_calc_hmac, examplePrimitives_encrypt, List.take_replicate, Nat.min_self]
  congr 1

/-- A cryptor with an empty `m_iv_buffer` and capacity for one metadata block
obtains a zero record for block 0 from the empty file. -/
theorem AESCryptor.get_iv_table_exampleFile (c : AESCryptor) (hbuf : c.m_iv_buffer = [])
    (hcap : 64 ≤ c.m_iv_capacity) :
    ∃ c0, c.get_iv_table exampleFile 0 = .ok (c0, 0) ∧
      c0.m_iv_buffer.getD 0 iv_table.zero = iv_table.zero ∧ 0 < c0.m_iv_buffer.length ∧
      c0.m_rw_buffer = c.m_rw_buffer := by
  have h0 : 0 / block_size = 0 := by decide
  obtain ⟨c0, hget, hl, hg⟩ := AESCryptor.get_iv_table_load c exampleFile 0
    (by rw [hbuf]; decide) (by rw [hbuf]; exact Nat.zero_le _) (by rw [h0]; exact hcap)
  rw [h0] at hget hg
  obtain ⟨_, g2, _, _, g5, _⟩ := AESCryptor.get_iv_table_ok _ c0 exampleFile 0 _ hget
  refine ⟨c0, hget, ?_, g2, g5⟩
  rw [hg 0, if_pos ⟨by rw [hbuf]; exact Nat.le_refl _, by decide⟩]
  rw [hbuf]
  exact load_iv_record_beyond exampleFile 0 _ iv_table.zero_wellFormed (Nat.zero_le _)

theorem exampleCryptor_capacity : 64 ≤ exampleCryptor.m_iv_capacity := by decide

/-- The first write of the example: 4096 bytes 7 at position 0 of the empty file. -/
theorem example_first_write :
    ∃ c1 fd1, exampleCryptor.write examplePrimitives 1 exampleFile 0
        (List.replicate block_size 7) block_size = .ok (c1, fd1) ∧
      c1.m_iv_buffer.getD 0 iv_table.zero
        = { iv1 := 1, hmac1 := List.replicate 28 8, iv2 := 0, hmac2 := List.replicate 28 0 } ∧
      0 < c1.m_iv_buffer.length := by
  obtain ⟨c0, hget, hrec, hlt, _⟩ :=
    exampleCryptor.get_iv_table_exampleFile rfl exampleCryptor_capacity
  have hprep := AESCryptor.write_prepare_first_pass examplePrimitives 0 exampleCryptor c0
    exampleFile 0 (List.replicate block_size 7) 0 1 iv_table.zero hget hrec
    (by simp [iv_table.zero])
    (by rw [examplePrimitives_digest]; simp [iv_table.zero])
  rw [examplePrimitives_digest, examplePrimitives_encrypt] at hprep
  have hw := AESCryptor.write_block_of_prepare _ _ _ _ _ _ _ _ hprep
  exact ⟨_, _, (AESCryptor.write_eq_write_block _ _ _ _ _ _).trans hw,
    getD_set_self _ _ _ _ hlt, by simpa using hlt⟩

/-- The preparation of the second write of the example: 4096 bytes 9. -/
theorem example_second_prepare (c1 : AESCryptor) (fd1 : File)
    (hrec : c1.m_iv_buffer.getD 0 iv_table.zero
      = { iv1 := 1, hmac1 := List.replicate 28 8, iv2 := 0, hmac2 := List.replicate 28 0 })
    (hlt : 0 < c1.m_iv_buffer.length) :
    ∃ c2, c1.write_prepare examplePrimitives 1 fd1 0 (List.replicate block_size 9)
      = .ok (c2, 0) :=
  ⟨_, AESCryptor.write_prepare_first_pass examplePrimitives 0 c1 c1 fd1 0
    (List.replicate block_size 9) 0 2 _ (c1.get_iv_table_cached fd1 0 hlt) hrec (by simp)
    (by rw [examplePrimitives_digest]; simp)⟩

/-- C6, at a concrete input: the example cryptor writes 4096 bytes 7 at position 0
of the empty file and reads them back. -/
theorem AESCryptor.write_read_round_trip_witness :
    ∃ c1 fd1, exampleCryptor.write examplePrimitives 1 exampleFile 0
        (List.replicate block_size 7) block_size = .ok (c1, fd1) ∧
      c1.read examplePrimitives fd1 0 block_size
        = .ok (c1, List.replicate block_size 7, true) := by
  obtain ⟨c1, fd1, hw, _, _⟩ := example_first_write
  exact ⟨c1, fd1, hw, AESCryptor.write_read_round_trip examplePrimitives
    examplePrimitives_lawful 1 exampleCryptor c1 exampleFile fd1 0 _
    (List.length_replicate _ _) hw⟩

/-- C7: crash recovery, torn write after the IV table.  A block at `pos` holds
`P_old` from a completed write (`hw1`); a second write of `P_new` gets as far as
writing its `iv_table` record (`hw2` and the `check_write` in the conclusion),
the ciphertext on disk still being that of `P_old`.  A cryptor with the same key
that has the record not yet in memory, hence loads it from the file, returns
`true` with `dst = P_old`, and leaves its in-memory record rolled back:
`(iv1, hmac1) = (iv2, hmac2)`, the pair of the completed write. -/
theorem AESCryptor.read_after_record_only_write (prim : Primitives) (hprim : prim.Lawful)
    (fuel fuel2 : Nat) (c c1 c2 cr : AESCryptor) (fd fd1 : File) (pos idx : Nat)
    (P_old P_new : List Nat) (hP : P_old.length = block_size)
    (hw1 : c.write prim fuel fd pos P_old block_size = .ok (c1, fd1))
    (hw2 : c1.write_prepare prim fuel2 fd1 pos P_new = .ok (c2, idx))
    (hkey : cr.m_key = c.m_key) (hhmac : cr.m_hmacKey = c.m_hmacKey)
    (hlen : cr.m_iv_buffer.length % 64 = 0) (hfresh : cr.m_iv_buffer.length ≤ pos / block_size)
    (hcap : (1 + pos / block_size / 64) * 64 ≤ cr.m_iv_capacity) :
    ∃ cr1, cr.read prim
        (check_write fd1 (iv_table_pos pos)
          (c2.m_iv_buffer.getD idx iv_table.zero).toBytes metadata_size)
        pos block_size = .ok (cr1, P_old, true) ∧
      (cr1.m_iv_buffer.getD idx iv_table.zero).iv1
        = (cr1.m_iv_buffer.getD idx iv_table.zero).iv2 ∧
      (cr1.m_iv_buffer.getD idx iv_table.zero).hmac1
        = (cr1.m_iv_buffer.getD idx iv_table.zero).hmac2 ∧
      (cr1.m_iv_buffer.getD idx iv_table.zero).iv1
        = (c1.m_iv_buffer.getD idx iv_table.zero).iv1 ∧
      (cr1.m_iv_buffer.getD idx iv_table.zero).hmac1
        = (c1.m_iv_buffer.getD idx iv_table.zero).hmac1 :=
  AESCryptor.read_after_torn_record prim hprim fuel fuel2 c c1 c2 cr fd fd1 pos idx P_old P_new
    hP ((AESCryptor.write_eq_write_block prim fuel c fd pos P_old).symm.trans hw1) hw2 hkey hhmac
    hlen hfresh hcap

/-- C7, at a concrete input: the example cryptor writes 4096 bytes 7, a second
write of 4096 bytes 9 persists its record only, and a fresh cryptor reads the
bytes 7 back. -/
theorem AESCryptor.read_after_record_only_write_witness :
    ∃ c1 fd1 c2 cr1,
      exampleCryptor.write examplePrimitives 1 exampleFile 0
        (List.replicate block_size 7) block_size = .ok (c1, fd1) ∧
      c1.write_prepare examplePrimitives 1 fd1 0 (List.replicate block_size 9) = .ok (c2, 0) ∧
      exampleCryptor.read examplePrimitives
        (check_write fd1 (iv_table_pos 0)
          (c2.m_iv_buffer.getD 0 iv_table.zero).toBytes metadata_size)
        0 block_size = .ok (cr1, List.replicate block_size 7, true) ∧
      (cr1.m_iv_buffer.getD 0 iv_table.zero).iv1 = (cr1.m_iv_buffer.getD 0 iv_table.zero).iv2 ∧
      (cr1.m_iv_buffer.getD 0 iv_table.zero).hmac1
        = (cr1.m_iv_buffer.getD 0 iv_table.zero).hmac2 := by
  obtain ⟨c1, fd1, hw1, hrec, hlt⟩ := example_first_write
  obtain ⟨c2, hw2⟩ := example_second_prepare c1 fd1 hrec hlt
  obtain ⟨cr1, h1, h2, h3, _, _⟩ := AESCryptor.read_after_record_only_write examplePrimitives
    examplePrimitives_lawful 1 1 exampleCryptor c1 c2 exampleCryptor exampleFile fd1 0 0
    (List.replicate block_size 7) (List.replicate block_size 9) (List.length_replicate _ _)
    hw1 hw2 rfl rfl (by decide) (by decide) (by decide)
  exact ⟨c1, fd1, c2, cr1, hw1, hw2, h1, h2, h3⟩

/-- C8, refuted on the code: in the example, 4096 bytes 7 are written, then a
second write of 4096 bytes 9 persists its ciphertext only (the record on disk is
that of the first write).  A fresh cryptor with the same key reads `false` and
stores nothing: the old plaintext is not returned. -/
theorem AESCryptor.read_after_ciphertext_only_write_counterexample :
    ∃ c1 fd1 c2 cr1,
      exampleCryptor.write examplePrimitives 1 exampleFile 0
        (List.replicate block_size 7) block_size = .ok (c1, fd1) ∧
      c1.write_prepare examplePrimitives 1 fd1 0 (List.replicate block_size 9) = .ok (c2, 0) ∧
      exampleCryptor.read examplePrimitives
        (check_write fd1 (real_offset 0) c2.m_rw_buffer block_size) 0 block_size
        = .ok (cr1, [], false) := by
  obtain ⟨c1, fd1, hw1, hrec, hlt⟩ := example_first_write
  obtain ⟨c2, hw2⟩ := example_second_prepare c1 fd1 hrec hlt
  obtain ⟨cr1, _, _, h⟩ := AESCryptor.read_after_torn_ciphertext examplePrimitives
    examplePrimitives_lawful 1 1 exampleCryptor c1 c2 exampleCryptor exampleFile fd1 0 0
    (List.replicate block_size 7) (List.replicate block_size 9) (List.length_replicate _ _)
    ((AESCryptor.write_eq_write_block _ _ _ _ _ _).symm.trans hw1) hw2
    (by rw [hrec]; exact ⟨by decide, by decide, by decide, by decide⟩)
    rfl (by decide) (by decide) (by decide)
  rw [hrec, if_pos rfl] at h
  exact ⟨c1, fd1, c2, cr1, hw1, hw2, h⟩

/-- C8, as the code has it: crash recovery, torn write after the ciphertext.  A
block at `pos` holds `P_old` from a completed write (`hw1`, leaving the record
`R1` of the block well-formed); a second write of `P_new` persists its
ciphertext only (`hw2` and the `check_write` in the conclusion).  A cryptor with
the same HMAC key that loads the record from the file finds the new ciphertext
failing `hmac1`, the old ciphertext being gone: it returns `false`, storing
nothing, when `R1.iv2 = 0`; otherwise, when the digest of the new ciphertext
equals `R1.hmac2`, it rolls the record back and returns the new ciphertext
decrypted under `R1.iv2`; otherwise it returns `false` when the new ciphertext
is all zero and raises `DecryptionFailed` when it is not. -/
theorem AESCryptor.read_after_ciphertext_only_write (prim : Primitives) (hprim : prim.Lawful)
    (fuel fuel2 : Nat) (c c1 c2 cr : AESCryptor) (fd fd1 : File) (pos idx : Nat)
    (P_old P_new : List Nat) (hP : P_new.length = block_size)
    (hw1 : c.write prim fuel fd pos P_old block_size = .ok (c1, fd1))
    (hw2 : c1.write_prepare prim fuel2 fd1 pos P_new = .ok (c2, idx))
    (hR1 : (c1.m_iv_buffer.getD idx iv_table.zero).WellFormed)
    (hhmac : cr.m_hmacKey = c.m_hmacKey)
    (hlen : cr.m_iv_buffer.length % 64 = 0) (hfresh : cr.m_iv_buffer.length ≤ pos / block_size)
    (hcap : (1 + pos / block_size / 64) * 64 ≤ cr.m_iv_capacity) :
    ∃ cr1, cr1.m_rw_buffer = c2.m_rw_buffer ∧
      cr1.m_iv_buffer.getD idx iv_table.zero = c1.m_iv_buffer.getD idx iv_table.zero ∧
      cr.read prim (check_write fd1 (real_offset pos) c2.m_rw_buffer block_size)
          pos block_size =
        if (c1.m_iv_buffer.getD idx iv_table.zero).iv2 = 0 then .ok (cr1, [], false)
        else if cr.check_hmac prim c2.m_rw_buffer block_size
            (c1.m_iv_buffer.getD idx iv_table.zero).hmac2 = true then
          .ok ({ cr1 with m_iv_buffer :=
                  (cr1.m_iv_buffer.set idx (c1.m_iv_buffer.getD idx iv_table.zero).unbump) },
            cr1.crypt prim .mode_Decrypt pos c2.m_rw_buffer
              (c1.m_iv_buffer.getD idx iv_table.zero).iv2, true)
        else if (c2.m_rw_buffer.take block_size).all (fun b => b == 0) = true then
          .ok (cr1, [], false)
        else .error .DecryptionFailed :=
  AESCryptor.read_after_torn_ciphertext prim hprim fuel fuel2 c c1 c2 cr fd fd1 pos idx P_old
    P_new hP ((AESCryptor.write_eq_write_block prim fuel c fd pos P_old).symm.trans hw1) hw2 hR1
    hhmac hlen hfresh hcap

/-- C8 as amended, at a concrete input: the example scenario, where the record of
the first write has `iv2 = 0`. -/
theorem AESCryptor.read_after_ciphertext_only_write_witness :
    ∃ c1 fd1 c2 cr1,
      exampleCryptor.write examplePrimitives 1 exampleFile 0
        (List.replicate block_size 7) block_size = .ok (c1, fd1) ∧
      c1.write_prepare examplePrimitives 1 fd1 0 (List.replicate block_size 9) = .ok (c2, 0) ∧
      (c1.m_iv_buffer.getD 0 iv_table.zero).iv2 = 0 ∧
      cr1.m_rw_buffer = c2.m_rw_buffer ∧
      cr1.m_iv_buffer.getD 0 iv_table.zero = c1.m_iv_buffer.getD 0 iv_table.zero ∧
      exampleCryptor.read examplePrimitives
          (check_write fd1 (real_offset 0) c2.m_rw_buffer block_size) 0 block_size =
        if (c1.m_iv_buffer.getD 0 iv_table.zero).iv2 = 0 then .ok (cr1, [], false)
        else if exampleCryptor.check_hmac examplePrimitives c2.m_rw_buffer block_size
            (c1.m_iv_buffer.getD 0 iv_table.zero).hmac2 = true then
          .ok ({ cr1 with m_iv_buffer :=
                  (cr1.m_iv_buffer.set 0 (c1.m_iv_buffer.getD 0 iv_table.zero).unbump) },
            cr1.crypt examplePrimitives .mode_Decrypt 0 c2.m_rw_buffer
              (c1.m_iv_buffer.getD 0 iv_table.zero).iv2, true)
        else if (c2.m_rw_buffer.take block_size).all (fun b => b == 0) = true then
          .ok (cr1, [], false)
        else .error .DecryptionFailed := by
  obtain ⟨c1, fd1, hw1, hrec, hlt⟩ := example_first_write
  obtain ⟨c2, hw2⟩ := example_second_prepare c1 fd1 hrec hlt
  obtain ⟨cr1, h1, h2, h3⟩ := AESCryptor.read_after_ciphertext_only_write examplePrimitives
    examplePrimitives_lawful 1 1 exampleCryptor c1 c2 exampleCryptor exampleFile fd1 0 0
    (List.replicate block_size 7) (List.replicate block_size 9) (List.length_replicate _ _)
    hw1 hw2 (by rw [hrec]; exact ⟨by decide, by decide, by decide, by decide⟩)
    rfl (by decide) (by decide) (by decide)
  exact ⟨c1, fd1, c2, cr1, hw1, hw2, by rw [hrec], h1, h2, h3⟩

theorem exampleOnesFile_slice (o n : Nat) : exampleOnesFile.slice o n = List.replicate n 1 := by
  simp only [File.slice, exampleOnesFile]
  apply List.ext_getElem
  · simp
  · intro i h1 h2
    simp

/-- What `get_iv_table` returns to `read` for block 0 of the torn example: the
record in memory, with the bytes 1 of the file in `m_rw_buffer`. -/
theorem exampleTornCryptor_get_iv_table :
    AESCryptor.get_iv_table
      { exampleTornCryptor with m_rw_buffer :=
          (check_read exampleOnesFile (real_offset 0) exampleTornCryptor.m_rw_buffer block_size).1 }
      exampleOnesFile 0
      = .ok ({ exampleTornCryptor with m_rw_buffer := List.replicate block_size 1 }, 0) := by
  rw [check_read_covered _ _ _ _ (by decide), exampleOnesFile_slice]
  exact AESCryptor.get_iv_table_cached _ exampleOnesFile 0 (by decide)

theorem exampleTornCryptor_check_hmac (hmac : List Nat) (h : hmac = List.replicate 28 0) :
    AESCryptor.check_hmac examplePrimitives
      { exampleTornCryptor with m_rw_buffer := List.replicate block_size 1 }
      (List.replicate block_size 1) block_size hmac = false := by
  subst h
  apply AESCryptor.check_hmac_of_take_ne
  · have e : ((List.replicate block_size 1).take block_size).getD 0 0 = 1 := by
      rw [List.take_replicate, Nat.min_self]
      show (List.replicate (4095 + 1) 1).getD 0 0 = 1
      rfl
    rw [examplePrimitives_calc_hmac, e]
    decide
  · exact calc_hmac_length _ examplePrimitives_lawful _ _ _
  · decide

theorem exampleOnes_not_zero :
    ((List.replicate block_size 1).take block_size).all (fun b => b == 0) = false := by
  rw [List.take_replicate, Nat.min_self]
  show (List.replicate (4095 + 1) 1).all (fun b => b == 0) = false
  rw [List.replicate_succ, List.all_cons]
  rfl

/-- C9, refuted on the code: the example cryptor holds for block 0 a record with
`iv1 = 1` and `iv2 = 0`, the ciphertext on disk is all ones and its digest does
not match `hmac1`.  Every condition under which the claim has `read` raise
`DecryptionFailed` holds, and `read` returns `false`. -/
theorem AESCryptor.read_DecryptionFailed_counterexample :
    ∃ c1, AESCryptor.get_iv_table
        { exampleTornCryptor with m_rw_buffer :=
            (check_read exampleOnesFile (real_offset 0) exampleTornCryptor.m_rw_buffer
              block_size).1 }
        exampleOnesFile 0 = .ok (c1, 0) ∧
      (c1.m_iv_buffer.getD 0 iv_table.zero).iv1 ≠ 0 ∧
      c1.check_hmac examplePrimitives c1.m_rw_buffer block_size
        (c1.m_iv_buffer.getD 0 iv_table.zero).hmac1 = false ∧
      ¬ ((c1.m_iv_buffer.getD 0 iv_table.zero).iv2 ≠ 0 ∧
        c1.check_hmac examplePrimitives c1.m_rw_buffer block_size
          (c1.m_iv_buffer.getD 0 iv_table.zero).hmac2 = true) ∧
      (c1.m_rw_buffer.take block_size).all (fun b => b == 0) = false ∧
      exampleTornCryptor.read examplePrimitives exampleOnesFile 0 block_size
        = .ok (c1, [], false) := by
  refine ⟨_, exampleTornCryptor_get_iv_table, by decide,
    exampleTornCryptor_check_hmac _ rfl, fun h => h.1 rfl, exampleOnes_not_zero, ?_⟩
  exact AESCryptor.read_of_iv2_zero examplePrimitives exampleTornCryptor _ exampleOnesFile 0 0
    exampleTornCryptor_get_iv_table (by decide) (exampleTornCryptor_check_hmac _ rfl) rfl

/-- C9, as the code has it: `read` of one block, once `get_iv_table` has returned
the block's record `iv` (in the cryptor `c1`, whose `m_rw_buffer` holds the
ciphertext read), raises `DecryptionFailed` if and only if `iv1` is non-zero, the
HMAC of the ciphertext does not match `hmac1`, `iv2` is non-zero, the HMAC does
not match `hmac2` either, and the ciphertext is not all zero bytes.  A block
with `iv1 != 0`, a mismatching `hmac1` and `iv2 == 0` makes `read` return
`false`, whatever the ciphertext. -/
theorem AESCryptor.read_DecryptionFailed_iff (prim : Primitives) (c c1 : AESCryptor) (fd : File)
    (pos idx : Nat)
    (hget : AESCryptor.get_iv_table
      { c with m_rw_buffer := (check_read fd (real_offset pos) c.m_rw_buffer block_size).1 }
      fd pos = .ok (c1, idx)) :
    (c.read prim fd pos block_size = .error .DecryptionFailed ↔
      (c1.m_iv_buffer.getD idx iv_table.zero).iv1 ≠ 0 ∧
      c1.check_hmac prim c1.m_rw_buffer block_size
        (c1.m_iv_buffer.getD idx iv_table.zero).hmac1 = false ∧
      (c1.m_iv_buffer.getD idx iv_table.zero).iv2 ≠ 0 ∧
      c1.check_hmac prim c1.m_rw_buffer block_size
        (c1.m_iv_buffer.getD idx iv_table.zero).hmac2 = false ∧
      (c1.m_rw_buffer.take block_size).all (fun b => b == 0) = false) ∧
    ((c1.m_iv_buffer.getD idx iv_table.zero).iv1 ≠ 0 →
      c1.check_hmac prim c1.m_rw_buffer block_size
        (c1.m_iv_buffer.getD idx iv_table.zero).hmac1 = false →
      (c1.m_iv_buffer.getD idx iv_table.zero).iv2 = 0 →
      c.read prim fd pos block_size = .ok (c1, [], false)) :=
  ⟨AESCryptor.read_failed_iff prim c c1 fd pos idx hget,
    AESCryptor.read_of_iv2_zero prim c c1 fd pos idx hget⟩

/-- C9 as amended, at a concrete input: the torn example does not raise
`DecryptionFailed`, its record having `iv2 = 0`. -/
theorem AESCryptor.read_DecryptionFailed_iff_witness :
    exampleTornCryptor.read examplePrimitives exampleOnesFile 0 block_size
      ≠ .error .DecryptionFailed :=
  fun h => ((AESCryptor.read_DecryptionFailed_iff examplePrimitives exampleTornCryptor _
    exampleOnesFile 0 0 exampleTornCryptor_get_iv_table).1.1 h).2.2.1 rfl

/-- C10: for every block whose `iv_table` record, as `get_iv_table` returns it
(in the cryptor `c1`), has `iv1 == 0`, `read` of any positive number of whole
blocks returns `false` without raising, stores nothing to the destination and
leaves the cryptor as `get_iv_table` returned it, whatever the ciphertext bytes
and the digest fields are; a record already in memory leaves `m_iv_buffer` as
it was before the call. -/
theorem AESCryptor.read_never_written_block (prim : Primitives) (c c1 : AESCryptor) (fd : File)
    (pos idx size : Nat) (hsize : size % block_size = 0) (hpos : 0 < size)
    (hget : AESCryptor.get_iv_table
      { c with m_rw_buffer := (check_read fd (real_offset pos) c.m_rw_buffer block_size).1 }
      fd pos = .ok (c1, idx))
    (hiv : (c1.m_iv_buffer.getD idx iv_table.zero).iv1 = 0) :
    c.read prim fd pos size = .ok (c1, [], false) ∧
      (pos / block_size < c.m_iv_buffer.length → c1.m_iv_buffer = c.m_iv_buffer) := by
  refine ⟨AESCryptor.read_of_iv1_zero prim c c1 fd pos idx size hsize hpos hget hiv, fun h => ?_⟩
  have hc := AESCryptor.get_iv_table_cached
    { c with m_rw_buffer := (check_read fd (real_offset pos) c.m_rw_buffer block_size).1 }
    fd pos h
  rw [hc] at hget
  simp only [Except.ok.injEq, Prod.mk.injEq] at hget
  rw [← hget.1]

/-- C10, at a concrete input: the fresh example cryptor reads block 0 of the empty
file. -/
theorem AESCryptor.read_never_written_block_witness :
    ∃ c1, exampleCryptor.read examplePrimitives exampleFile 0 block_size = .ok (c1, [], false) := by
  obtain ⟨c1, hget, hrec, _, _⟩ := AESCryptor.get_iv_table_exampleFile
    { exampleCryptor with m_rw_buffer :=
        (check_read exampleFile (real_offset 0) exampleCryptor.m_rw_buffer block_size).1 }
    rfl exampleCryptor_capacity
  exact ⟨c1, (AESCryptor.read_never_written_block examplePrimitives exampleCryptor c1 exampleFile
    0 0 block_size (by decide) (by decide) hget (by rw [hrec]; rfl)).1⟩

/-! ## Properties of the block write -/

/-- After a block write the record of the block, in memory and in the file,
keeps in `(iv2, hmac2)` the `(iv1, hmac1)` the record held when `get_iv_table`
returned it, whatever the number of passes of the `do ... while` loop. -/
theorem AESCryptor.write_block_previous (prim : Primitives) (fuel : Nat) (c c2 : AESCryptor)
    (fd fd2 : File) (pos : Nat) (src : List Nat)
    (h : c.write_block prim fuel fd pos src = .ok (c2, fd2)) :
    ∃ c1, c.get_iv_table fd pos = .ok (c1, pos / block_size) ∧
      (c2.m_iv_buffer.getD (pos / block_size) iv_table.zero).iv2
        = (c1.m_iv_buffer.getD (pos / block_size) iv_table.zero).iv1 ∧
      (c2.m_iv_buffer.getD (pos / block_size) iv_table.zero).hmac2
        = (c1.m_iv_buffer.getD (pos / block_size) iv_table.zero).hmac1 ∧
      fd2.slice (iv_table_pos pos) metadata_size
        = (c2.m_iv_buffer.getD (pos / block_size) iv_table.zero).toBytes := by
  obtain ⟨idx, hp, hfd⟩ := AESCryptor.write_block_inv prim fuel c c2 fd fd2 pos src h
  obtain ⟨c1, hget, hprep⟩ := AESCryptor.write_prepare_spec prim fuel c c2 fd pos src idx hp
  have hidx := hprep.idx_eq
  subst hidx
  refine ⟨c1, hget, hprep.iv2_eq, hprep.hmac2_eq, ?_⟩
  rw [hfd, slice_check_write_disjoint _ (real_offset pos) c2.m_rw_buffer block_size
      (iv_table_pos pos) metadata_size (Or.inl (iv_table_pos_add_le_real_offset pos))
      (by rw [check_write_size]; exact Nat.le_max_right _ _),
    slice_check_write_same]
  exact fixed_bytes_eq_self (iv_table.toBytes_length _)

/-- The preparation of a block write whose first pass of the `do ... while` loop
yields a digest agreeing with the previous one in its first four bytes, and whose
second pass does not. -/
theorem AESCryptor.write_prepare_second_pass (prim : Primitives) (fuel : Nat)
    (c c0 : AESCryptor) (fd : File) (pos : Nat) (src : List Nat) (idx v w : Nat) (R : iv_table)
    (hget : c.get_iv_table fd pos = .ok (c0, idx))
    (hR : c0.m_iv_buffer.getD idx iv_table.zero = R)
    (hv : (if (R.iv1 + 1) % 4294967296 = 0 then ((R.iv1 + 1) % 4294967296 + 1) % 4294967296
      else (R.iv1 + 1) % 4294967296) = v)
    (heq : (calc_hmac prim (c0.crypt prim .mode_Encrypt pos src v) block_size
      c0.m_hmacKey).take 4 = R.hmac1.take 4)
    (hw : (if (v + 1) % 4294967296 = 0 then ((v + 1) % 4294967296 + 1) % 4294967296
      else (v + 1) % 4294967296) = w)
    (hne : (calc_hmac prim (c0.crypt prim .mode_Encrypt pos src w) block_size
      c0.m_hmacKey).take 4 ≠ R.hmac1.take 4) :
    c.write_prepare prim (fuel + 2) fd pos src =
      .ok ({ c0 with
              m_rw_buffer := c0.crypt prim .mode_Encrypt pos src w,
              m_iv_buffer := (c0.m_iv_buffer.set idx
                { iv1 := w,
                  hmac1 := calc_hmac prim (c0.crypt prim .mode_Encrypt pos src w) block_size
                    c0.m_hmacKey,
                  iv2 := R.iv1, hmac2 := R.hmac1 }) }, idx) := by
  simp only [AESCryptor.write_prepare, hget, hR, AESCryptor.bump_iv, iv_table.keep_previous, hv,
    if_pos heq, hw, if_neg hne]

/-- The second write of the example, 4096 bytes 6 over the block that holds the
bytes 7: the first pass of the `do ... while` loop (`iv1 = 2`) yields the digest
of the previous write, the second pass (`iv1 = 3`) ends the loop. -/
theorem example_second_write (c1 : AESCryptor) (fd1 : File)
    (hrec : c1.m_iv_buffer.getD 0 iv_table.zero
      = { iv1 := 1, hmac1 := List.replicate 28 8, iv2 := 0, hmac2 := List.replicate 28 0 })
    (hlt : 0 < c1.m_iv_buffer.length) :
    ∃ c2 fd2, c1.write_block examplePrimitives 2 fd1 0 (List.replicate block_size 6)
        = .ok (c2, fd2) ∧
      (c2.m_iv_buffer.getD 0 iv_table.zero).iv1 = 3 := by
  have hprep := AESCryptor.write_prepare_second_pass examplePrimitives 0 c1 c1 fd1 0
    (List.replicate block_size 6) 0 2 3 _ (c1.get_iv_table_cached fd1 0 hlt) hrec (by simp)
    (by rw [examplePrimitives_digest]) (by simp)
    (by rw [examplePrimitives_digest]; simp)
  have hw := AESCryptor.write_block_of_prepare _ _ _ _ _ _ _ _ hprep
  exact ⟨_, _, hw, by rw [getD_set_self _ _ _ _ hlt]⟩

/-- C11: a block write by `AESCryptor::write` (one pass of its `while` loop, with
any bound `fuel` on the passes of the inner `do ... while` loop) leaves the
record of the block with `(iv2, hmac2)` equal to the `(iv1, hmac1)` of the
record `get_iv_table` returned for the block, and the 64 bytes of the file at
`iv_table_pos(pos)` are that record. -/
theorem AESCryptor.write_keeps_previous_pair (prim : Primitives) (fuel : Nat)
    (c c2 : AESCryptor) (fd fd2 : File) (pos : Nat) (src : List Nat)
    (h : c.write_block prim fuel fd pos src = .ok (c2, fd2)) :
    ∃ c1, c.get_iv_table fd pos = .ok (c1, pos / block_size) ∧
      (c2.m_iv_buffer.getD (pos / block_size) iv_table.zero).iv2
        = (c1.m_iv_buffer.getD (pos / block_size) iv_table.zero).iv1 ∧
      (c2.m_iv_buffer.getD (pos / block_size) iv_table.zero).hmac2
        = (c1.m_iv_buffer.getD (pos / block_size) iv_table.zero).hmac1 ∧
      fd2.slice (iv_table_pos pos) metadata_size
        = (c2.m_iv_buffer.getD (pos / block_size) iv_table.zero).toBytes :=
  AESCryptor.write_block_previous prim fuel c c2 fd fd2 pos src h

/-- C11, at a concrete input: the example cryptor writes 4096 bytes 7, then 4096
bytes 6 over them; the second write bumps the IV twice (to 3) and its record
keeps the pair `(1, 8 ...)` of the first write. -/
theorem AESCryptor.write_keeps_previous_pair_witness :
    ∃ c1 fd1 c2 fd2,
      exampleCryptor.write examplePrimitives 1 exampleFile 0
        (List.replicate block_size 7) block_size = .ok (c1, fd1) ∧
      c1.write_block examplePrimitives 2 fd1 0 (List.replicate block_size 6) = .ok (c2, fd2) ∧
      (c2.m_iv_buffer.getD 0 iv_table.zero).iv1 = 3 ∧
      (c2.m_iv_buffer.getD 0 iv_table.zero).iv2 = 1 ∧
      (c2.m_iv_buffer.getD 0 iv_table.zero).hmac2 = List.replicate 28 8 := by
  obtain ⟨c1, fd1, hw1, hrec, hlt⟩ := example_first_write
  obtain ⟨c2, fd2, hw2, h3⟩ := example_second_write c1 fd1 hrec hlt
  obtain ⟨c1b, hget, hiv, hh, _⟩ :=
    AESCryptor.write_keeps_previous_pair examplePrimitives 2 c1 c2 fd1 fd2 0 _ hw2
  have h0 : 0 / block_size = 0 := by decide
  rw [h0] at hget hiv hh
  rw [c1.get_iv_table_cached fd1 0 hlt] at hget
  cases hget
  rw [hrec] at hiv hh
  exact ⟨c1, fd1, c2, fd2, hw1, hw2, h3, hiv, hh⟩

/-! ## Properties of tables -/

namespace tightdb

theorem Table.GetColumnRefPos.loop_counts (column_ndx : Nat) :
    ∀ (entries : List ColumnType) (pos current_column : Nat),
      current_column ≤ column_ndx →
      column_ndx - current_column < (entries.filter (fun type => !type.isAttribute)).length →
      Table.GetColumnRefPos.loop column_ndx entries pos current_column
        = some (pos
          + ((entries.filter (fun type => !type.isAttribute)).take
              (column_ndx - current_column)).length
          + (((entries.filter (fun type => !type.isAttribute)).take
              (column_ndx - current_column)).filter
                (fun type => type = .COLUMN_TYPE_STRING_ENUM)).length) := by
  intro entries
  induction entries with
  | nil => intro pos cur _ h; simp at h
  | cons type rest ih =>
    intro pos cur hle hlt
    simp only [Table.GetColumnRefPos.loop]
    by_cases hc : cur = column_ndx
    · subst hc
      simp
    · rw [if_neg hc]
      by_cases ha : ColumnType.COLUMN_ATTR_INDEXED.value ≤ type.value
      · have hattr : type.isAttribute = true := by simp [ColumnType.isAttribute, ha]
        rw [if_pos ha, ih pos cur hle (by simpa [List.filter_cons, hattr] using hlt)]
        simp [List.filter_cons, hattr]
      · have hattr : type.isAttribute = false := by simp [ColumnType.isAttribute, ha]
        have hsub : column_ndx - cur = (column_ndx - (cur + 1)) + 1 := by omega
        rw [if_neg ha]
        simp only [List.filter_cons, hattr, Bool.not_false, if_true, List.length_cons] at hlt ⊢
        rw [hsub] at hlt ⊢
        by_cases he : type.value < ColumnType.COLUMN_TYPE_STRING_ENUM.value
        · have hne : type ≠ .COLUMN_TYPE_STRING_ENUM := by
            intro h; subst h; exact absurd he (by decide)
          rw [if_pos he, ih (pos + 1) (cur + 1) (by omega) (by omega)]
          simp only [List.take_succ_cons, List.filter_cons, decide_eq_true_eq, hne, if_false,
            List.length_cons]
          congr 1
          omega
        · have heq : type = .COLUMN_TYPE_STRING_ENUM := by
            cases type <;> first | rfl | exact absurd (by decide) he | exact absurd (by decide) ha
          rw [if_neg he, ih (pos + 2) (cur + 1) (by omega) (by omega)]
          simp only [List.take_succ_cons, List.filter_cons, decide_eq_true_eq, heq, if_true,
            List.length_cons]
          congr 1
          omega

/-- How `GetColumnRefPos` counts: one per user-visible column before `column_ndx`,
one more per `STRING_ENUM` among them. -/
theorem Table.GetColumnRefPos_eq (t : Table) (column_ndx : Nat)
    (h : column_ndx < t.GetColumnCount) :
    t.GetColumnRefPos column_ndx
      = some ((t.m_spec_set.columns.take column_ndx).length
          + ((t.m_spec_set.columns.take column_ndx).filter
              (fun type => type = .COLUMN_TYPE_STRING_ENUM)).length) := by
  have hspec := Table.GetColumnRefPos.loop_counts column_ndx t.m_spec_set.m_spec 0 0
    (Nat.zero_le _) (by simpa [Table.GetColumnCount, Spec.GetColumnCount, Spec.columns] using h)
  simpa [Table.GetColumnRefPos, Spec.columns] using hspec

/-- C20: for every Spec and every valid user-column index `column_ndx`,
`GetColumnRefPos` returns (the trailing `assert(false)` is not reached) the
number of non-attribute entries before user column `column_ndx` plus the number
of `STRING_ENUM` entries among them. -/
theorem Table.GetColumnRefPos_counts (t : Table) (column_ndx : Nat)
    (h : column_ndx < t.GetColumnCount) :
    t.GetColumnRefPos column_ndx
      = some ((t.m_spec_set.columns.take column_ndx).length
          + ((t.m_spec_set.columns.take column_ndx).filter
              (fun type => type = .COLUMN_TYPE_STRING_ENUM)).length) :=
  Table.GetColumnRefPos_eq t column_ndx h

/-- C20, at a concrete input: with the entries STRING_ENUM, ATTR_INDEXED, INT,
STRING_ENUM, MIXED the column of index 3 starts at slot 3 + 2. -/
theorem Table.GetColumnRefPos_counts_witness :
    3 < exampleLayout.GetColumnCount ∧ exampleLayout.GetColumnRefPos 3 = some 5 :=
  ⟨by decide, (Table.GetColumnRefPos_counts exampleLayout 3 (by decide)).trans (by decide)⟩

/-- C19: `Optimize` on a table with the columns `a : STRING`, `b : STRING`,
`c : INT`, each cached column having parent slot `GetColumnRefPos(i)` before the
call, when `AutoEnumerate` succeeds on both string columns: `m_columns` gets five
slots and `GetColumnRefPos(2)` is 4, but the cached column `c` keeps parent slot
3, because the second `UpdateColumnRefs(column_ndx + 1, 1)` starts at index 3 of
`m_cols`. -/
theorem Table.Optimize_stale_parent_slot :
    (∀ i column, exampleStrings.m_cols[i]? = some column →
      exampleStrings.GetColumnRefPos i = some column.m_parentNdx) ∧
    ∃ t, exampleStrings.Optimize exampleAutoEnumerate = .ok t ∧
      t.m_columns = [100, 101, 100, 101, 3] ∧
      t.m_cols.map (fun column => column.m_parentNdx) = [0, 2, 3] ∧
      t.GetColumnRefPos 2 = some 4 := by
  refine ⟨?_, ?_⟩
  · intro i column h
    match i, h with
    | 0, h => cases h; rfl
    | 1, h => cases h; rfl
    | 2, h => cases h; rfl
    | n + 3, h => simp [exampleStrings] at h
  · exact ⟨_, rfl, rfl, rfl, rfl⟩

theorem ColumnType.isAttribute_of_newColumn (type : ColumnType) (data : ColumnData)
    (h : Table.register_column.newColumn type = some data) :
    type.isAttribute = false ∧ data.Size = 0 := by
  cases type <;> simp [Table.register_column.newColumn] at h <;> subst h <;>
    exact ⟨by decide, rfl⟩

theorem insertRow_length {α : Type} (rows rows1 : List α) (ndx : Nat) (value : α)
    (h : insertRow rows ndx value = .ok rows1) : rows1.length = rows.length + 1 := by
  simp only [insertRow] at h
  split at h
  · cases h
    simp only [List.length_append, List.length_take, List.length_cons, List.length_drop]
    omega
  · cases h

theorem setRow_length {α : Type} (rows rows1 : List α) (ndx : Nat) (value : α)
    (h : setRow rows ndx value = .ok rows1) : rows1.length = rows.length := by
  simp only [setRow] at h
  split at h
  · cases h
    simp
  · cases h

theorem deleteRow_length {α : Type} (rows rows1 : List α) (ndx : Nat)
    (h : deleteRow rows ndx = .ok rows1) : rows1.length = rows.length - 1 := by
  simp only [deleteRow] at h
  split at h
  · cases h
    rw [List.length_eraseIdx]
    simp [*]
  · cases h

theorem except_map_ok {α β : Type} (f : α → β) (x : Except Failure α) (b : β)
    (h : x.map f = .ok b) : ∃ a, x = .ok a ∧ f a = b := by
  cases x with
  | error e => cases h
  | ok a => exact ⟨a, rfl, by cases h; rfl⟩

theorem Column.Insert_resizes (ndx : Nat) (value : Int) :
    ResizesBy (fun data => Column.Insert data ndx value) (fun size => size + 1) := by
  intro data data1 h
  cases data <;> simp only [Column.Insert] at h <;>
    first
    | cases h
    | (obtain ⟨rows, hr, rfl⟩ := except_map_ok _ _ _ h
       simpa [ColumnData.Size] using insertRow_length _ _ _ _ hr)

theorem Column.Set_resizes (ndx : Nat) (value : Int) :
    ResizesBy (fun data => Column.Set data ndx value) (fun size => size) := by
  intro data data1 h
  cases data <;> simp only [Column.Set] at h <;>
    first
    | cases h
    | (obtain ⟨rows, hr, rfl⟩ := except_map_ok _ _ _ h
       simpa [ColumnData.Size] using setRow_length _ _ _ _ hr)

theorem AdaptiveStringColumn.Insert_string_resizes (ndx : Nat) (value : String) :
    ResizesBy (fun data => AdaptiveStringColumn.Insert data ndx value) (fun size => size + 1) := by
  intro data data1 h
  cases data <;> simp only [AdaptiveStringColumn.Insert] at h <;>
    first
    | cases h
    | (obtain ⟨rows, hr, rfl⟩ := except_map_ok _ _ _ h
       simpa [ColumnData.Size] using insertRow_length _ _ _ _ hr)

theorem AdaptiveStringColumn.Set_string_resizes (ndx : Nat) (value : String) :
    ResizesBy (fun data => AdaptiveStringColumn.Set data ndx value) (fun size => size) := by
  intro data data1 h
  cases data <;> simp only [AdaptiveStringColumn.Set] at h <;>
    first
    | cases h
    | (obtain ⟨rows, hr, rfl⟩ := except_map_ok _ _ _ h
       simpa [ColumnData.Size] using setRow_length _ _ _ _ hr)

theorem ColumnStringEnum.Insert_enum_resizes (ndx : Nat) (value : String) :
    ResizesBy (fun data => ColumnStringEnum.Insert data ndx value) (fun size => size + 1) := by
  intro data data1 h
  cases data <;> simp only [ColumnStringEnum.Insert] at h <;>
    first
    | cases h
    | (obtain ⟨rows, hr, rfl⟩ := except_map_ok _ _ _ h
       simpa [ColumnData.Size] using insertRow_length _ _ _ _ hr)

theorem ColumnStringEnum.Set_enum_resizes (ndx : Nat) (value : String) :
    ResizesBy (fun data => ColumnStringEnum.Set data ndx value) (fun size => size) := by
  intro data data1 h
  cases data <;> simp only [ColumnStringEnum.Set] at h <;>
    first
    | cases h
    | (obtain ⟨rows, hr, rfl⟩ := except_map_ok _ _ _ h
       simpa [ColumnData.Size] using setRow_length _ _ _ _ hr)

theorem ColumnBinary.Insert_binary_resizes (ndx : Nat) (value : List Nat) (len : Nat) :
    ResizesBy (fun data => ColumnBinary.Insert data ndx value len) (fun size => size + 1) := by
  intro data data1 h
  cases data <;> simp only [ColumnBinary.Insert] at h <;>
    first
    | cases h
    | (obtain ⟨rows, hr, rfl⟩ := except_map_ok _ _ _ h
       simpa [ColumnData.Size] using insertRow_length _ _ _ _ hr)

theorem ColumnBinary.Set_binary_resizes (ndx : Nat) (value : List Nat) (len : Nat) :
    ResizesBy (fun data => ColumnBinary.Set data ndx value len) (fun size => size) := by
  intro data data1 h
  cases data <;> simp only [ColumnBinary.Set] at h <;>
    first
    | cases h
    | (obtain ⟨rows, hr, rfl⟩ := except_map_ok _ _ _ h
       simpa [ColumnData.Size] using setRow_length _ _ _ _ hr)

theorem ColumnMixed.Insert_mixed_resizes (ndx : Nat) (value : Mixed) :
    ResizesBy (fun data => ColumnMixed.Insert data ndx value) (fun size => size + 1) := by
  intro data data1 h
  cases data <;> simp only [ColumnMixed.Insert] at h <;>
    first
    | cases h
    | (obtain ⟨rows, hr, rfl⟩ := except_map_ok _ _ _ h
       simpa [ColumnData.Size] using insertRow_length _ _ _ _ hr)

theorem ColumnMixed.Set_mixed_resizes (ndx : Nat) (value : Mixed) :
    ResizesBy (fun data => ColumnMixed.Set data ndx value) (fun size => size) := by
  intro data data1 h
  cases data <;> simp only [ColumnMixed.Set] at h <;>
    first
    | cases h
    | (obtain ⟨rows, hr, rfl⟩ := except_map_ok _ _ _ h
       simpa [ColumnData.Size] using setRow_length _ _ _ _ hr)

theorem ColumnTable.Insert_table_resizes (ndx : Nat) :
    ResizesBy (fun data => ColumnTable.Insert data ndx) (fun size => size + 1) := by
  intro data data1 h
  cases data <;> simp only [ColumnTable.Insert] at h <;>
    first
    | cases h
    | (split at h
       · exact Column.Insert_resizes ndx 0 _ _ h
       · cases h)

theorem Table.mixedSwitch_resizes (f : ColumnData → Except Failure ColumnData) (g : Nat → Nat)
    (value : Mixed) (hf : ResizesBy f g) : ResizesBy (Table.mixedSwitch f value) g := by
  intro data data1 h
  cases value <;> exact hf _ _ h

theorem ColumnData.Add_size (data : ColumnData) : data.Add.Size = data.Size + 1 := by
  cases data <;> simp [ColumnData.Add, ColumnData.Size]

theorem ColumnData.Clear_size (data : ColumnData) : data.Clear.Size = 0 := by
  cases data <;> simp [ColumnData.Clear, ColumnData.Size]

theorem ColumnData.Delete_resizes (ndx : Nat) :
    ResizesBy (fun data => data.Delete ndx) (fun size => size - 1) := by
  intro data data1 h
  cases data <;> simp only [ColumnData.Delete] at h <;>
    (obtain ⟨rows, hr, rfl⟩ := except_map_ok _ _ _ h
     simpa [ColumnData.Size] using deleteRow_length _ _ _ hr)

theorem Table.GetColumnBase_cached : ReturnsCached Table.GetColumnBase := by
  intro t ndx t1 column hv h
  simp only [Table.GetColumnBase, Table.InstantiateBeforeChange, hv, Bool.not_true,
    Bool.false_eq_true, if_false] at h
  split at h
  · cases hc : t.m_cols[ndx]? with
    | none => rw [hc] at h; cases h
    | some c =>
      rw [hc] at h
      cases h
      exact ⟨rfl, rfl⟩
  · cases h

theorem Table.GetColumn_cached : ReturnsCached Table.GetColumn := by
  intro t ndx t1 column hv h
  simp only [Table.GetColumn] at h
  cases hb : t.GetColumnBase ndx with
  | error e => rw [hb] at h; cases h
  | ok r =>
    obtain ⟨t2, c⟩ := r
    rw [hb] at h
    simp only at h
    split at h
    · cases h
      exact Table.GetColumnBase_cached t ndx _ _ hv hb
    · cases h

theorem Table.GetColumnString_cached : ReturnsCached Table.GetColumnString := by
  intro t ndx t1 column hv h
  simp only [Table.GetColumnString] at h
  cases hb : t.GetColumnBase ndx with
  | error e => rw [hb] at h; cases h
  | ok r =>
    obtain ⟨t2, c⟩ := r
    rw [hb] at h
    simp only at h
    split at h
    · cases h
      exact Table.GetColumnBase_cached t ndx _ _ hv hb
    · cases h

theorem Table.GetColumnBinary_cached : ReturnsCached Table.GetColumnBinary := by
  intro t ndx t1 column hv h
  simp only [Table.GetColumnBinary] at h
  cases hb : t.GetColumnBase ndx with
  | error e => rw [hb] at h; cases h
  | ok r =>
    obtain ⟨t2, c⟩ := r
    rw [hb] at h
    simp only at h
    split at h
    · cases h
      exact Table.GetColumnBase_cached t ndx _ _ hv hb
    · cases h

theorem Table.GetColumnStringEnum_cached : ReturnsCached Table.GetColumnStringEnum :=
  Table.GetColumnBase_cached

theorem Table.GetColumnTable_cached : ReturnsCached Table.GetColumnTable :=
  Table.GetColumnBase_cached

theorem Table.GetColumnMixed_cached : ReturnsCached Table.GetColumnMixed :=
  Table.GetColumnBase_cached

/-- Replacing the rows of cached column `i` by rows of size `g` of the old size. -/
theorem Table.setColumn_resized (g : Nat → Nat) (t : Table) (i : Nat) (column : ColumnBase)
    (data : ColumnData) (hc : t.m_cols[i]? = some column) (hs : data.Size = g column.data.Size) :
    Table.Resized g [i] t (t.setColumn i { column with data := data }) := by
  have hlt : i < t.m_cols.length := by
    rcases Nat.lt_or_ge i t.m_cols.length with h | h
    · exact h
    · rw [List.getElem?_eq_none h] at hc; cases hc
  refine ⟨rfl, rfl, rfl, by simp [Table.setColumn], ?_⟩
  intro j
  simp only [Table.setColumn, List.mem_singleton]
  by_cases hj : j = i
  · subst hj
    rw [List.getElem?_set_self hlt, hc]
    simp [ColumnBase.Size, hs]
  · rw [List.getElem?_set_ne (fun h => hj h.symm)]
    cases t.m_cols[j]? <;> simp [hj]

theorem Table.modifyColumn_resized (get : Table → Nat → Except Failure (Table × ColumnBase))
    (f : ColumnData → Except Failure ColumnData) (g : Nat → Nat) (hget : ReturnsCached get)
    (hf : ResizesBy f g) (t t1 : Table) (column_id : Nat) (hv : t.m_columns_valid = true)
    (h : Table.modifyColumn get f t column_id = .ok t1) :
    Table.Resized g [column_id] t t1 := by
  simp only [Table.modifyColumn] at h
  cases hg : get t column_id with
  | error e => rw [hg] at h; cases h
  | ok r =>
    obtain ⟨t2, column⟩ := r
    rw [hg] at h
    simp only at h
    obtain ⟨rfl, hc⟩ := hget t column_id t2 column hv hg
    cases hd : f column.data with
    | error e => rw [hd] at h; cases h
    | ok data =>
      rw [hd] at h
      cases h
      exact Table.setColumn_resized g t2 column_id column data hc (hf _ _ hd)

theorem Table.Resized.nil (g : Nat → Nat) (t : Table) : Table.Resized g [] t t := by
  refine ⟨rfl, rfl, rfl, rfl, ?_⟩
  intro i
  cases t.m_cols[i]? <;> simp

theorem Table.Resized.cons_column {g : Nat → Nat} {i : Nat} {rest : List Nat} {t t1 t2 : Table}
    (h1 : Table.Resized g [i] t t1) (h2 : Table.Resized g rest t1 t2) (hi : i ∉ rest) :
    Table.Resized g (i :: rest) t t2 := by
  refine ⟨h2.valid.trans h1.valid, h2.m_size.trans h1.m_size, h2.spec.trans h1.spec,
    h2.length.trans h1.length, ?_⟩
  intro j
  rw [h2.sizes j, h1.sizes j]
  cases (t.m_cols[j]?).map ColumnBase.Size with
  | none => rfl
  | some size =>
    simp only [Option.map_some', List.mem_singleton, List.mem_cons]
    by_cases hj : j = i
    · subst hj
      simp [hi]
    · simp [hj]

theorem Table.Resized.attached {g : Nat → Nat} {ids : List Nat} {t t1 : Table}
    (h : Table.Resized g ids t t1) (ha : t.Attached) : t1.Attached :=
  ⟨h.valid.trans ha.valid, by
    rw [h.length, ha.cached, Table.GetColumnCount, Table.GetColumnCount, h.spec]⟩

theorem Table.uniform_iff (t : Table) (n : Nat) :
    (∀ column ∈ t.m_cols, column.Size = n)
      ↔ ∀ i, i < t.m_cols.length → (t.m_cols[i]?).map ColumnBase.Size = some n := by
  constructor
  · intro h i hi
    rw [List.getElem?_eq_getElem hi]
    simp only [Option.map_some', Option.some.injEq]
    exact h _ (List.getElem_mem _)
  · intro h column hc
    obtain ⟨i, hi, rfl⟩ := List.getElem_of_mem hc
    have := h i hi
    rw [List.getElem?_eq_getElem hi] at this
    simpa using this

/-- When every column is resized, a uniform table becomes uniform at the new size. -/
theorem Table.Resized.uniform_all {g : Nat → Nat} {ids : List Nat} {t t1 : Table}
    (h : Table.Resized g ids t t1) (hu : t.Uniform)
    (hall : ∀ i, i < t.m_cols.length → i ∈ ids) :
    ∀ column ∈ t1.m_cols, column.Size = g t.m_size := by
  rw [Table.uniform_iff]
  intro i hi
  rw [h.length] at hi
  rw [h.sizes i, (Table.uniform_iff t t.m_size).1 hu i hi]
  simp [hall i hi]

/-- When sizes are kept, a uniform table stays uniform. -/
theorem Table.Resized.uniform_same {ids : List Nat} {t t1 : Table}
    (h : Table.Resized (fun size => size) ids t t1) (hu : t.Uniform) : t1.Uniform := by
  unfold Table.Uniform
  rw [h.m_size, Table.uniform_iff]
  intro i hi
  rw [h.length] at hi
  rw [h.sizes i, (Table.uniform_iff t t.m_size).1 hu i hi]
  simp

theorem Table.forColumns_resized (f : ColumnData → Except Failure ColumnData) (g : Nat → Nat)
    (hf : ResizesBy f g) :
    ∀ (ids : List Nat) (t t1 : Table), t.m_columns_valid = true → ids.Nodup →
      Table.forColumns f ids t = .ok t1 → Table.Resized g ids t t1 := by
  intro ids
  induction ids with
  | nil =>
    intro t t1 _ _ h
    simp only [Table.forColumns] at h
    cases h
    exact Table.Resized.nil g t
  | cons i rest ih =>
    intro t t1 hv hnd h
    have hstep : ∃ t2, Table.modifyColumn Table.GetColumnBase f t i = .ok t2 ∧
        Table.forColumns f rest t2 = .ok t1 := by
      simp only [Table.forColumns] at h
      simp only [Table.modifyColumn]
      cases hb : t.GetColumnBase i with
      | error e => rw [hb] at h; cases h
      | ok r =>
        obtain ⟨t3, column⟩ := r
        rw [hb] at h
        simp only at h ⊢
        cases hd : f column.data with
        | error e => rw [hd] at h; cases h
        | ok data =>
          rw [hd] at h
          exact ⟨_, rfl, h⟩
    obtain ⟨t2, h1, h2⟩ := hstep
    have r1 := Table.modifyColumn_resized _ f g Table.GetColumnBase_cached hf t t2 i hv h1
    rw [List.nodup_cons] at hnd
    exact r1.cons_column (ih t2 t1 (r1.valid.trans hv) hnd.2 h2) hnd.1

theorem Table.Set_resized (t t1 : Table) (column_id ndx : Nat) (value : Int)
    (hv : t.m_columns_valid = true) (h : t.Set column_id ndx value = .ok t1) :
    Table.Resized (fun size => size) [column_id] t t1 := by
  simp only [Table.Set] at h
  split at h
  · split at h
    · exact Table.modifyColumn_resized _ _ _ Table.GetColumn_cached (Column.Set_resizes ndx value)
        t t1 column_id hv h
    · cases h
  · cases h

theorem Table.setTyped_resized (expected : ColumnType) (t t1 : Table) (column_id ndx : Nat)
    (value : Int) (hv : t.m_columns_valid = true)
    (h : Table.setTyped expected t column_id ndx value = .ok t1) :
    Table.Resized (fun size => size) [column_id] t t1 := by
  simp only [Table.setTyped] at h
  split at h
  · cases ht : t.GetRealColumnType column_id with
    | error e => rw [ht] at h; cases h
    | ok type =>
      rw [ht] at h
      simp only at h
      split at h
      · split at h
        · exact Table.modifyColumn_resized _ _ _ Table.GetColumn_cached
            (Column.Set_resizes ndx value) t t1 column_id hv h
        · cases h
      · cases h
  · cases h

theorem Table.InsertInt_resized (t t1 : Table) (column_id ndx : Nat) (value : Int)
    (hv : t.m_columns_valid = true) (h : t.InsertInt column_id ndx value = .ok t1) :
    Table.Resized (fun size => size + 1) [column_id] t t1 := by
  simp only [Table.InsertInt] at h
  split at h
  · split at h
    · exact Table.modifyColumn_resized _ _ _ Table.GetColumn_cached
        (Column.Insert_resizes ndx value) t t1 column_id hv h
    · cases h
  · cases h

theorem Table.modifyString_resized (fString fEnum : ColumnData → Except Failure ColumnData)
    (g : Nat → Nat) (h1 : ResizesBy fString g) (h2 : ResizesBy fEnum g) (t t1 : Table)
    (column_id : Nat) (hv : t.m_columns_valid = true)
    (h : Table.modifyString fString fEnum t column_id = .ok t1) :
    Table.Resized g [column_id] t t1 := by
  simp only [Table.modifyString] at h
  cases ht : t.GetRealColumnType column_id with
  | error e => rw [ht] at h; cases h
  | ok type =>
    rw [ht] at h
    simp only at h
    split at h
    · exact Table.modifyColumn_resized _ _ _ Table.GetColumnString_cached h1 t t1 column_id hv h
    · split at h
      · exact Table.modifyColumn_resized _ _ _ Table.GetColumnStringEnum_cached h2 t t1 column_id hv h
      · cases h

theorem Table.SetString_resized (t t1 : Table) (column_id ndx : Nat) (value : String)
    (hv : t.m_columns_valid = true) (h : t.SetString column_id ndx value = .ok t1) :
    Table.Resized (fun size => size) [column_id] t t1 := by
  simp only [Table.SetString] at h
  split at h
  · split at h
    · exact Table.modifyString_resized _ _ _ (AdaptiveStringColumn.Set_string_resizes ndx value)
        (ColumnStringEnum.Set_enum_resizes ndx value) t t1 column_id hv h
    · cases h
  · cases h

theorem Table.InsertString_resized (t t1 : Table) (column_id ndx : Nat) (value : String)
    (hv : t.m_columns_valid = true) (h : t.InsertString column_id ndx value = .ok t1) :
    Table.Resized (fun size => size + 1) [column_id] t t1 := by
  simp only [Table.InsertString] at h
  split at h
  · split at h
    · exact Table.modifyString_resized _ _ _ (AdaptiveStringColumn.Insert_string_resizes ndx value)
        (ColumnStringEnum.Insert_enum_resizes ndx value) t t1 column_id hv h
    · cases h
  · cases h

theorem Table.SetBinary_resized (t t1 : Table) (column_id ndx : Nat) (value : List Nat)
    (len : Nat) (hv : t.m_columns_valid = true)
    (h : t.SetBinary column_id ndx value len = .ok t1) :
    Table.Resized (fun size => size) [column_id] t t1 := by
  simp only [Table.SetBinary] at h
  split at h
  · split at h
    · exact Table.modifyColumn_resized _ _ _ Table.GetColumnBinary_cached
        (ColumnBinary.Set_binary_resizes ndx value len) t t1 column_id hv h
    · cases h
  · cases h

theorem Table.InsertBinary_resized (t t1 : Table) (column_id ndx : Nat) (value : List Nat)
    (len : Nat) (hv : t.m_columns_valid = true)
    (h : t.InsertBinary column_id ndx value len = .ok t1) :
    Table.Resized (fun size => size + 1) [column_id] t t1 := by
  simp only [Table.InsertBinary] at h
  split at h
  · split at h
    · exact Table.modifyColumn_resized _ _ _ Table.GetColumnBinary_cached
        (ColumnBinary.Insert_binary_resizes ndx value len) t t1 column_id hv h
    · cases h
  · cases h

theorem Table.SetMixed_resized (t t1 : Table) (column_id ndx : Nat) (value : Mixed)
    (hv : t.m_columns_valid = true) (h : t.SetMixed column_id ndx value = .ok t1) :
    Table.Resized (fun size => size) [column_id] t t1 := by
  simp only [Table.SetMixed] at h
  split at h
  · split at h
    · exact Table.modifyColumn_resized _ _ _ Table.GetColumnMixed_cached
        (Table.mixedSwitch_resizes _ _ value (ColumnMixed.Set_mixed_resizes ndx value)) t t1 column_id
        hv h
    · cases h
  · cases h

theorem Table.InsertMixed_resized (t t1 : Table) (column_id ndx : Nat) (value : Mixed)
    (hv : t.m_columns_valid = true) (h : t.InsertMixed column_id ndx value = .ok t1) :
    Table.Resized (fun size => size + 1) [column_id] t t1 := by
  simp only [Table.InsertMixed] at h
  split at h
  · split at h
    · exact Table.modifyColumn_resized _ _ _ Table.GetColumnMixed_cached
        (Table.mixedSwitch_resizes _ _ value (ColumnMixed.Insert_mixed_resizes ndx value)) t t1
        column_id hv h
    · cases h
  · cases h

theorem Table.InsertTable_resized (t t1 : Table) (column_id ndx : Nat)
    (hv : t.m_columns_valid = true) (h : t.InsertTable column_id ndx = .ok t1) :
    Table.Resized (fun size => size + 1) [column_id] t t1 := by
  simp only [Table.InsertTable] at h
  split at h
  · cases ht : t.GetRealColumnType column_id with
    | error e => rw [ht] at h; cases h
    | ok type =>
      rw [ht] at h
      simp only at h
      split at h
      · split at h
        · exact Table.modifyColumn_resized _ _ _ Table.GetColumnTable_cached
            (ColumnTable.Insert_table_resizes ndx) t t1 column_id hv h
        · cases h
      · cases h
  · cases h

theorem InsertCall.run_resized (call : InsertCall) (ndx : Nat) (t t1 : Table)
    (hv : t.m_columns_valid = true) (h : call.run ndx t = .ok t1) :
    Table.Resized (fun size => size + 1) [call.column_id] t t1 := by
  cases call with
  | InsertInt column_id value => exact Table.InsertInt_resized t t1 column_id ndx value hv h
  | InsertString column_id value => exact Table.InsertString_resized t t1 column_id ndx value hv h
  | InsertBinary column_id value len =>
    exact Table.InsertBinary_resized t t1 column_id ndx value len hv h
  | InsertMixed column_id value => exact Table.InsertMixed_resized t t1 column_id ndx value hv h
  | InsertTable column_id => exact Table.InsertTable_resized t t1 column_id ndx hv h

theorem Table.insertCalls_resized (ndx : Nat) :
    ∀ (calls : List InsertCall) (t t1 : Table), t.m_columns_valid = true →
      (calls.map InsertCall.column_id).Nodup → Table.insertCalls ndx calls t = .ok t1 →
      Table.Resized (fun size => size + 1) (calls.map InsertCall.column_id) t t1 := by
  intro calls
  induction calls with
  | nil =>
    intro t t1 _ _ h
    simp only [Table.insertCalls] at h
    cases h
    exact Table.Resized.nil _ t
  | cons call rest ih =>
    intro t t1 hv hnd h
    simp only [Table.insertCalls] at h
    cases hr : call.run ndx t with
    | error e => rw [hr] at h; cases h
    | ok t2 =>
      rw [hr] at h
      simp only at h
      have r1 := InsertCall.run_resized call ndx t t2 hv hr
      rw [List.map_cons, List.nodup_cons] at hnd
      exact r1.cons_column (ih t2 t1 (r1.valid.trans hv) hnd.2 h) hnd.1

theorem Table.new_attached (alloc : Nat) : (Table.new alloc).Attached := ⟨rfl, rfl⟩

theorem Table.register_column_uniform (t t1 : Table) (type : ColumnType) (name : String)
    (column_ndx : Nat) (ha : t.Attached) (hu : t.Uniform) (h0 : t.m_size = 0)
    (h : t.register_column type name = .ok (t1, column_ndx)) : t1.Attached ∧ t1.Uniform := by
  simp only [Table.register_column] at h
  cases hn : Table.register_column.newColumn type with
  | none => rw [hn] at h; cases h
  | some data =>
    rw [hn] at h
    simp only [Except.ok.injEq, Prod.mk.injEq] at h
    obtain ⟨rfl, _⟩ := h
    obtain ⟨hattr, hsize⟩ := ColumnType.isAttribute_of_newColumn type data hn
    refine ⟨⟨ha.valid, ?_⟩, ?_⟩
    · have hc := ha.cached
      simp only [Table.GetColumnCount, Spec.GetColumnCount, Spec.columns] at hc
      simp [Table.addColumn, Table.GetColumnCount, Spec.GetColumnCount, Spec.columns,
        Spec.AddColumn, List.filter_append, hattr, hc]
    · intro column hc
      simp only [Table.addColumn, List.mem_append, List.mem_singleton] at hc
      rcases hc with hc | rfl
      · exact hu column hc
      · simp [ColumnBase.Size, hsize, Table.addColumn, h0]

theorem Table.forColumns_uniform (f : ColumnData → Except Failure ColumnData) (g : Nat → Nat)
    (hf : ResizesBy f g) (t t1 : Table) (ha : t.Attached) (hu : t.Uniform)
    (h : Table.forColumns f (List.range t.GetColumnCount) t = .ok t1) :
    t1.Attached ∧ t1.m_size = t.m_size ∧ ∀ column ∈ t1.m_cols, column.Size = g t.m_size := by
  have hr := Table.forColumns_resized f g hf _ t t1 ha.valid (List.nodup_range _) h
  refine ⟨hr.attached ha, hr.m_size, hr.uniform_all hu ?_⟩
  intro i hi
  rw [ha.cached] at hi
  exact List.mem_range.2 hi

theorem Table.AddRow_uniform (t t1 : Table) (ndx : Nat) (ha : t.Attached) (hu : t.Uniform)
    (h : t.AddRow = .ok (t1, ndx)) : t1.Attached ∧ t1.Uniform ∧ t1.m_size = t.m_size + 1 := by
  simp only [Table.AddRow] at h
  cases hf : Table.forColumns (fun data => .ok data.Add) (List.range t.GetColumnCount) t with
  | error e => rw [hf] at h; cases h
  | ok t2 =>
    rw [hf] at h
    simp only [Except.ok.injEq, Prod.mk.injEq] at h
    obtain ⟨rfl, _⟩ := h
    obtain ⟨ha2, hs, hsizes⟩ := Table.forColumns_uniform _ (fun size => size + 1)
      (fun data data1 hd => by cases hd; exact data.Add_size) t t2 ha hu hf
    exact ⟨⟨ha2.valid, ha2.cached⟩, fun column hc => by simpa [hs] using hsizes column hc,
      by simp [hs]⟩

theorem Table.Clear_uniform (t t1 : Table) (ha : t.Attached) (hu : t.Uniform)
    (h : t.Clear = .ok t1) : t1.Attached ∧ t1.Uniform ∧ t1.m_size = 0 := by
  simp only [Table.Clear] at h
  cases hf : Table.forColumns (fun data => .ok data.Clear) (List.range t.GetColumnCount) t with
  | error e => rw [hf] at h; cases h
  | ok t2 =>
    rw [hf] at h
    simp only [Except.ok.injEq] at h
    subst h
    obtain ⟨ha2, _, hsizes⟩ := Table.forColumns_uniform _ (fun _ => 0)
      (fun data data1 hd => by cases hd; exact data.Clear_size) t t2 ha hu hf
    exact ⟨⟨ha2.valid, ha2.cached⟩, fun column hc => hsizes column hc, rfl⟩

theorem Table.DeleteRow_uniform (t t1 : Table) (ndx : Nat) (ha : t.Attached) (hu : t.Uniform)
    (h : t.DeleteRow ndx = .ok t1) :
    t1.Attached ∧ t1.Uniform ∧ t1.m_size = t.m_size - 1 ∧ ndx < t.m_size := by
  simp only [Table.DeleteRow] at h
  split at h
  · rename_i hlt
    cases hf : Table.forColumns (fun data => data.Delete ndx) (List.range t.GetColumnCount) t with
    | error e => rw [hf] at h; cases h
    | ok t2 =>
      rw [hf] at h
      simp only [Except.ok.injEq] at h
      subst h
      obtain ⟨ha2, hs, hsizes⟩ := Table.forColumns_uniform _ (fun size => size - 1)
        (ColumnData.Delete_resizes ndx) t t2 ha hu hf
      exact ⟨⟨ha2.valid, ha2.cached⟩, fun column hc => by simpa [hs] using hsizes column hc,
        by simp [hs], hlt⟩
  · cases h

theorem Table.insertBatch_uniform (t t1 : Table) (ndx : Nat) (calls : List InsertCall)
    (ha : t.Attached) (hu : t.Uniform)
    (hp : (calls.map InsertCall.column_id).Perm (List.range t.GetColumnCount))
    (h : Table.insertCalls ndx calls t = .ok t1) :
    t1.InsertDone.Attached ∧ t1.InsertDone.Uniform ∧ t1.InsertDone.m_size = t.m_size + 1 := by
  have hr := Table.insertCalls_resized ndx calls t t1 ha.valid
    (hp.nodup_iff.2 (List.nodup_range _)) h
  have ha1 := hr.attached ha
  have hsizes := hr.uniform_all hu (fun i hi => by
    rw [ha.cached] at hi
    exact hp.mem_iff.2 (List.mem_range.2 hi))
  exact ⟨⟨ha1.valid, ha1.cached⟩,
    fun column hc => by simpa [Table.InsertDone, hr.m_size] using hsizes column hc,
    by simp [Table.InsertDone, hr.m_size]⟩

theorem Spec.setEntry_columns_length (type : ColumnType) (htype : type.isAttribute = false) :
    ∀ (entries : List ColumnType) (ndx : Nat),
      ((Spec.setEntry entries ndx type).filter (fun entry => !entry.isAttribute)).length
        = (entries.filter (fun entry => !entry.isAttribute)).length := by
  intro entries
  induction entries with
  | nil => intro ndx; rfl
  | cons entry rest ih =>
    intro ndx
    simp only [Spec.setEntry]
    by_cases he : entry.isAttribute = true
    · simp [he, List.filter_cons, ih ndx]
    · have he2 : entry.isAttribute = false := by simpa using he
      cases ndx with
      | zero => simp [he2, List.filter_cons, htype]
      | succ n => simp [he2, List.filter_cons, ih n]

theorem Table.Optimize.step_uniform (AutoEnumerate : List String → Option Enumerated)
    (hAuto : ∀ values e, AutoEnumerate values = some e → e.values.length = values.length)
    (t t1 : Table) (i : Nat) (ha : t.Attached) (hu : t.Uniform)
    (h : Table.Optimize.step AutoEnumerate t i = .ok t1) :
    t1.Attached ∧ t1.Uniform ∧ t1.m_size = t.m_size := by
  simp only [Table.Optimize.step] at h
  cases ht : t.GetRealColumnType i with
  | error e => rw [ht] at h; cases h
  | ok type =>
    rw [ht] at h
    simp only at h
    split at h
    · cases hs : t.GetColumnString i with
      | error e => rw [hs] at h; cases h
      | ok r =>
        obtain ⟨t2, column⟩ := r
        rw [hs] at h
        simp only at h
        obtain ⟨rfl, hc⟩ := Table.GetColumnString_cached t i t2 column ha.valid hs
        have hmem : column ∈ t2.m_cols := by
          obtain ⟨hlt, hget⟩ := List.getElem?_eq_some_iff.1 hc
          exact hget ▸ List.getElem_mem hlt
        cases hd : column.data with
        | AdaptiveStringColumn values =>
          rw [hd] at h
          simp only at h
          cases he : AutoEnumerate values with
          | none =>
            rw [he] at h
            cases h
            exact ⟨ha, hu, rfl⟩
          | some e =>
            rw [he] at h
            simp only at h
            split at h
            · cases h
            · rename_i column_ndx hpos
              split at h
              · simp only [Except.ok.injEq] at h
                subst h
                have hlen := hAuto values e he
                have hcs : column.Size = values.length := by simp [ColumnBase.Size, hd, ColumnData.Size]
                refine ⟨⟨ha.valid, ?_⟩, ?_, rfl⟩
                · have hcount := ha.cached
                  simp only [Table.GetColumnCount, Spec.GetColumnCount, Spec.columns] at hcount
                  simp only [Table.setColumn, Table.UpdateColumnRefs, List.length_set,
                    List.length_append, List.length_take, List.length_map, List.length_drop,
                    Table.GetColumnCount, Spec.GetColumnCount, Spec.columns, Spec.SetColumnType]
                  rw [Spec.setEntry_columns_length _ (by decide), ← hcount]
                  omega
                · intro c hcm
                  simp only [Table.setColumn, Table.UpdateColumnRefs] at hcm
                  rcases List.mem_or_eq_of_mem_set hcm with hcm | rfl
                  · rw [List.mem_append] at hcm
                    rcases hcm with hcm | hcm
                    · exact hu c (List.mem_of_mem_take hcm)
                    · rw [List.mem_map] at hcm
                      obtain ⟨c0, hc0, rfl⟩ := hcm
                      exact hu c0 (List.mem_of_mem_drop hc0)
                  · show e.values.length = t2.m_size
                    rw [hlen, ← hcs]
                    exact hu column hmem
              · cases h
        | Column _ => rw [hd] at h; cases h
        | ColumnBinary _ => rw [hd] at h; cases h
        | ColumnStringEnum _ _ => rw [hd] at h; cases h
        | ColumnTable _ _ => rw [hd] at h; cases h
        | ColumnMixed _ => rw [hd] at h; cases h
    · cases h
      exact ⟨ha, hu, rfl⟩

theorem Table.Optimize.loop_uniform (AutoEnumerate : List String → Option Enumerated)
    (hAuto : ∀ values e, AutoEnumerate values = some e → e.values.length = values.length) :
    ∀ (ids : List Nat) (t t1 : Table), t.Attached → t.Uniform →
      Table.Optimize.loop AutoEnumerate ids t = .ok t1 →
      t1.Attached ∧ t1.Uniform ∧ t1.m_size = t.m_size := by
  intro ids
  induction ids with
  | nil =>
    intro t t1 ha hu h
    simp only [Table.Optimize.loop] at h
    cases h
    exact ⟨ha, hu, rfl⟩
  | cons i rest ih =>
    intro t t1 ha hu h
    simp only [Table.Optimize.loop] at h
    cases hs : Table.Optimize.step AutoEnumerate t i with
    | error e => rw [hs] at h; cases h
    | ok t2 =>
      rw [hs] at h
      simp only at h
      obtain ⟨ha2, hu2, hm2⟩ := Table.Optimize.step_uniform AutoEnumerate hAuto t t2 i ha hu hs
      obtain ⟨ha1, hu1, hm1⟩ := ih t2 t1 ha2 hu2 h
      exact ⟨ha1, hu1, hm1.trans hm2⟩

/-- Size uniformity of the tables obtained by disciplined use. -/
theorem Table.Disciplined.attached_uniform (AutoEnumerate : List String → Option Enumerated)
    (hAuto : ∀ values e, AutoEnumerate values = some e → e.values.length = values.length)
    (t : Table) (h : Table.Disciplined AutoEnumerate t) : t.Attached ∧ t.Uniform := by
  induction h with
  | new alloc => exact ⟨Table.new_attached alloc, fun column hc => by cases hc⟩
  | register_column t t1 type name column_ndx _ h0 hop ih =>
    exact Table.register_column_uniform t t1 type name column_ndx ih.1 ih.2 h0 hop
  | AddRow t t1 ndx _ hop ih =>
    exact ⟨(Table.AddRow_uniform t t1 ndx ih.1 ih.2 hop).1,
      (Table.AddRow_uniform t t1 ndx ih.1 ih.2 hop).2.1⟩
  | DeleteRow t t1 ndx _ hop ih =>
    exact ⟨(Table.DeleteRow_uniform t t1 ndx ih.1 ih.2 hop).1,
      (Table.DeleteRow_uniform t t1 ndx ih.1 ih.2 hop).2.1⟩
  | Clear t t1 _ hop ih =>
    exact ⟨(Table.Clear_uniform t t1 ih.1 ih.2 hop).1, (Table.Clear_uniform t t1 ih.1 ih.2 hop).2.1⟩
  | Set t t1 column_id ndx value _ hop ih =>
    have hr := Table.Set_resized t t1 column_id ndx value ih.1.valid hop
    exact ⟨hr.attached ih.1, hr.uniform_same ih.2⟩
  | SetBool t t1 column_id ndx value _ hop ih =>
    have hr := Table.setTyped_resized _ t t1 column_id ndx _ ih.1.valid hop
    exact ⟨hr.attached ih.1, hr.uniform_same ih.2⟩
  | SetDate t t1 column_id ndx value _ hop ih =>
    have hr := Table.setTyped_resized _ t t1 column_id ndx _ ih.1.valid hop
    exact ⟨hr.attached ih.1, hr.uniform_same ih.2⟩
  | SetString t t1 column_id ndx value _ hop ih =>
    have hr := Table.SetString_resized t t1 column_id ndx value ih.1.valid hop
    exact ⟨hr.attached ih.1, hr.uniform_same ih.2⟩
  | SetBinary t t1 column_id ndx value len _ hop ih =>
    have hr := Table.SetBinary_resized t t1 column_id ndx value len ih.1.valid hop
    exact ⟨hr.attached ih.1, hr.uniform_same ih.2⟩
  | SetMixed t t1 column_id ndx value _ hop ih =>
    have hr := Table.SetMixed_resized t t1 column_id ndx value ih.1.valid hop
    exact ⟨hr.attached ih.1, hr.uniform_same ih.2⟩
  | Optimize t t1 _ hop ih =>
    have hl := Table.Optimize.loop_uniform AutoEnumerate hAuto _ t t1 ih.1 ih.2 hop
    exact ⟨hl.1, hl.2.1⟩
  | insertBatch t t1 ndx calls _ hp hop ih =>
    have hb := Table.insertBatch_uniform t t1 ndx calls ih.1 ih.2 hp hop
    exact ⟨hb.1, hb.2.1⟩

theorem exampleAutoEnumerate_length (values : List String) (e : Enumerated)
    (h : exampleAutoEnumerate values = some e) : e.values.length = values.length := by
  simp only [exampleAutoEnumerate, Option.some.injEq] at h
  subst h
  simp

theorem exampleInserted_disciplined : Table.Disciplined exampleAutoEnumerate exampleInserted :=
  Table.Disciplined.insertBatch
    { m_size := 0,
      m_spec_set := { m_spec := [.COLUMN_TYPE_INT], m_names := ["x"], m_subSpecs := [] },
      m_columns := [1], m_columns_valid := true,
      m_cols := [{ data := .Column [], m_parentNdx := 0 }], alloc := 2 }
    { m_size := 0,
      m_spec_set := { m_spec := [.COLUMN_TYPE_INT], m_names := ["x"], m_subSpecs := [] },
      m_columns := [1], m_columns_valid := true,
      m_cols := [{ data := .Column [42], m_parentNdx := 0 }], alloc := 2 }
    0 [.InsertInt 0 42]
    (Table.Disciplined.register_column (Table.new 1) _ .COLUMN_TYPE_INT "x" 0
      (Table.Disciplined.new 1) rfl rfl)
    (List.Perm.refl [0]) rfl

/-- C18, refuted as stated: from a table just created, `register_column(INT, "x")`
then `InsertInt(0, 0, 42)` leave the cached column with one row while `m_size`
is 0; and `register_column(INT, "x")`, `AddRow()`, `register_column(STRING,
"name")` leave a table with `m_size = 1` whose second cached column has no
row. -/
theorem Table.size_uniformity_counterexample :
    (∃ t1 t2, (Table.new 1).register_column .COLUMN_TYPE_INT "x" = .ok (t1, 0) ∧
      t1.InsertInt 0 0 42 = .ok t2 ∧
      t2.m_size = 0 ∧ t2.m_cols.map ColumnBase.Size = [1] ∧ ¬ t2.Uniform) ∧
    (∃ t1 t2 t3, (Table.new 1).register_column .COLUMN_TYPE_INT "x" = .ok (t1, 0) ∧
      t1.AddRow = .ok (t2, 0) ∧
      t2.register_column .COLUMN_TYPE_STRING "name" = .ok (t3, 1) ∧
      t3.m_size = 1 ∧ t3.m_cols.map ColumnBase.Size = [1, 0] ∧ ¬ t3.Uniform) := by
  refine ⟨⟨_, _, rfl, rfl, rfl, rfl, ?_⟩, ⟨_, _, _, rfl, rfl, rfl, rfl, rfl, ?_⟩⟩
  · intro h
    exact absurd (h { data := .Column [42], m_parentNdx := 0 } (List.mem_singleton.2 rfl))
      (by decide)
  · intro h
    exact absurd (h { data := .AdaptiveStringColumn [], m_parentNdx := 1 }
      (List.mem_cons_of_mem _ (List.mem_singleton.2 rfl))) (by decide)

/-- C18, amended: starting from a freshly created table, after any sequence of
`AddRow`, `DeleteRow`, `Clear`, `Set`, `SetBool`, `SetDate`, `SetString`,
`SetBinary`, `SetMixed`, `Optimize` (with an `AutoEnumerate` that returns as many
values as the column has rows), `register_column` called while `m_size = 0`,
and insert batches made of one `Insert...` call per column at the same `ndx`
followed by `InsertDone`, every cached column reports a size equal to
`m_size`. -/
theorem Table.size_uniformity (AutoEnumerate : List String → Option Enumerated)
    (hAuto : ∀ values e, AutoEnumerate values = some e → e.values.length = values.length)
    (t : Table) (h : Table.Disciplined AutoEnumerate t) :
    ∀ column ∈ t.m_cols, column.Size = t.m_size :=
  (Table.Disciplined.attached_uniform AutoEnumerate hAuto t h).2

/-- C18, at a concrete input: the table with the column `x : INT` after the
insert batch `InsertInt(0, 0, 42)`, `InsertDone`. -/
theorem Table.size_uniformity_witness :
    Table.Disciplined exampleAutoEnumerate exampleInserted ∧
      ∀ column ∈ exampleInserted.m_cols, column.Size = exampleInserted.m_size :=
  ⟨exampleInserted_disciplined,
    Table.size_uniformity exampleAutoEnumerate exampleAutoEnumerate_length exampleInserted
      exampleInserted_disciplined⟩

/-- The example table of three columns is what the operations named build from a
table just created. -/
theorem exampleStrings_built :
    ∃ t1 t2 t3 t4 t5 t6,
      (Table.new 1).register_column .COLUMN_TYPE_STRING "a" = .ok (t1, 0) ∧
      t1.register_column .COLUMN_TYPE_STRING "b" = .ok (t2, 1) ∧
      t2.register_column .COLUMN_TYPE_INT "c" = .ok (t3, 2) ∧
      t3.AddRow = .ok (t4, 0) ∧
      t4.SetString 0 0 "x" = .ok t5 ∧
      t5.SetString 1 0 "y" = .ok t6 ∧
      t6.Set 2 0 5 = .ok exampleStrings :=
  ⟨_, _, _, _, _, _, rfl, rfl, rfl, rfl, rfl, rfl, rfl⟩

end tightdb

/-! ## Properties of encrypted file mappings -/

theorem EncryptedFileMapping.flush_page_spec (prim : Primitives) (fuel : Nat) (i : Nat)
    (m m1 : EncryptedFileMapping) (w w1 : World)
    (h : m.flush_page prim fuel i w = .ok (m1, w1)) :
    EncryptedFileMapping.Flushed m m1 w w1 [i] := by
  simp only [EncryptedFileMapping.flush_page] at h
  cases hd : m.m_dirty_pages[i]? with
  | none => rw [hd] at h; cases h
  | some b =>
    have hlt : i < m.m_dirty_pages.length := by
      rcases Nat.lt_or_ge i m.m_dirty_pages.length with hlt | hge
      · exact hlt
      · rw [List.getElem?_eq_none hge] at hd; cases hd
    rw [hd] at h
    cases b with
    | false =>
      simp only [Except.ok.injEq, Prod.mk.injEq] at h
      obtain ⟨rfl, rfl⟩ := h
      refine ⟨rfl, rfl, fun j hj => by rw [List.mem_singleton.1 hj]; exact hlt, ?_, ?_, rfl, rfl⟩
      · intro j
        by_cases hj : j = i
        · subst hj; simp [hd]
        · simp [hj]
      · simp [hd]
    | true =>
      simp only at h
      cases hw : w.file.cryptor.write prim fuel w.file.fd (i <<< m.m_page_shift)
          (memory_read w.memory (m.page_addr i) (1 <<< m.m_page_shift))
          (1 <<< m.m_page_shift) with
      | error e => rw [hw] at h; cases h
      | ok r =>
        obtain ⟨cryptor, fd⟩ := r
        rw [hw] at h
        simp only [Except.ok.injEq, Prod.mk.injEq] at h
        obtain ⟨rfl, rfl⟩ := h
        refine ⟨rfl, by simp, fun j hj => by rw [List.mem_singleton.1 hj]; exact hlt, ?_, ?_,
          rfl, rfl⟩
        · intro j
          by_cases hj : j = i
          · subst hj; simp [hd, hlt]
          · simp [hj, List.getElem?_set_ne (fun h => hj h.symm)]
        · simp [hd]

theorem EncryptedFileMapping.written_congr (m m1 : EncryptedFileMapping)
    (h : m1 = { m with m_dirty_pages := m1.m_dirty_pages }) : m1.written = m.written := by
  funext i
  rw [h]
  rfl

theorem EncryptedFileMapping.Flushed.cons_page {m m1 m2 : EncryptedFileMapping} {w w1 w2 : World}
    {i : Nat} {rest : List Nat} (h1 : EncryptedFileMapping.Flushed m m1 w w1 [i])
    (h2 : EncryptedFileMapping.Flushed m1 m2 w1 w2 rest) (hi : i ∉ rest) :
    EncryptedFileMapping.Flushed m m2 w w2 (i :: rest) := by
  have hrest : ∀ j ∈ rest, m1.m_dirty_pages[j]? = m.m_dirty_pages[j]? := by
    intro j hj
    have hne : j ≠ i := fun h => hi (h ▸ hj)
    rw [h1.dirty j]
    simp [hne]
  refine ⟨?_, h2.length.trans h1.length, ?_, ?_, ?_, h2.memory.trans h1.memory,
    h2.mappings.trans h1.mappings⟩
  · have g2 := h2.geometry
    have g1 := h1.geometry
    rw [g1] at g2
    exact g2
  · intro j hj
    rcases List.mem_cons.1 hj with rfl | hj
    · exact h1.in_range j (List.mem_singleton.2 rfl)
    · rw [← h1.length]; exact h2.in_range j hj
  · intro j
    rw [h2.dirty j]
    by_cases hj : j ∈ rest
    · have hne : j ≠ i := fun h => hi (h ▸ hj)
      simp [hj, hrest j hj]
    · rw [if_neg hj, h1.dirty j]
      simp [hj]
  · rw [h2.trace, h1.trace, EncryptedFileMapping.written_congr m m1 h1.geometry,
      List.filter_cons, List.append_assoc]
    have hf : rest.filter (fun j => m1.m_dirty_pages[j]? = some true)
        = rest.filter (fun j => m.m_dirty_pages[j]? = some true) :=
      List.filter_congr (fun j hj => by rw [hrest j hj])
    rw [hf]
    by_cases hd : m.m_dirty_pages[i]? = some true
    · simp [hd]
    · simp [hd]

theorem EncryptedFileMapping.flush.loop_flushed (prim : Primitives) (fuel : Nat) :
    ∀ (pages : List Nat) (m m1 : EncryptedFileMapping) (w w1 : World), pages.Nodup →
      EncryptedFileMapping.flush.loop prim fuel pages m w = .ok (m1, w1) →
      EncryptedFileMapping.Flushed m m1 w w1 pages := by
  intro pages
  induction pages with
  | nil =>
    intro m m1 w w1 _ h
    simp only [EncryptedFileMapping.flush.loop, Except.ok.injEq, Prod.mk.injEq] at h
    obtain ⟨rfl, rfl⟩ := h
    exact ⟨rfl, rfl, fun i hi => (by cases hi), fun i => (by simp), (by simp), rfl, rfl⟩
  | cons i rest ih =>
    intro m m1 w w1 hnd h
    simp only [EncryptedFileMapping.flush.loop] at h
    cases hp : m.flush_page prim fuel i w with
    | error e => rw [hp] at h; cases h
    | ok r =>
      obtain ⟨m2, w2⟩ := r
      rw [hp] at h
      simp only at h
      rw [List.nodup_cons] at hnd
      exact (EncryptedFileMapping.flush_page_spec prim fuel i m m2 w w2 hp).cons_page
        (ih m2 m1 w2 w1 hnd.2 h) hnd.1

/-- What `flush` does. -/
theorem EncryptedFileMapping.flush_spec (prim : Primitives) (fuel : Nat)
    (m m1 : EncryptedFileMapping) (w w1 : World) (h : m.flush prim fuel w = .ok (m1, w1)) :
    EncryptedFileMapping.Flushed m m1 w w1 (List.range m.m_page_count) :=
  EncryptedFileMapping.flush.loop_flushed prim fuel _ m m1 w w1 (List.nodup_range _) h

theorem EncryptedFileMapping.Flushed.clean {m m1 : EncryptedFileMapping} {w w1 : World}
    {pages : List Nat} (h : EncryptedFileMapping.Flushed m m1 w w1 pages) (i : Nat)
    (hi : i ∈ pages) : m1.m_dirty_pages[i]? = some false := by
  rw [h.dirty i, if_pos hi, List.getElem?_eq_getElem (h.in_range i hi)]
  rfl

theorem EncryptedFileMapping.Flushed.up_to_date {m m1 : EncryptedFileMapping} {w w1 : World}
    {pages : List Nat} (h : EncryptedFileMapping.Flushed m m1 w w1 pages) :
    m1.m_up_to_date_pages = m.m_up_to_date_pages := by
  rw [h.geometry]

/-- C12: when `flush` returns, every page of the mapping has its dirty bit false,
the calls of the cryptor added to the trace are the writes of exactly the pages
that were dirty before, in increasing order (each once, at data position
`page << m_page_shift`, from `page_addr(page)`), and the up-to-date bits, like
every other member but `m_dirty_pages`, are unchanged; the memory and the list
of mappings of the file are unchanged too. -/
theorem EncryptedFileMapping.flush_writes_dirty_pages (prim : Primitives) (fuel : Nat)
    (m m1 : EncryptedFileMapping) (w w1 : World) (h : m.flush prim fuel w = .ok (m1, w1)) :
    (∀ i, i < m.m_page_count → m1.m_dirty_pages[i]? = some false) ∧
    w1.trace = w.trace
      ++ ((List.range m.m_page_count).filter (fun i => m.m_dirty_pages[i]? = some true)).map
          (fun i => Event.cryptor_write (i <<< m.m_page_shift) (m.page_addr i)
            (1 <<< m.m_page_shift)) ∧
    m1.m_up_to_date_pages = m.m_up_to_date_pages ∧
    m1 = { m with m_dirty_pages := m1.m_dirty_pages } ∧
    m1.m_dirty_pages.length = m.m_dirty_pages.length ∧
    w1.memory = w.memory ∧ w1.file.mappings = w.file.mappings :=
  have hf := EncryptedFileMapping.flush_spec prim fuel m m1 w w1 h
  ⟨fun i hi => hf.clean i (List.mem_range.2 hi), hf.trace, hf.up_to_date, hf.geometry, hf.length,
    hf.memory, hf.mappings⟩

theorem memory_read_const (b addr n : Nat) :
    memory_read (fun _ => b) addr n = List.replicate n b := by
  simp [memory_read]

/-- The flush of a mapping of one page that is dirty. -/
theorem EncryptedFileMapping.flush_one_page (prim : Primitives) (fuel : Nat)
    (m : EncryptedFileMapping) (w : World) (c : AESCryptor) (fd : File)
    (hcount : m.m_page_count = 1) (hd : m.m_dirty_pages = [true])
    (hw : w.file.cryptor.write prim fuel w.file.fd (0 <<< m.m_page_shift)
      (memory_read w.memory (m.page_addr 0) (1 <<< m.m_page_shift)) (1 <<< m.m_page_shift)
      = .ok (c, fd)) :
    m.flush prim fuel w
      = .ok ({ m with m_dirty_pages := [false] },
          { w with file := { w.file with fd := fd, cryptor := c },
                   trace := w.trace ++ [m.written 0] }) := by
  have hr : List.range 1 = [0] := rfl
  simp only [EncryptedFileMapping.flush, hcount, hr, EncryptedFileMapping.flush.loop,
    EncryptedFileMapping.flush_page, hd, List.getElem?_cons_zero, hw, List.set_cons_zero]

/-- A cryptor with an empty `m_iv_buffer` and capacity for one metadata block
writes 4096 bytes 7 at position 0 of the empty file. -/
theorem example_write (c : AESCryptor) (hbuf : c.m_iv_buffer = [])
    (hcap : 64 ≤ c.m_iv_capacity) :
    ∃ c1 fd1, c.write examplePrimitives 1 exampleFile 0 (List.replicate block_size 7) block_size
      = .ok (c1, fd1) := by
  obtain ⟨c0, hget, hrec, _, _⟩ := c.get_iv_table_exampleFile hbuf hcap
  have hprep := AESCryptor.write_prepare_first_pass examplePrimitives 0 c c0
    exampleFile 0 (List.replicate block_size 7) 0 1 iv_table.zero hget hrec
    (by simp [iv_table.zero])
    (by rw [examplePrimitives_digest]; simp [iv_table.zero])
  have hw := AESCryptor.write_block_of_prepare _ _ _ _ _ _ _ _ hprep
  exact ⟨_, _, (AESCryptor.write_eq_write_block _ _ _ _ _ _).trans hw⟩

/-- The flush of the example mapping. -/
theorem example_flush (w : World) (hfd : w.file.fd = exampleFile)
    (hbuf : w.file.cryptor.m_iv_buffer = []) (hcap : 64 ≤ w.file.cryptor.m_iv_capacity)
    (hm : w.memory = fun _ => 7) :
    ∃ c1 fd1, exampleMapping.flush examplePrimitives 1 w
      = .ok ({ exampleMapping with m_dirty_pages := [false] },
          { w with file := { w.file with fd := fd1, cryptor := c1 },
                   trace := w.trace ++ [exampleMapping.written 0] }) := by
  obtain ⟨c1, fd1, hw⟩ := example_write w.file.cryptor hbuf hcap
  refine ⟨c1, fd1, EncryptedFileMapping.flush_one_page _ _ _ _ c1 fd1 rfl rfl ?_⟩
  rw [hfd, hm, memory_read_const]
  exact hw

/-- C12, at a concrete input: the flush of a mapping of one page, which is dirty,
with memory full of bytes 7, writes that page at position 0 and clears its dirty
bit. -/
theorem EncryptedFileMapping.flush_writes_dirty_pages_witness :
    ∃ m1 w1, exampleMapping.flush examplePrimitives 1 exampleWorld = .ok (m1, w1) ∧
      m1.m_dirty_pages[0]? = some false ∧
      w1.trace = [Event.cryptor_write 0 0 4096] ∧
      m1.m_up_to_date_pages = [true] := by
  obtain ⟨c1, fd1, h⟩ := example_flush exampleWorld rfl rfl (by decide) rfl
  have hs := EncryptedFileMapping.flush_writes_dirty_pages examplePrimitives 1 exampleMapping _
    exampleWorld _ h
  exact ⟨_, _, h, hs.1 0 (by decide), rfl, rfl⟩

/-- A `size_t` below `OFF_T_LIMIT` keeps its value as an `off_t`. -/
theorem off_t_cast_of_lt (a : Nat) (h : a < OFF_T_LIMIT) : off_t_cast a = (a : Int) := by
  have h2 : a % SIZE_MOD = a :=
    Nat.mod_eq_of_lt (lt_trans h (by decide : OFF_T_LIMIT < SIZE_MOD))
  simp only [off_t_cast, h2, h, if_true]

/-- A `size_t` from `OFF_T_LIMIT` on is negative as an `off_t`. -/
theorem off_t_cast_of_ge (a : Nat) (h : OFF_T_LIMIT ≤ a) (h2 : a < SIZE_MOD) :
    off_t_cast a < 0 := by
  have h3 : a % SIZE_MOD = a := Nat.mod_eq_of_lt h2
  have h4 : ¬ a < OFF_T_LIMIT := Nat.not_lt.2 h
  simp only [off_t_cast, h3, h4, if_false]
  have : (a : Int) < (SIZE_MOD : Int) := by exact_mod_cast h2
  omega

/-- The conversion of a natural number below `SIZE_MOD` to `size_t` is that number. -/
theorem size_t_cast_natCast (a : Nat) (h : a < SIZE_MOD) : size_t_cast (a : Int) = a := by
  have h2 : ((a : Int) % (SIZE_MOD : Int)) = ((a % SIZE_MOD : Nat) : Int) := by
    exact_mod_cast rfl
  rw [size_t_cast, h2, Nat.mod_eq_of_lt h, Int.toNat_ofNat]

/-- The assertion of `set_file_size` holds of a `size_t` below `OFF_T_LIMIT`. -/
theorem AESCryptor.set_file_size_of_lt (c : AESCryptor) (n : Nat) (h : n < OFF_T_LIMIT) :
    c.set_file_size (off_t_cast n) = .ok (AESCryptor.set_file_size.reserve c n) := by
  have h2 : n < SIZE_MOD := lt_trans h (by decide : OFF_T_LIMIT < SIZE_MOD)
  rw [off_t_cast_of_lt n h]
  simp only [AESCryptor.set_file_size, Int.natCast_nonneg, if_true, size_t_cast_natCast n h2]

/-- The assertion of `set_file_size` fails of a `size_t` from `OFF_T_LIMIT` on. -/
theorem AESCryptor.set_file_size_of_ge (c : AESCryptor) (n : Nat) (h : OFF_T_LIMIT ≤ n)
    (h2 : n < SIZE_MOD) : c.set_file_size (off_t_cast n) = .error .AssertionFailed := by
  have h3 := off_t_cast_of_ge n h h2
  have h4 : ¬ 0 ≤ off_t_cast n := not_le.2 h3
  simp only [AESCryptor.set_file_size, h4, if_false]

/-- The statement `m_file.cryptor.set_file_size(n)` for a `size_t` below
`OFF_T_LIMIT`. -/
theorem World.set_file_size_returns (w : World) (n : Nat) (h : n < OFF_T_LIMIT) :
    w.set_file_size (off_t_cast n) = .ok (World.set_file_size.reserve w n) := by
  simp only [World.set_file_size, AESCryptor.set_file_size_of_lt _ n h,
    World.set_file_size.reserve]

/-- The statement `m_file.cryptor.set_file_size(n)` for a `size_t` from
`OFF_T_LIMIT` on. -/
theorem World.set_file_size_fails (w : World) (n : Nat) (h : OFF_T_LIMIT ≤ n)
    (h2 : n < SIZE_MOD) : w.set_file_size (off_t_cast n) = .error .AssertionFailed := by
  simp only [World.set_file_size, AESCryptor.set_file_size_of_ge _ n h h2]

/-- A call of `set` whose sum `new_size + new_file_offset`, computed on `size_t`,
is negative as an `off_t` fails an assertion: one of its own or the one of
`set_file_size`. -/
theorem EncryptedFileMapping.set_of_negative_sum (prim : Primitives) (fuel : Nat)
    (m : EncryptedFileMapping) (w : World) (new_addr new_size new_file_offset : Nat)
    (hsum : OFF_T_LIMIT ≤ (new_size + new_file_offset) % SIZE_MOD) :
    m.set prim fuel w new_addr new_size new_file_offset = .error .AssertionFailed := by
  have hlt : (new_size + new_file_offset) % SIZE_MOD < SIZE_MOD := Nat.mod_lt _ (by decide)
  simp only [EncryptedFileMapping.set, World.set_file_size_fails w _ hsum hlt]
  split
  · split
    · split
      · rfl
      · rfl
    · rfl
  · rfl

/-- What `set` does when its three assertions and the one of `set_file_size` hold
and its flush returns. -/
theorem EncryptedFileMapping.set_spec (prim : Primitives) (fuel : Nat)
    (m m1 : EncryptedFileMapping) (w w1 : World) (new_addr new_size new_file_offset : Nat)
    (haligned : new_file_offset % (1 <<< m.m_page_shift) = 0)
    (hpages : new_size % (1 <<< m.m_page_shift) = 0) (hpos : 0 < new_size)
    (hsum : (new_size + new_file_offset) % SIZE_MOD < OFF_T_LIMIT)
    (hflush : m.flush prim fuel
      (World.set_file_size.reserve w ((new_size + new_file_offset) % SIZE_MOD)) = .ok (m1, w1)) :
    ∃ m2, m.set prim fuel w new_addr new_size new_file_offset = .ok (m2, w1) ∧
      w1.trace = w.trace
        ++ ((List.range m.m_page_count).filter (fun i => m.m_dirty_pages[i]? = some true)).map
            (fun i => Event.cryptor_write (i <<< m.m_page_shift) (m.page_addr i)
              (1 <<< m.m_page_shift)) ∧
      m2.m_page_count = ((new_size + new_file_offset) % SIZE_MOD) >>> m.m_page_shift ∧
      (new_size + new_file_offset < SIZE_MOD →
        m2.m_page_count = (new_size + new_file_offset) >>> m.m_page_shift) ∧
      m2.m_up_to_date_pages = List.replicate m2.m_page_count false ∧
      m2.m_dirty_pages = List.replicate m2.m_page_count false ∧
      m2.m_up_to_date_pages.length = m2.m_page_count ∧
      m2.m_dirty_pages.length = m2.m_page_count ∧
      m2.m_addr = new_addr ∧ m2.m_file_offset = new_file_offset ∧
      m2.m_first_page = (size_t_sub new_addr new_file_offset) >>> m.m_page_shift ∧
      m2.m_page_shift = m.m_page_shift ∧ m2.m_access = m.m_access := by
  have hf := EncryptedFileMapping.flush_spec prim fuel m m1 _ w1 hflush
  have hshift : m1.m_page_shift = m.m_page_shift := by rw [hf.geometry]
  have haccess : m1.m_access = m.m_access := by rw [hf.geometry]
  refine ⟨{ m1 with
      m_addr := new_addr,
      m_file_offset := new_file_offset,
      m_first_page := (size_t_sub new_addr new_file_offset) >>> m1.m_page_shift,
      m_page_count := ((new_size + new_file_offset) % SIZE_MOD) >>> m1.m_page_shift,
      m_up_to_date_pages :=
        List.replicate (((new_size + new_file_offset) % SIZE_MOD) >>> m1.m_page_shift) false,
      m_dirty_pages :=
        List.replicate (((new_size + new_file_offset) % SIZE_MOD) >>> m1.m_page_shift) false },
    ?_, hf.trace, ?_, ?_, ?_, ?_, ?_, ?_, ?_, ?_, ?_, ?_, ?_⟩
  · simp only [EncryptedFileMapping.set, haligned, hpages, hpos, if_true,
      World.set_file_size_returns w _ hsum, hflush]
  · simp only [hshift]
  · intro hlt
    simp only [hshift, Nat.mod_eq_of_lt hlt]
  · rfl
  · rfl
  · simp
  · simp
  · rfl
  · rfl
  · simp only [hshift]
  · exact hshift
  · exact haccess

/-- C13: `set(new_addr, new_size, new_file_offset)` with a page-aligned
`new_file_offset` and a positive `new_size` that is a multiple of the page size,
whose sum, computed on `size_t`, is not negative as the `off_t` that
`set_file_size` takes, so that the assertion of `set_file_size` holds: when the
flush that follows `set_file_size` returns, `set` returns; the cryptor has been
asked to write the pages that were dirty under the old geometry; `m_page_count`
is `(new_size + new_file_offset) >> m_page_shift` (the sum computed on `size_t`),
and `m_up_to_date_pages` and `m_dirty_pages` both have length `m_page_count` with
every entry false. -/
theorem EncryptedFileMapping.set_reinitializes (prim : Primitives) (fuel : Nat)
    (m m1 : EncryptedFileMapping) (w w1 : World) (new_addr new_size new_file_offset : Nat)
    (haligned : new_file_offset % (1 <<< m.m_page_shift) = 0)
    (hpages : new_size % (1 <<< m.m_page_shift) = 0) (hpos : 0 < new_size)
    (hsum : (new_size + new_file_offset) % SIZE_MOD < OFF_T_LIMIT)
    (hflush : m.flush prim fuel
      (World.set_file_size.reserve w ((new_size + new_file_offset) % SIZE_MOD)) = .ok (m1, w1)) :
    ∃ m2, m.set prim fuel w new_addr new_size new_file_offset = .ok (m2, w1) ∧
      w1.trace = w.trace
        ++ ((List.range m.m_page_count).filter (fun i => m.m_dirty_pages[i]? = some true)).map
            (fun i => Event.cryptor_write (i <<< m.m_page_shift) (m.page_addr i)
              (1 <<< m.m_page_shift)) ∧
      m2.m_page_count = ((new_size + new_file_offset) % SIZE_MOD) >>> m.m_page_shift ∧
      (new_size + new_file_offset < SIZE_MOD →
        m2.m_page_count = (new_size + new_file_offset) >>> m.m_page_shift) ∧
      m2.m_up_to_date_pages = List.replicate m2.m_page_count false ∧
      m2.m_dirty_pages = List.replicate m2.m_page_count false ∧
      m2.m_up_to_date_pages.length = m2.m_page_count ∧
      m2.m_dirty_pages.length = m2.m_page_count ∧
      m2.m_addr = new_addr ∧ m2.m_file_offset = new_file_offset ∧
      m2.m_first_page = (size_t_sub new_addr new_file_offset) >>> m.m_page_shift ∧
      m2.m_page_shift = m.m_page_shift ∧ m2.m_access = m.m_access :=
  EncryptedFileMapping.set_spec prim fuel m m1 w w1 new_addr new_size new_file_offset haligned
    hpages hpos hsum hflush

/-- C13, at a concrete input: the example mapping, whose one page is dirty, is set
to two pages at address 8192: the page is written at position 0 and the mapping
has two pages, none up-to-date, none dirty. -/
theorem EncryptedFileMapping.set_reinitializes_witness :
    ∃ m2 w1, exampleMapping.set examplePrimitives 1 exampleWorld 8192 8192 0 = .ok (m2, w1) ∧
      w1.trace = [Event.cryptor_write 0 0 4096] ∧
      m2.m_page_count = 2 ∧
      m2.m_up_to_date_pages = [false, false] ∧ m2.m_dirty_pages = [false, false] := by
  obtain ⟨c1, fd1, h⟩ := example_flush
    (World.set_file_size.reserve exampleWorld ((8192 + 0) % SIZE_MOD)) rfl rfl (by decide) rfl
  obtain ⟨m2, hset, htrace, hcount, _, hup, hdirty, _⟩ :=
    EncryptedFileMapping.set_reinitializes examplePrimitives 1 exampleMapping _ exampleWorld _
      8192 8192 0 (by decide) (by decide) (by decide) (by decide) h
  have h2 : m2.m_page_count = 2 := hcount.trans (by decide)
  rw [h2] at hup hdirty
  exact ⟨m2, _, hset, htrace, h2, hup, hdirty⟩

theorem mem_of_getElem?_eq_some {α : Type} {l : List α} {i : Nat} {a : α}
    (h : l[i]? = some a) : a ∈ l := by
  obtain ⟨hlt, hget⟩ := List.getElem?_eq_some_iff.1 h
  exact hget ▸ List.getElem_mem hlt

theorem World.copy_up_to_date_page.loop_finds (self page : Nat) (this : EncryptedFileMapping)
    (w : World)
    (hlen : ∀ m ∈ w.file.mappings, m.m_up_to_date_pages.length = m.m_page_count) :
    ∀ (ids : List Nat), (∀ j ∈ ids, j < w.file.mappings.length) →
      World.copy_up_to_date_page.loop self page this ids w
        = match ids.find? (w.isUpToDateSibling self page) with
          | some j =>
            match w.file.mappings[j]? with
            | some m =>
              .ok ({ w with
                     memory := memcpy w.memory (this.page_addr page) (m.page_addr page)
                       (1 <<< this.m_page_shift) }, true)
            | none => .error .OutOfBounds
          | none => .ok (w, false) := by
  intro ids
  induction ids with
  | nil => intro _; rfl
  | cons i rest ih =>
    intro hids
    have hi : i < w.file.mappings.length := hids i (List.mem_cons_self _ _)
    have ih2 := ih (fun j hj => hids j (List.mem_cons_of_mem _ hj))
    have hm : w.file.mappings[i]? = some w.file.mappings[i] := List.getElem?_eq_getElem hi
    have hmem : w.file.mappings[i] ∈ w.file.mappings := List.getElem_mem hi
    simp only [World.copy_up_to_date_page.loop, hm, List.find?_cons]
    by_cases hc : i = self ∨ page ≥ w.file.mappings[i].m_page_count
    · have hP : w.isUpToDateSibling self page i = false := by
        simp only [World.isUpToDateSibling, hm]
        rcases hc with hc | hc
        · simp [hc]
        · simp [Nat.not_lt.2 hc]
      rw [if_pos hc, hP]
      exact ih2
    · rw [if_neg hc]
      have hc1 : i ≠ self := fun h => hc (Or.inl h)
      have hc2 : page < w.file.mappings[i].m_page_count := Nat.lt_of_not_le (fun h => hc (Or.inr h))
      have hin : page < w.file.mappings[i].m_up_to_date_pages.length := by
        rw [hlen _ hmem]; exact hc2
      rw [List.getElem?_eq_getElem hin]
      cases hb : w.file.mappings[i].m_up_to_date_pages[page] with
      | true =>
        have hP : w.isUpToDateSibling self page i = true := by
          simp [World.isUpToDateSibling, hm, hc1, hc2, List.getElem?_eq_getElem hin, hb]
        simp only [hP, hm]
      | false =>
        have hP : w.isUpToDateSibling self page i = false := by
          simp [World.isUpToDateSibling, hm, hc1, hc2, List.getElem?_eq_getElem hin, hb]
        simp only [hP]
        exact ih2

/-- What `refresh_page` does, for a file whose mappings have as many up-to-date
bits as pages. -/
theorem World.refresh_page_spec (prim : Primitives) (w : World) (self i : Nat)
    (this : EncryptedFileMapping)
    (hlen : ∀ m ∈ w.file.mappings, m.m_up_to_date_pages.length = m.m_page_count)
    (hself : w.file.mappings[self]? = some this) (hi : i < this.m_page_count) :
    match w.up_to_date_sibling self i with
    | some j =>
      ∃ m, w.file.mappings[j]? = some m ∧ j ≠ self ∧ i < m.m_page_count ∧
        m.m_up_to_date_pages[i]? = some true ∧
        w.refresh_page prim self i
          = .ok (World.setMapping
              { w with
                memory := memcpy w.memory (this.page_addr i) (m.page_addr i)
                  (1 <<< this.m_page_shift) }
              self (this.marked i))
    | none =>
      w.refresh_page prim self i
        = match w.file.cryptor.read prim w.file.fd (i <<< this.m_page_shift)
              (1 <<< this.m_page_shift) with
          | .error e => .error e
          | .ok (cryptor, dst, _) =>
            .ok (World.setMapping
              { w with
                file := { w.file with cryptor := cryptor },
                memory := memory_write w.memory (this.page_addr i) dst,
                trace := w.trace
                  ++ [.cryptor_read (i <<< this.m_page_shift) (this.page_addr i)
                        (1 <<< this.m_page_shift)] }
              self (this.marked i)) := by
  have hin : i < this.m_up_to_date_pages.length := by
    rw [hlen this (mem_of_getElem?_eq_some hself)]; exact hi
  have hloop := World.copy_up_to_date_page.loop_finds self i this w hlen
    (List.range w.file.mappings.length) (fun j hj => List.mem_range.1 hj)
  cases hs : w.up_to_date_sibling self i with
  | some j =>
    simp only
    have hs2 : (List.range w.file.mappings.length).find? (w.isUpToDateSibling self i) = some j :=
      hs
    have hP := List.find?_some hs2
    simp only [hs2] at hloop
    simp only [World.isUpToDateSibling] at hP
    cases hm : w.file.mappings[j]? with
    | none => simp only [hm] at hP; cases hP
    | some m =>
      simp only [hm] at hP hloop
      simp only [Bool.and_eq_true, decide_eq_true_eq, beq_iff_eq] at hP
      refine ⟨m, rfl, hP.1.1, hP.1.2, hP.2, ?_⟩
      simp only [World.refresh_page, hself, World.copy_up_to_date_page, hloop, if_true, hin,
        EncryptedFileMapping.marked]
  | none =>
    simp only
    have hs2 : (List.range w.file.mappings.length).find? (w.isUpToDateSibling self i) = none :=
      hs
    simp only [hs2] at hloop
    simp only [World.refresh_page, hself, World.copy_up_to_date_page, hloop, Bool.false_eq_true,
      if_false]
    cases w.file.cryptor.read prim w.file.fd (i <<< this.m_page_shift)
        (1 <<< this.m_page_shift) with
    | error e => rfl
    | ok r =>
      obtain ⟨cryptor, dst, b⟩ := r
      simp only [hself, hin, if_true, EncryptedFileMapping.marked]

theorem memory_read_length (memory : Nat → Nat) (addr n : Nat) :
    (memory_read memory addr n).length = n := by
  simp [memory_read]

theorem memcpy_apply (memory : Nat → Nat) (dst src n a : Nat) (h1 : dst ≤ a) (h2 : a < dst + n) :
    memcpy memory dst src n a = memory (src + (a - dst)) := by
  have h3 : a - dst < n := by omega
  simp only [memcpy, memory_write, memory_read_length, h1, h2, and_self, if_true]
  simp [memory_read, h3]

theorem exampleSiblings_lengths :
    ∀ m ∈ exampleSiblings.file.mappings, m.m_up_to_date_pages.length = m.m_page_count := by
  intro m hm
  simp only [exampleSiblings, List.mem_cons, List.mem_singleton, List.not_mem_nil, or_false] at hm
  rcases hm with rfl | rfl <;> rfl

/-- C15: `refresh_page(i)` on page `i` of the mapping `this` (of index `self`) of a
file whose mappings have as many up-to-date bits as pages.  If some sibling
covers page `i` and has it up-to-date, the method returns after copying the
page from the first such sibling `m` (`memcpy(page_addr(i), m->page_addr(i),
1 << m_page_shift)`), the trace, hence the calls of the cryptor, being as
before.  If there is none, the method calls the cryptor's `read` for the page
and returns when that call returns.  In either case the world afterwards has
`m_up_to_date_pages[i] = true` in `this` and every other bit of every mapping
as before. -/
theorem World.refresh_page_copies_or_reads (prim : Primitives) (w : World) (self i : Nat)
    (this : EncryptedFileMapping)
    (hlen : ∀ m ∈ w.file.mappings, m.m_up_to_date_pages.length = m.m_page_count)
    (hself : w.file.mappings[self]? = some this) (hi : i < this.m_page_count) :
    match w.up_to_date_sibling self i with
    | some j =>
      ∃ m, w.file.mappings[j]? = some m ∧ j ≠ self ∧ i < m.m_page_count ∧
        m.m_up_to_date_pages[i]? = some true ∧
        w.refresh_page prim self i
          = .ok (World.setMapping
              { w with
                memory := memcpy w.memory (this.page_addr i) (m.page_addr i)
                  (1 <<< this.m_page_shift) }
              self (this.marked i))
    | none =>
      w.refresh_page prim self i
        = match w.file.cryptor.read prim w.file.fd (i <<< this.m_page_shift)
              (1 <<< this.m_page_shift) with
          | .error e => .error e
          | .ok (cryptor, dst, _) =>
            .ok (World.setMapping
              { w with
                file := { w.file with cryptor := cryptor },
                memory := memory_write w.memory (this.page_addr i) dst,
                trace := w.trace
                  ++ [.cryptor_read (i <<< this.m_page_shift) (this.page_addr i)
                        (1 <<< this.m_page_shift)] }
              self (this.marked i)) :=
  World.refresh_page_spec prim w self i this hlen hself hi

/-- C15, at a concrete input: two mappings of one page each, the page up-to-date
in the second only; `refresh_page(0)` on the first copies the bytes 7 of the
second, calls no cryptor, and marks the page up-to-date. -/
theorem World.refresh_page_copies_or_reads_witness :
    ∃ w1, exampleSiblings.refresh_page examplePrimitives 0 0 = .ok w1 ∧
      w1.trace = [] ∧
      w1.file.mappings.map (fun m => m.m_up_to_date_pages) = [[true], [true]] ∧
      w1.file.mappings.map (fun m => m.m_dirty_pages) = [[false], [false]] ∧
      exampleSiblings.memory 0 = 0 ∧ w1.memory 0 = 7 := by
  have h := World.refresh_page_copies_or_reads examplePrimitives exampleSiblings 0 0
    exampleStale exampleSiblings_lengths rfl (by decide)
  have hs : exampleSiblings.up_to_date_sibling 0 0 = some 1 := by decide
  simp only [hs] at h
  obtain ⟨m, hm, _, _, _, hr⟩ := h
  have hm2 : m = exampleFresh := (Option.some.inj hm).symm
  subst hm2
  have ha : exampleStale.page_addr 0 = 0 := by decide
  have hb : exampleFresh.page_addr 0 = 4096 := by decide
  have hp : 0 < 0 + 1 <<< exampleStale.m_page_shift := by decide
  refine ⟨_, hr, rfl, rfl, rfl, rfl, ?_⟩
  simp only [World.setMapping, ha, hb]
  rw [memcpy_apply _ _ _ _ _ (Nat.le_refl 0) hp]
  decide

theorem EncryptedFileMapping.SameGeometry.same_refl (m : EncryptedFileMapping) : m.SameGeometry m :=
  ⟨rfl, rfl, rfl⟩

theorem EncryptedFileMapping.SameGeometry.same_trans {m m1 m2 : EncryptedFileMapping}
    (h1 : m.SameGeometry m1) (h2 : m1.SameGeometry m2) : m.SameGeometry m2 := by
  refine ⟨?_, h2.up_length.trans h1.up_length, h2.dirty_length.trans h1.dirty_length⟩
  have g2 := h2.fields
  have g1 := h1.fields
  rw [g1] at g2
  exact g2

theorem EncryptedFileMapping.SameGeometry.written {m m1 : EncryptedFileMapping}
    (h : m.SameGeometry m1) : m1.written = m.written := by
  funext i
  rw [h.fields]
  rfl

theorem EncryptedFileMapping.SameGeometry.page_count {m m1 : EncryptedFileMapping}
    (h : m.SameGeometry m1) : m1.m_page_count = m.m_page_count := by
  rw [h.fields]

theorem World.Outdates.outdates_refl (self : Nat) (w : World) : World.Outdates self w w := by
  refine ⟨rfl, rfl, fun k m hm => ⟨m, hm, EncryptedFileMapping.SameGeometry.same_refl m⟩, ?_, ?_, ?_, ?_,
    ⟨[], by simp, ?_, ?_⟩⟩
  · intro k m m1 p _ hm hm1 h
    rw [hm] at hm1; cases hm1; exact h
  · intro k m m1 p _ hm hm1 h
    rw [hm] at hm1; cases hm1; exact h
  · intro m m1 hm hm1
    rw [hm] at hm1; cases hm1; rfl
  · intro m m1 p hm hm1 h
    rw [hm] at hm1; cases hm1; exact h
  · intro k p m hm hd
    exact Or.inl ⟨m, hm, hd, by simp⟩
  · intro k p m m1 hm hm1 hu hn
    rw [hm] at hm1; cases hm1; exact absurd hu hn

theorem World.Outdates.outdates_trans {self : Nat} {w w1 w2 : World} (h1 : World.Outdates self w w1)
    (h2 : World.Outdates self w1 w2) : World.Outdates self w w2 := by
  obtain ⟨new1, ht1, hc1, he1⟩ := h1.trace
  obtain ⟨new2, ht2, hc2, he2⟩ := h2.trace
  refine ⟨h2.length.trans h1.length, h2.memory.trans h1.memory, ?_, ?_, ?_, ?_, ?_,
    ⟨new1 ++ new2, by rw [ht2, ht1, List.append_assoc], ?_, ?_⟩⟩
  · intro k m hm
    obtain ⟨m1, hm1, g1⟩ := h1.geometry k m hm
    obtain ⟨m2, hm2, g2⟩ := h2.geometry k m1 hm1
    exact ⟨m2, hm2, g1.same_trans g2⟩
  · intro k m m2 p hk hm hm2 h
    obtain ⟨m1, hm1, _⟩ := h1.geometry k m hm
    exact h1.sibling_dirty k m m1 p hk hm hm1 (h2.sibling_dirty k m1 m2 p hk hm1 hm2 h)
  · intro k m m2 p hk hm hm2 h
    obtain ⟨m1, hm1, _⟩ := h1.geometry k m hm
    exact h1.sibling_up k m m1 p hk hm hm1 (h2.sibling_up k m1 m2 p hk hm1 hm2 h)
  · intro m m2 hm hm2
    obtain ⟨m1, hm1, _⟩ := h1.geometry self m hm
    exact (h2.own_up m1 m2 hm1 hm2).trans (h1.own_up m m1 hm hm1)
  · intro m m2 p hm hm2 h
    obtain ⟨m1, hm1, _⟩ := h1.geometry self m hm
    exact h2.own_dirty m1 m2 p hm1 hm2 (h1.own_dirty m m1 p hm hm1 h)
  · intro k p m hm hd
    rcases hc1 k p m hm hd with ⟨m1, hm1, hd1, hn1⟩ | ⟨pre, post, hnew, hpre⟩
    · obtain ⟨m1b, hm1b, g1⟩ := h1.geometry k m hm
      rw [hm1] at hm1b
      cases hm1b
      rcases hc2 k p m1 hm1 hd1 with ⟨m2, hm2, hd2, hn2⟩ | ⟨pre, post, hnew, hpre⟩
      · exact Or.inl ⟨m2, hm2, hd2, by simp [hn1, hn2]⟩
      · refine Or.inr ⟨new1 ++ pre, post, ?_, by simp [hn1, hpre]⟩
        rw [hnew, g1.written, List.append_assoc]
    · exact Or.inr ⟨pre, post ++ new2, by rw [hnew]; simp, hpre⟩
  · intro k p m m2 hm hm2 hu hn
    obtain ⟨m1, hm1, _⟩ := h1.geometry k m hm
    by_cases hu1 : m1.m_up_to_date_pages[p]? = some true
    · exact List.mem_append_right _ (he2 k p m1 m2 hm1 hm2 hu1 hn)
    · exact List.mem_append_left _ (he1 k p m m1 hm hm1 hu hu1)

theorem getElem?_set_of_some {α : Type} {l : List α} {k : Nat} {a : α} (b : α)
    (h : l[k]? = some a) (j : Nat) :
    (l.set k b)[j]? = if j = k then some b else l[j]? := by
  have hk : k < l.length := (List.getElem?_eq_some_iff.1 h).1
  by_cases hj : j = k
  · subst hj
    simp [hk]
  · rw [if_neg hj, List.getElem?_set_ne (fun h => hj h.symm)]

/-- A step that replaces the mapping of index `k` and appends `new` to the trace. -/
theorem World.Outdates.of_set (self : Nat) (w w1 : World) (k : Nat)
    (m m1 : EncryptedFileMapping) (new : List Event)
    (hm : w.file.mappings[k]? = some m)
    (hmaps : w1.file.mappings = w.file.mappings.set k m1)
    (hmem : w1.memory = w.memory) (htrace : w1.trace = w.trace ++ new)
    (hg : m.SameGeometry m1)
    (hsib : k ≠ self →
      (∀ (p : Nat), m1.m_dirty_pages[p]? = some true → m.m_dirty_pages[p]? = some true) ∧
      (∀ (p : Nat), m1.m_up_to_date_pages[p]? = some true → m.m_up_to_date_pages[p]? = some true))
    (hown : k = self → m1.m_up_to_date_pages = m.m_up_to_date_pages ∧
      (∀ (p : Nat), m.m_dirty_pages[p]? = some true → m1.m_dirty_pages[p]? = some true))
    (hthis : ∀ (p : Nat), m.m_dirty_pages[p]? = some true →
      (m1.m_dirty_pages[p]? = some true ∧ Event.outdated k p ∉ new) ∨
      (∃ pre post, new = pre ++ m.written p :: post ∧ Event.outdated k p ∉ pre))
    (hothers : ∀ (j p : Nat), j ≠ k → Event.outdated j p ∉ new)
    (hlogged : ∀ (p : Nat), m.m_up_to_date_pages[p]? = some true →
      m1.m_up_to_date_pages[p]? ≠ some true → Event.outdated k p ∈ new) :
    World.Outdates self w w1 := by
  have hget : ∀ j, w1.file.mappings[j]? = if j = k then some m1 else w.file.mappings[j]? := by
    intro j
    rw [hmaps]
    exact getElem?_set_of_some m1 hm j
  refine ⟨by rw [hmaps, List.length_set], hmem, ?_, ?_, ?_, ?_, ?_, ⟨new, htrace, ?_, ?_⟩⟩
  · intro j mj hj
    by_cases hjk : j = k
    · subst hjk
      rw [hm] at hj
      cases hj
      exact ⟨m1, by rw [hget, if_pos rfl], hg⟩
    · exact ⟨mj, by rw [hget, if_neg hjk]; exact hj, EncryptedFileMapping.SameGeometry.same_refl mj⟩
  · intro j mj mj1 p hjs hj hj1 h
    by_cases hjk : j = k
    · subst hjk
      rw [hm] at hj
      cases hj
      rw [hget, if_pos rfl] at hj1
      cases hj1
      exact (hsib hjs).1 p h
    · rw [hget, if_neg hjk, hj] at hj1
      cases hj1
      exact h
  · intro j mj mj1 p hjs hj hj1 h
    by_cases hjk : j = k
    · subst hjk
      rw [hm] at hj
      cases hj
      rw [hget, if_pos rfl] at hj1
      cases hj1
      exact (hsib hjs).2 p h
    · rw [hget, if_neg hjk, hj] at hj1
      cases hj1
      exact h
  · intro ms ms1 hs hs1
    by_cases hsk : self = k
    · subst hsk
      rw [hm] at hs
      cases hs
      rw [hget, if_pos rfl] at hs1
      cases hs1
      exact (hown rfl).1
    · rw [hget, if_neg hsk, hs] at hs1
      cases hs1
      rfl
  · intro ms ms1 p hs hs1 h
    by_cases hsk : self = k
    · subst hsk
      rw [hm] at hs
      cases hs
      rw [hget, if_pos rfl] at hs1
      cases hs1
      exact (hown rfl).2 p h
    · rw [hget, if_neg hsk, hs] at hs1
      cases hs1
      exact h
  · intro j p mj hj hd
    by_cases hjk : j = k
    · subst hjk
      rw [hm] at hj
      cases hj
      rcases hthis p hd with ⟨h1, h2⟩ | h
      · exact Or.inl ⟨m1, by rw [hget, if_pos rfl], h1, h2⟩
      · exact Or.inr h
    · exact Or.inl ⟨mj, by rw [hget, if_neg hjk]; exact hj, hd, hothers j p hjk⟩
  · intro j p mj mj1 hj hj1 hu hn
    by_cases hjk : j = k
    · subst hjk
      rw [hm] at hj
      cases hj
      rw [hget, if_pos rfl] at hj1
      cases hj1
      exact hlogged p hu hn
    · rw [hget, if_neg hjk, hj] at hj1
      cases hj1
      exact absurd hu hn

theorem outdated_not_mem_written (m : EncryptedFileMapping) (pages : List Nat) (k p : Nat) :
    Event.outdated k p ∉ pages.map m.written := by
  simp [EncryptedFileMapping.written]

/-- The end of `mark_outdated` on a sibling: after a part that cleared the dirty
bit of page `i` and logged no clearing of an up-to-date bit, the mapping is
stored with the up-to-date bit of page `i` as it is, or cleared and logged. -/
theorem World.Outdates.of_cleared (self : Nat) (w w2 : World) (k i : Nat)
    (m m2 : EncryptedFileMapping) (new2 : List Event) (hk : k ≠ self)
    (hm : w.file.mappings[k]? = some m) (hmaps : w2.file.mappings = w.file.mappings)
    (hmem : w2.memory = w.memory) (htrace : w2.trace = w.trace ++ new2)
    (hg : m.SameGeometry m2) (hup : m2.m_up_to_date_pages = m.m_up_to_date_pages)
    (hbits : ∀ (p : Nat), m2.m_dirty_pages[p]? = some true → m.m_dirty_pages[p]? = some true)
    (hclean : m2.m_dirty_pages[i]? = some false)
    (hnew : ∀ (j p : Nat), Event.outdated j p ∉ new2)
    (hthis : ∀ (p : Nat), m.m_dirty_pages[p]? = some true →
      m2.m_dirty_pages[p]? = some true ∨ ∃ pre post, new2 = pre ++ m.written p :: post) :
    World.Outdates self w (w2.setMapping k m2) ∧
    World.Outdates self w
      { w2.setMapping k { m2 with m_up_to_date_pages := m2.m_up_to_date_pages.set i false }
        with trace := w2.trace ++ [.outdated k i] } := by
  constructor
  · refine World.Outdates.of_set self w _ k m m2 new2 hm (by simp [World.setMapping, hmaps])
      hmem htrace hg (fun _ => ⟨hbits, fun p h => by rw [← hup]; exact h⟩)
      (fun h => absurd h hk) ?_ (fun j p _ => hnew j p)
      (fun p hu hn => absurd (by rw [hup]; exact hu) hn)
    intro p hp
    rcases hthis p hp with h | ⟨pre, post, h⟩
    · exact Or.inl ⟨h, hnew k p⟩
    · refine Or.inr ⟨pre, post, h, ?_⟩
      intro hmem2
      exact hnew k p (by rw [h]; exact List.mem_append_left _ hmem2)
  · refine World.Outdates.of_set self w _ k m
      { m2 with m_up_to_date_pages := m2.m_up_to_date_pages.set i false }
      (new2 ++ [.outdated k i]) hm (by simp [World.setMapping, hmaps]) hmem
      (by simp [World.setMapping, htrace]) ?_ (fun _ => ⟨hbits, ?_⟩) (fun h => absurd h hk) ?_ ?_
      ?_
    · refine ⟨?_, ?_, hg.dirty_length⟩
      · have hf := hg.fields
        simp only
        rw [hf]
      · simp only [List.length_set]
        exact hg.up_length
    · intro p h
      simp only [hup] at h
      by_cases hpi : i = p
      · subst hpi
        rcases Nat.lt_or_ge i m.m_up_to_date_pages.length with hlt | hge
        · rw [List.getElem?_set_self hlt] at h
          cases h
        · rw [List.getElem?_eq_none (by simpa using hge)] at h
          cases h
      · rw [List.getElem?_set_ne hpi] at h
        exact h
    · intro p hp
      rcases hthis p hp with h | ⟨pre, post, h⟩
      · refine Or.inl ⟨h, ?_⟩
        have hpi : p ≠ i := by
          intro hpi
          rw [hpi, hclean] at h
          cases h
        simp [hnew k p, hpi]
      · refine Or.inr ⟨pre, post ++ [.outdated k i], by rw [h]; simp, ?_⟩
        intro hmem2
        exact hnew k p (by rw [h]; exact List.mem_append_left _ hmem2)
    · intro j p hj
      simp [hnew j p, hj]
    · intro p hu hn
      simp only [hup] at hn
      by_cases hpi : i = p
      · subst hpi
        simp
      · rw [List.getElem?_set_ne hpi] at hn
        exact absurd hu hn

/-- What `mark_outdated(i)` on a sibling does when it returns. -/
theorem World.mark_outdated_spec (prim : Primitives) (fuel : Nat) (self : Nat) (w w1 : World)
    (k i : Nat) (hk : k ≠ self) (h : w.mark_outdated prim fuel k i = .ok w1) :
    World.Outdates self w w1 ∧
    ∀ (m : EncryptedFileMapping), w.file.mappings[k]? = some m → i < m.m_page_count →
      ∃ m1, w1.file.mappings[k]? = some m1 ∧ m1.m_dirty_pages[i]? = some false ∧
        m1.m_up_to_date_pages[i]? = some false := by
  simp only [World.mark_outdated] at h
  cases hm : w.file.mappings[k]? with
  | none => rw [hm] at h; cases h
  | some m =>
    rw [hm] at h
    simp only at h
    have hklt : k < w.file.mappings.length := (List.getElem?_eq_some_iff.1 hm).1
    by_cases hi : i ≥ m.m_page_count
    · rw [if_pos hi] at h
      cases h
      exact ⟨World.Outdates.outdates_refl self w, fun m0 h0 hlt => by
        cases h0; exact absurd hi (Nat.not_le.2 hlt)⟩
    · rw [if_neg hi] at h
      cases hd : m.m_dirty_pages[i]? with
      | none => rw [hd] at h; cases h
      | some d =>
        rw [hd] at h
        simp only at h
        -- the part before the test of the up-to-date bit
        have hpart : ∃ m2 w2 new2,
            (if d = true then m.flush prim fuel w else .ok (m, w)) = .ok (m2, w2) ∧
            w2.file.mappings = w.file.mappings ∧ w2.memory = w.memory ∧
            w2.trace = w.trace ++ new2 ∧ m.SameGeometry m2 ∧
            m2.m_up_to_date_pages = m.m_up_to_date_pages ∧
            (∀ (p : Nat), m2.m_dirty_pages[p]? = some true → m.m_dirty_pages[p]? = some true) ∧
            m2.m_dirty_pages[i]? = some false ∧
            (∀ (j p : Nat), Event.outdated j p ∉ new2) ∧
            (∀ (p : Nat), m.m_dirty_pages[p]? = some true →
              m2.m_dirty_pages[p]? = some true ∨
                ∃ pre post, new2 = pre ++ m.written p :: post) := by
          cases d with
          | false =>
            refine ⟨m, w, [], by simp, rfl, rfl, by simp,
              EncryptedFileMapping.SameGeometry.same_refl m, rfl, fun p hp => hp, hd, by simp,
              fun p hp => Or.inl hp⟩
          | true =>
            simp only [if_true] at h ⊢
            cases hf : m.flush prim fuel w with
            | error e => rw [hf] at h; cases h
            | ok r =>
              obtain ⟨m2, w2⟩ := r
              have hfl := EncryptedFileMapping.flush_spec prim fuel m m2 w w2 hf
              have hdirty : ∀ (p : Nat), m2.m_dirty_pages[p]? = some true →
                  m.m_dirty_pages[p]? = some true ∧ p ∉ List.range m.m_page_count := by
                intro p hp
                rw [hfl.dirty p] at hp
                by_cases hpr : p ∈ List.range m.m_page_count
                · rw [if_pos hpr] at hp
                  cases hx : m.m_dirty_pages[p]? with
                  | none => rw [hx] at hp; cases hp
                  | some b => rw [hx] at hp; cases hp
                · rw [if_neg hpr] at hp
                  exact ⟨hp, hpr⟩
              refine ⟨m2, w2, _, rfl, hfl.mappings, hfl.memory, hfl.trace,
                ⟨?_, ?_, hfl.length⟩, hfl.up_to_date, fun p hp => (hdirty p hp).1,
                hfl.clean i (List.mem_range.2 (Nat.lt_of_not_le hi)),
                fun j p => outdated_not_mem_written m _ j p, ?_⟩
              · have hg := hfl.geometry
                rw [hg]
              · rw [hfl.up_to_date]
              · intro p hp
                by_cases hpr : p ∈ List.range m.m_page_count
                · right
                  have hmemp : m.written p ∈
                      ((List.range m.m_page_count).filter
                        (fun i => m.m_dirty_pages[i]? = some true)).map m.written :=
                    List.mem_map.2 ⟨p, List.mem_filter.2 ⟨hpr, by simp [hp]⟩, rfl⟩
                  obtain ⟨pre, post, hsplit⟩ := List.append_of_mem hmemp
                  exact ⟨pre, post, hsplit⟩
                · left
                  rw [hfl.dirty p, if_neg hpr]
                  exact hp
        obtain ⟨m2, w2, new2, hpart1, hmaps, hmem, htrace, hg, hup, hbits, hclean, hnew,
          hthis⟩ := hpart
        rw [hpart1] at h
        simp only at h
        obtain ⟨ho1, ho2⟩ := World.Outdates.of_cleared self w w2 k i m m2 new2 hk hm hmaps hmem
          htrace hg hup hbits hclean hnew hthis
        have hk2 : k < w2.file.mappings.length := by rw [hmaps]; exact hklt
        cases hu : m2.m_up_to_date_pages[i]? with
        | none => rw [hu] at h; cases h
        | some u =>
          have hilt : i < m2.m_up_to_date_pages.length := by
            rcases Nat.lt_or_ge i m2.m_up_to_date_pages.length with hlt | hge
            · exact hlt
            · rw [List.getElem?_eq_none hge] at hu; cases hu
          rw [hu] at h
          cases u with
          | true =>
            simp only [Except.ok.injEq] at h
            subst h
            refine ⟨ho2, fun m0 h0 _ => ?_⟩
            refine ⟨{ m2 with m_up_to_date_pages := m2.m_up_to_date_pages.set i false },
              by simp [World.setMapping, hk2], hclean, ?_⟩
            simp [hilt]
          | false =>
            simp only [Except.ok.injEq] at h
            subst h
            refine ⟨ho1, fun m0 h0 _ => ?_⟩
            exact ⟨m2, by simp [World.setMapping, hk2], hclean, hu⟩

theorem getElem?_bool_of_ne_true {l : List Bool} {p : Nat} (hlt : p < l.length)
    (h : l[p]? ≠ some true) : l[p]? = some false := by
  rw [List.getElem?_eq_getElem hlt] at h ⊢
  cases hb : l[p] with
  | true => rw [hb] at h; exact absurd rfl h
  | false => rfl

theorem lt_length_of_getElem?_eq_some {α : Type} {l : List α} {p : Nat} {a : α}
    (h : l[p]? = some a) : p < l.length :=
  (List.getElem?_eq_some_iff.1 h).1

/-- A page that a sibling has neither dirty nor up-to-date stays so. -/
theorem World.Outdates.sibling_stays_clear {self : Nat} {w w1 : World}
    (h : World.Outdates self w w1) (k : Nat) (m : EncryptedFileMapping) (p : Nat)
    (hk : k ≠ self) (hm : w.file.mappings[k]? = some m)
    (hd : m.m_dirty_pages[p]? = some false) (hu : m.m_up_to_date_pages[p]? = some false) :
    ∃ m1, w1.file.mappings[k]? = some m1 ∧ m1.m_dirty_pages[p]? = some false ∧
      m1.m_up_to_date_pages[p]? = some false := by
  obtain ⟨m1, hm1, hg⟩ := h.geometry k m hm
  refine ⟨m1, hm1, ?_, ?_⟩
  · apply getElem?_bool_of_ne_true
    · rw [hg.dirty_length]; exact lt_length_of_getElem?_eq_some hd
    · intro ht
      have := h.sibling_dirty k m m1 p hk hm hm1 ht
      rw [hd] at this
      cases this
  · apply getElem?_bool_of_ne_true
    · rw [hg.up_length]; exact lt_length_of_getElem?_eq_some hu
    · intro ht
      have := h.sibling_up k m m1 p hk hm hm1 ht
      rw [hu] at this
      cases this

theorem World.write_page.loop_marks (prim : Primitives) (fuel : Nat) (self page : Nat) :
    ∀ (ids : List Nat) (w w1 : World),
      World.write_page.loop prim fuel self page ids w = .ok w1 →
      World.Outdates self w w1 ∧
      ∀ (k : Nat) (m : EncryptedFileMapping), k ∈ ids → k ≠ self →
        w.file.mappings[k]? = some m → page < m.m_page_count →
        ∃ m1, w1.file.mappings[k]? = some m1 ∧ m1.m_dirty_pages[page]? = some false ∧
          m1.m_up_to_date_pages[page]? = some false := by
  intro ids
  induction ids with
  | nil =>
    intro w w1 h
    simp only [World.write_page.loop] at h
    cases h
    exact ⟨World.Outdates.outdates_refl self w, fun k m hk => by cases hk⟩
  | cons i rest ih =>
    intro w w1 h
    simp only [World.write_page.loop] at h
    cases hmi : w.file.mappings[i]? with
    | none => rw [hmi] at h; cases h
    | some mi =>
      rw [hmi] at h
      simp only at h
      by_cases hc : i ≠ self ∧ page < mi.m_page_count
      · rw [if_pos hc] at h
        cases hmo : w.mark_outdated prim fuel i page with
        | error e => rw [hmo] at h; cases h
        | ok w2 =>
          rw [hmo] at h
          simp only at h
          obtain ⟨ho1, hclear⟩ := World.mark_outdated_spec prim fuel self w w2 i page hc.1 hmo
          obtain ⟨ho2, hrest⟩ := ih w2 w1 h
          refine ⟨ho1.outdates_trans ho2, ?_⟩
          intro k m hk hks hm hlt
          rcases List.mem_cons.1 hk with rfl | hk
          · obtain ⟨m2, hm2, hd2, hu2⟩ := hclear m hm hlt
            exact ho2.sibling_stays_clear k m2 page hks hm2 hd2 hu2
          · obtain ⟨m2, hm2, hg⟩ := ho1.geometry k m hm
            exact hrest k m2 hk hks hm2 (by rw [hg.page_count]; exact hlt)
      · rw [if_neg hc] at h
        obtain ⟨ho2, hrest⟩ := ih w w1 h
        refine ⟨ho2, ?_⟩
        intro k m hk hks hm hlt
        rcases List.mem_cons.1 hk with rfl | hk
        · rw [hmi] at hm
          cases hm
          exact absurd ⟨hks, hlt⟩ hc
        · exact hrest k m hk hks hm hlt

/-- What `write_page(page)` does when it returns. -/
theorem World.write_page_spec (prim : Primitives) (fuel : Nat) (self page : Nat)
    (w w1 : World) (h : w.write_page prim fuel self page = .ok w1) :
    World.Outdates self w w1 ∧
    (∃ this1, w1.file.mappings[self]? = some this1 ∧ this1.m_dirty_pages[page]? = some true) ∧
    ∀ (k : Nat) (m : EncryptedFileMapping), k ≠ self →
      w.file.mappings[k]? = some m → page < m.m_page_count →
      ∃ m1, w1.file.mappings[k]? = some m1 ∧ m1.m_dirty_pages[page]? = some false ∧
        m1.m_up_to_date_pages[page]? = some false := by
  simp only [World.write_page] at h
  cases hl : World.write_page.loop prim fuel self page (List.range w.file.mappings.length) w with
  | error e => rw [hl] at h; cases h
  | ok w2 =>
    rw [hl] at h
    simp only at h
    obtain ⟨ho1, hclear⟩ := World.write_page.loop_marks prim fuel self page _ w w2 hl
    cases hs : w2.file.mappings[self]? with
    | none => rw [hs] at h; cases h
    | some this =>
      rw [hs] at h
      simp only at h
      split at h
      · rename_i hlt
        simp only [Except.ok.injEq] at h
        subst h
        have hslt : self < w2.file.mappings.length := lt_length_of_getElem?_eq_some hs
        have ho2 : World.Outdates self w2
            (w2.setMapping self
              { this with m_dirty_pages := this.m_dirty_pages.set page true }) := by
          refine World.Outdates.of_set self w2 _ self this _ [] hs rfl rfl
            (by simp [World.setMapping])
            ⟨rfl, rfl, by simp⟩ (fun hne => absurd rfl hne) (fun _ => ⟨rfl, ?_⟩) ?_
            (fun j p _ => by simp) (fun p hu hn => absurd hu hn)
          · intro p hp
            by_cases hpp : page = p
            · subst hpp
              simp [hlt]
            · simp only
              rw [List.getElem?_set_ne hpp]
              exact hp
          · intro p hp
            left
            refine ⟨?_, by simp⟩
            by_cases hpp : page = p
            · subst hpp
              simp [hlt]
            · simp only
              rw [List.getElem?_set_ne hpp]
              exact hp
        refine ⟨ho1.outdates_trans ho2,
          ⟨{ this with m_dirty_pages := this.m_dirty_pages.set page true },
            by simp [World.setMapping, hslt], by simp [hlt]⟩, ?_⟩
        intro k m hks hm hlt2
        obtain ⟨m2, hm2, hd2, hu2⟩ := hclear k m
          (List.mem_range.2 (lt_length_of_getElem?_eq_some hm)) hks hm hlt2
        exact ho2.sibling_stays_clear k m2 page hks hm2 hd2 hu2
      · cases h

theorem World.write_barrier.loop_dirties (prim : Primitives) (fuel : Nat) (self : Nat) :
    ∀ (pages : List Nat) (w w1 : World),
      World.write_barrier.loop prim fuel self pages w = .ok w1 →
      World.Outdates self w w1 ∧
      ∀ (idx : Nat), idx ∈ pages →
        (∃ this, w.file.mappings[self]? = some this ∧
          this.m_up_to_date_pages[idx]? = some true) ∧
        (∃ this1, w1.file.mappings[self]? = some this1 ∧
          this1.m_dirty_pages[idx]? = some true) ∧
        ∀ (k : Nat) (m : EncryptedFileMapping), k ≠ self →
          w.file.mappings[k]? = some m → idx < m.m_page_count →
          ∃ m1, w1.file.mappings[k]? = some m1 ∧ m1.m_dirty_pages[idx]? = some false ∧
            m1.m_up_to_date_pages[idx]? = some false := by
  intro pages
  induction pages with
  | nil =>
    intro w w1 h
    simp only [World.write_barrier.loop] at h
    cases h
    exact ⟨World.Outdates.outdates_refl self w, fun idx hidx => by cases hidx⟩
  | cons i rest ih =>
    intro w w1 h
    simp only [World.write_barrier.loop] at h
    cases hs : w.file.mappings[self]? with
    | none => rw [hs] at h; cases h
    | some this =>
      rw [hs] at h
      simp only at h
      cases hu : this.m_up_to_date_pages[i]? with
      | none => rw [hu] at h; cases h
      | some u =>
        rw [hu] at h
        cases u with
        | false => cases h
        | true =>
          simp only at h
          cases hwp : w.write_page prim fuel self i with
          | error e => rw [hwp] at h; cases h
          | ok w2 =>
            rw [hwp] at h
            simp only at h
            obtain ⟨ho1, ⟨this2, hs2, hd2⟩, hclear⟩ := World.write_page_spec prim fuel self i w w2 hwp
            obtain ⟨ho2, hrest⟩ := ih w2 w1 h
            refine ⟨ho1.outdates_trans ho2, ?_⟩
            intro idx hidx
            rcases List.mem_cons.1 hidx with rfl | hidx
            · refine ⟨⟨this, rfl, hu⟩, ?_, ?_⟩
              · obtain ⟨this1, hs1, _⟩ := ho2.geometry self this2 hs2
                exact ⟨this1, hs1, ho2.own_dirty this2 this1 idx hs2 hs1 hd2⟩
              · intro k m hks hm hlt
                obtain ⟨m2, hm2, hdm, hum⟩ := hclear k m hks hm hlt
                exact ho2.sibling_stays_clear k m2 idx hks hm2 hdm hum
            · obtain ⟨⟨thisb, hsb, hub⟩, hown, hsib⟩ := hrest idx hidx
              refine ⟨⟨this, rfl, ?_⟩, hown, ?_⟩
              · have := ho1.own_up this thisb hs hsb
                rw [← this]
                exact hub
              · intro k m hks hm hlt
                obtain ⟨m2, hm2, hg⟩ := ho1.geometry k m hm
                exact hsib k m2 hks hm2 (by rw [hg.page_count]; exact hlt)

/-- What `write_barrier` has done when it returns. -/
theorem World.write_barrier_spec (prim : Primitives) (fuel : Nat) (w w1 : World)
    (self addr size : Nat) (this : EncryptedFileMapping)
    (hself : w.file.mappings[self]? = some this)
    (h : w.write_barrier prim fuel self addr size = .ok w1) :
    this.m_access = .access_ReadWrite ∧ w1.memory = w.memory ∧
    ∃ new, w1.trace = w.trace ++ new ∧
      ∀ (idx : Nat), this.first_idx addr ≤ idx → idx ≤ this.last_idx addr size →
        this.m_up_to_date_pages[idx]? = some true ∧
        (∃ this1, w1.file.mappings[self]? = some this1 ∧
          this1.m_dirty_pages[idx]? = some true ∧
          this1.m_up_to_date_pages = this.m_up_to_date_pages) ∧
        ∀ (k : Nat) (m : EncryptedFileMapping), k ≠ self →
          w.file.mappings[k]? = some m → idx < m.m_page_count →
          ∃ m1, w1.file.mappings[k]? = some m1 ∧
            m1.m_up_to_date_pages[idx]? = some false ∧ m1.m_dirty_pages[idx]? = some false ∧
            (m.m_dirty_pages[idx]? = some true →
              ∃ pre post,
                new = pre ++ Event.cryptor_write (idx <<< m.m_page_shift) (m.page_addr idx)
                        (1 <<< m.m_page_shift) :: post ∧
                Event.outdated k idx ∉ pre) ∧
            (m.m_up_to_date_pages[idx]? = some true → Event.outdated k idx ∈ new) := by
  simp only [World.write_barrier, hself] at h
  split at h
  · rename_i haccess
    split at h
    · cases h
    · obtain ⟨ho, hpages⟩ := World.write_barrier.loop_dirties prim fuel self _ w w1 h
      obtain ⟨new, htrace, hordered, hlogged⟩ := ho.trace
      refine ⟨haccess, ho.memory, new, htrace, ?_⟩
      intro idx h1 h2
      have hmem : idx ∈ List.range' (this.first_idx addr)
          (this.last_idx addr size + 1 - this.first_idx addr) := by
        rw [List.mem_range'_1]
        omega
      obtain ⟨⟨this0, hs0, hu0⟩, ⟨this1, hs1, hd1⟩, hsib⟩ := hpages idx hmem
      rw [hself] at hs0
      cases hs0
      refine ⟨hu0, ⟨this1, hs1, hd1, ho.own_up this this1 hself hs1⟩, ?_⟩
      intro k m hk hm hlt
      obtain ⟨m1, hm1, hdm, hum⟩ := hsib k m hk hm hlt
      refine ⟨m1, hm1, hum, hdm, ?_, ?_⟩
      · intro hd
        rcases hordered k idx m hm hd with ⟨m1b, hm1b, hd1b, _⟩ | hw
        · rw [hm1] at hm1b
          cases hm1b
          rw [hdm] at hd1b
          cases hd1b
        · exact hw
      · intro hu
        exact hlogged k idx m m1 hm hm1 hu (by rw [hum]; simp)
  · cases h

/-- C14: when `write_barrier(addr, size)` on the mapping `this` (of index `self`)
returns, the mapping was opened for writing and every covered page `idx`, from
`first_idx` to `last_idx`, was up-to-date in it (the assertions); the page is
now dirty in `this`, whose up-to-date bits are as before; in every other
mapping of the file that covers the page it is neither up-to-date nor dirty;
if such a sibling had the page dirty, the trace has the write of that page
through the cryptor with no clearing of the page's up-to-date bit in that
sibling before it; and the clearing of a bit that was set is in the trace. -/
theorem World.write_barrier_coherent (prim : Primitives) (fuel : Nat) (w w1 : World)
    (self addr size : Nat) (this : EncryptedFileMapping)
    (hself : w.file.mappings[self]? = some this)
    (h : w.write_barrier prim fuel self addr size = .ok w1) :
    this.m_access = .access_ReadWrite ∧ w1.memory = w.memory ∧
    ∃ new, w1.trace = w.trace ++ new ∧
      ∀ (idx : Nat), this.first_idx addr ≤ idx → idx ≤ this.last_idx addr size →
        this.m_up_to_date_pages[idx]? = some true ∧
        (∃ this1, w1.file.mappings[self]? = some this1 ∧
          this1.m_dirty_pages[idx]? = some true ∧
          this1.m_up_to_date_pages = this.m_up_to_date_pages) ∧
        ∀ (k : Nat) (m : EncryptedFileMapping), k ≠ self →
          w.file.mappings[k]? = some m → idx < m.m_page_count →
          ∃ m1, w1.file.mappings[k]? = some m1 ∧
            m1.m_up_to_date_pages[idx]? = some false ∧ m1.m_dirty_pages[idx]? = some false ∧
            (m.m_dirty_pages[idx]? = some true →
              ∃ pre post,
                new = pre ++ Event.cryptor_write (idx <<< m.m_page_shift) (m.page_addr idx)
                        (1 <<< m.m_page_shift) :: post ∧
                Event.outdated k idx ∉ pre) ∧
            (m.m_up_to_date_pages[idx]? = some true → Event.outdated k idx ∈ new) :=
  World.write_barrier_spec prim fuel w w1 self addr size this hself h

/-- `mark_outdated(i)` on a mapping that has page `i` dirty and up-to-date. -/
theorem World.mark_outdated_dirty (prim : Primitives) (fuel : Nat) (w w2 : World) (k i : Nat)
    (m m2 : EncryptedFileMapping) (hm : w.file.mappings[k]? = some m)
    (hi : i < m.m_page_count) (hd : m.m_dirty_pages[i]? = some true)
    (hf : m.flush prim fuel w = .ok (m2, w2))
    (hu : m2.m_up_to_date_pages[i]? = some true) :
    w.mark_outdated prim fuel k i
      = .ok { w2.setMapping k
                { m2 with m_up_to_date_pages := m2.m_up_to_date_pages.set i false }
              with trace := w2.trace ++ [.outdated k i] } := by
  simp only [World.mark_outdated, hm, ge_iff_le, Nat.not_le.2 hi, if_false, hd, if_true, hf, hu]

/-- `write_page(page)` on the first of two mappings. -/
theorem World.write_page_first_of_two (prim : Primitives) (fuel : Nat) (w w2 : World)
    (page : Nat) (this m this2 : EncryptedFileMapping)
    (hlen : w.file.mappings.length = 2) (h0 : w.file.mappings[0]? = some this)
    (h1 : w.file.mappings[1]? = some m) (hc : page < m.m_page_count)
    (hmo : w.mark_outdated prim fuel 1 page = .ok w2)
    (h2 : w2.file.mappings[0]? = some this2) (hlt : page < this2.m_dirty_pages.length) :
    w.write_page prim fuel 0 page
      = .ok (w2.setMapping 0 { this2 with m_dirty_pages := this2.m_dirty_pages.set page true }) := by
  have hr : List.range 2 = [0, 1] := rfl
  have h10 : (1 : Nat) ≠ 0 := by decide
  simp only [World.write_page, hlen, hr, World.write_page.loop, h0, h1, ne_eq, not_true,
    false_and, if_false, h10, not_false_eq_true, hc, and_self, if_true, hmo, h2, hlt]

/-- `write_barrier` over one page. -/
theorem World.write_barrier_one_page (prim : Primitives) (fuel : Nat) (w w1 : World)
    (self addr size idx : Nat) (this : EncryptedFileMapping)
    (hself : w.file.mappings[self]? = some this)
    (haccess : this.m_access = .access_ReadWrite)
    (hfirst : this.first_idx addr = idx) (hlast : this.last_idx addr size = idx)
    (hidx : idx ≠ SIZE_MOD - 1) (hu : this.m_up_to_date_pages[idx]? = some true)
    (hwp : w.write_page prim fuel self idx = .ok w1) :
    w.write_barrier prim fuel self addr size = .ok w1 := by
  have hr : List.range' idx (idx + 1 - idx) = [idx] := by
    rw [Nat.add_sub_cancel_left]
    rfl
  simp only [World.write_barrier, hself, haccess, if_true, hlast, hidx, if_false, hfirst, hr,
    World.write_barrier.loop, hu, hwp]

/-- The write barrier of the example: the sibling flushes its dirty page, then
loses its up-to-date bit. -/
theorem example_write_barrier :
    ∃ c1 fd1, exampleBarrier.write_barrier examplePrimitives 1 0 0 1
      = .ok { file := { fd := fd1, cryptor := c1,
                        mappings := [{ exampleOwn with m_dirty_pages := [true] },
                                     { exampleDirty with m_up_to_date_pages := [false],
                                                         m_dirty_pages := [false] }] },
              memory := fun _ => 7,
              trace := [exampleDirty.written 0, .outdated 1 0] } := by
  obtain ⟨c1, fd1, hw⟩ := example_write exampleCryptor rfl (by decide)
  have hflush := EncryptedFileMapping.flush_one_page examplePrimitives 1 exampleDirty
    exampleBarrier c1 fd1 rfl rfl (by
      rw [show exampleBarrier.memory = fun _ => 7 from rfl, memory_read_const]
      exact hw)
  have hmo := World.mark_outdated_dirty examplePrimitives 1 exampleBarrier _ 1 0 exampleDirty _
    rfl (by decide) rfl hflush rfl
  have hwp := World.write_page_first_of_two examplePrimitives 1 exampleBarrier _ 0 exampleOwn
    exampleDirty exampleOwn rfl rfl rfl (by decide) hmo rfl (by decide)
  exact ⟨c1, fd1, World.write_barrier_one_page examplePrimitives 1 exampleBarrier _ 0 0 1 0
    exampleOwn rfl rfl (by decide) (by decide) (by decide) rfl hwp⟩

/-- C14, at a concrete input: two mappings of one page each, the page up-to-date
in both and dirty in the second; `write_barrier(0, 1)` on the first returns, the
second has written the page through the cryptor, then lost its up-to-date bit,
and the page is dirty in the first only. -/
theorem World.write_barrier_coherent_witness :
    ∃ w1, exampleBarrier.write_barrier examplePrimitives 1 0 0 1 = .ok w1 ∧
      w1.trace = [Event.cryptor_write 0 4096 4096, Event.outdated 1 0] ∧
      w1.file.mappings.map (fun m => m.m_dirty_pages) = [[true], [false]] ∧
      w1.file.mappings.map (fun m => m.m_up_to_date_pages) = [[true], [false]] ∧
      ∃ m1, w1.file.mappings[1]? = some m1 ∧ m1.m_up_to_date_pages[0]? = some false ∧
        m1.m_dirty_pages[0]? = some false := by
  obtain ⟨c1, fd1, h⟩ := example_write_barrier
  obtain ⟨_, _, new, _, hpages⟩ := World.write_barrier_coherent examplePrimitives 1
    exampleBarrier _ 0 0 1 exampleOwn rfl h
  obtain ⟨_, _, hsib⟩ := hpages 0 (by decide) (by decide)
  obtain ⟨m1, hm1, hu1, hd1, _⟩ := hsib 1 exampleDirty (by decide) rfl (by decide)
  exact ⟨_, h, rfl, rfl, rfl, m1, hm1, hu1, hd1⟩

/-! ## Properties of the registries of mappings -/

theorem EncryptedFileMapping.flush_no_page (prim : Primitives) (fuel : Nat)
    (m : EncryptedFileMapping) (w : World) (h : m.m_page_count = 0) :
    m.flush prim fuel w = .ok (m, w) := by
  simp only [EncryptedFileMapping.flush, h, List.range_zero, EncryptedFileMapping.flush.loop]

/-- The mapping the constructor makes. -/
theorem EncryptedFileMapping.new_eq (prim : Primitives) (fuel : Nat) (page_size : Nat)
    (w : World) (file_offset addr size : Nat) (access : AccessMode)
    (hblocks : (1 <<< Nat.log2 page_size) / block_size * block_size = 1 <<< Nat.log2 page_size)
    (haligned : file_offset % (1 <<< Nat.log2 page_size) = 0)
    (hpages : size % (1 <<< Nat.log2 page_size) = 0) (hpos : 0 < size)
    (hsum : (size + file_offset) % SIZE_MOD < OFF_T_LIMIT) :
    EncryptedFileMapping.new prim fuel page_size w file_offset addr size access
      = .ok { file :=
                { fd := w.file.fd,
                  cryptor := AESCryptor.set_file_size.reserve w.file.cryptor
                    ((size + file_offset) % SIZE_MOD),
                  mappings := w.file.mappings
                    ++ [EncryptedFileMapping.created page_size file_offset addr size access] },
              memory := w.memory, trace := w.trace } := by
  have hflush := EncryptedFileMapping.flush_no_page prim fuel
    (EncryptedFileMapping.blank (Nat.log2 page_size) ((1 <<< Nat.log2 page_size) / block_size)
      access)
    (World.set_file_size.reserve w ((size + file_offset) % SIZE_MOD)) rfl
  have h1 : (EncryptedFileMapping.blank (Nat.log2 page_size)
      ((1 <<< Nat.log2 page_size) / block_size) access).m_page_shift = Nat.log2 page_size := rfl
  simp only [EncryptedFileMapping.new, hblocks, if_true, EncryptedFileMapping.set, h1, haligned,
    hpages, hpos, World.set_file_size_returns _ _ hsum, hflush]
  rfl

/-- The call of `add_mapping` that finds `mappings_by_file` empty. -/
theorem add_mapping_first (prim : Primitives) (fuel : Nat) (page_size : Nat)
    (rw_buffer : List Nat) (r : Registries) (addr size : Nat) (fd : File) (file_offset : Nat)
    (access : AccessMode) (encryption_key : List Nat)
    (hfiles : r.mappings_by_file = [])
    (hcheck : ¬ (0 < fd.size ∧ fd.size % SIZE_MOD < page_size))
    (hblocks : (1 <<< Nat.log2 page_size) / block_size * block_size = 1 <<< Nat.log2 page_size)
    (haligned : file_offset % (1 <<< Nat.log2 page_size) = 0)
    (hpages : size % (1 <<< Nat.log2 page_size) = 0) (hpos : 0 < size)
    (hsum : (size + file_offset) % SIZE_MOD < OFF_T_LIMIT) :
    add_mapping prim fuel page_size rw_buffer r addr size fd file_offset access encryption_key
      = ({ mappings_by_addr := r.mappings_by_addr
             ++ [{ mapping := (0, 0), addr := addr, size := size }],
           mappings_by_file :=
             [{ handle := fd.m_handle,
                info :=
                  { fd := fd,
                    cryptor := AESCryptor.set_file_size.reserve
                      (AESCryptor.new encryption_key rw_buffer)
                      ((size + file_offset) % SIZE_MOD),
                    mappings :=
                      [EncryptedFileMapping.created page_size file_offset addr size access] } }],
           memory := r.memory, trace := r.trace }, .ok (0, 0)) := by
  simp only [add_mapping, hcheck, if_false, add_mapping.locked, hfiles, add_mapping.find,
    List.findIdx_nil, List.length_nil, if_true, List.nil_append, List.getElem?_cons_zero,
    EncryptedFileMapping.new_eq prim fuel page_size _ file_offset addr size access hblocks
      haligned hpages hpos hsum, List.length_cons, List.length_nil, Nat.zero_add, Nat.sub_self,
    List.set_cons_zero]

/-- The call of `add_mapping` that finds `mappings_by_file` not empty adds the
mapping to the first file there, whatever the handle of `fd`. -/
theorem add_mapping_next (prim : Primitives) (fuel : Nat) (page_size : Nat)
    (rw_buffer : List Nat) (r : Registries) (addr size : Nat) (fd : File) (file_offset : Nat)
    (access : AccessMode) (encryption_key : List Nat) (f : mappings_for_file)
    (rest : List mappings_for_file) (hfiles : r.mappings_by_file = f :: rest)
    (hcheck : ¬ (0 < fd.size ∧ fd.size % SIZE_MOD < page_size))
    (hblocks : (1 <<< Nat.log2 page_size) / block_size * block_size = 1 <<< Nat.log2 page_size)
    (haligned : file_offset % (1 <<< Nat.log2 page_size) = 0)
    (hpages : size % (1 <<< Nat.log2 page_size) = 0) (hpos : 0 < size)
    (hsum : (size + file_offset) % SIZE_MOD < OFF_T_LIMIT) :
    add_mapping prim fuel page_size rw_buffer r addr size fd file_offset access encryption_key
      = ({ mappings_by_addr := r.mappings_by_addr
             ++ [{ mapping := (0, f.info.mappings.length), addr := addr, size := size }],
           mappings_by_file :=
             { handle := f.handle,
               info :=
                 { fd := f.info.fd,
                   cryptor := AESCryptor.set_file_size.reserve f.info.cryptor
                     ((size + file_offset) % SIZE_MOD),
                   mappings := f.info.mappings
                     ++ [EncryptedFileMapping.created page_size file_offset addr size access] } }
               :: rest,
           memory := r.memory, trace := r.trace }, .ok (0, f.info.mappings.length)) := by
  have hfind : add_mapping.find (f :: rest) = 0 := by
    simp [add_mapping.find, List.findIdx_cons]
  have hne : ¬ (0 = rest.length + 1) := by omega
  simp only [add_mapping, hcheck, if_false, add_mapping.locked, hfiles, hfind, hne,
    List.getElem?_cons_zero,
    EncryptedFileMapping.new_eq prim fuel page_size _ file_offset addr size access hblocks
      haligned hpages hpos hsum, List.length_append, List.length_cons, List.length_nil, Nat.zero_add,
    Nat.add_sub_cancel, List.set_cons_zero]

/-- C16: two calls of `add_mapping`, for a file with handle 1 and then for a file
with handle 2, starting from empty registries, both return a mapping; afterwards
`mappings_by_file` has one entry, with handle 1 and the file of handle 1, and
both mappings are in the `SharedFileInfo` of that entry: the loop that looks
for the file compares `it->handle` with itself and stops at the first entry. -/
theorem add_mapping_joins_first_file (prim : Primitives) (fuel : Nat) :
    ∃ r1 r2,
      add_mapping prim fuel 4096 [] exampleRegistries 0 4096 exampleFileOne 0
        .access_ReadWrite [] = (r1, .ok (0, 0)) ∧
      add_mapping prim fuel 4096 [] r1 8192 4096 exampleFileTwo 0 .access_ReadWrite []
        = (r2, .ok (0, 1)) ∧
      exampleFileOne.m_handle ≠ exampleFileTwo.m_handle ∧
      r2.mappings_by_file.map
          (fun f => (f.handle, f.info.fd.m_handle, f.info.mappings.map (fun m => m.m_addr)))
        = [(1, 1, [0, 8192])] := by
  have hlog : Nat.log2 4096 = 12 := by
    have h : (4096 : Nat) = 2 ^ 12 := by norm_num
    rw [h, Nat.log2_two_pow]
  have hblocks : (1 <<< Nat.log2 4096) / block_size * block_size = 1 <<< Nat.log2 4096 := by
    rw [hlog]; decide
  have h0 : 0 % (1 <<< Nat.log2 4096) = 0 := Nat.zero_mod _
  have h1 : 4096 % (1 <<< Nat.log2 4096) = 0 := by rw [hlog]; decide
  have hr1 := add_mapping_first prim fuel 4096 [] exampleRegistries 0 4096
    exampleFileOne 0 .access_ReadWrite [] rfl (by decide) hblocks h0 h1 (by decide) (by decide)
  obtain ⟨r1, hr1, hfiles⟩ : ∃ r1,
      add_mapping prim fuel 4096 [] exampleRegistries 0 4096 exampleFileOne 0
        .access_ReadWrite [] = (r1, .ok (0, 0)) ∧
      r1.mappings_by_file = [exampleFirstEntry] := ⟨_, hr1, rfl⟩
  have hr2 := add_mapping_next prim fuel 4096 [] r1 8192 4096 exampleFileTwo 0
    .access_ReadWrite [] exampleFirstEntry [] hfiles (by decide) hblocks h0 h1 (by decide)
    (by decide)
  exact ⟨r1, _, hr1, hr2, by decide, rfl⟩

/-- What the first statement of `add_mapping` does. -/
theorem add_mapping_size_check (prim : Primitives) (fuel : Nat) (page_size : Nat)
    (rw_buffer : List Nat) (r : Registries) (addr size : Nat) (fd : File) (file_offset : Nat)
    (access : AccessMode) (encryption_key : List Nat) :
    (0 < fd.size → fd.size < page_size →
      add_mapping prim fuel page_size rw_buffer r addr size fd file_offset access encryption_key
        = (r, .error .DecryptionFailed)) ∧
    (fd.size = 0 ∨ (page_size ≤ fd.size ∧ fd.size < SIZE_MOD) →
      add_mapping prim fuel page_size rw_buffer r addr size fd file_offset access encryption_key
        = add_mapping.locked prim fuel page_size rw_buffer r addr size fd file_offset access
            encryption_key) := by
  constructor
  · intro h1 h2
    have h3 : fd.size % SIZE_MOD < page_size := Nat.lt_of_le_of_lt (Nat.mod_le _ _) h2
    simp only [add_mapping, h1, h3, and_self, if_true]
  · intro h
    have h3 : ¬ (0 < fd.size ∧ fd.size % SIZE_MOD < page_size) := by
      rcases h with h | ⟨h1, h2⟩
      · omega
      · rw [Nat.mod_eq_of_lt h2]
        omega
    simp only [add_mapping, h3, if_false]

/-- C17, refuted as stated: `add_mapping` on a file of 100 bytes, the page size
being 4096, fails with `DecryptionFailed`, not with `InvalidFile`; the
registries are as before. -/
theorem add_mapping_small_file_counterexample :
    add_mapping examplePrimitives 0 4096 [] exampleRegistries 0 4096 exampleSmallFile 0
        .access_ReadWrite []
      = (exampleRegistries, .error .DecryptionFailed) ∧
    (add_mapping examplePrimitives 0 4096 [] exampleRegistries 0 4096 exampleSmallFile 0
        .access_ReadWrite []).2 ≠ .error .InvalidFile := by
  have h := (add_mapping_size_check examplePrimitives 0 4096 [] exampleRegistries 0 4096
    exampleSmallFile 0 .access_ReadWrite []).1 (by decide) (by decide)
  refine ⟨h, ?_⟩
  rw [h]
  intro hne
  cases hne

/-- C17, amended: `add_mapping` on a file whose size is non-zero and smaller than
one page fails with `DecryptionFailed`, the registries `mappings_by_addr` and
`mappings_by_file` (and the memory and the trace) being those before the call; a
file of size 0 or of at least one page passes this check, the call then being
the part of `add_mapping` under the lock. -/
theorem add_mapping_rejects_small_file (prim : Primitives) (fuel : Nat) (page_size : Nat)
    (rw_buffer : List Nat) (r : Registries) (addr size : Nat) (fd : File) (file_offset : Nat)
    (access : AccessMode) (encryption_key : List Nat) :
    (0 < fd.size → fd.size < page_size →
      add_mapping prim fuel page_size rw_buffer r addr size fd file_offset access encryption_key
        = (r, .error .DecryptionFailed)) ∧
    (fd.size = 0 ∨ (page_size ≤ fd.size ∧ fd.size < SIZE_MOD) →
      add_mapping prim fuel page_size rw_buffer r addr size fd file_offset access encryption_key
        = add_mapping.locked prim fuel page_size rw_buffer r addr size fd file_offset access
            encryption_key) :=
  add_mapping_size_check prim fuel page_size rw_buffer r addr size fd file_offset access
    encryption_key

/-- C17, at a concrete input: a file of 100 bytes is rejected, an empty file is
not. -/
theorem add_mapping_rejects_small_file_witness :
    add_mapping examplePrimitives 0 4096 [] exampleRegistries 0 4096 exampleSmallFile 0
        .access_ReadWrite []
      = (exampleRegistries, .error .DecryptionFailed) ∧
    add_mapping examplePrimitives 0 4096 [] exampleRegistries 0 4096 exampleFileOne 0
        .access_ReadWrite []
      = add_mapping.locked examplePrimitives 0 4096 [] exampleRegistries 0 4096 exampleFileOne 0
          .access_ReadWrite [] :=
  ⟨(add_mapping_rejects_small_file examplePrimitives 0 4096 [] exampleRegistries 0 4096
      exampleSmallFile 0 .access_ReadWrite []).1 (by decide) (by decide),
    (add_mapping_rejects_small_file examplePrimitives 0 4096 [] exampleRegistries 0 4096
      exampleFileOne 0 .access_ReadWrite []).2 (Or.inl rfl)⟩

/-! ## Properties of `ColumnTable` -/

namespace tightdb

theorem Column.GetAsRef_zero (values : List Int) (ndx : Nat) (h : values[ndx]? = some 0) :
    Column.GetAsRef values ndx = some 0 := by
  simp [Column.GetAsRef, h]

theorem getElem?_insert_at {α : Type} (rows : List α) (ndx : Nat) (value : α)
    (h : ndx ≤ rows.length) :
    (rows.take ndx ++ value :: rows.drop ndx)[ndx]? = some value := by
  rw [List.getElem?_append_right (by simp [Nat.min_eq_left h])]
  simp [Nat.min_eq_left h]

theorem getElem?_insert_before {α : Type} (rows : List α) (ndx j : Nat) (value : α)
    (hj : j < ndx) (h : ndx ≤ rows.length) :
    (rows.take ndx ++ value :: rows.drop ndx)[j]? = rows[j]? := by
  rw [List.getElem?_append_left (by simp [Nat.min_eq_left h]; exact hj)]
  simp [List.getElem?_take, hj]

theorem getElem?_insert_after {α : Type} (rows : List α) (ndx j : Nat) (value : α)
    (hj : ndx ≤ j) (h : ndx ≤ rows.length) :
    (rows.take ndx ++ value :: rows.drop ndx)[j + 1]? = rows[j]? := by
  rw [List.getElem?_append_right (by simp [Nat.min_eq_left h]; omega)]
  have hlen : (rows.take ndx).length = ndx := by simp [Nat.min_eq_left h]
  rw [hlen]
  have hsub : j + 1 - ndx = (j - ndx) + 1 := by omega
  rw [hsub, List.getElem?_cons_succ, List.getElem?_drop]
  congr 1
  omega

/-- `ColumnTable::Insert(ndx)` on a column of subtables with `ndx <= Size()`. -/
theorem ColumnTable.Insert_eq (m_ref_specSet : Nat) (values : List Int) (ndx : Nat)
    (h : ndx ≤ values.length) :
    ColumnTable.Insert (.ColumnTable m_ref_specSet values) ndx
      = .ok (.ColumnTable m_ref_specSet (values.take ndx ++ 0 :: values.drop ndx)) := by
  simp [ColumnTable.Insert, ColumnData.Size, Column.Insert, insertRow, h, Except.map]

/-- `ColumnTable::GetTableSize(ndx)` of a row that stores the ref 0. -/
theorem ColumnTable.GetTableSize_zero (memory : Allocator) (alloc m_ref_specSet : Nat)
    (values : List Int) (ndx : Nat) (h : Column.GetAsRef values ndx = some 0) :
    ColumnTable.GetTableSize memory alloc (.ColumnTable m_ref_specSet values) ndx = .ok 0 := by
  have hlt : ndx < values.length := by
    by_contra hge
    have : values[ndx]? = none := List.getElem?_eq_none (by omega)
    simp [Column.GetAsRef, this] at h
  simp [ColumnTable.GetTableSize, ColumnData.Size, hlt, h]

/-- C27: for a `ColumnTable` and `ndx <= Size()`, `Insert(ndx)` returns a column of
one more row whose row `ndx` stores the ref 0, whose rows before `ndx` are the
old ones and whose rows after it are the old rows from `ndx` on, shifted by
one, so that `GetTableSize(ndx)` is 0 afterwards; `Add()` is `Insert(Size())`
and returns `true`; and `GetTableSize` is 0 on every row whose ref is 0. -/
theorem ColumnTable.Insert_stores_zero_ref (memory : Allocator) (alloc m_ref_specSet : Nat)
    (values : List Int) (ndx : Nat) (h : ndx ≤ (ColumnData.ColumnTable m_ref_specSet values).Size) :
    (∃ rows1 : List Int,
      ColumnTable.Insert (.ColumnTable m_ref_specSet values) ndx
        = .ok (.ColumnTable m_ref_specSet rows1)
      ∧ (ColumnData.ColumnTable m_ref_specSet rows1).Size
        = (ColumnData.ColumnTable m_ref_specSet values).Size + 1
      ∧ Column.GetAsRef rows1 ndx = some 0
      ∧ (∀ j : Nat, j < ndx → rows1[j]? = values[j]?)
      ∧ (∀ j : Nat, ndx ≤ j → rows1[j + 1]? = values[j]?)
      ∧ ColumnTable.GetTableSize memory alloc (.ColumnTable m_ref_specSet rows1) ndx = .ok 0)
    ∧ ColumnTable.Add (.ColumnTable m_ref_specSet values)
      = (ColumnTable.Insert (.ColumnTable m_ref_specSet values)
          (ColumnData.ColumnTable m_ref_specSet values).Size).map (fun data => (data, true))
    ∧ ColumnTable.Add (.ColumnTable m_ref_specSet values)
      = .ok (.ColumnTable m_ref_specSet (values ++ [0]), true)
    ∧ ∀ row : Nat, Column.GetAsRef values row = some 0 →
        ColumnTable.GetTableSize memory alloc (.ColumnTable m_ref_specSet values) row = .ok 0 := by
  have h1 : ndx ≤ values.length := h
  refine ⟨⟨values.take ndx ++ 0 :: values.drop ndx, ColumnTable.Insert_eq _ _ _ h1, ?_, ?_, ?_, ?_, ?_⟩,
    ?_, ?_, ?_⟩
  · simp only [ColumnData.Size, List.length_append, List.length_take, List.length_cons,
      List.length_drop]
    omega
  · exact Column.GetAsRef_zero _ _ (getElem?_insert_at _ _ _ h1)
  · intro j hj
    exact getElem?_insert_before _ _ _ _ hj h1
  · intro j hj
    exact getElem?_insert_after _ _ _ _ hj h1
  · exact ColumnTable.GetTableSize_zero _ _ _ _ _
      (Column.GetAsRef_zero _ _ (getElem?_insert_at _ _ _ h1))
  · simp only [ColumnTable.Add]
    cases ColumnTable.Insert (.ColumnTable m_ref_specSet values)
      (ColumnData.ColumnTable m_ref_specSet values).Size <;> rfl
  · simp only [ColumnTable.Add, ColumnData.Size]
    rw [ColumnTable.Insert_eq _ _ _ (le_refl _)]
    simp
  · intro row hrow
    exact ColumnTable.GetTableSize_zero _ _ _ _ _ hrow

theorem ColumnTable.Insert_stores_zero_ref_witness :
    ColumnTable.Insert exampleSubtables 1 = .ok (.ColumnTable 7 [0, 0, 10, 0])
    ∧ ColumnTable.GetTableSize exampleMemory 0 (.ColumnTable 7 [0, 0, 10, 0]) 1 = .ok 0
    ∧ ColumnTable.GetTableSize exampleMemory 0 (.ColumnTable 7 [0, 0, 10, 0]) 2 = .ok 2
    ∧ ColumnTable.Add exampleSubtables = .ok (.ColumnTable 7 [0, 10, 0, 0], true) :=
  ⟨by rfl,
   (ColumnTable.Insert_stores_zero_ref exampleMemory 0 7 [0, 0, 10, 0] 2 (by decide)).2.2.2 1
     (by rfl),
   by rfl,
   (ColumnTable.Insert_stores_zero_ref exampleMemory 0 7 [0, 10, 0] 1 (by decide)).2.2.1⟩

/-- `ColumnTable::Clear(ndx)` on a row whose ref is 0: nothing happens. -/
theorem ColumnTable.Clear_of_zero (m_ref_specSet : Nat) (values : List Int) (ndx : Nat)
    (h : Column.GetAsRef values ndx = some 0) :
    ColumnTable.Clear (.ColumnTable m_ref_specSet values) ndx
      = .ok (.ColumnTable m_ref_specSet values, []) := by
  have hlt : ndx < values.length := by
    by_contra hge
    have : values[ndx]? = none := List.getElem?_eq_none (by omega)
    simp [Column.GetAsRef, this] at h
  simp [ColumnTable.Clear, ColumnData.Size, hlt, h]

/-- `ColumnTable::Clear(ndx)` on a row whose ref is not 0: the array at the ref is
destroyed and the row is set to 0. -/
theorem ColumnTable.Clear_of_ref (m_ref_specSet : Nat) (values : List Int) (ndx ref : Nat)
    (h : Column.GetAsRef values ndx = some ref) (hne : ref ≠ 0) :
    ColumnTable.Clear (.ColumnTable m_ref_specSet values) ndx
      = .ok (.ColumnTable m_ref_specSet (values.set ndx 0), [ref]) := by
  have hlt : ndx < values.length := by
    by_contra hge
    have : values[ndx]? = none := List.getElem?_eq_none (by omega)
    simp [Column.GetAsRef, this] at h
  simp [ColumnTable.Clear, ColumnData.Size, hlt, h, hne, Column.Set, setRow, Except.map]

theorem Column.GetAsRef_of_lt (values : List Int) (ndx : Nat) (h : ndx < values.length) :
    ∃ ref, Column.GetAsRef values ndx = some ref := by
  simp [Column.GetAsRef, List.getElem?_eq_getElem h]

/-- What `ColumnTable::Clear(ndx)` does for `ndx < Size()`. -/
theorem ColumnTable.Clear_spec (memory : Allocator) (alloc m_ref_specSet : Nat)
    (values : List Int) (ndx : Nat) (h : ndx < values.length) :
    ∃ (rows1 : List Int) (destroyed : List Nat),
      ColumnTable.Clear (.ColumnTable m_ref_specSet values) ndx
        = .ok (.ColumnTable m_ref_specSet rows1, destroyed)
      ∧ Column.GetAsRef rows1 ndx = some 0
      ∧ ColumnTable.GetTableSize memory alloc (.ColumnTable m_ref_specSet rows1) ndx = .ok 0
      ∧ rows1.length = values.length
      ∧ (∀ j : Nat, j ≠ ndx → rows1[j]? = values[j]?)
      ∧ (∀ ref : Nat, Column.GetAsRef values ndx = some ref → ref ≠ 0 → destroyed = [ref])
      ∧ (Column.GetAsRef values ndx = some 0 → rows1 = values ∧ destroyed = [])
      ∧ ColumnTable.Clear (.ColumnTable m_ref_specSet rows1) ndx
        = .ok (.ColumnTable m_ref_specSet rows1, []) := by
  obtain ⟨ref, href⟩ := Column.GetAsRef_of_lt values ndx h
  by_cases hz : ref = 0
  · subst hz
    refine ⟨values, [], ColumnTable.Clear_of_zero _ _ _ href, href,
      ColumnTable.GetTableSize_zero _ _ _ _ _ href, rfl, fun _ _ => rfl, ?_, fun _ => ⟨rfl, rfl⟩,
      ColumnTable.Clear_of_zero _ _ _ href⟩
    intro ref1 h1 hne
    rw [href] at h1
    cases h1
    exact absurd rfl hne
  · have hset : Column.GetAsRef (values.set ndx 0) ndx = some 0 :=
      Column.GetAsRef_zero _ _ (by simp [List.getElem?_set, h])
    refine ⟨values.set ndx 0, [ref], ColumnTable.Clear_of_ref _ _ _ _ href hz, hset,
      ColumnTable.GetTableSize_zero _ _ _ _ _ hset, by simp, ?_, ?_, ?_,
      ColumnTable.Clear_of_zero _ _ _ hset⟩
    · intro j hj
      simp [List.getElem?_set, Ne.symm hj]
    · intro ref1 h1 _
      rw [href] at h1
      cases h1
      rfl
    · intro h0
      rw [href] at h0
      cases h0
      exact absurd rfl hz

/-- C28: `ColumnTable::Clear(ndx)` for `ndx < Size()` returns; afterwards row `ndx`
stores the ref 0 and `GetTableSize(ndx)` is 0, the number of rows and every
other row are as before; a ref that was not 0 is destroyed, exactly once; when
the ref was 0 already nothing is destroyed and no row is written; and a second
`Clear(ndx)` changes nothing and destroys nothing. -/
theorem ColumnTable.Clear_zeroes_the_row (memory : Allocator) (alloc m_ref_specSet : Nat)
    (values : List Int) (ndx : Nat) (h : ndx < (ColumnData.ColumnTable m_ref_specSet values).Size) :
    ∃ (rows1 : List Int) (destroyed : List Nat),
      ColumnTable.Clear (.ColumnTable m_ref_specSet values) ndx
        = .ok (.ColumnTable m_ref_specSet rows1, destroyed)
      ∧ Column.GetAsRef rows1 ndx = some 0
      ∧ ColumnTable.GetTableSize memory alloc (.ColumnTable m_ref_specSet rows1) ndx = .ok 0
      ∧ (ColumnData.ColumnTable m_ref_specSet rows1).Size
        = (ColumnData.ColumnTable m_ref_specSet values).Size
      ∧ (∀ j : Nat, j ≠ ndx → rows1[j]? = values[j]?)
      ∧ (∀ ref : Nat, Column.GetAsRef values ndx = some ref → ref ≠ 0 → destroyed = [ref])
      ∧ (Column.GetAsRef values ndx = some 0 → rows1 = values ∧ destroyed = [])
      ∧ ColumnTable.Clear (.ColumnTable m_ref_specSet rows1) ndx
        = .ok (.ColumnTable m_ref_specSet rows1, []) :=
  ColumnTable.Clear_spec memory alloc m_ref_specSet values ndx h

theorem ColumnTable.Clear_zeroes_the_row_witness :
    ColumnTable.Clear exampleSubtables 1 = .ok (.ColumnTable 7 [0, 0, 0], [10])
    ∧ ColumnTable.Clear (.ColumnTable 7 [0, 0, 0]) 1 = .ok (.ColumnTable 7 [0, 0, 0], [])
    ∧ ∃ (rows1 : List Int) (destroyed : List Nat),
        ColumnTable.Clear (.ColumnTable 7 [0, 10, 0]) 1 = .ok (.ColumnTable 7 rows1, destroyed)
        ∧ Column.GetAsRef rows1 1 = some 0 := by
  obtain ⟨rows1, destroyed, h1, h2, _⟩ :=
    ColumnTable.Clear_zeroes_the_row exampleMemory 0 7 [0, 10, 0] 1 (by decide)
  exact ⟨by rfl, by rfl, rows1, destroyed, h1, h2⟩

end tightdb

/-! ## Properties of `CreateColumns` and `CacheColumns` -/

namespace tightdb

theorem Table.Appended.of_addColumn (n : Nat) (t t1 : Table) (data : ColumnData)
    (h : Table.Appended n (t.addColumn data) t1) : Table.Appended (n + 1) t t1 := by
  have hc : (t.addColumn data).m_columns.length = t.m_columns.length + 1 := by
    simp [Table.addColumn]
  have hm : (t.addColumn data).m_cols.length = t.m_cols.length + 1 := by
    simp [Table.addColumn]
  refine ⟨by rw [h.m_columns, hc]; omega, by rw [h.m_cols, hm]; omega, ?_, ?_, ?_, ?_, ?_, ?_⟩
  · intro j hj
    rw [h.old_cols j (by omega)]
    simp [Table.addColumn, List.getElem?_append_left hj]
  · intro j hj
    rw [h.old_columns j (by omega)]
    simp [Table.addColumn, List.getElem?_append_left hj]
  · intro k hk
    cases k with
    | zero =>
      rw [Nat.add_zero, h.old_cols _ (by omega)]
      simp [Table.addColumn]
    | succ k =>
      have := h.parent k (by omega)
      rw [hm, hc] at this
      rw [show t.m_cols.length + (k + 1) = t.m_cols.length + 1 + k by omega, this]
      congr 1
      omega
  · rw [h.spec]; rfl
  · rw [h.m_size]; rfl
  · rw [h.valid]; rfl

theorem Table.CreateColumns.loop_appends :
    ∀ (entries : List ColumnType) (subtable_count : Nat) (t : Table),
      (∀ type ∈ entries, type.value < ColumnType.COLUMN_TYPE_STRING_ENUM.value) →
      subtable_count + entries.count .COLUMN_TYPE_TABLE ≤ t.m_spec_set.m_subSpecs.length →
      ∃ t1, Table.CreateColumns.loop entries subtable_count t = .ok t1
        ∧ Table.Appended entries.length t t1 := by
  intro entries
  induction entries with
  | nil =>
    intro sc t _ _
    exact ⟨t, rfl, by simp, by simp, fun _ _ => rfl, fun _ _ => rfl,
      fun k hk => absurd hk (by simp), rfl, rfl, rfl⟩
  | cons type rest ih =>
    intro sc t htypes hsub
    have hrest : ∀ type ∈ rest, type.value < ColumnType.COLUMN_TYPE_STRING_ENUM.value :=
      fun type h => htypes type (List.mem_cons_of_mem _ h)
    have hhead := htypes type (List.mem_cons_self _ _)
    have hstep : ∀ (data : ColumnData) (sc1 : Nat),
        sc1 + rest.count .COLUMN_TYPE_TABLE ≤ t.m_spec_set.m_subSpecs.length →
        ∃ t1, Table.CreateColumns.loop rest sc1 (t.addColumn data) = .ok t1
          ∧ Table.Appended (rest.length + 1) t t1 := by
      intro data sc1 h1
      obtain ⟨t1, h, happ⟩ := ih sc1 (t.addColumn data) hrest (by simpa [Table.addColumn] using h1)
      exact ⟨t1, h, Table.Appended.of_addColumn _ _ _ _ happ⟩
    cases type with
    | COLUMN_TYPE_TABLE =>
      simp only [List.count_cons_self] at hsub
      have hlt : sc < t.m_spec_set.m_subSpecs.length := by omega
      simp only [Table.CreateColumns.loop, Spec.GetSubSpecRef, List.getElem?_eq_getElem hlt]
      exact hstep _ _ (by omega)
    | COLUMN_TYPE_INT | COLUMN_TYPE_BOOL | COLUMN_TYPE_STRING | COLUMN_TYPE_DATE
    | COLUMN_TYPE_BINARY | COLUMN_TYPE_MIXED =>
      simp only [Table.CreateColumns.loop]
      exact hstep _ _ (by simpa using hsub)
    | COLUMN_TYPE_STRING_ENUM | COLUMN_ATTR_INDEXED | COLUMN_ATTR_UNIQUE | COLUMN_ATTR_SORTED
    | COLUMN_ATTR_NONE => exact absurd hhead (by decide)

theorem Table.CreateColumns.loop_attribute :
    ∀ (entries : List ColumnType) (subtable_count : Nat) (t : Table),
      (∃ type ∈ entries, type = .COLUMN_ATTR_INDEXED ∨ type = .COLUMN_ATTR_UNIQUE) →
      Table.CreateColumns.loop entries subtable_count t = .error .AssertionFailed
        ∨ (Table.CreateColumns.loop entries subtable_count t = .error .OutOfBounds
          ∧ t.m_spec_set.m_subSpecs.length < subtable_count + entries.count .COLUMN_TYPE_TABLE) := by
  intro entries
  induction entries with
  | nil =>
    intro sc t h
    obtain ⟨type, hmem, _⟩ := h
    cases hmem
  | cons type rest ih =>
    intro sc t h
    have hrest : type ≠ .COLUMN_ATTR_INDEXED → type ≠ .COLUMN_ATTR_UNIQUE →
        ∃ type ∈ rest, type = .COLUMN_ATTR_INDEXED ∨ type = .COLUMN_ATTR_UNIQUE := by
      intro h1 h2
      obtain ⟨type1, hmem, hattr⟩ := h
      rcases List.mem_cons.mp hmem with heq | hmem
      · subst heq
        rcases hattr with h | h
        · exact absurd h h1
        · exact absurd h h2
      · exact ⟨type1, hmem, hattr⟩
    have hstep : ∀ (data : ColumnData) (sc1 : Nat),
        type ≠ .COLUMN_ATTR_INDEXED → type ≠ .COLUMN_ATTR_UNIQUE →
        sc1 + rest.count .COLUMN_TYPE_TABLE = sc + (type :: rest).count .COLUMN_TYPE_TABLE →
        Table.CreateColumns.loop rest sc1 (t.addColumn data) = .error .AssertionFailed
          ∨ (Table.CreateColumns.loop rest sc1 (t.addColumn data) = .error .OutOfBounds
            ∧ t.m_spec_set.m_subSpecs.length < sc + (type :: rest).count .COLUMN_TYPE_TABLE) := by
      intro data sc1 h1 h2 hcount
      rcases ih sc1 (t.addColumn data) (hrest h1 h2) with h | ⟨h, hlen⟩
      · exact Or.inl h
      · refine Or.inr ⟨h, ?_⟩
        rw [← hcount]
        simpa [Table.addColumn] using hlen
    cases type with
    | COLUMN_TYPE_TABLE =>
      simp only [Table.CreateColumns.loop]
      cases hs : t.m_spec_set.GetSubSpecRef sc with
      | none =>
        refine Or.inr ⟨rfl, ?_⟩
        have : t.m_spec_set.m_subSpecs.length ≤ sc := by
          simpa [Spec.GetSubSpecRef, List.getElem?_eq_none_iff] using hs
        simp only [List.count_cons_self]
        omega
      | some subspec_ref =>
        exact hstep _ _ (by decide) (by decide) (by simp only [List.count_cons_self]; omega)
    | COLUMN_TYPE_INT | COLUMN_TYPE_BOOL | COLUMN_TYPE_STRING | COLUMN_TYPE_DATE
    | COLUMN_TYPE_BINARY | COLUMN_TYPE_MIXED =>
      simp only [Table.CreateColumns.loop]
      exact hstep _ _ (by decide) (by decide) (by simp)
    | COLUMN_TYPE_STRING_ENUM | COLUMN_ATTR_INDEXED | COLUMN_ATTR_UNIQUE | COLUMN_ATTR_SORTED
    | COLUMN_ATTR_NONE => exact Or.inl rfl

/-- `CreateColumns` on a Spec with an ATTR_INDEXED or ATTR_UNIQUE entry. -/
theorem Table.CreateColumns_attribute (t : Table)
    (h : ∃ type ∈ t.m_spec_set.m_spec, type = .COLUMN_ATTR_INDEXED ∨ type = .COLUMN_ATTR_UNIQUE) :
    t.CreateColumns = .error .AssertionFailed
      ∨ (t.CreateColumns = .error .OutOfBounds
        ∧ t.m_spec_set.m_subSpecs.length < t.m_spec_set.m_spec.count .COLUMN_TYPE_TABLE) := by
  simp only [Table.CreateColumns]
  split
  · split
    · simpa using Table.CreateColumns.loop_attribute t.m_spec_set.m_spec 0
        { t with m_columns := [], m_columns_valid := true } h
    · simpa using Table.CreateColumns.loop_attribute t.m_spec_set.m_spec 0 t h
  · exact Or.inl rfl

/-- `CreateColumns` on a table that passes the assertion of line 96 and whose Spec
has entries of the seven creatable types only. -/
theorem Table.CreateColumns_appends (t : Table)
    (hinit : t.m_columns_valid = false ∨ t.m_columns = [])
    (htypes : ∀ type ∈ t.m_spec_set.m_spec,
      type.value < ColumnType.COLUMN_TYPE_STRING_ENUM.value)
    (hsub : t.m_spec_set.m_spec.count .COLUMN_TYPE_TABLE ≤ t.m_spec_set.m_subSpecs.length) :
    ∃ t1, t.CreateColumns = .ok t1
      ∧ t1.m_columns_valid = true
      ∧ t1.m_columns.length = t.m_spec_set.m_spec.length
      ∧ t1.m_cols.length = t.m_cols.length + t.m_spec_set.m_spec.length
      ∧ (∀ j : Nat, j < t.m_cols.length → t1.m_cols[j]? = t.m_cols[j]?)
      ∧ (∀ k : Nat, k < t.m_spec_set.m_spec.length →
          (t1.m_cols[t.m_cols.length + k]?).map ColumnBase.m_parentNdx = some k) := by
  have hassert : (!t.m_columns_valid || t.m_columns.isEmpty) = true := by
    rcases hinit with h | h <;> simp [h]
  simp only [Table.CreateColumns, hassert, if_true]
  by_cases hv : t.m_columns_valid = true
  · have hempty : t.m_columns = [] := by
      rcases hinit with h | h
      · rw [hv] at h; cases h
      · exact h
    simp only [hv, Bool.not_true, Bool.false_eq_true, if_false]
    obtain ⟨t1, h, happ⟩ := Table.CreateColumns.loop_appends t.m_spec_set.m_spec 0 t htypes
      (by simpa using hsub)
    refine ⟨t1, h, by rw [happ.valid, hv], by rw [happ.m_columns, hempty]; simp, happ.m_cols,
      happ.old_cols, ?_⟩
    intro k hk
    rw [happ.parent k hk, hempty]
    simp
  · have hv : t.m_columns_valid = false := by simpa using hv
    simp only [hv, Bool.not_false, if_true]
    obtain ⟨t1, h, happ⟩ := Table.CreateColumns.loop_appends t.m_spec_set.m_spec 0
      { t with m_columns := [], m_columns_valid := true } htypes (by simpa using hsub)
    refine ⟨t1, h, by rw [happ.valid], by rw [happ.m_columns]; simp, happ.m_cols,
      happ.old_cols, ?_⟩
    intro k hk
    rw [happ.parent k hk]
    simp

/-- A Spec without attribute entries, on a table that passes the assertion of line
96, on which `CreateColumns` fails: the entry STRING_ENUM reaches
`default: assert(false)`. -/
theorem Table.CreateColumns_per_entry_counterexample :
    (∀ type ∈ exampleEnumSpec.m_spec_set.m_spec, type.isAttribute = false)
    ∧ exampleEnumSpec.m_columns = []
    ∧ exampleEnumSpec.CreateColumns = .error .AssertionFailed := by
  refine ⟨by decide, rfl, rfl⟩

/-- C30, amended: `CreateColumns` fails, at an assertion or at the read of a
sub-Spec ref that the Spec lacks, on every Spec that contains an ATTR_INDEXED
or ATTR_UNIQUE entry (at an assertion when the Spec has a sub-Spec ref for
every TABLE entry); on a table that passes the assertion of line 96 and whose
Spec has entries of the types INT, BOOL, DATE, STRING, BINARY, TABLE and MIXED
only, with a sub-Spec ref for every TABLE entry, it returns, `m_columns` holds
exactly one ref per Spec entry, `m_cols` exactly one more cached column per
Spec entry, and the `k`-th of them has parent slot `k`. -/
theorem Table.CreateColumns_per_entry (t : Table) :
    ((∃ type ∈ t.m_spec_set.m_spec, type = .COLUMN_ATTR_INDEXED ∨ type = .COLUMN_ATTR_UNIQUE) →
      (t.CreateColumns = .error .AssertionFailed ∨ t.CreateColumns = .error .OutOfBounds)
      ∧ (t.m_spec_set.m_spec.count .COLUMN_TYPE_TABLE ≤ t.m_spec_set.m_subSpecs.length →
          t.CreateColumns = .error .AssertionFailed))
    ∧ ((t.m_columns_valid = false ∨ t.m_columns = []) →
      (∀ type ∈ t.m_spec_set.m_spec, type.value < ColumnType.COLUMN_TYPE_STRING_ENUM.value) →
      t.m_spec_set.m_spec.count .COLUMN_TYPE_TABLE ≤ t.m_spec_set.m_subSpecs.length →
      ∃ t1, t.CreateColumns = .ok t1
        ∧ t1.m_columns_valid = true
        ∧ t1.m_columns.length = t.m_spec_set.m_spec.length
        ∧ t1.m_cols.length = t.m_cols.length + t.m_spec_set.m_spec.length
        ∧ (∀ j : Nat, j < t.m_cols.length → t1.m_cols[j]? = t.m_cols[j]?)
        ∧ (∀ k : Nat, k < t.m_spec_set.m_spec.length →
            (t1.m_cols[t.m_cols.length + k]?).map ColumnBase.m_parentNdx = some k)) :=
  ⟨fun h => ⟨(Table.CreateColumns_attribute t h).imp id (fun h1 => h1.1),
    fun hsub => (Table.CreateColumns_attribute t h).elim id (fun h1 => absurd hsub (by omega))⟩,
   fun hinit htypes hsub => Table.CreateColumns_appends t hinit htypes hsub⟩

theorem Table.CreateColumns_per_entry_witness :
    exampleIndexedNew.CreateColumns = .error .AssertionFailed
    ∧ exampleZeroRef.CreateColumns = .ok exampleCreated
    ∧ ∃ t1, exampleZeroRef.CreateColumns = .ok t1
        ∧ t1.m_columns_valid = true
        ∧ t1.m_columns.length = 3
        ∧ t1.m_cols.length = 0 + 3
        ∧ (∀ j : Nat, j < 0 → t1.m_cols[j]? = exampleZeroRef.m_cols[j]?)
        ∧ (∀ k : Nat, k < 3 → (t1.m_cols[0 + k]?).map ColumnBase.m_parentNdx = some k) :=
  ⟨((Table.CreateColumns_per_entry exampleIndexedNew).1
      ⟨.COLUMN_ATTR_INDEXED, by decide, Or.inl rfl⟩).2 (by decide),
   by rfl,
   (Table.CreateColumns_per_entry exampleZeroRef).2 (Or.inl rfl) (by decide) (by decide)⟩

theorem Table.CacheColumns.newColumn_ok (memory : Allocator) (t : Table) (type : ColumnType)
    (column_ndx subtable_count ref : Nat) (data : ColumnData) (column_ndx1 subtable_count1 : Nat)
    (h : Table.CacheColumns.newColumn memory t type column_ndx subtable_count ref
      = .ok (data, column_ndx1, subtable_count1)) :
    ¬ ColumnType.COLUMN_ATTR_INDEXED.value ≤ type.value
    ∧ (type.value < ColumnType.COLUMN_TYPE_STRING_ENUM.value → column_ndx1 = column_ndx)
    ∧ (¬ type.value < ColumnType.COLUMN_TYPE_STRING_ENUM.value → column_ndx1 = column_ndx + 1) := by
  cases type <;> simp only [Table.CacheColumns.newColumn] at h
  case COLUMN_TYPE_STRING_ENUM =>
    split at h
    · cases h
    · cases h
      exact ⟨by decide, fun h => absurd h (by decide), fun _ => rfl⟩
  case COLUMN_TYPE_TABLE =>
    split at h
    · cases h
    · cases h
      exact ⟨by decide, fun _ => rfl, fun h => absurd (by decide) h⟩
  case COLUMN_ATTR_INDEXED =>
    split at h <;> cases h
  case COLUMN_ATTR_UNIQUE =>
    split at h <;> cases h
  all_goals first
    | (cases h; exact ⟨by decide, fun _ => rfl, fun h => absurd (by decide) h⟩)
    | cases h

theorem Table.CacheColumns.loop_slots (memory : Allocator) :
    ∀ (entries : List ColumnType) (column_ndx subtable_count : Nat) (size : Option Nat)
      (t t1 : Table),
      Table.CacheColumns.loop memory entries column_ndx subtable_count size t = .ok t1 →
      (∀ type ∈ entries, type.isAttribute = false)
      ∧ t1.m_cols.length = t.m_cols.length + entries.length
      ∧ (∀ j : Nat, j < t.m_cols.length → t1.m_cols[j]? = t.m_cols[j]?)
      ∧ ∀ (c : Nat) (column : ColumnBase), t1.m_cols[t.m_cols.length + c]? = some column →
          ∀ cur : Nat, Table.GetColumnRefPos.loop (cur + c) entries column_ndx cur
            = some column.m_parentNdx := by
  intro entries
  induction entries with
  | nil =>
    intro column_ndx sc size t t1 h
    have hcols : t1.m_cols = t.m_cols := by
      simp only [Table.CacheColumns.loop] at h
      split at h <;> cases h <;> rfl
    refine ⟨fun _ h => (by cases h), (by simp [hcols]), fun j _ => (by rw [hcols]), ?_⟩
    intro c column hc
    rw [hcols, List.getElem?_eq_none (by omega)] at hc
    cases hc
  | cons type rest ih =>
    intro column_ndx sc size t t1 h
    simp only [Table.CacheColumns.loop] at h
    split at h
    · cases h
    · rename_i ref href
      split at h
      · cases h
      · rename_i data column_ndx1 sc1 hnew
        split at h
        · obtain ⟨hattr, hsmall, hbig⟩ := Table.CacheColumns.newColumn_ok _ _ _ _ _ _ _ _ _ hnew
          obtain ⟨htypes, hlen, hold, hslots⟩ := ih _ _ _ _ _ h
          simp only [List.length_append, List.length_singleton] at hlen hold hslots
          refine ⟨?_, by rw [hlen, List.length_cons]; omega, ?_, ?_⟩
          · intro type1 hmem
            rcases List.mem_cons.mp hmem with heq | hmem
            · subst heq
              simpa [ColumnType.isAttribute] using hattr
            · exact htypes type1 hmem
          · intro j hj
            rw [hold j (by omega), List.getElem?_append_left hj]
          · intro c column hc cur
            cases c with
            | zero =>
              rw [Nat.add_zero, hold _ (by omega)] at hc
              simp only [List.getElem?_append_right (le_refl _), Nat.sub_self,
                List.getElem?_cons_zero, Option.some.injEq] at hc
              subst hc
              simp [Table.GetColumnRefPos.loop]
            | succ c =>
              have hrec := hslots c column
                (by rw [show t.m_cols.length + 1 + c = t.m_cols.length + (c + 1) by omega]
                    exact hc) (cur + 1)
              have hne : ¬ cur = cur + (c + 1) := by omega
              have htarget : cur + 1 + c = cur + (c + 1) := by omega
              simp only [Table.GetColumnRefPos.loop, if_neg hne, if_neg hattr]
              rw [htarget] at hrec
              by_cases hs : type.value < ColumnType.COLUMN_TYPE_STRING_ENUM.value
              · rw [if_pos hs]
                rw [hsmall hs] at hrec
                exact hrec
              · rw [if_neg hs]
                rw [hbig hs] at hrec
                exact hrec
        · cases h

/-- What a `CacheColumns` that returns has done: the Spec has no attribute entry,
there is one cached column per entry, and the slot that a column has as parent
index, the one its root ref was read from, is the slot that `GetColumnRefPos`
computes. -/
theorem Table.CacheColumns_spec (memory : Allocator) (t t1 : Table)
    (h : Table.CacheColumns memory t = .ok t1) :
    (∀ type ∈ t.m_spec_set.m_spec, type.isAttribute = false)
    ∧ t1.m_cols.length = t.m_spec_set.m_spec.length
    ∧ ∀ (c : Nat) (column : ColumnBase), t1.m_cols[c]? = some column →
        t.GetColumnRefPos c = some column.m_parentNdx := by
  simp only [Table.CacheColumns] at h
  split at h
  · rename_i hempty
    have hnil : t.m_cols = [] := by simpa using hempty
    obtain ⟨htypes, hlen, _, hslots⟩ := Table.CacheColumns.loop_slots memory _ _ _ _ _ _ h
    refine ⟨htypes, by simpa [hnil] using hlen, ?_⟩
    intro c column hc
    have := hslots c column (by simpa [hnil] using hc) 0
    simpa [Table.GetColumnRefPos] using this
  · cases h

/-- `CacheColumns` does not return on a Spec with an attribute entry. -/
theorem Table.CacheColumns_attribute (memory : Allocator) (t : Table)
    (h : ∃ type ∈ t.m_spec_set.m_spec, type = .COLUMN_ATTR_INDEXED ∨ type = .COLUMN_ATTR_UNIQUE) :
    ∃ e, Table.CacheColumns memory t = .error e := by
  cases hc : Table.CacheColumns memory t with
  | error e => exact ⟨e, rfl⟩
  | ok t1 =>
    obtain ⟨type, hmem, hattr⟩ := h
    have := (Table.CacheColumns_spec memory t t1 hc).1 type hmem
    rcases hattr with h | h <;> subst h <;> exact absurd this (by decide)

/-- C21: `CacheColumns` returns on no Spec that has an ATTR_INDEXED or ATTR_UNIQUE
entry (line 259 calls `SetIndexRef` through `newColumn`, which is null for such
an entry); whenever it returns, the slot of `m_columns` from which it has read
the root ref of user column `c` is `GetColumnRefPos(c)`. -/
theorem Table.CacheColumns_slots (memory : Allocator) (t : Table) :
    ((∃ type ∈ t.m_spec_set.m_spec,
        type = .COLUMN_ATTR_INDEXED ∨ type = .COLUMN_ATTR_UNIQUE) →
      ∃ e, Table.CacheColumns memory t = .error e)
    ∧ (∀ t1 : Table, Table.CacheColumns memory t = .ok t1 →
        ∀ (c : Nat) (column : ColumnBase), t1.m_cols[c]? = some column →
          t.GetColumnRefPos c = some column.m_parentNdx) :=
  ⟨Table.CacheColumns_attribute memory t,
   fun t1 h => (Table.CacheColumns_spec memory t t1 h).2.2⟩

theorem Table.CacheColumns_slots_witness :
    Table.CacheColumns exampleMemory exampleIndexed = .error .NullPointer
    ∧ exampleIndexed.GetColumnRefPos 1 = some 1
    ∧ (∃ e, Table.CacheColumns exampleMemory exampleIndexed = .error e)
    ∧ Table.CacheColumns exampleMemory exampleUncached = .ok exampleCached
    ∧ exampleUncached.GetColumnRefPos 0 = some 0 :=
  ⟨by rfl, by rfl,
   (Table.CacheColumns_slots exampleMemory exampleIndexed).1
     ⟨.COLUMN_ATTR_INDEXED, by decide, Or.inl rfl⟩,
   by rfl,
   (Table.CacheColumns_slots exampleMemory exampleUncached).2 exampleCached (by rfl) 0
     { data := .Column [1, 2], m_parentNdx := 0 } (by rfl)⟩

end tightdb

/-! ## Properties of the typed cell operations -/

namespace tightdb

theorem Table.GetRealColumnType_of_lt (t : Table) (ndx : Nat) (h : ndx < t.GetColumnCount) :
    ∃ type, t.GetRealColumnType ndx = .ok type ∧ t.m_spec_set.columns[ndx]? = some type := by
  have hlt : ndx < t.m_spec_set.columns.length := h
  refine ⟨t.m_spec_set.columns[ndx], ?_, List.getElem?_eq_getElem hlt⟩
  simp [Table.GetRealColumnType, h, Spec.GetRealColumnType, List.getElem?_eq_getElem hlt]

/-- `GetBool` and `GetDate` fail their assertions unless the real type of the
column is the expected one. -/
theorem Table.getTyped_refuses (expected : ColumnType) (t : Table) (column_id ndx : Nat)
    (h : t.GetRealColumnType column_id ≠ .ok expected) :
    Table.getTyped expected t column_id ndx = .error .AssertionFailed := by
  simp only [Table.getTyped]
  by_cases hc : column_id < t.GetColumnCount
  · obtain ⟨type, htype, _⟩ := Table.GetRealColumnType_of_lt t column_id hc
    rw [if_pos hc, htype]
    have hne : type ≠ expected := fun heq => h (by rw [htype, heq])
    simp [hne]
  · rw [if_neg hc]

/-- `SetBool` and `SetDate` fail their assertions unless the real type of the
column is the expected one. -/
theorem Table.setTyped_refuses (expected : ColumnType) (t : Table) (column_id ndx : Nat)
    (value : Int) (h : t.GetRealColumnType column_id ≠ .ok expected) :
    Table.setTyped expected t column_id ndx value = .error .AssertionFailed := by
  simp only [Table.setTyped]
  by_cases hc : column_id < t.GetColumnCount
  · obtain ⟨type, htype, _⟩ := Table.GetRealColumnType_of_lt t column_id hc
    rw [if_pos hc, htype]
    have hne : type ≠ expected := fun heq => h (by rw [htype, heq])
    simp [hne]
  · rw [if_neg hc]

/-- `SetString` and `InsertString` get no column unless the real type is STRING or
STRING_ENUM. -/
theorem Table.modifyString_refuses (fString fEnum : ColumnData → Except Failure ColumnData)
    (t : Table) (column_id : Nat) (hc : column_id < t.GetColumnCount)
    (h1 : t.GetRealColumnType column_id ≠ .ok .COLUMN_TYPE_STRING)
    (h2 : t.GetRealColumnType column_id ≠ .ok .COLUMN_TYPE_STRING_ENUM) :
    Table.modifyString fString fEnum t column_id = .error .AssertionFailed := by
  obtain ⟨type, htype, _⟩ := Table.GetRealColumnType_of_lt t column_id hc
  simp only [Table.modifyString, htype]
  have hne1 : type ≠ .COLUMN_TYPE_STRING := fun heq => h1 (by rw [htype, heq])
  have hne2 : type ≠ .COLUMN_TYPE_STRING_ENUM := fun heq => h2 (by rw [htype, heq])
  simp [hne1, hne2]

theorem Table.GetString_refuses (t : Table) (column_id ndx : Nat)
    (h1 : t.GetRealColumnType column_id ≠ .ok .COLUMN_TYPE_STRING)
    (h2 : t.GetRealColumnType column_id ≠ .ok .COLUMN_TYPE_STRING_ENUM) :
    t.GetString column_id ndx = .error .AssertionFailed := by
  simp only [Table.GetString]
  split
  · split
    · by_cases hc : column_id < t.GetColumnCount
      · obtain ⟨type, htype, _⟩ := Table.GetRealColumnType_of_lt t column_id hc
        have hne1 : type ≠ .COLUMN_TYPE_STRING := fun heq => h1 (by rw [htype, heq])
        have hne2 : type ≠ .COLUMN_TYPE_STRING_ENUM := fun heq => h2 (by rw [htype, heq])
        simp [htype, hne1, hne2]
      · simp [Table.GetRealColumnType, hc]
    · rfl
  · rfl

theorem Table.SetString_refuses (t : Table) (column_id ndx : Nat) (value : String)
    (h1 : t.GetRealColumnType column_id ≠ .ok .COLUMN_TYPE_STRING)
    (h2 : t.GetRealColumnType column_id ≠ .ok .COLUMN_TYPE_STRING_ENUM) :
    t.SetString column_id ndx value = .error .AssertionFailed := by
  simp only [Table.SetString]
  split
  · rename_i hc
    split
    · exact Table.modifyString_refuses _ _ t column_id hc h1 h2
    · rfl
  · rfl

theorem Table.InsertString_refuses (t : Table) (column_id ndx : Nat) (value : String)
    (h1 : t.GetRealColumnType column_id ≠ .ok .COLUMN_TYPE_STRING)
    (h2 : t.GetRealColumnType column_id ≠ .ok .COLUMN_TYPE_STRING_ENUM) :
    t.InsertString column_id ndx value = .error .AssertionFailed := by
  simp only [Table.InsertString]
  split
  · rename_i hc
    split
    · exact Table.modifyString_refuses _ _ t column_id hc h1 h2
    · rfl
  · rfl

/-- The non-`const` `GetColumn` on an attached table whose cached column is a
`Column`. -/
theorem Table.GetColumn_of_Column (t : Table) (ndx : Nat) (column : ColumnBase)
    (hv : t.m_columns_valid = true) (hc : ndx < t.GetColumnCount)
    (hcol : t.m_cols[ndx]? = some column) (hint : column.data.IsIntColumn = true) :
    t.GetColumn ndx = .ok (t, column) := by
  simp [Table.GetColumn, Table.GetColumnBase, Table.InstantiateBeforeChange, hv, hc, hcol, hint]

theorem Table.GetColumn_const_of_Column (t : Table) (ndx : Nat) (column : ColumnBase)
    (hc : ndx < t.GetColumnCount)
    (hcol : t.m_cols[ndx]? = some column) (hint : column.data.IsIntColumn = true) :
    t.GetColumn_const ndx = .ok column := by
  simp [Table.GetColumn_const, Table.GetColumnBase_const, hc, hcol, hint]

/-- The integer accessors on a column whose cached object is a `Column`: the type
of the column in the Spec is not looked at. -/
theorem Table.integer_accessors_accept (t : Table) (column_id ndx : Nat) (values : List Int)
    (parent : Nat) (value : Int) (hv : t.m_columns_valid = true)
    (hc : column_id < t.GetColumnCount)
    (hcol : t.m_cols[column_id]? = some { data := .Column values, m_parentNdx := parent })
    (hsize : values.length = t.m_size) (hndx : ndx < t.m_size) :
    t.Get column_id ndx = .ok (values.getD ndx 0)
    ∧ t.Set column_id ndx value
      = .ok (t.setColumn column_id
          { data := .Column (values.set ndx value), m_parentNdx := parent })
    ∧ t.InsertInt column_id ndx value
      = .ok (t.setColumn column_id
          { data := .Column (values.take ndx ++ value :: values.drop ndx),
            m_parentNdx := parent }) := by
  have hlt : ndx < values.length := by omega
  refine ⟨?_, ?_, ?_⟩
  · simp [Table.Get, hc, hndx, Table.GetColumn_const_of_Column t column_id _ hc hcol rfl,
      Column.Get, List.getElem?_eq_getElem hlt, List.getD_eq_getElem?_getD]
  · simp [Table.Set, hc, hndx, Table.modifyColumn,
      Table.GetColumn_of_Column t column_id _ hv hc hcol rfl, Column.Set, setRow, hlt, Except.map]
  · simp [Table.InsertInt, hc, Nat.le_of_lt hndx, Table.modifyColumn,
      Table.GetColumn_of_Column t column_id _ hv hc hcol rfl, Column.Insert, insertRow,
      Nat.le_of_lt hlt, Except.map]

/-- The integer accessors fail the assertion of `GetColumn` when the cached column
is not an integer column. -/
theorem Table.integer_accessors_refuse (t : Table) (column_id ndx : Nat) (column : ColumnBase)
    (value : Int) (hv : t.m_columns_valid = true)
    (hcol : t.m_cols[column_id]? = some column) (hint : column.data.IsIntColumn = false) :
    t.Get column_id ndx = .error .AssertionFailed
    ∧ t.Set column_id ndx value = .error .AssertionFailed
    ∧ t.InsertInt column_id ndx value = .error .AssertionFailed := by
  refine ⟨?_, ?_, ?_⟩
  · simp only [Table.Get]
    split
    · rename_i hc
      split
      · simp [Table.GetColumn_const, Table.GetColumnBase_const, hc, hcol, hint]
      · rfl
    · rfl
  · simp only [Table.Set]
    split
    · rename_i hc
      split
      · simp [Table.modifyColumn, Table.GetColumn, Table.GetColumnBase,
          Table.InstantiateBeforeChange, hv, hc, hcol, hint]
      · rfl
    · rfl
  · simp only [Table.InsertInt]
    split
    · rename_i hc
      split
      · simp [Table.modifyColumn, Table.GetColumn, Table.GetColumnBase,
          Table.InstantiateBeforeChange, hv, hc, hcol, hint]
      · rfl
    · rfl

/-- The binary accessors fail the assertion of `GetColumnBinary` when the cached
column is not a `ColumnBinary`. -/
theorem Table.binary_accessors_refuse (t : Table) (column_id ndx : Nat) (column : ColumnBase)
    (value : List Nat) (len : Nat) (hv : t.m_columns_valid = true)
    (hcol : t.m_cols[column_id]? = some column) (hbin : column.data.IsBinaryColumn = false) :
    t.GetBinary column_id ndx = .error .AssertionFailed
    ∧ t.SetBinary column_id ndx value len = .error .AssertionFailed
    ∧ t.InsertBinary column_id ndx value len = .error .AssertionFailed := by
  have hconst : t.GetColumnBinary_const column_id = .error .AssertionFailed := by
    by_cases hc : column_id < t.GetColumnCount
    · simp [Table.GetColumnBinary_const, Table.GetColumnBase_const, hc, hcol, hbin]
    · simp [Table.GetColumnBinary_const, Table.GetColumnBase_const, hc]
  refine ⟨?_, ?_, ?_⟩
  · simp only [Table.GetBinary, hconst]
    split
    · split <;> rfl
    · rfl
  · simp only [Table.SetBinary]
    split
    · rename_i hc
      split
      · simp [Table.modifyColumn, Table.GetColumnBinary, Table.GetColumnBase,
          Table.InstantiateBeforeChange, hv, hc, hcol, hbin]
      · rfl
    · rfl
  · simp only [Table.InsertBinary]
    split
    · rename_i hc
      split
      · simp [Table.modifyColumn, Table.GetColumnBinary, Table.GetColumnBase,
          Table.InstantiateBeforeChange, hv, hc, hcol, hbin]
      · rfl
    · rfl

/-- A BOOL column and a DATE column on which the integer accessors `Get`, `Set` and
`InsertInt` are accepted, and on which `SetMixed` reaches the cast to
`ColumnMixed` without any check having failed. -/
theorem Table.typed_cell_operations_counterexample :
    exampleFlags.GetRealColumnType 0 = .ok .COLUMN_TYPE_BOOL
    ∧ exampleFlags.GetRealColumnType 1 = .ok .COLUMN_TYPE_DATE
    ∧ exampleFlags.Get 0 0 = .ok 1
    ∧ exampleFlags.Get 1 0 = .ok 1000
    ∧ exampleFlags.Set 0 0 5
      = .ok (exampleFlags.setColumn 0 { data := .Column [5], m_parentNdx := 0 })
    ∧ exampleFlags.InsertInt 1 0 7
      = .ok (exampleFlags.setColumn 1 { data := .Column [7, 1000], m_parentNdx := 1 })
    ∧ exampleFlags.SetMixed 0 0 (.Int 1) = .error .BadCast := by
  refine ⟨by rfl, by rfl, by rfl, by rfl, by rfl, by rfl, by rfl⟩

/-- C29, amended: `GetBool`, `SetBool`, `GetDate` and `SetDate` fail their
assertion unless `GetRealColumnType(col)` is the expected type, and `GetString`,
`SetString` and `InsertString` fail theirs unless it is STRING or STRING_ENUM;
the integer accessors `Get`, `Set` and `InsertInt` do not look at the type: on
an attached table they fail the assertion of `GetColumn` when the cached column
is not an integer column, and on a cached `Column`, which is what a BOOL or a
DATE column has, they are carried out; the binary accessors likewise fail the
assertion of `GetColumnBinary` when the cached column is not a
`ColumnBinary`. -/
theorem Table.typed_cell_operations (t : Table) (column_id ndx : Nat) :
    (t.GetRealColumnType column_id ≠ .ok .COLUMN_TYPE_BOOL →
      t.GetBool column_id ndx = .error .AssertionFailed
      ∧ ∀ value : Bool, t.SetBool column_id ndx value = .error .AssertionFailed)
    ∧ (t.GetRealColumnType column_id ≠ .ok .COLUMN_TYPE_DATE →
      t.GetDate column_id ndx = .error .AssertionFailed
      ∧ ∀ value : Int, t.SetDate column_id ndx value = .error .AssertionFailed)
    ∧ (t.GetRealColumnType column_id ≠ .ok .COLUMN_TYPE_STRING →
      t.GetRealColumnType column_id ≠ .ok .COLUMN_TYPE_STRING_ENUM →
      t.GetString column_id ndx = .error .AssertionFailed
      ∧ ∀ value : String, t.SetString column_id ndx value = .error .AssertionFailed
        ∧ t.InsertString column_id ndx value = .error .AssertionFailed)
    ∧ (∀ (column : ColumnBase) (value : Int), t.m_columns_valid = true →
      t.m_cols[column_id]? = some column → column.data.IsIntColumn = false →
      t.Get column_id ndx = .error .AssertionFailed
      ∧ t.Set column_id ndx value = .error .AssertionFailed
      ∧ t.InsertInt column_id ndx value = .error .AssertionFailed)
    ∧ (∀ (values : List Int) (parent : Nat) (value : Int), t.m_columns_valid = true →
      column_id < t.GetColumnCount →
      t.m_cols[column_id]? = some { data := .Column values, m_parentNdx := parent } →
      values.length = t.m_size → ndx < t.m_size →
      t.Get column_id ndx = .ok (values.getD ndx 0)
      ∧ t.Set column_id ndx value
        = .ok (t.setColumn column_id
            { data := .Column (values.set ndx value), m_parentNdx := parent })
      ∧ t.InsertInt column_id ndx value
        = .ok (t.setColumn column_id
            { data := .Column (values.take ndx ++ value :: values.drop ndx),
              m_parentNdx := parent }))
    ∧ (∀ (column : ColumnBase) (value : List Nat) (len : Nat), t.m_columns_valid = true →
      t.m_cols[column_id]? = some column → column.data.IsBinaryColumn = false →
      t.GetBinary column_id ndx = .error .AssertionFailed
      ∧ t.SetBinary column_id ndx value len = .error .AssertionFailed
      ∧ t.InsertBinary column_id ndx value len = .error .AssertionFailed) := by
  refine ⟨fun h => ⟨?_, fun value => ?_⟩, fun h => ⟨?_, fun value => ?_⟩,
    fun h1 h2 => ⟨Table.GetString_refuses t _ _ h1 h2,
      fun value => ⟨Table.SetString_refuses t _ _ value h1 h2,
        Table.InsertString_refuses t _ _ value h1 h2⟩⟩,
    fun column value hv hcol hint => Table.integer_accessors_refuse t _ _ column value hv hcol hint,
    fun values parent value hv hc hcol hsize hndx =>
      Table.integer_accessors_accept t _ _ values parent value hv hc hcol hsize hndx,
    fun column value len hv hcol hbin =>
      Table.binary_accessors_refuse t _ _ column value len hv hcol hbin⟩
  · simp [Table.GetBool, Table.getTyped_refuses _ t column_id ndx h, Except.map]
  · exact Table.setTyped_refuses _ t column_id ndx _ h
  · exact Table.getTyped_refuses _ t column_id ndx h
  · exact Table.setTyped_refuses _ t column_id ndx _ h

theorem Table.typed_cell_operations_witness :
    exampleFlags.GetBool 1 0 = .error .AssertionFailed
    ∧ exampleFlags.GetDate 0 0 = .error .AssertionFailed
    ∧ exampleFlags.GetString 0 0 = .error .AssertionFailed
    ∧ exampleAda.Get 1 0 = .error .AssertionFailed
    ∧ exampleFlags.Get 0 0 = .ok 1
    ∧ exampleFlags.GetBinary 0 0 = .error .AssertionFailed :=
  ⟨((Table.typed_cell_operations exampleFlags 1 0).1
      (by rw [show exampleFlags.GetRealColumnType 1 = .ok .COLUMN_TYPE_DATE from rfl]; simp)).1,
   ((Table.typed_cell_operations exampleFlags 0 0).2.1
      (by rw [show exampleFlags.GetRealColumnType 0 = .ok .COLUMN_TYPE_BOOL from rfl]; simp)).1,
   ((Table.typed_cell_operations exampleFlags 0 0).2.2.1
      (by rw [show exampleFlags.GetRealColumnType 0 = .ok .COLUMN_TYPE_BOOL from rfl]; simp)
      (by rw [show exampleFlags.GetRealColumnType 0 = .ok .COLUMN_TYPE_BOOL from rfl]; simp)).1,
   ((Table.typed_cell_operations exampleAda 1 0).2.2.2.1
      { data := .AdaptiveStringColumn ["ada", "ada"], m_parentNdx := 1 } 0 rfl rfl rfl).1,
   ((Table.typed_cell_operations exampleFlags 0 0).2.2.2.2.1 [1] 0 0 rfl (by decide) rfl rfl
      (by decide)).1,
   ((Table.typed_cell_operations exampleFlags 0 0).2.2.2.2.2
      { data := .Column [1], m_parentNdx := 0 } [] 0 rfl rfl rfl).1⟩

end tightdb

/-! ## Properties of the JSON export -/

namespace tightdb

theorem Table.GetColumnName_of_lt (t : Table) (i : Nat) (hi : i < t.GetColumnCount)
    (hnames : t.GetColumnCount ≤ t.m_spec_set.m_names.length) :
    t.GetColumnName i = .ok (t.m_spec_set.m_names.getD i "") := by
  have hlt : i < t.m_spec_set.m_names.length := by omega
  simp [Table.GetColumnName, hi, Spec.GetColumnName, List.getElem?_eq_getElem hlt,
    List.getD_eq_getElem?_getD]

/-- The switch of `to_json` on a cell of an INT, BOOL or STRING column writes the
text of the specification. -/
theorem Table.to_json.value_simple (env : Environment) (sub : Table → Except Failure String)
    (t : Table) (i r : Nat) (text : String) (hi : i < t.GetColumnCount) (hr : r < t.m_size)
    (hcols : t.GetColumnCount ≤ t.m_columns.length) (h : t.cellText i r = some text) :
    Table.to_json.value env sub t i r = .ok text := by
  have hic : i < t.m_columns.length := by omega
  obtain ⟨type, htype, hspec⟩ := Table.GetRealColumnType_of_lt t i hi
  have hreal : t.m_spec_set.GetRealColumnType i = some type := hspec
  simp only [Table.cellText, hreal] at h
  cases hcol : t.m_cols[i]? with
  | none => simp [hcol] at h
  | some column =>
    obtain ⟨data, parent⟩ := column
    simp only [hcol, Option.map_some'] at h
    cases type <;> cases data <;> simp only [reduceCtorEq] at h
    case COLUMN_TYPE_INT.Column values =>
      obtain ⟨value, hv, rfl⟩ := Option.map_eq_some'.mp h
      simp [Table.to_json.value, Table.GetColumnType, Spec.GetColumnType, hi, hreal, Table.Get, hr,
        Table.GetColumn_const, Table.GetColumnBase_const, hcol, ColumnData.IsIntColumn,
        Column.Get, hv, Except.map]
    case COLUMN_TYPE_BOOL.Column values =>
      obtain ⟨value, hv, rfl⟩ := Option.map_eq_some'.mp h
      simp [Table.to_json.value, Table.GetColumnType, Spec.GetColumnType, hi, hreal, Table.GetBool,
        Table.getTyped, htype, hr, Table.GetColumn_const, Table.GetColumnBase_const, hcol,
        ColumnData.IsIntColumn, Column.Get, hv, Except.map]
    case COLUMN_TYPE_STRING.AdaptiveStringColumn values =>
      obtain ⟨value, hv, rfl⟩ := Option.map_eq_some'.mp h
      simp [Table.to_json.value, Table.GetColumnType, Spec.GetColumnType, hi, hreal,
        Table.GetString, hic, htype, hr, Table.GetColumnString_const, Table.GetColumnBase_const,
        hcol, ColumnData.IsStringColumn, AdaptiveStringColumn.Get, hv, Except.map]
    case COLUMN_TYPE_STRING_ENUM.ColumnStringEnum keys values =>
      obtain ⟨value, hv, rfl⟩ := Option.map_eq_some'.mp h
      obtain ⟨key_ndx, hk, hv⟩ := Option.bind_eq_some.mp hv
      simp [Table.to_json.value, Table.GetColumnType, Spec.GetColumnType, hi, hreal,
        Table.GetString, hic, htype, hr, Table.GetColumnStringEnum_const, hcol,
        ColumnStringEnum.Get, hk, hv, Except.map]

/-- The loop over the columns once a column has been written: every further column
is written after a comma. -/
theorem Table.to_json.columns_go (env : Environment) (sub : Table → Except Failure String)
    (t : Table) (r : Nat) (name text : Nat → String) :
    ∀ (l : List Nat) (pre acc : String),
      (∀ i ∈ l, i ≠ 0 ∧ t.GetColumnName i = .ok (name i)
        ∧ Table.to_json.value env sub t i r = .ok (text i)) →
      Table.to_json.columns env sub t r l (pre ++ acc)
        = .ok (pre ++ String.intercalate.go acc ","
            (l.map (fun i => "\"" ++ name i ++ "\":" ++ text i))) := by
  intro l
  induction l with
  | nil => intro pre acc _; rfl
  | cons i rest ih =>
    intro pre acc h
    obtain ⟨hne, hname, hvalue⟩ := h i (List.mem_cons_self _ _)
    simp only [Table.to_json.columns, hname, hvalue, hne, ne_eq, not_false_eq_true, if_true,
      List.map_cons, String.intercalate.go]
    have := ih pre (acc ++ "," ++ ("\"" ++ name i ++ "\":" ++ text i))
      (fun j hj => h j (List.mem_cons_of_mem _ hj))
    simp only [String.append_assoc] at this ⊢
    exact this

theorem range_succ_eq_cons (n : Nat) : List.range (n + 1) = 0 :: List.range' 1 n := by
  rw [List.range_eq_range', List.range'_succ]

/-- The loop over the columns of a row writes the pairs separated by commas. -/
theorem Table.to_json.columns_range (env : Environment) (sub : Table → Except Failure String)
    (t : Table) (r : Nat) (name text : Nat → String) (n : Nat) (pre : String)
    (h : ∀ i : Nat, i < n → t.GetColumnName i = .ok (name i)
      ∧ Table.to_json.value env sub t i r = .ok (text i)) :
    Table.to_json.columns env sub t r (List.range n) pre
      = .ok (pre ++ ",".intercalate
          ((List.range n).map (fun i => "\"" ++ name i ++ "\":" ++ text i))) := by
  cases n with
  | zero => simp [Table.to_json.columns, String.intercalate]
  | succ n =>
    obtain ⟨hname, hvalue⟩ := h 0 (Nat.succ_pos _)
    rw [range_succ_eq_cons]
    simp only [Table.to_json.columns, hname, hvalue, ne_eq, not_true_eq_false, if_false,
      List.map_cons, String.intercalate]
    have := Table.to_json.columns_go env sub t r name text (List.range' 1 n) pre
      ("\"" ++ name 0 ++ "\":" ++ text 0)
      (fun i hi => by
        have hmem := List.mem_range'_1.mp hi
        exact ⟨by omega, h i (by omega)⟩)
    simp only [String.append_assoc] at this ⊢
    exact this

/-- The loop over the rows once a row has been written. -/
theorem Table.to_json.rows_go (env : Environment) (sub : Table → Except Failure String)
    (t : Table) (row : Nat → String) :
    ∀ (l : List Nat) (pre acc : String),
      (∀ r ∈ l, r ≠ 0 ∧ ∀ out : String,
        Table.to_json.columns env sub t r (List.range t.GetColumnCount) (out ++ "\x7b")
          = .ok (out ++ row r)) →
      Table.to_json.rows env sub t l (pre ++ acc)
        = .ok (pre ++ String.intercalate.go acc "," (l.map (fun r => row r ++ "\x7d"))) := by
  intro l
  induction l with
  | nil => intro pre acc _; rfl
  | cons r rest ih =>
    intro pre acc h
    obtain ⟨hne, hcolumns⟩ := h r (List.mem_cons_self _ _)
    simp only [Table.to_json.rows, hne, ne_eq, not_false_eq_true, if_true, hcolumns,
      List.map_cons, String.intercalate.go]
    have := ih pre (acc ++ "," ++ (row r ++ "\x7d"))
      (fun j hj => h j (List.mem_cons_of_mem _ hj))
    simp only [String.append_assoc] at this ⊢
    exact this

/-- The loop over the rows writes the rows separated by commas. -/
theorem Table.to_json.rows_range (env : Environment) (sub : Table → Except Failure String)
    (t : Table) (row : Nat → String) (n : Nat) (pre : String)
    (h : ∀ r : Nat, r < n → ∀ out : String,
      Table.to_json.columns env sub t r (List.range t.GetColumnCount) (out ++ "\x7b")
        = .ok (out ++ row r)) :
    Table.to_json.rows env sub t (List.range n) pre
      = .ok (pre ++ ",".intercalate ((List.range n).map (fun r => row r ++ "\x7d"))) := by
  cases n with
  | zero => simp [Table.to_json.rows, String.intercalate]
  | succ n =>
    have h0 := h 0 (Nat.succ_pos _)
    rw [range_succ_eq_cons]
    simp only [Table.to_json.rows, ne_eq, not_true_eq_false, if_false, h0, List.map_cons,
      String.intercalate]
    have := Table.to_json.rows_go env sub t row (List.range' 1 n) pre (row 0 ++ "\x7d")
      (fun r hr => by
        have hmem := List.mem_range'_1.mp hr
        exact ⟨by omega, h r (by omega)⟩)
    simp only [String.append_assoc] at this ⊢
    exact this

theorem Table.to_json_eq_body (env : Environment) (fuel : Nat) (t : Table) :
    ∃ sub : Table → Except Failure String,
      Table.to_json env fuel t = Table.to_json.body env sub t := by
  cases fuel with
  | zero => exact ⟨_, rfl⟩
  | succ fuel => exact ⟨_, rfl⟩

/-- The JSON export of a table of INT, BOOL and STRING columns is the text of the
specification. -/
theorem Table.to_json_eq_jsonText (env : Environment) (fuel : Nat) (t : Table)
    (hnames : t.GetColumnCount ≤ t.m_spec_set.m_names.length)
    (hcols : t.GetColumnCount ≤ t.m_columns.length)
    (hcells : ∀ i r : Nat, i < t.GetColumnCount → r < t.m_size →
      ∃ text, t.cellText i r = some text) :
    Table.to_json env fuel t = .ok t.jsonText := by
  obtain ⟨sub, hsub⟩ := Table.to_json_eq_body env fuel t
  rw [hsub]
  have hcolumns : ∀ r : Nat, r < t.m_size → ∀ out : String,
      Table.to_json.columns env sub t r (List.range t.GetColumnCount) (out ++ "\x7b")
        = .ok (out ++ ("\x7b" ++ ",".intercalate ((List.range t.GetColumnCount).map
            (fun i => "\"" ++ t.m_spec_set.m_names.getD i "" ++ "\":"
              ++ (t.cellText i r).getD "")))) := by
    intro r hr out
    rw [Table.to_json.columns_range env sub t r (fun i => t.m_spec_set.m_names.getD i "")
      (fun i => (t.cellText i r).getD "") t.GetColumnCount (out ++ "\x7b")
      (fun i hi => by
        obtain ⟨text, htext⟩ := hcells i r hi hr
        exact ⟨Table.GetColumnName_of_lt t i hi hnames,
          by simp only [htext, Option.getD_some]
             exact Table.to_json.value_simple env sub t i r text hi hr hcols htext⟩)]
    simp only [String.append_assoc]
  simp only [Table.to_json.body, Table.GetSize]
  rw [Table.to_json.rows_range env sub t _ t.m_size "[" hcolumns]
  rfl

/-- The JSON export of a table without rows. -/
theorem Table.to_json_empty (env : Environment) (fuel : Nat) (t : Table) (h : t.m_size = 0) :
    Table.to_json env fuel t = .ok "[]" := by
  obtain ⟨sub, hsub⟩ := Table.to_json_eq_body env fuel t
  rw [hsub]
  simp only [Table.to_json.body, Table.GetSize, h, List.range_zero, Table.to_json.rows]
  rfl

/-- C24: on a table whose columns are INT, BOOL and STRING columns (each cell has
the text of the specification: a decimal number, `true` or `false`, the string
in double quotes), `to_json` returns and writes `[`, the rows separated by `,`,
`]`, each row being `\x7b`, the pairs `"name":value` in column order separated
by `,`, `\x7d`; and a table without rows yields `[]`. -/
theorem Table.to_json_rows_of_pairs (env : Environment) (fuel : Nat) (t : Table) :
    (t.GetColumnCount ≤ t.m_spec_set.m_names.length →
      t.GetColumnCount ≤ t.m_columns.length →
      (∀ i r : Nat, i < t.GetColumnCount → r < t.m_size → ∃ text, t.cellText i r = some text) →
      Table.to_json env fuel t = .ok t.jsonText)
    ∧ (t.m_size = 0 → Table.to_json env fuel t = .ok "[]") :=
  ⟨Table.to_json_eq_jsonText env fuel t, Table.to_json_empty env fuel t⟩

theorem Table.to_json_rows_of_pairs_witness :
    Table.to_json exampleEnvironment 0 exampleAda
      = .ok "[\x7b\"x\":42,\"name\":\"ada\"\x7d,\x7b\"x\":7,\"name\":\"ada\"\x7d]"
    ∧ Table.to_json exampleEnvironment 0 (Table.new 1) = .ok "[]" := by
  refine ⟨?_, (Table.to_json_rows_of_pairs exampleEnvironment 0 (Table.new 1)).2 rfl⟩
  rw [(Table.to_json_rows_of_pairs exampleEnvironment 0 exampleAda).1 (by decide) (by decide)
    (fun i r hi hr => by
      have hi2 : i < 2 := hi
      have hr2 : r < 2 := hr
      interval_cases i <;> interval_cases r <;> exact ⟨_, rfl⟩)]
  rfl

set_option maxRecDepth 100000 in
/-- What `sprintf(buffer, "%02x", value)` writes for a value below 256: the two
hexadecimal digits of the value, in lower case. -/
theorem sprintf_02x_byte :
    ∀ value : Nat, value < 256 →
      sprintf_02x value = String.mk [Nat.digitChar (value / 16), Nat.digitChar (value % 16)]
      ∧ Nat.digitChar (value / 16) ∈ "0123456789abcdef".data
      ∧ Nat.digitChar (value % 16) ∈ "0123456789abcdef".data := by
  decide

/-- A binary value is written as two lower-case hexadecimal digits per byte when
`char` is unsigned or no byte is 0x80 or more. -/
theorem Table.to_json.binary_two_digits (env : Environment) (bin : List Nat)
    (h : ∀ b ∈ bin, b < 256 ∧ (env.char_is_signed = true → b < 128)) :
    Table.to_json.binary env bin
      = "\"" ++ String.join (bin.map
          (fun b => String.mk [Nat.digitChar (b / 16), Nat.digitChar (b % 16)])) ++ "\"" := by
  have hmap : bin.map (fun b => sprintf_02x (char_to_unsigned_int env.char_is_signed b))
      = bin.map (fun b => String.mk [Nat.digitChar (b / 16), Nat.digitChar (b % 16)]) := by
    apply List.map_congr_left
    intro b hb
    obtain ⟨h256, h128⟩ := h b hb
    have hval : char_to_unsigned_int env.char_is_signed b = b := by
      simp only [char_to_unsigned_int, Nat.mod_eq_of_lt h256]
      cases hs : env.char_is_signed with
      | false => simp
      | true =>
        have := h128 hs
        simp [Nat.not_le.mpr this]
    rw [hval]
    exact (sprintf_02x_byte b h256).1
  simp only [Table.to_json.binary, hmap]

/-- C25: with a `char` that is signed, `to_json` writes the byte 0x80 of a BINARY
cell, and of a binary MIXED cell, as the eight digits `ffffff80`: the cell of
the two bytes 0x7f and 0x80 becomes `"7fffffff80"`, ten digits and not four.
With an unsigned `char` it becomes `"7f80"`. -/
theorem Table.to_json_binary_sign_extension :
    exampleEnvironment.char_is_signed = true
    ∧ sprintf_02x (char_to_unsigned_int true 0x80) = "ffffff80"
    ∧ Table.to_json exampleEnvironment 0 exampleBlob = .ok "[\x7b\"b\":\"7fffffff80\"\x7d]"
    ∧ Table.to_json { exampleEnvironment with char_is_signed := false } 0 exampleBlob
      = .ok "[\x7b\"b\":\"7f80\"\x7d]"
    ∧ Table.to_json exampleEnvironment 0
        { exampleMixedFlag with
          m_cols := [{ data := .ColumnMixed [.Binary [0x80]], m_parentNdx := 0 }] }
      = .ok "[\x7b\"m\":\"ffffff80\"\x7d]" := by
  refine ⟨rfl, by decide, by rfl, by rfl, by rfl⟩

/-- What `case COLUMN_TYPE_MIXED` of `to_json` writes for a cell, by the tag of the
cell. -/
theorem Table.to_json.mixed_eq (env : Environment) (sub : Table → Except Failure String)
    (t : Table) (i r : Nat) (m : Mixed) (h : t.GetMixed i r = .ok m) :
    Table.to_json.mixed env sub t i r
      = match m with
        | .Int value => .ok (toString value)
        | .Bool value => .ok (if value then "1" else "0")
        | .Date value => .ok (Table.to_json.date env value)
        | .String value => .ok ("\"" ++ value ++ "\"")
        | .Binary value => .ok (Table.to_json.binary env value)
        | .Table => (t.GetTable env i r).bind sub := by
  have htype : t.GetMixedType i r = .ok m.GetType := by
    simp only [Table.GetMixed] at h
    simp only [Table.GetMixedType]
    split at h
    · rw [if_pos (by assumption)]
      split at h
      · rw [if_pos (by assumption)]
        cases hc : t.GetColumnMixed_const i with
        | error e => rw [hc] at h; cases h
        | ok column =>
          rw [hc] at h
          simp only at h ⊢
          cases hg : ColumnMixed.Get column.data r with
          | error e => rw [hg] at h; cases h
          | ok m1 =>
            rw [hg] at h
            cases m1 <;> cases h <;> simp [ColumnMixed.GetType, hg, Except.map, Mixed.GetType]
      · cases h
    · cases h
  cases hg : t.GetTable env i r <;> cases m <;>
    simp [Table.to_json.mixed, htype, h, hg, Mixed.GetType, Except.bind]

/-- C26: `to_json` writes a MIXED cell that holds the boolean true as `1`, while it
writes the cell true of a BOOL column as `true`. -/
theorem Table.to_json_mixed_bool :
    exampleMixedFlag.GetMixed 0 0 = .ok (.Bool true)
    ∧ Table.to_json exampleEnvironment 0 exampleMixedFlag = .ok "[\x7b\"m\":1\x7d]"
    ∧ exampleBoolFlag.GetBool 0 0 = .ok true
    ∧ Table.to_json exampleEnvironment 0 exampleBoolFlag = .ok "[\x7b\"m\":true\x7d]" := by
  refine ⟨by rfl, by rfl, by rfl, by rfl⟩

end tightdb

/-! ## Properties of `Optimize` -/

namespace tightdb

theorem Table.SameFrame.frame_refl (t : Table) : Table.SameFrame t t :=
  ⟨rfl, rfl, rfl, rfl, le_refl _⟩

theorem Table.SameFrame.frame_trans {t t1 t2 : Table} (h1 : Table.SameFrame t t1)
    (h2 : Table.SameFrame t1 t2) : Table.SameFrame t t2 :=
  ⟨h2.valid.trans h1.valid, h2.m_size.trans h1.m_size, h2.names.trans h1.names,
    h2.count.trans h1.count, le_trans h1.m_columns h2.m_columns⟩

theorem Table.SameColumn.column_refl (t : Table) (i : Nat) : Table.SameColumn t t i :=
  ⟨rfl, rfl⟩

theorem Table.SameColumn.column_trans {t t1 t2 : Table} {i : Nat} (h1 : Table.SameColumn t t1 i)
    (h2 : Table.SameColumn t1 t2 i) : Table.SameColumn t t2 i :=
  ⟨h2.type.trans h1.type, h2.data.trans h1.data⟩

theorem Table.converts_congr (AutoEnumerate : List String → Option Enumerated) {t t1 : Table}
    {i : Nat} (h : Table.SameColumn t t1 i) :
    t1.converts AutoEnumerate i = t.converts AutoEnumerate i := by
  simp only [Table.converts, h.type, h.data]

theorem Table.OptimizedColumn.then_same {AutoEnumerate : List String → Option Enumerated}
    {t t1 t2 : Table} {i : Nat} (h1 : Table.OptimizedColumn AutoEnumerate t t1 i)
    (h2 : Table.SameColumn t1 t2 i) : Table.OptimizedColumn AutoEnumerate t t2 i := by
  simp only [Table.OptimizedColumn] at h1 ⊢
  split
  · rename_i hc
    rw [if_pos hc] at h1
    obtain ⟨strings, e, hd, he, hd1⟩ := h1.data
    exact ⟨h1.before, h2.type.trans h1.after, strings, e, hd, he, h2.data.trans hd1⟩
  · rename_i hc
    rw [if_neg hc] at h1
    exact h1.column_trans h2

theorem Table.OptimizedColumn.after_same {AutoEnumerate : List String → Option Enumerated}
    {t t1 t2 : Table} {i : Nat} (h1 : Table.SameColumn t t1 i)
    (h2 : Table.OptimizedColumn AutoEnumerate t1 t2 i) :
    Table.OptimizedColumn AutoEnumerate t t2 i := by
  simp only [Table.OptimizedColumn, Table.converts_congr AutoEnumerate h1] at h2 ⊢
  split
  · rename_i hc
    rw [if_pos hc] at h2
    obtain ⟨strings, e, hd, he, hd1⟩ := h2.data
    exact ⟨h1.type ▸ h2.before, h2.after, strings, e, h1.data ▸ hd, he, hd1⟩
  · rename_i hc
    rw [if_neg hc] at h2
    exact h1.column_trans h2

theorem Spec.setEntry_columns (type : ColumnType) (htype : type.isAttribute = false) :
    ∀ (entries : List ColumnType) (ndx : Nat),
      (Spec.setEntry entries ndx type).filter (fun entry => !entry.isAttribute)
        = (entries.filter (fun entry => !entry.isAttribute)).set ndx type := by
  intro entries
  induction entries with
  | nil => intro ndx; rfl
  | cons entry rest ih =>
    intro ndx
    simp only [Spec.setEntry]
    by_cases he : entry.isAttribute = true
    · simp [he, List.filter_cons, ih ndx]
    · have he2 : entry.isAttribute = false := by simpa using he
      cases ndx with
      | zero => simp [he2, List.filter_cons, htype]
      | succ n => simp [he2, List.filter_cons, ih n]

theorem getElem?_take_append_map_drop {α β : Type} (l : List α) (k j : Nat) (f : α → α)
    (g : α → β) (hg : ∀ a, g (f a) = g a) :
    ((l.take k ++ (l.drop k).map f)[j]?).map g = (l[j]?).map g := by
  by_cases hj : j < (l.take k).length
  · rw [List.getElem?_append_left hj, List.getElem?_take]
    have : j < k := by
      simp only [List.length_take] at hj
      omega
    simp [this]
  · have hk : (l.take k).length ≤ j := by omega
    rw [List.getElem?_append_right hk, List.getElem?_map, List.getElem?_drop]
    simp only [List.length_take] at hk ⊢
    by_cases hkl : k ≤ l.length
    · rw [Nat.min_eq_left hkl] at hk ⊢
      rw [show k + (j - k) = j by omega]
      cases l[j]? <;> simp [hg]
    · have hlen : l.length < k := by omega
      rw [Nat.min_eq_right (Nat.le_of_lt hlen)] at hk ⊢
      rw [List.getElem?_eq_none (by omega), List.getElem?_eq_none (by omega)]
      rfl

/-- One pass of the loop of `Optimize` on an attached table: column `i` is
converted or left, the other columns keep type and rows, and `m_columns` gains
a slot exactly when column `i` is converted. -/
theorem Table.Optimize.step_columns (AutoEnumerate : List String → Option Enumerated)
    (t t1 : Table) (i : Nat) (hv : t.m_columns_valid = true)
    (h : Table.Optimize.step AutoEnumerate t i = .ok t1) :
    Table.SameFrame t t1 ∧ Table.OptimizedColumn AutoEnumerate t t1 i
    ∧ (∀ j : Nat, j ≠ i → Table.SameColumn t t1 j)
    ∧ t1.m_columns.length
      = t.m_columns.length + (if t.converts AutoEnumerate i = true then 1 else 0) := by
  simp only [Table.Optimize.step] at h
  cases ht : t.GetRealColumnType i with
  | error e => rw [ht] at h; cases h
  | ok type =>
    have hspec : t.m_spec_set.GetRealColumnType i = some type := by
      simp only [Table.GetRealColumnType] at ht
      split at ht
      · cases hs : t.m_spec_set.GetRealColumnType i with
        | none => rw [hs] at ht; cases ht
        | some type1 => rw [hs] at ht; cases ht; rfl
      · cases ht
    rw [ht] at h
    simp only at h
    split at h
    · rename_i hstring
      subst hstring
      cases hs : t.GetColumnString i with
      | error e => rw [hs] at h; cases h
      | ok r =>
        obtain ⟨t2, column⟩ := r
        rw [hs] at h
        simp only at h
        obtain ⟨rfl, hc⟩ := Table.GetColumnString_cached t i t2 column hv hs
        cases hd : column.data with
        | AdaptiveStringColumn values =>
          rw [hd] at h
          simp only at h
          have hdata : (t2.m_cols[i]?).map ColumnBase.data = some (.AdaptiveStringColumn values) := by
            rw [hc]; simp [hd]
          cases he : AutoEnumerate values with
          | none =>
            rw [he] at h
            have hconv : t2.converts AutoEnumerate i = false := by
              simp [Table.converts, hspec, hdata, he]
            cases h
            refine ⟨Table.SameFrame.frame_refl _, ?_, fun j _ => Table.SameColumn.column_refl _ _,
              by simp [hconv]⟩
            simp only [Table.OptimizedColumn, hconv, Bool.false_eq_true, if_false]
            exact Table.SameColumn.column_refl _ _
          | some e =>
            rw [he] at h
            simp only at h
            have hconv : t2.converts AutoEnumerate i = true := by
              simp [Table.converts, hspec, hdata, he]
            split at h
            · cases h
            · rename_i column_ndx hpos
              split at h
              · rename_i hslot
                simp only [Except.ok.injEq] at h
                subst h
                have hilt : i < t2.m_spec_set.columns.length := by
                  have := hspec
                  simp only [Spec.GetRealColumnType] at this
                  exact (List.getElem?_eq_some_iff.1 this).1
                have hcl : i < t2.m_cols.length := (List.getElem?_eq_some_iff.1 hc).1
                have hcolumns : (t2.m_spec_set.SetColumnType i .COLUMN_TYPE_STRING_ENUM).columns
                    = t2.m_spec_set.columns.set i .COLUMN_TYPE_STRING_ENUM := by
                  simp only [Spec.columns, Spec.SetColumnType]
                  exact Spec.setEntry_columns _ (by decide) _ _
                refine ⟨⟨rfl, rfl, rfl, ?_, ?_⟩, ?_, ?_, ?_⟩
                · simp only [Table.GetColumnCount, Spec.GetColumnCount, Table.setColumn,
                    Table.UpdateColumnRefs, hcolumns, List.length_set]
                · simp only [Table.setColumn, Table.UpdateColumnRefs, List.length_append,
                    List.length_take, List.length_cons, List.length_drop, List.length_set]
                  omega
                · simp only [Table.OptimizedColumn, hconv, if_true]
                  refine ⟨hspec, ?_, values, e, hdata, he, ?_⟩
                  · simp only [Spec.GetRealColumnType, Table.setColumn, Table.UpdateColumnRefs,
                      hcolumns]
                    simp [List.getElem?_set, hilt]
                  · simp only [Table.setColumn, Table.UpdateColumnRefs]
                    rw [List.getElem?_set_self (by
                      simp only [List.length_append, List.length_take, List.length_map,
                        List.length_drop]
                      omega)]
                    rfl
                · intro j hj
                  refine ⟨?_, ?_⟩
                  · simp only [Spec.GetRealColumnType, Table.setColumn, Table.UpdateColumnRefs,
                      hcolumns]
                    rw [List.getElem?_set_ne (Ne.symm hj)]
                  · simp only [Table.setColumn, Table.UpdateColumnRefs]
                    rw [List.getElem?_set_ne (Ne.symm hj)]
                    exact getElem?_take_append_map_drop _ _ _ _ _ (fun _ => rfl)
                · simp only [hconv, if_true, Table.setColumn, Table.UpdateColumnRefs,
                    List.length_append, List.length_take, List.length_cons, List.length_drop,
                    List.length_set]
                  omega
              · cases h
        | Column _ => rw [hd] at h; cases h
        | ColumnBinary _ => rw [hd] at h; cases h
        | ColumnStringEnum _ _ => rw [hd] at h; cases h
        | ColumnTable _ _ => rw [hd] at h; cases h
        | ColumnMixed _ => rw [hd] at h; cases h
    · rename_i hstring
      have hconv : t.converts AutoEnumerate i = false := by
        simp only [Table.converts, hspec]
        cases type <;> first | rfl | exact absurd rfl hstring
      cases h
      refine ⟨Table.SameFrame.frame_refl _, ?_, fun j _ => Table.SameColumn.column_refl _ _,
        by simp [hconv]⟩
      simp only [Table.OptimizedColumn, hconv, Bool.false_eq_true, if_false]
      exact Table.SameColumn.column_refl _ _

/-- The loop of `Optimize` over the distinct column indices `l`, on an attached
table. -/
theorem Table.Optimize.loop_columns (AutoEnumerate : List String → Option Enumerated) :
    ∀ (l : List Nat) (t t1 : Table), l.Nodup → t.m_columns_valid = true →
      Table.Optimize.loop AutoEnumerate l t = .ok t1 →
      Table.SameFrame t t1
      ∧ (∀ j : Nat, j ∈ l → Table.OptimizedColumn AutoEnumerate t t1 j)
      ∧ (∀ j : Nat, j ∉ l → Table.SameColumn t t1 j)
      ∧ t1.m_columns.length
        = t.m_columns.length + (l.filter (t.converts AutoEnumerate)).length := by
  intro l
  induction l with
  | nil =>
    intro t t1 _ _ h
    cases h
    exact ⟨Table.SameFrame.frame_refl _, fun j hj => absurd hj (List.not_mem_nil _),
      fun j _ => Table.SameColumn.column_refl _ _, by simp⟩
  | cons i rest ih =>
    intro t t1 hnodup hv h
    simp only [Table.Optimize.loop] at h
    cases hs : Table.Optimize.step AutoEnumerate t i with
    | error e => rw [hs] at h; cases h
    | ok t2 =>
      rw [hs] at h
      simp only at h
      obtain ⟨hf1, hopt1, hsame1, hlen1⟩ := Table.Optimize.step_columns AutoEnumerate t t2 i hv hs
      have hirest : i ∉ rest := (List.nodup_cons.1 hnodup).1
      obtain ⟨hf2, hopt2, hsame2, hlen2⟩ := ih t2 t1 (List.nodup_cons.1 hnodup).2
        (hf1.valid.trans hv) h
      refine ⟨hf1.frame_trans hf2, ?_, ?_, ?_⟩
      · intro j hj
        rcases List.mem_cons.1 hj with rfl | hj
        · exact hopt1.then_same (hsame2 j hirest)
        · have hne : j ≠ i := fun heq => hirest (heq ▸ hj)
          exact Table.OptimizedColumn.after_same (hsame1 j hne) (hopt2 j hj)
      · intro j hj
        have hne : j ≠ i := fun heq => hj (heq ▸ List.mem_cons_self _ _)
        have hjrest : j ∉ rest := fun hmem => hj (List.mem_cons_of_mem _ hmem)
        exact (hsame1 j hne).column_trans (hsame2 j hjrest)
      · have hfilter : rest.filter (t2.converts AutoEnumerate)
            = rest.filter (t.converts AutoEnumerate) := by
          apply List.filter_congr
          intro j hj
          have hne : j ≠ i := fun heq => hirest (heq ▸ hj)
          exact Table.converts_congr AutoEnumerate (hsame1 j hne)
        rw [hlen2, hlen1, hfilter, List.filter_cons]
        by_cases hc : t.converts AutoEnumerate i = true
        · simp only [hc, if_true, List.length_cons]
          omega
        · simp only [hc, Bool.false_eq_true, if_false, Nat.add_zero]

/-- What `Optimize` does to an attached table. -/
theorem Table.Optimize_columns (AutoEnumerate : List String → Option Enumerated)
    (t t1 : Table) (hv : t.m_columns_valid = true) (h : t.Optimize AutoEnumerate = .ok t1) :
    Table.SameFrame t t1
    ∧ (∀ j : Nat, Table.OptimizedColumn AutoEnumerate t t1 j)
    ∧ t1.m_columns.length = t.m_columns.length
      + ((List.range t.GetColumnCount).filter (t.converts AutoEnumerate)).length := by
  obtain ⟨hf, hopt, hsame, hlen⟩ := Table.Optimize.loop_columns AutoEnumerate _ t t1
    (List.nodup_range _) hv h
  refine ⟨hf, ?_, hlen⟩
  intro j
  by_cases hj : j ∈ List.range t.GetColumnCount
  · exact hopt j hj
  · have hs := hsame j hj
    have hge : t.m_spec_set.columns.length ≤ j := by
      simpa [Table.GetColumnCount, Spec.GetColumnCount] using hj
    have hconv : t.converts AutoEnumerate j = false := by
      simp [Table.converts, Spec.GetRealColumnType, List.getElem?_eq_none hge]
    simp only [Table.OptimizedColumn, hconv, Bool.false_eq_true, if_false]
    exact hs

theorem Table.GetRealColumnType_of_spec (t : Table) (i : Nat) (type : ColumnType)
    (h : t.m_spec_set.GetRealColumnType i = some type) :
    i < t.GetColumnCount ∧ t.GetRealColumnType i = .ok type := by
  have hlt : i < t.m_spec_set.columns.length := by
    simp only [Spec.GetRealColumnType] at h
    exact (List.getElem?_eq_some_iff.1 h).1
  have hi : i < t.GetColumnCount := hlt
  exact ⟨hi, by simp [Table.GetRealColumnType, hi, h]⟩

theorem map_data_eq_some {l : List ColumnBase} {i : Nat} {data : ColumnData}
    (h : (l[i]?).map ColumnBase.data = some data) :
    ∃ column, l[i]? = some column ∧ column.data = data := by
  cases hc : l[i]? with
  | none => rw [hc] at h; cases h
  | some column =>
    rw [hc] at h
    exact ⟨column, rfl, by simpa using h⟩

/-- `GetString` on a column that `Optimize` has converted returns what it returned
before. -/
theorem Table.GetString_enumerated (AutoEnumerate : List String → Option Enumerated)
    (hAuto : ∀ strings e, AutoEnumerate strings = some e → e.Faithful strings)
    (t t1 : Table) (i r : Nat) (hf : Table.SameFrame t t1)
    (hen : Table.EnumeratedColumn AutoEnumerate t t1 i)
    (hcols : t.GetColumnCount ≤ t.m_columns.length) (hu : t.Uniform) (hr : r < t.m_size) :
    ∃ s, t.GetString i r = .ok s ∧ t1.GetString i r = .ok s := by
  obtain ⟨hi, htype⟩ := Table.GetRealColumnType_of_spec t i _ hen.before
  obtain ⟨hi1, htype1⟩ := Table.GetRealColumnType_of_spec t1 i _ hen.after
  obtain ⟨strings, e, hd, he, hd1⟩ := hen.data
  obtain ⟨column, hc, hcd⟩ := map_data_eq_some hd
  obtain ⟨column1, hc1, hcd1⟩ := map_data_eq_some hd1
  have hmem : column ∈ t.m_cols := by
    obtain ⟨hlt, hget⟩ := List.getElem?_eq_some_iff.1 hc
    exact hget ▸ List.getElem_mem hlt
  have hlen : strings.length = t.m_size := by
    have := hu column hmem
    simpa [ColumnBase.Size, hcd, ColumnData.Size] using this
  have hrs : r < strings.length := by omega
  obtain ⟨key_ndx, hk, hs⟩ := hAuto strings e he r strings[r] (List.getElem?_eq_getElem hrs)
  have hic : i < t.m_columns.length := by omega
  have hic1 : i < t1.m_columns.length := lt_of_lt_of_le hic hf.m_columns
  have hr1 : r < t1.m_size := by rw [hf.m_size]; exact hr
  refine ⟨strings[r], ?_, ?_⟩
  · simp [Table.GetString, hic, hr, htype, Table.GetColumnString_const,
      Table.GetColumnBase_const, hi, hc, hcd, ColumnData.IsStringColumn,
      AdaptiveStringColumn.Get, List.getElem?_eq_getElem hrs]
  · simp [Table.GetString, hic1, hr1, htype1, Table.GetColumnStringEnum_const, hi1, hc1, hcd1,
      ColumnStringEnum.Get, hk, hs]

/-- The switch of `to_json` writes the same for a column that has the same type
and the same rows. -/
theorem Table.to_json.value_congr (env : Environment) (sub : Table → Except Failure String)
    (t t1 : Table) (i r : Nat) (hf : Table.SameFrame t t1) (hcol : Table.SameColumn t t1 i)
    (hi : i < t.GetColumnCount) (hcols : t.GetColumnCount ≤ t.m_columns.length) :
    Table.to_json.value env sub t1 i r = Table.to_json.value env sub t i r := by
  have hcount := hf.count
  have hsize := hf.m_size
  have hi0 : i < t.m_columns.length := by omega
  have hi1 : i < t1.m_columns.length := lt_of_lt_of_le hi0 hf.m_columns
  have htype := hcol.type
  have hdata := hcol.data
  cases hc : t.m_cols[i]? with
  | none =>
    have hc1 : t1.m_cols[i]? = none := by
      rw [hc] at hdata
      simpa using hdata
    simp only [Table.to_json.value, Table.to_json.mixed, Table.GetColumnType, Spec.GetColumnType,
      Table.Get, Table.GetBool, Table.getTyped, Table.GetDate, Table.GetString, Table.GetBinary,
      Table.GetMixed, Table.GetMixedType, Table.GetTable, Table.get_subtable_ptr,
      Table.GetRealColumnType, Table.GetColumn_const, Table.GetColumnBase_const,
      Table.GetColumnString_const, Table.GetColumnStringEnum_const, Table.GetColumnBinary_const,
      Table.GetColumnTable_const, Table.GetColumnMixed_const, hcount, hsize, hi0, hi1, htype, hc,
      hc1, if_true]
  | some c =>
    obtain ⟨c1, hc1, hd⟩ := map_data_eq_some (hdata.trans (by rw [hc]; rfl))
    obtain ⟨data, parent⟩ := c
    obtain ⟨data1, parent1⟩ := c1
    simp only at hd
    subst hd
    cases data1 <;>
      simp only [Table.to_json.value, Table.to_json.mixed, Table.GetColumnType,
        Spec.GetColumnType, Table.Get, Table.GetBool, Table.getTyped, Table.GetDate,
        Table.GetString, Table.GetBinary, Table.GetMixed, Table.GetMixedType, Table.GetTable,
        Table.get_subtable_ptr, Table.GetRealColumnType, Table.GetColumn_const,
        Table.GetColumnBase_const, Table.GetColumnString_const, Table.GetColumnStringEnum_const,
        Table.GetColumnBinary_const, Table.GetColumnTable_const, Table.GetColumnMixed_const,
        ColumnData.IsIntColumn, ColumnData.IsStringColumn, ColumnData.IsBinaryColumn,
        hcount, hsize, hi, hi0, hi1, htype, hc, hc1, if_true, if_false, Bool.false_eq_true]

/-- The switch of `to_json` writes the same for a column that `Optimize` has
converted. -/
theorem Table.to_json.value_enumerated (env : Environment)
    (sub : Table → Except Failure String) (AutoEnumerate : List String → Option Enumerated)
    (hAuto : ∀ strings e, AutoEnumerate strings = some e → e.Faithful strings)
    (t t1 : Table) (i r : Nat) (hf : Table.SameFrame t t1)
    (hen : Table.EnumeratedColumn AutoEnumerate t t1 i)
    (hcols : t.GetColumnCount ≤ t.m_columns.length) (hu : t.Uniform) (hr : r < t.m_size) :
    Table.to_json.value env sub t1 i r = Table.to_json.value env sub t i r := by
  obtain ⟨s, hs, hs1⟩ := Table.GetString_enumerated AutoEnumerate hAuto t t1 i r hf hen hcols hu hr
  obtain ⟨hi, _⟩ := Table.GetRealColumnType_of_spec t i _ hen.before
  obtain ⟨hi1, _⟩ := Table.GetRealColumnType_of_spec t1 i _ hen.after
  simp [Table.to_json.value, Table.GetColumnType, Spec.GetColumnType, hi, hi1, hen.before,
    hen.after, hs, hs1]

theorem Table.to_json.columns_congr (env : Environment) (sub : Table → Except Failure String)
    (t t1 : Table) (r : Nat) :
    ∀ (l : List Nat) (out : String),
      (∀ i ∈ l, t1.GetColumnName i = t.GetColumnName i
        ∧ Table.to_json.value env sub t1 i r = Table.to_json.value env sub t i r) →
      Table.to_json.columns env sub t1 r l out = Table.to_json.columns env sub t r l out := by
  intro l
  induction l with
  | nil => intro out _; rfl
  | cons i rest ih =>
    intro out h
    obtain ⟨hname, hvalue⟩ := h i (List.mem_cons_self _ _)
    simp only [Table.to_json.columns, hname, hvalue]
    cases t.GetColumnName i with
    | error e => rfl
    | ok name =>
      cases Table.to_json.value env sub t i r with
      | error e => rfl
      | ok value => exact ih _ (fun j hj => h j (List.mem_cons_of_mem _ hj))

theorem Table.to_json.rows_congr (env : Environment) (sub : Table → Except Failure String)
    (t t1 : Table) :
    ∀ (l : List Nat) (out : String),
      (∀ r ∈ l, ∀ out : String,
        Table.to_json.columns env sub t1 r (List.range t1.GetColumnCount) out
          = Table.to_json.columns env sub t r (List.range t.GetColumnCount) out) →
      Table.to_json.rows env sub t1 l out = Table.to_json.rows env sub t l out := by
  intro l
  induction l with
  | nil => intro out _; rfl
  | cons r rest ih =>
    intro out h
    simp only [Table.to_json.rows, h r (List.mem_cons_self _ _)]
    cases Table.to_json.columns env sub t r (List.range t.GetColumnCount)
        ((if r ≠ 0 then out ++ "," else out) ++ "\x7b") with
    | error e => rfl
    | ok out1 => exact ih _ (fun j hj => h j (List.mem_cons_of_mem _ hj))

/-- The JSON export of a table that differs from `t` by columns that `Optimize` has
converted. -/
theorem Table.to_json_congr (env : Environment) (fuel : Nat)
    (AutoEnumerate : List String → Option Enumerated)
    (hAuto : ∀ strings e, AutoEnumerate strings = some e → e.Faithful strings)
    (t t1 : Table) (hf : Table.SameFrame t t1)
    (hopt : ∀ j : Nat, Table.OptimizedColumn AutoEnumerate t t1 j)
    (hcols : t.GetColumnCount ≤ t.m_columns.length) (hu : t.Uniform) :
    Table.to_json env fuel t1 = Table.to_json env fuel t := by
  have hbody : ∀ sub : Table → Except Failure String,
      Table.to_json.body env sub t1 = Table.to_json.body env sub t := by
    intro sub
    simp only [Table.to_json.body, Table.GetSize, hf.m_size]
    rw [Table.to_json.rows_congr env sub t t1 (List.range t.m_size) "[" ?_]
    intro r hr out
    rw [hf.count]
    apply Table.to_json.columns_congr
    intro i hi
    have hi : i < t.GetColumnCount := List.mem_range.1 hi
    have hr : r < t.m_size := List.mem_range.1 hr
    refine ⟨by simp only [Table.GetColumnName, Spec.GetColumnName, hf.count, hf.names], ?_⟩
    have hoc := hopt i
    simp only [Table.OptimizedColumn] at hoc
    split at hoc
    · exact Table.to_json.value_enumerated env sub AutoEnumerate hAuto t t1 i r hf hoc hcols hu hr
    · exact Table.to_json.value_congr env sub t t1 i r hf hoc hi hcols
  cases fuel with
  | zero => exact hbody _
  | succ fuel => exact hbody _

theorem exampleEnumerateOnce_faithful :
    ∀ strings e, exampleEnumerateOnce strings = some e → e.Faithful strings := by
  intro strings e h
  simp only [exampleEnumerateOnce] at h
  split at h
  · rename_i hs
    subst hs
    cases h
    intro r s hr
    cases r with
    | zero =>
      simp only [List.getElem?_cons_zero, Option.some.injEq] at hr
      subst hr
      exact ⟨0, rfl, rfl⟩
    | succ r => simp at hr
  · cases h

theorem exampleStrings_uniform : exampleStrings.Uniform := by
  intro column hc
  simp only [exampleStrings, List.mem_cons, List.mem_singleton, List.not_mem_nil, or_false] at hc
  rcases hc with rfl | rfl | rfl <;> rfl

theorem exampleStrings_Optimize :
    exampleStrings.Optimize exampleEnumerateOnce = .ok exampleOptimized := by
  rfl

/-- C22: let `AutoEnumerate` hand back keys and values such that the key at the
index stored for a row is the string of the row.  On an attached table whose
cached columns have `m_size` rows and whose `m_columns` has a slot per column,
when `Optimize()` returns: every STRING column `i` that it converts (on whose
rows `AutoEnumerate` returns `true`) has the real type STRING_ENUM afterwards,
and for every row `r < m_size` the call `GetString(i, r)` returns the same
string after as before; a column that it does not convert keeps its real type;
`m_columns` has gained exactly one slot per converted column; `m_size` is the
same. -/
theorem Table.Optimize_enumeration_equivalence
    (AutoEnumerate : List String → Option Enumerated)
    (hAuto : ∀ strings e, AutoEnumerate strings = some e → e.Faithful strings)
    (t t1 : Table) (hv : t.m_columns_valid = true) (hu : t.Uniform)
    (hcols : t.GetColumnCount ≤ t.m_columns.length)
    (hopt : t.Optimize AutoEnumerate = .ok t1) :
    (∀ i : Nat, t.converts AutoEnumerate i = true →
      t.GetRealColumnType i = .ok .COLUMN_TYPE_STRING
      ∧ t1.GetRealColumnType i = .ok .COLUMN_TYPE_STRING_ENUM
      ∧ ∀ r : Nat, r < t.m_size → ∃ s, t.GetString i r = .ok s ∧ t1.GetString i r = .ok s)
    ∧ (∀ i : Nat, t.converts AutoEnumerate i = false →
      t1.m_spec_set.GetRealColumnType i = t.m_spec_set.GetRealColumnType i)
    ∧ t1.m_columns.length = t.m_columns.length
      + ((List.range t.GetColumnCount).filter (t.converts AutoEnumerate)).length
    ∧ t1.m_size = t.m_size := by
  obtain ⟨hf, hcolumns, hlen⟩ := Table.Optimize_columns AutoEnumerate t t1 hv hopt
  refine ⟨?_, ?_, hlen, hf.m_size⟩
  · intro i hi
    have hen := hcolumns i
    simp only [Table.OptimizedColumn, hi, if_true] at hen
    exact ⟨(Table.GetRealColumnType_of_spec t i _ hen.before).2,
      (Table.GetRealColumnType_of_spec t1 i _ hen.after).2,
      fun r hr => Table.GetString_enumerated AutoEnumerate hAuto t t1 i r hf hen hcols hu hr⟩
  · intro i hi
    have hsame := hcolumns i
    simp only [Table.OptimizedColumn, hi, Bool.false_eq_true, if_false] at hsame
    exact hsame.type

theorem Table.Optimize_enumeration_equivalence_witness :
    exampleStrings.Optimize exampleEnumerateOnce = .ok exampleOptimized
    ∧ exampleStrings.GetString 0 0 = .ok "x"
    ∧ exampleOptimized.GetString 0 0 = .ok "x"
    ∧ exampleOptimized.GetRealColumnType 0 = .ok .COLUMN_TYPE_STRING_ENUM
    ∧ exampleOptimized.m_columns.length = exampleStrings.m_columns.length
      + ((List.range exampleStrings.GetColumnCount).filter
          (exampleStrings.converts exampleEnumerateOnce)).length
    ∧ ((List.range exampleStrings.GetColumnCount).filter
          (exampleStrings.converts exampleEnumerateOnce)) = [0] :=
  ⟨exampleStrings_Optimize, by rfl, by rfl,
   ((Table.Optimize_enumeration_equivalence exampleEnumerateOnce exampleEnumerateOnce_faithful
      exampleStrings exampleOptimized rfl exampleStrings_uniform (by decide)
      exampleStrings_Optimize).1 0 (by rfl)).2.1,
   (Table.Optimize_enumeration_equivalence exampleEnumerateOnce exampleEnumerateOnce_faithful
      exampleStrings exampleOptimized rfl exampleStrings_uniform (by decide)
      exampleStrings_Optimize).2.2.1,
   by rfl⟩

/-- C23: let `AutoEnumerate` hand back keys and values such that the key at the
index stored for a row is the string of the row.  On an attached table whose
cached columns have `m_size` rows and whose `m_columns` has a slot per column,
when `Optimize()` returns, `to_json()` afterwards gives what `to_json()` gave
before: the same text, or the same failure. -/
theorem Table.to_json_after_Optimize (env : Environment) (fuel : Nat)
    (AutoEnumerate : List String → Option Enumerated)
    (hAuto : ∀ strings e, AutoEnumerate strings = some e → e.Faithful strings)
    (t t1 : Table) (hv : t.m_columns_valid = true) (hu : t.Uniform)
    (hcols : t.GetColumnCount ≤ t.m_columns.length)
    (hopt : t.Optimize AutoEnumerate = .ok t1) :
    Table.to_json env fuel t1 = Table.to_json env fuel t := by
  obtain ⟨hf, hcolumns, _⟩ := Table.Optimize_columns AutoEnumerate t t1 hv hopt
  exact Table.to_json_congr env fuel AutoEnumerate hAuto t t1 hf hcolumns hcols hu

theorem Table.to_json_after_Optimize_witness :
    Table.to_json exampleEnvironment 0 exampleStrings
      = .ok "[\x7b\"a\":\"x\",\"b\":\"y\",\"c\":5\x7d]"
    ∧ Table.to_json exampleEnvironment 0 exampleOptimized
      = Table.to_json exampleEnvironment 0 exampleStrings :=
  ⟨by rfl,
   Table.to_json_after_Optimize exampleEnvironment 0 exampleEnumerateOnce
     exampleEnumerateOnce_faithful exampleStrings exampleOptimized rfl exampleStrings_uniform
     (by decide) exampleStrings_Optimize⟩

end tightdb

/-! ## Properties of the translation of offsets and sizes -/

theorem and_not_pow_two_sub_one (x j : Nat) (hx : x < 2 ^ 64) (hj : j ≤ 64) :
    x &&& (2 ^ 64 - 1 - (2 ^ j - 1)) = x / 2 ^ j * 2 ^ j := by
  have hpow : 2 ^ j ≤ 2 ^ 64 := Nat.pow_le_pow_right (by decide) hj
  have hpos : 0 < 2 ^ j := Nat.two_pow_pos j
  have e : 2 ^ 64 - 1 - (2 ^ j - 1) = 2 ^ j * (2 ^ (64 - j) - 1) := by
    have : 2 ^ j * 2 ^ (64 - j) = 2 ^ 64 := by
      rw [← Nat.pow_add]; congr 1; omega
    rw [Nat.mul_sub, this]
    omega
  rw [e, Nat.mul_comm (x / 2 ^ j)]
  apply Nat.eq_of_testBit_eq
  intro i
  rw [Nat.testBit_and, Nat.testBit_mul_pow_two, Nat.testBit_mul_pow_two,
    Nat.testBit_two_pow_sub_one, ← Nat.shiftRight_eq_div_pow, Nat.testBit_shiftRight]
  by_cases hij : j ≤ i
  · have e2 : j + (i - j) = i := by omega
    simp only [ge_iff_le, hij, decide_True, Bool.true_and, e2]
    by_cases hi : i < 64
    · have : i - j < 64 - j := by omega
      simp [this]
    · have : x.testBit i = false :=
        Nat.testBit_lt_two_pow (lt_of_lt_of_le hx (Nat.pow_le_pow_right (by decide) (by omega)))
      simp [this]
  · simp [hij]

theorem fake_offset_no_underflow (pos : Nat) :
    (pos / block_size + blocks_per_metadata_block) / (blocks_per_metadata_block + 1) * block_size
      ≤ pos := by
  simp only [block_size, blocks_per_metadata_block, metadata_size]
  omega

theorem real_offset_pos (p : Nat) : real_offset p ≠ 0 := by
  rw [real_offset_eq]
  omega

/-- The argument that `data_size_to_encrypted_size` hands to `real_offset`. -/
theorem data_size_rounded (k s : Nat) (hs : s < 2 ^ 63) (hk : k ≤ 51) :
    size_t_dec ((s + 4096 * 2 ^ k) % SIZE_MOD) &&& size_t_not (size_t_dec (4096 * 2 ^ k))
      = (s + 4096 * 2 ^ k - 1) / (4096 * 2 ^ k) * (4096 * 2 ^ k) := by
  have hP : 4096 * 2 ^ k = 2 ^ (12 + k) := by rw [Nat.pow_add]
  have hle : 2 ^ (12 + k) ≤ 2 ^ 63 := Nat.pow_le_pow_right (by decide) (by omega)
  have hpos : 0 < 2 ^ (12 + k) := Nat.two_pow_pos _
  rw [hP]
  generalize hPv : 2 ^ (12 + k) = P at hle hpos
  have h63 : (2 : Nat) ^ 63 = 9223372036854775808 := by norm_num
  have e1 : size_t_dec ((s + P) % SIZE_MOD) = s + P - 1 := by
    simp only [size_t_dec, SIZE_MOD]
    omega
  have e2 : size_t_not (size_t_dec P) = 2 ^ 64 - 1 - (P - 1) := by
    simp only [size_t_not, size_t_dec, SIZE_MOD]
    omega
  rw [e1, e2, ← hPv]
  exact and_not_pow_two_sub_one _ _ (by rw [hPv]; omega) (by omega)

/-- The function `real_offset` called with an `off_t` returns the sum as long as
the sum is an `off_t`. -/
theorem real_offset_off_t_eq (p : Nat) (h : real_offset p < OFF_T_LIMIT) :
    real_offset_off_t (p : Int) = .ok ((real_offset p : Nat) : Int) := by
  have hp : p < SIZE_MOD := by
    rw [real_offset_eq] at h
    simp only [OFF_T_LIMIT] at h
    simp only [SIZE_MOD]
    omega
  have hs : real_offset p < SIZE_MOD := lt_trans h (by decide : OFF_T_LIMIT < SIZE_MOD)
  have e : (p + (p / block_size / blocks_per_metadata_block + 1) * block_size) = real_offset p :=
    rfl
  simp only [real_offset_off_t, Int.natCast_nonneg, if_true, size_t_cast_natCast p hp, e,
    Nat.mod_eq_of_lt hs, off_t_cast_of_lt _ h]

/-- The function `real_offset` called with a `size_t` returns the sum as long as
the sum is a `size_t`. -/
theorem real_offset_size_t_eq (p : Nat) (h : real_offset p < SIZE_MOD) :
    real_offset_size_t p = real_offset p := by
  have e : (p + (p / block_size / blocks_per_metadata_block + 1) * block_size) = real_offset p :=
    rfl
  simp only [real_offset_size_t, e, Nat.mod_eq_of_lt h]

/-- The function `iv_table_pos` returns the sum as long as the ciphertext of the
block is at an `off_t`. -/
theorem iv_table_pos_off_t_eq (p : Nat) (h : real_offset p < OFF_T_LIMIT) :
    iv_table_pos_off_t (p : Int) = .ok ((iv_table_pos p : Nat) : Int) := by
  have hi : iv_table_pos p < OFF_T_LIMIT :=
    lt_of_le_of_lt (Nat.le_of_lt (Nat.lt_of_lt_of_le (Nat.lt_add_of_pos_right (by decide))
      (iv_table_pos_add_le_real_offset p))) h
  have hp : p < SIZE_MOD := by
    rw [real_offset_eq] at h
    simp only [OFF_T_LIMIT] at h
    simp only [SIZE_MOD]
    omega
  have hs : iv_table_pos p < SIZE_MOD := lt_trans hi (by decide : OFF_T_LIMIT < SIZE_MOD)
  have e : (p / block_size / blocks_per_metadata_block * (blocks_per_metadata_block + 1)
      * block_size + (p / block_size &&& (blocks_per_metadata_block - 1)) * metadata_size)
      = iv_table_pos p := rfl
  simp only [iv_table_pos_off_t, Int.natCast_nonneg, if_true, size_t_cast_natCast p hp, e,
    Nat.mod_eq_of_lt hs, off_t_cast_of_lt _ hi]

/-- The function `fake_offset` on a position that is not negative: the product it
subtracts is not larger than the position. -/
theorem fake_offset_eq (r : Nat) (h : r < OFF_T_LIMIT) :
    fake_offset (r : Int)
      = .ok ((r - (r / 4096 + 64) / 65 * 4096 : Nat) : Int) := by
  have hr : r < SIZE_MOD := lt_trans h (by decide : OFF_T_LIMIT < SIZE_MOD)
  have hle := fake_offset_no_underflow r
  simp only [block_size, blocks_per_metadata_block, metadata_size] at hle
  norm_num at hle
  have hsub : size_t_sub r ((r / 4096 + 64) / 65 * 4096) = r - (r / 4096 + 64) / 65 * 4096 := by
    simp only [SIZE_MOD] at hr
    simp only [size_t_sub, SIZE_MOD]
    omega
  have hlt : r - (r / 4096 + 64) / 65 * 4096 < OFF_T_LIMIT := lt_of_le_of_lt (Nat.sub_le _ _) h
  simp only [fake_offset, Int.natCast_nonneg, if_true, size_t_cast_natCast r hr, block_size,
    blocks_per_metadata_block, metadata_size]
  norm_num
  rw [hsub, off_t_cast_of_lt _ hlt]

theorem fake_offset_real_offset (p : Nat) (h : real_offset p < OFF_T_LIMIT) :
    fake_offset ((real_offset p : Nat) : Int) = .ok (p : Int) := by
  rw [fake_offset_eq _ h]
  have e : real_offset p - (real_offset p / 4096 + 64) / 65 * 4096 = p := by
    rw [real_offset_eq]
    omega
  rw [e]

/-- C33: with block size 4096 and 64 data blocks per metadata block, for every
data position `p >= 0` whose position in the file is a value of the signed type
`off_t`, `real_offset(p)` returns `p + (p / 4096 / 64 + 1) * 4096` and
`fake_offset` of it returns `p`; and for every size `s >= 0` and every page size
`4096 * 2 ^ k` that a `size_t` holds, when the encrypted size of `s` rounded up
is a value of `File::SizeType`, `data_size_to_encrypted_size(s)` is
`real_offset` of `s` rounded up to the page size and
`encrypted_size_to_data_size` of it returns `s` rounded up to the page size: the
multiple of the page size that is at least `s` and less than `s` plus the page
size. -/
theorem encrypted_size_round_trip :
    (∀ p : Nat, real_offset p < OFF_T_LIMIT →
        real_offset_off_t (p : Int) = .ok ((real_offset p : Nat) : Int)
        ∧ fake_offset ((real_offset p : Nat) : Int) = .ok (p : Int))
    ∧ ∀ k s : Nat, k ≤ 51 →
        real_offset ((s + 4096 * 2 ^ k - 1) / (4096 * 2 ^ k) * (4096 * 2 ^ k)) < OFF_T_LIMIT →
        data_size_to_encrypted_size (4096 * 2 ^ k) (s : Int)
            = ((real_offset ((s + 4096 * 2 ^ k - 1) / (4096 * 2 ^ k) * (4096 * 2 ^ k)) : Nat) : Int)
        ∧ encrypted_size_to_data_size (data_size_to_encrypted_size (4096 * 2 ^ k) (s : Int))
            = .ok (((s + 4096 * 2 ^ k - 1) / (4096 * 2 ^ k) * (4096 * 2 ^ k) : Nat) : Int)
        ∧ 4096 * 2 ^ k ∣ (s + 4096 * 2 ^ k - 1) / (4096 * 2 ^ k) * (4096 * 2 ^ k)
        ∧ s ≤ (s + 4096 * 2 ^ k - 1) / (4096 * 2 ^ k) * (4096 * 2 ^ k)
        ∧ (s + 4096 * 2 ^ k - 1) / (4096 * 2 ^ k) * (4096 * 2 ^ k) < s + 4096 * 2 ^ k := by
  refine ⟨fun p h => ⟨real_offset_off_t_eq p h, fake_offset_real_offset p h⟩, ?_⟩
  intro k s hk hfit
  have hpos : 0 < 4096 * 2 ^ k := Nat.mul_pos (by decide) (Nat.two_pow_pos k)
  have hle : s ≤ (s + 4096 * 2 ^ k - 1) / (4096 * 2 ^ k) * (4096 * 2 ^ k) := by
    generalize 4096 * 2 ^ k = P at hpos
    have h1 := Nat.div_add_mod (s + P - 1) P
    have h2 := Nat.mod_lt (s + P - 1) hpos
    rw [Nat.mul_comm] at h1
    omega
  have hs : s < 2 ^ 63 := by
    have h1 : (s + 4096 * 2 ^ k - 1) / (4096 * 2 ^ k) * (4096 * 2 ^ k)
        ≤ real_offset ((s + 4096 * 2 ^ k - 1) / (4096 * 2 ^ k) * (4096 * 2 ^ k)) := by
      rw [real_offset_eq]
      exact Nat.le_add_right _ _
    have h2 : OFF_T_LIMIT = 2 ^ 63 := by norm_num [OFF_T_LIMIT]
    rw [← h2]
    exact lt_of_le_of_lt (le_trans hle h1) hfit
  have hs2 : s < SIZE_MOD := lt_trans hs (by norm_num [SIZE_MOD])
  have henc : data_size_to_encrypted_size (4096 * 2 ^ k) (s : Int)
      = ((real_offset ((s + 4096 * 2 ^ k - 1) / (4096 * 2 ^ k) * (4096 * 2 ^ k)) : Nat) : Int) := by
    simp only [data_size_to_encrypted_size, size_t_cast_natCast s hs2, data_size_rounded k s hs hk]
    rw [real_offset_size_t_eq _ (lt_trans hfit (by decide : OFF_T_LIMIT < SIZE_MOD)),
      off_t_cast_of_lt _ hfit]
  refine ⟨henc, ?_, Nat.dvd_mul_left _ _, hle, ?_⟩
  · have hne : ((real_offset ((s + 4096 * 2 ^ k - 1) / (4096 * 2 ^ k) * (4096 * 2 ^ k)) : Nat)
        : Int) ≠ 0 := by
      exact_mod_cast real_offset_pos _
    rw [henc]
    simp only [encrypted_size_to_data_size, if_neg hne]
    exact fake_offset_real_offset _ hfit
  · generalize 4096 * 2 ^ k = P at hpos
    have h1 := Nat.div_add_mod (s + P - 1) P
    rw [Nat.mul_comm] at h1
    omega

/-- C33, at a concrete input: a position in the second group of 64 blocks, and
the size 5000 with pages of 4096 bytes, which is stored in 12288 bytes of file
and read back as 8192. -/
theorem encrypted_size_round_trip_witness :
    real_offset 300000 < OFF_T_LIMIT
    ∧ real_offset_off_t 300000 = .ok 308192
    ∧ fake_offset 308192 = .ok 300000
    ∧ (0 ≤ 51 ∧ real_offset ((5000 + 4096 * 2 ^ 0 - 1) / (4096 * 2 ^ 0) * (4096 * 2 ^ 0))
        < OFF_T_LIMIT
      ∧ data_size_to_encrypted_size (4096 * 2 ^ 0) 5000 = 12288
      ∧ encrypted_size_to_data_size (data_size_to_encrypted_size (4096 * 2 ^ 0) 5000)
          = .ok 8192) :=
  ⟨by decide, (encrypted_size_round_trip.1 300000 (by decide)).1,
    (encrypted_size_round_trip.1 300000 (by decide)).2, by norm_num, by decide,
    (encrypted_size_round_trip.2 0 5000 (by norm_num) (by decide)).1,
    (encrypted_size_round_trip.2 0 5000 (by norm_num) (by decide)).2.1⟩

/-! ## Properties of the layout of the file -/

/-- The record of a block-aligned position lies in the file block of index
`65 * (index / 64)`. -/
theorem iv_table_pos_in_metadata_block (p : Nat) :
    iv_table_pos p = p / 4096 / 64 * 65 * 4096 + p / 4096 % 64 * 64
    ∧ 65 * (p / 4096 / 64) * 4096 ≤ iv_table_pos p
    ∧ iv_table_pos p + 64 ≤ (65 * (p / 4096 / 64) + 1) * 4096 := by
  rw [iv_table_pos_eq]
  refine ⟨rfl, ?_, ?_⟩ <;> omega

/-- The ciphertext of a block-aligned position is one file block, whose index is
no multiple of 65. -/
theorem real_offset_block (q : Nat) (hq : q % block_size = 0) :
    real_offset q = (q / 4096 + q / 4096 / 64 + 1) * 4096
    ∧ (q / 4096 + q / 4096 / 64 + 1) % 65 ≠ 0 := by
  simp only [block_size] at hq
  rw [real_offset_eq]
  refine ⟨?_, ?_⟩ <;> omega

theorem iv_table_pos_disjoint_real_offset (p q : Nat) (hq : q % block_size = 0) :
    iv_table_pos p + 64 ≤ real_offset q ∨ real_offset q + 4096 ≤ iv_table_pos p := by
  simp only [block_size] at hq
  rw [iv_table_pos_eq, real_offset_eq]
  omega

theorem real_offset_strictMono (p q : Nat) (h : p < q) : real_offset p < real_offset q := by
  rw [real_offset_eq, real_offset_eq]
  have : p / 4096 / 64 ≤ q / 4096 / 64 :=
    Nat.div_le_div_right (Nat.div_le_div_right (Nat.le_of_lt h))
  omega

theorem iv_table_pos_disjoint (p q : Nat) (h : p / block_size ≠ q / block_size) :
    iv_table_pos p + 64 ≤ iv_table_pos q ∨ iv_table_pos q + 64 ≤ iv_table_pos p := by
  simp only [block_size] at h
  rw [iv_table_pos_eq, iv_table_pos_eq]
  omega

/-- C37: for block-aligned data positions `p` and `q` whose ciphertexts are at
positions of the file that are values of the signed type `off_t`,
`iv_table_pos` and `real_offset` return the sums
`(index / 64) * 65 * 4096 + (index mod 64) * 64` and
`pos + (index / 64 + 1) * 4096`; the 64 bytes of the record from
`iv_table_pos(p)` lie in the file block of index `65 * (index / 64)`, a metadata
block; the 4096 bytes of ciphertext from `real_offset(q)` are exactly one file
block, whose index is no multiple of 65, so that record and ciphertext do not
overlap; `real_offset` is strictly increasing on the positions up to one whose
position in the file is an `off_t`, the ciphertexts of distinct blocks do not
overlap, and the records of distinct blocks do not overlap. -/
theorem iv_table_layout_disjoint (p q : Nat) (hp : p % block_size = 0)
    (hq : q % block_size = 0) (hpfit : real_offset p < OFF_T_LIMIT)
    (hqfit : real_offset q < OFF_T_LIMIT) :
    (iv_table_pos_off_t (p : Int) = .ok ((iv_table_pos p : Nat) : Int)
      ∧ iv_table_pos_off_t (q : Int) = .ok ((iv_table_pos q : Nat) : Int)
      ∧ real_offset_off_t (p : Int) = .ok ((real_offset p : Nat) : Int)
      ∧ real_offset_off_t (q : Int) = .ok ((real_offset q : Nat) : Int))
    ∧ (iv_table_pos p = p / block_size / 64 * 65 * 4096 + p / block_size % 64 * 64
      ∧ 65 * (p / block_size / 64) * 4096 ≤ iv_table_pos p
      ∧ iv_table_pos p + 64 ≤ (65 * (p / block_size / 64) + 1) * 4096)
    ∧ (∃ b : Nat, real_offset q = b * 4096 ∧ b % 65 ≠ 0)
    ∧ (iv_table_pos p + 64 ≤ real_offset q ∨ real_offset q + 4096 ≤ iv_table_pos p)
    ∧ (∀ a b : Nat, a < b → real_offset b < OFF_T_LIMIT →
        real_offset_off_t (a : Int) = .ok ((real_offset a : Nat) : Int)
        ∧ real_offset_off_t (b : Int) = .ok ((real_offset b : Nat) : Int)
        ∧ real_offset a < real_offset b)
    ∧ (p ≠ q →
        (real_offset p + 4096 ≤ real_offset q ∨ real_offset q + 4096 ≤ real_offset p)
        ∧ (iv_table_pos p + 64 ≤ iv_table_pos q ∨ iv_table_pos q + 64 ≤ iv_table_pos p)) := by
  refine ⟨⟨iv_table_pos_off_t_eq p hpfit, iv_table_pos_off_t_eq q hqfit,
    real_offset_off_t_eq p hpfit, real_offset_off_t_eq q hqfit⟩,
    iv_table_pos_in_metadata_block p, ⟨_, (real_offset_block q hq).1,
    (real_offset_block q hq).2⟩, iv_table_pos_disjoint_real_offset p q hq, ?_, ?_⟩
  · intro a b hab hb
    have hlt := real_offset_strictMono a b hab
    exact ⟨real_offset_off_t_eq a (lt_trans hlt hb), real_offset_off_t_eq b hb, hlt⟩
  intro hne
  have hidx : p / block_size ≠ q / block_size := by
    simp only [block_size] at hp hq ⊢
    omega
  refine ⟨?_, iv_table_pos_disjoint p q hidx⟩
  have e1 := (real_offset_block p hp).1
  have e2 := (real_offset_block q hq).1
  simp only [block_size] at hidx
  rcases Nat.lt_or_gt_of_ne hne with h | h
  · left
    have := real_offset_strictMono p q h
    omega
  · right
    have := real_offset_strictMono q p h
    omega

/-- C37, at a concrete input: block 63, the last of the first group of 64, and
block 64, the first of the second group. -/
theorem iv_table_layout_disjoint_witness :
    (63 * 4096) % block_size = 0 ∧ (64 * 4096) % block_size = 0
    ∧ real_offset (63 * 4096) < OFF_T_LIMIT ∧ real_offset (64 * 4096) < OFF_T_LIMIT
    ∧ iv_table_pos_off_t (63 * 4096) = .ok 4032
    ∧ real_offset_off_t (63 * 4096) = .ok (64 * 4096)
    ∧ iv_table_pos_off_t (64 * 4096) = .ok (65 * 4096)
    ∧ real_offset_off_t (64 * 4096) = .ok (66 * 4096)
    ∧ (iv_table_pos (63 * 4096) + 64 ≤ real_offset (64 * 4096)
        ∨ real_offset (64 * 4096) + 4096 ≤ iv_table_pos (63 * 4096)) :=
  ⟨by decide, by decide, by decide, by decide,
    (iv_table_layout_disjoint (63 * 4096) (64 * 4096) (by decide) (by decide) (by decide)
      (by decide)).1.1,
    (iv_table_layout_disjoint (63 * 4096) (64 * 4096) (by decide) (by decide) (by decide)
      (by decide)).1.2.2.1,
    (iv_table_layout_disjoint (63 * 4096) (64 * 4096) (by decide) (by decide) (by decide)
      (by decide)).1.2.1,
    (iv_table_layout_disjoint (63 * 4096) (64 * 4096) (by decide) (by decide) (by decide)
      (by decide)).1.2.2.2,
    (iv_table_layout_disjoint (63 * 4096) (64 * 4096) (by decide) (by decide) (by decide)
      (by decide)).2.2.2.1⟩

/-! ## Properties of the bump of `iv1` -/

/-- The pass of the `do ... while` loop that starts from `iv1 = 0xFFFFFFFF`: the
increment wraps to 0, the second increment makes it 1. -/
theorem AESCryptor.bump_iv_wraps (prim : Primitives) (c : AESCryptor) (pos : Nat)
    (src : List Nat) (n : Nat) (iv : iv_table) (hiv : iv.iv1 = 4294967295) :
    c.bump_iv prim pos src (n + 1) iv
      = if (calc_hmac prim (c.crypt prim .mode_Encrypt pos src 1) block_size c.m_hmacKey).take 4
            = iv.hmac2.take 4
        then c.bump_iv prim pos src n
          { iv with iv1 := 1,
                    hmac1 := calc_hmac prim (c.crypt prim .mode_Encrypt pos src 1) block_size
                      c.m_hmacKey }
        else .ok ({ iv with iv1 := 1,
                            hmac1 := calc_hmac prim (c.crypt prim .mode_Encrypt pos src 1)
                              block_size c.m_hmacKey },
          c.crypt prim .mode_Encrypt pos src 1) := by
  simp only [AESCryptor.bump_iv, hiv]
  rfl

/-- A successful preparation is a successful `get_iv_table` followed by a
successful `do ... while` loop on the record it returns. -/
theorem AESCryptor.write_prepare_inv (prim : Primitives) (fuel : Nat) (c c2 : AESCryptor)
    (fd : File) (pos : Nat) (src : List Nat) (idx : Nat)
    (h : c.write_prepare prim fuel fd pos src = .ok (c2, idx)) :
    ∃ c1 iv buf, c.get_iv_table fd pos = .ok (c1, idx)
      ∧ c1.bump_iv prim pos src fuel (c1.m_iv_buffer.getD idx iv_table.zero).keep_previous
          = .ok (iv, buf)
      ∧ c2.m_iv_buffer.getD idx iv_table.zero = iv := by
  simp only [AESCryptor.write_prepare] at h
  cases hget : c.get_iv_table fd pos with
  | error e => rw [hget] at h; cases h
  | ok r =>
    obtain ⟨c1, idx1⟩ := r
    rw [hget] at h
    simp only at h
    cases hb : c1.bump_iv prim pos src fuel
        (c1.m_iv_buffer.getD idx1 iv_table.zero).keep_previous with
    | error e => rw [hb] at h; cases h
    | ok r2 =>
      obtain ⟨iv1, buf⟩ := r2
      rw [hb] at h
      simp only [Except.ok.injEq, Prod.mk.injEq] at h
      obtain ⟨rfl, rfl⟩ := h
      obtain ⟨_, g2, _⟩ := c.get_iv_table_ok c1 fd pos idx1 hget
      exact ⟨c1, iv1, buf, rfl, hb, getD_set_self _ _ _ _ g2⟩

/-- What a block write leaves in the record of the block. -/
theorem AESCryptor.write_block_record (prim : Primitives) (fuel : Nat) (c c2 : AESCryptor)
    (fd fd2 : File) (pos : Nat) (src : List Nat)
    (h : c.write_block prim fuel fd pos src = .ok (c2, fd2)) :
    (c2.m_iv_buffer.getD (pos / block_size) iv_table.zero).iv1 ≠ 0
    ∧ (c2.m_iv_buffer.getD (pos / block_size) iv_table.zero).iv1 < 4294967296
    ∧ (c2.m_iv_buffer.getD (pos / block_size) iv_table.zero).hmac1.take 4
        ≠ (c2.m_iv_buffer.getD (pos / block_size) iv_table.zero).hmac2.take 4
    ∧ fd2.slice (iv_table_pos pos) metadata_size
        = (c2.m_iv_buffer.getD (pos / block_size) iv_table.zero).toBytes
    ∧ ∀ c1 : AESCryptor, c.get_iv_table fd pos = .ok (c1, pos / block_size) →
        (c1.m_iv_buffer.getD (pos / block_size) iv_table.zero).iv1 = 4294967295 →
        (calc_hmac prim (c1.crypt prim .mode_Encrypt pos src 1) block_size c1.m_hmacKey).take 4
          ≠ (c1.m_iv_buffer.getD (pos / block_size) iv_table.zero).hmac1.take 4 →
        (c2.m_iv_buffer.getD (pos / block_size) iv_table.zero).iv1 = 1 := by
  obtain ⟨idx, hp, _⟩ := AESCryptor.write_block_inv prim fuel c c2 fd fd2 pos src h
  obtain ⟨c1, _, hprep⟩ := AESCryptor.write_prepare_spec prim fuel c c2 fd pos src idx hp
  obtain ⟨_, _, _, _, hfile⟩ := AESCryptor.write_block_previous prim fuel c c2 fd fd2 pos src h
  have hidx := hprep.idx_eq
  subst hidx
  refine ⟨hprep.iv1_ne, hprep.iv1_lt, hprep.take_ne, hfile, ?_⟩
  intro c0 hget hmax hne
  obtain ⟨c1b, iv, buf, hget2, hb, hrec⟩ :=
    AESCryptor.write_prepare_inv prim fuel c c2 fd pos src _ hp
  rw [hget] at hget2
  cases hget2
  rw [hrec]
  cases fuel with
  | zero => simp [AESCryptor.bump_iv] at hb
  | succ n =>
    rw [AESCryptor.bump_iv_wraps prim c0 pos src n _
      (by simpa [iv_table.keep_previous] using hmax)] at hb
    rw [if_neg (by simpa [iv_table.keep_previous] using hne)] at hb
    cases hb
    rfl

/-- C34: when a block write by `AESCryptor::write` (one pass of its `while` loop,
with any bound `fuel` on the passes of the inner `do ... while` loop) ends, the
record of the block, in memory and in the 64 bytes of the file at
`iv_table_pos(pos)`, has an `iv1` that is not zero and fits 32 bits, and the
first 4 bytes of its `hmac1` differ from the first 4 bytes of its `hmac2`; the
pass of the inner loop that finds `iv1 = 0xFFFFFFFF` leaves `iv1 = 1`, which is
the `iv1` of the record when that pass ends the loop. -/
theorem AESCryptor.write_bumps_iv1 (prim : Primitives) (fuel : Nat) (c c2 : AESCryptor)
    (fd fd2 : File) (pos : Nat) (src : List Nat)
    (h : c.write_block prim fuel fd pos src = .ok (c2, fd2)) :
    ((c2.m_iv_buffer.getD (pos / block_size) iv_table.zero).iv1 ≠ 0
    ∧ (c2.m_iv_buffer.getD (pos / block_size) iv_table.zero).iv1 < 4294967296
    ∧ (c2.m_iv_buffer.getD (pos / block_size) iv_table.zero).hmac1.take 4
        ≠ (c2.m_iv_buffer.getD (pos / block_size) iv_table.zero).hmac2.take 4
    ∧ fd2.slice (iv_table_pos pos) metadata_size
        = (c2.m_iv_buffer.getD (pos / block_size) iv_table.zero).toBytes
    ∧ ∀ c1 : AESCryptor, c.get_iv_table fd pos = .ok (c1, pos / block_size) →
        (c1.m_iv_buffer.getD (pos / block_size) iv_table.zero).iv1 = 4294967295 →
        (calc_hmac prim (c1.crypt prim .mode_Encrypt pos src 1) block_size c1.m_hmacKey).take 4
          ≠ (c1.m_iv_buffer.getD (pos / block_size) iv_table.zero).hmac1.take 4 →
        (c2.m_iv_buffer.getD (pos / block_size) iv_table.zero).iv1 = 1)
    ∧ ∀ (c0 : AESCryptor) (n : Nat) (iv : iv_table), iv.iv1 = 4294967295 →
        c0.bump_iv prim pos src (n + 1) iv
          = if (calc_hmac prim (c0.crypt prim .mode_Encrypt pos src 1) block_size
                  c0.m_hmacKey).take 4 = iv.hmac2.take 4
            then c0.bump_iv prim pos src n
              { iv with iv1 := 1,
                        hmac1 := calc_hmac prim (c0.crypt prim .mode_Encrypt pos src 1)
                          block_size c0.m_hmacKey }
            else .ok ({ iv with iv1 := 1,
                                hmac1 := calc_hmac prim (c0.crypt prim .mode_Encrypt pos src 1)
                                  block_size c0.m_hmacKey },
              c0.crypt prim .mode_Encrypt pos src 1) :=
  ⟨AESCryptor.write_block_record prim fuel c c2 fd fd2 pos src h,
    fun c0 n iv hiv => AESCryptor.bump_iv_wraps prim c0 pos src n iv hiv⟩

/-- The write of 4096 bytes 7 by the example cryptor whose record of block 0 has
`iv1 = 0xFFFFFFFF`. -/
theorem exampleWrap_write (fd : File) :
    ∃ c2 fd2, exampleWrapCryptor.write_block examplePrimitives 1 fd 0
        (List.replicate block_size 7) = .ok (c2, fd2) := by
  have hprep := AESCryptor.write_prepare_first_pass examplePrimitives 0 exampleWrapCryptor
    exampleWrapCryptor fd 0 (List.replicate block_size 7) 0 1 _
    (exampleWrapCryptor.get_iv_table_cached fd 0 (by decide)) rfl (by decide)
    (by rw [examplePrimitives_digest]; decide)
  exact ⟨_, _, AESCryptor.write_block_of_prepare _ _ _ _ _ _ _ _ hprep⟩

/-- C34, at a concrete input: the record of block 0 has `iv1 = 0xFFFFFFFF`; after
the write of 4096 bytes 7 it has `iv1 = 1`. -/
theorem AESCryptor.write_bumps_iv1_witness :
    ∃ c2 fd2, exampleWrapCryptor.write_block examplePrimitives 1 exampleFile 0
        (List.replicate block_size 7) = .ok (c2, fd2)
      ∧ (exampleWrapCryptor.m_iv_buffer.getD (0 / block_size) iv_table.zero).iv1 = 4294967295
      ∧ (c2.m_iv_buffer.getD (0 / block_size) iv_table.zero).iv1 ≠ 0
      ∧ (c2.m_iv_buffer.getD (0 / block_size) iv_table.zero).iv1 = 1 := by
  obtain ⟨c2, fd2, hw⟩ := exampleWrap_write exampleFile
  have h := AESCryptor.write_bumps_iv1 examplePrimitives 1 exampleWrapCryptor c2 exampleFile fd2 0
    (List.replicate block_size 7) hw
  refine ⟨c2, fd2, hw, by decide, h.1.1, ?_⟩
  exact h.1.2.2.2.2 exampleWrapCryptor
    (exampleWrapCryptor.get_iv_table_cached exampleFile 0 (by decide)) (by decide)
    (by rw [examplePrimitives_digest]; decide)

/-! ## Properties of the order of the file writes -/

theorem block_writes_zero (pos : Nat) : block_writes pos 0 = [] := rfl

theorem flatMap_range_succ {α : Type} (f : Nat → List α) (m : Nat) :
    (List.range (m + 1)).flatMap f = f 0 ++ (List.range m).flatMap (fun k => f (k + 1)) := by
  rw [List.range_succ_eq_map, List.flatMap_cons, List.flatMap_map]

theorem block_writes_succ (pos m : Nat) :
    block_writes pos (m + 1)
      = [{ pos := iv_table_pos pos, len := metadata_size },
         { pos := real_offset pos, len := block_size }]
        ++ block_writes (pos + block_size) m := by
  have e : ∀ k, pos + (k + 1) * block_size = pos + block_size + k * block_size := by
    intro k
    rw [Nat.succ_mul]; omega
  have e0 : pos + 0 * block_size = pos := by rw [Nat.zero_mul, Nat.add_zero]
  unfold block_writes
  rw [flatMap_range_succ, e0]
  simp only [e]

theorem block_writes_length (pos m : Nat) : (block_writes pos m).length = 2 * m := by
  induction m generalizing pos with
  | zero => rfl
  | succ m ih =>
    rw [block_writes_succ, List.length_append, ih]
    simp only [List.length_cons, List.length_nil]
    omega

/-- The two writes of block `k` in the writes of `m` blocks. -/
theorem block_writes_getElem? (pos m k : Nat) (hk : k < m) :
    (block_writes pos m)[2 * k]?
        = some { pos := iv_table_pos (pos + k * block_size), len := metadata_size }
    ∧ (block_writes pos m)[2 * k + 1]?
        = some { pos := real_offset (pos + k * block_size), len := block_size } := by
  induction m generalizing pos k with
  | zero => omega
  | succ m ih =>
    rw [block_writes_succ]
    cases k with
    | zero => simp
    | succ k =>
      have e : pos + (k + 1) * block_size = pos + block_size + k * block_size := by
        rw [Nat.succ_mul]; omega
      obtain ⟨h1, h2⟩ := ih (pos + block_size) k (by omega)
      rw [e]
      constructor
      · rw [List.getElem?_append_right (by simp)]
        simpa [Nat.mul_succ] using h1
      · rw [List.getElem?_append_right (by simp; omega)]
        have : 2 * (k + 1) + 1 - [({ pos := iv_table_pos pos, len := metadata_size } : FileWrite),
            { pos := real_offset pos, len := block_size }].length = 2 * k + 1 := by
          simp only [List.length_cons, List.length_nil]; omega
        rw [this]
        exact h2

/-- A write of 4096 bytes among the writes of `m` blocks is the write of the
ciphertext of a block, and the write just before it is that of the record of
the same block. -/
theorem block_writes_ciphertext (pos m j : Nat) (w : FileWrite)
    (hj : (block_writes pos m)[j]? = some w) (hw : w.len = block_size) :
    ∃ k, k < m ∧ j = 2 * k + 1 ∧ w.pos = real_offset (pos + k * block_size)
      ∧ (block_writes pos m)[2 * k]?
          = some { pos := iv_table_pos (pos + k * block_size), len := metadata_size } := by
  have hlt : j < 2 * m := by
    rw [← block_writes_length pos m]
    exact (List.getElem?_eq_some_iff.1 hj).1
  obtain ⟨h1, h2⟩ := block_writes_getElem? pos m (j / 2) (by omega)
  rcases Nat.mod_two_eq_zero_or_one j with h0 | h0
  · have e : 2 * (j / 2) = j := by omega
    rw [e, hj] at h1
    cases h1
    exact absurd hw (show ¬ metadata_size = block_size by decide)
  · have e : 2 * (j / 2) + 1 = j := by omega
    rw [e, hj] at h2
    cases h2
    exact ⟨j / 2, by omega, e.symm, rfl, h1⟩

theorem AESCryptor.write_block_traced_snd (prim : Primitives) (fuel : Nat) (c : AESCryptor)
    (fd : File) (pos : Nat) (src : List Nat) (trace : List FileWrite) :
    (c.write_block_traced prim fuel fd pos src trace).2 = c.write_block prim fuel fd pos src := by
  simp only [AESCryptor.write_block_traced, AESCryptor.write_block]
  cases c.write_prepare prim fuel fd pos src with
  | error e => rfl
  | ok r => rfl

theorem AESCryptor.write_block_traced_fst (prim : Primitives) (fuel : Nat) (c : AESCryptor)
    (fd : File) (pos : Nat) (src : List Nat) (trace : List FileWrite) :
    (c.write_block_traced prim fuel fd pos src trace).1
      = match c.write_block prim fuel fd pos src with
        | .error _ => trace
        | .ok _ => trace ++ block_writes pos 1 := by
  simp only [AESCryptor.write_block_traced, AESCryptor.write_block]
  cases c.write_prepare prim fuel fd pos src with
  | error e => rfl
  | ok r =>
    simp only [block_writes_succ, block_writes_zero, List.append_nil, List.append_assoc,
      List.singleton_append]

/-- The trace of the loop over `n` blocks: the writes of the first `m` blocks, all
of them when the loop ends; and the loop with the trace is the loop. -/
theorem AESCryptor.write_blocks_traced_spec (prim : Primitives) (fuel : Nat) :
    ∀ (n : Nat) (c : AESCryptor) (fd : File) (pos : Nat) (src : List Nat)
      (trace : List FileWrite),
      (AESCryptor.write_blocks_traced prim fuel n c fd pos src trace).2
          = AESCryptor.write_blocks prim fuel n c fd pos src
      ∧ ∃ m, m ≤ n
        ∧ (AESCryptor.write_blocks_traced prim fuel n c fd pos src trace).1
            = trace ++ block_writes pos m
        ∧ ((∃ r, AESCryptor.write_blocks prim fuel n c fd pos src = .ok r) → m = n) := by
  intro n
  induction n with
  | zero =>
    intro c fd pos src trace
    exact ⟨rfl, 0, Nat.le_refl _, by simp [AESCryptor.write_blocks_traced, block_writes_zero],
      fun _ => rfl⟩
  | succ n ih =>
    intro c fd pos src trace
    have h1 := AESCryptor.write_block_traced_fst prim fuel c fd pos src trace
    have h2 := AESCryptor.write_block_traced_snd prim fuel c fd pos src trace
    simp only [AESCryptor.write_blocks_traced, AESCryptor.write_blocks]
    cases hb : c.write_block prim fuel fd pos src with
    | error e =>
      rw [hb] at h1 h2
      have hpair : c.write_block_traced prim fuel fd pos src trace = (trace, .error e) :=
        Prod.ext h1 h2
      rw [hpair]
      exact ⟨rfl, 0, Nat.zero_le _, by simp [block_writes_zero], fun ⟨r, hr⟩ => by cases hr⟩
    | ok r =>
      obtain ⟨c1, fd1⟩ := r
      rw [hb] at h1 h2
      have hpair : c.write_block_traced prim fuel fd pos src trace
          = (trace ++ block_writes pos 1, .ok (c1, fd1)) := Prod.ext h1 h2
      rw [hpair]
      obtain ⟨hsnd, m, hm, hfst, hall⟩ :=
        ih c1 fd1 (pos + block_size) (src.drop block_size) (trace ++ block_writes pos 1)
      refine ⟨hsnd, m + 1, by omega, ?_, fun hr => by rw [hall hr]⟩
      rw [hfst, block_writes_succ pos m, block_writes_succ pos 0, block_writes_zero,
        List.append_nil, List.append_assoc]

/-- C35: the calls of `check_write` that `AESCryptor::write` issues, in the order
in which it issues them (the write with the trace computes what the write
computes), are for its blocks one after the other the 64 bytes of the record
at `iv_table_pos` of the block's position followed by the 4096 bytes of
ciphertext at `real_offset` of that position: all `size / block_size` blocks
when the write ends, a first part of them when it does not; so every write of
4096 bytes in the trace is the ciphertext of a block and has the write of the
record of that block just before it. -/
theorem AESCryptor.write_record_before_ciphertext (prim : Primitives) (fuel : Nat)
    (c : AESCryptor) (fd : File) (pos : Nat) (src : List Nat) (size : Nat)
    (trace : List FileWrite) :
    (c.write_traced prim fuel fd pos src size trace).2 = c.write prim fuel fd pos src size
    ∧ ∃ m, m ≤ size / block_size
      ∧ (c.write_traced prim fuel fd pos src size trace).1 = trace ++ block_writes pos m
      ∧ ((∃ r, c.write prim fuel fd pos src size = .ok r) → m = size / block_size)
      ∧ (∀ k, k < m →
          (block_writes pos m)[2 * k]?
              = some { pos := iv_table_pos (pos + k * block_size), len := metadata_size }
          ∧ (block_writes pos m)[2 * k + 1]?
              = some { pos := real_offset (pos + k * block_size), len := block_size })
      ∧ ∀ (j : Nat) (w : FileWrite), (block_writes pos m)[j]? = some w → w.len = block_size →
          ∃ k, k < m ∧ j = 2 * k + 1 ∧ w.pos = real_offset (pos + k * block_size)
            ∧ (block_writes pos m)[2 * k]?
                = some { pos := iv_table_pos (pos + k * block_size), len := metadata_size } := by
  simp only [AESCryptor.write_traced, AESCryptor.write]
  by_cases hs : size % block_size = 0
  · rw [if_pos hs, if_pos hs]
    obtain ⟨hsnd, m, hm, hfst, hall⟩ :=
      AESCryptor.write_blocks_traced_spec prim fuel (size / block_size) c fd pos src trace
    exact ⟨hsnd, m, hm, hfst, hall, fun k hk => block_writes_getElem? pos m k hk,
      fun j w hj hw => block_writes_ciphertext pos m j w hj hw⟩
  · rw [if_neg hs, if_neg hs]
    exact ⟨rfl, 0, Nat.zero_le _, by simp [block_writes_zero], fun ⟨r, hr⟩ => (by cases hr),
      fun k hk => absurd hk (Nat.not_lt_zero k),
      fun j w hj hw => block_writes_ciphertext pos 0 j w hj hw⟩

/-- C35, at a concrete input: the example cryptor writes 4096 bytes 7 at position 0
of the empty file; the record goes to offset 0, then the ciphertext to offset
4096. -/
theorem AESCryptor.write_record_before_ciphertext_witness :
    (∃ r, exampleCryptor.write examplePrimitives 1 exampleFile 0
        (List.replicate block_size 7) block_size = .ok r)
    ∧ (exampleCryptor.write_traced examplePrimitives 1 exampleFile 0
        (List.replicate block_size 7) block_size []).1
        = [{ pos := 0, len := 64 }, { pos := 4096, len := 4096 }] := by
  obtain ⟨c1, fd1, hw, _, _⟩ := example_first_write
  obtain ⟨_, m, _, hfst, hall, _, _⟩ :=
    AESCryptor.write_record_before_ciphertext examplePrimitives 1 exampleCryptor exampleFile 0
      (List.replicate block_size 7) block_size []
  have hm : m = 1 := (hall ⟨_, hw⟩).trans (by decide)
  subst hm
  exact ⟨⟨_, hw⟩, by rw [hfst]; decide⟩

/-! ## Properties of `ClearTable` -/

namespace tightdb

theorem Table.GetColumnTable_of_cached (t : Table) (ndx : Nat) (column : ColumnBase)
    (hv : t.m_columns_valid = true) (hlt : ndx < t.GetColumnCount)
    (hc : t.m_cols[ndx]? = some column) : t.GetColumnTable ndx = .ok (t, column) := by
  simp only [Table.GetColumnTable, hlt, if_true, Table.InstantiateBeforeChange, hv, Bool.not_true,
    Bool.false_eq_true, if_false, hc]

theorem exampleParent_attached : exampleParent.Attached := ⟨rfl, rfl⟩

theorem exampleParent_uniform : exampleParent.Uniform := by
  intro column hc
  simp only [exampleParent, List.mem_singleton] at hc
  subst hc
  rfl

/-- C40: on a table with an attached `m_columns`, one cached column per
user-visible column and size uniformity, whose column `column_id` is a TABLE
column cached as a `ColumnTable`, the arguments `(column_id, m_size)` pass the
three assertions of `Table::ClearTable`, and the delegated
`ColumnTable::Clear(m_size)` fails its assertion `ndx < Size()`, the size of the
column being `m_size`; every `ndx < m_size` passes both. -/
theorem Table.ClearTable_at_m_size (t : Table) (column_id : Nat) (subtables : ColumnBase)
    (m_ref_specSet : Nat) (values : List Int) (ha : t.Attached) (hu : t.Uniform)
    (hc : t.m_cols[column_id]? = some subtables)
    (hd : subtables.data = .ColumnTable m_ref_specSet values)
    (htype : t.GetRealColumnType column_id = .ok .COLUMN_TYPE_TABLE) :
    (column_id < t.GetColumnCount ∧ t.GetRealColumnType column_id = .ok .COLUMN_TYPE_TABLE
      ∧ t.m_size ≤ t.m_size)
    ∧ t.GetColumnTable column_id = .ok (t, subtables)
    ∧ subtables.Size = t.m_size
    ∧ ¬ t.m_size < subtables.Size
    ∧ ColumnTable.Clear subtables.data t.m_size = .error .AssertionFailed
    ∧ t.ClearTable column_id t.m_size = .error .AssertionFailed
    ∧ ∀ ndx : Nat, ndx < t.m_size →
        ∃ t1 destroyed, t.ClearTable column_id ndx = .ok (t1, destroyed) := by
  have hlt : column_id < t.GetColumnCount := by
    rw [← ha.cached]
    exact (List.getElem?_eq_some_iff.1 hc).1
  have hget := Table.GetColumnTable_of_cached t column_id subtables ha.valid hlt hc
  have hsize : subtables.Size = t.m_size := hu subtables (mem_of_getElem?_eq_some hc)
  have hlen : values.length = t.m_size := by
    rw [← hsize, ColumnBase.Size, hd, ColumnData.Size]
  have hclear : ColumnTable.Clear subtables.data t.m_size = .error .AssertionFailed := by
    rw [hd]
    simp only [ColumnTable.Clear, ColumnData.Size, hlen, Nat.lt_irrefl, if_false]
  refine ⟨⟨hlt, htype, Nat.le_refl _⟩, hget, hsize, by omega, hclear, ?_, ?_⟩
  · simp only [Table.ClearTable, hlt, if_true, htype, Nat.le_refl, hget, hclear]
  · intro ndx hndx
    obtain ⟨rows1, destroyed, hok, _⟩ := ColumnTable.Clear_spec
      { column_rows := fun _ => [], string_rows := fun _ => [], binary_rows := fun _ => [],
        mixed_rows := fun _ => [], array_refs := fun _ => [],
        spec_at := fun _ => { m_spec := [], m_names := [], m_subSpecs := [] } }
      0 m_ref_specSet values ndx (by omega)
    refine ⟨t.setColumn column_id { subtables with data := .ColumnTable m_ref_specSet rows1 },
      destroyed, ?_⟩
    simp only [Table.ClearTable, hlt, if_true, htype, Nat.le_of_lt hndx, hget, hd, hok]

/-- C40, at a concrete input: the table of three rows with the column of subtables;
`ClearTable(0, 3)` passes the assertions of `ClearTable` and fails in
`ColumnTable::Clear`, `ClearTable(0, 1)` destroys the subtable at ref 10. -/
theorem Table.ClearTable_at_m_size_witness :
    exampleParent.Attached ∧ exampleParent.Uniform
    ∧ (0 < exampleParent.GetColumnCount
        ∧ exampleParent.GetRealColumnType 0 = .ok .COLUMN_TYPE_TABLE
        ∧ exampleParent.m_size ≤ exampleParent.m_size)
    ∧ exampleParent.m_size = 3
    ∧ exampleParent.ClearTable 0 exampleParent.m_size = .error .AssertionFailed
    ∧ exampleParent.ClearTable 0 1
        = .ok ({ exampleParent with
                 m_cols := [{ data := .ColumnTable 7 [0, 0, 0], m_parentNdx := 0 }] }, [10]) :=
  have h := Table.ClearTable_at_m_size exampleParent 0
    { data := exampleSubtables, m_parentNdx := 0 } 7 [0, 10, 0] exampleParent_attached
    exampleParent_uniform rfl rfl rfl
  ⟨exampleParent_attached, exampleParent_uniform, h.1, rfl, h.2.2.2.2.2.1, by rfl⟩

end tightdb

/-! ## Properties of the row operations -/

namespace tightdb

theorem Table.GetColumnBase_of_cached (t : Table) (ndx : Nat) (column : ColumnBase)
    (hv : t.m_columns_valid = true) (hlt : ndx < t.GetColumnCount)
    (hc : t.m_cols[ndx]? = some column) : t.GetColumnBase ndx = .ok (t, column) := by
  simp only [Table.GetColumnBase, hlt, if_true, Table.InstantiateBeforeChange, hv, Bool.not_true,
    Bool.false_eq_true, if_false, hc]

/-- What a run of the loop over the columns `ids` makes of the cached columns: the
column method has been applied to each of them, once, and to no other. -/
theorem Table.forColumns_cells (f : ColumnData → Except Failure ColumnData) :
    ∀ (ids : List Nat) (t t1 : Table), t.m_columns_valid = true → ids.Nodup →
      Table.forColumns f ids t = .ok t1 →
      t1 = { t with m_cols := t1.m_cols }
      ∧ t1.m_cols.length = t.m_cols.length
      ∧ (∀ i, i ∉ ids → t1.m_cols[i]? = t.m_cols[i]?)
      ∧ ∀ i ∈ ids, ∃ column data, t.m_cols[i]? = some column ∧ f column.data = .ok data
          ∧ t1.m_cols[i]? = some { column with data := data } := by
  intro ids
  induction ids with
  | nil =>
    intro t t1 _ _ h
    simp only [Table.forColumns] at h
    cases h
    exact ⟨rfl, rfl, fun _ _ => rfl, fun i hi => by cases hi⟩
  | cons i rest ih =>
    intro t t1 hv hnd h
    rw [List.nodup_cons] at hnd
    simp only [Table.forColumns] at h
    cases hb : t.GetColumnBase i with
    | error e => rw [hb] at h; cases h
    | ok r =>
      obtain ⟨t3, column⟩ := r
      rw [hb] at h
      simp only at h
      obtain ⟨rfl, hc⟩ := Table.GetColumnBase_cached t i t3 column hv hb
      cases hd : f column.data with
      | error e => rw [hd] at h; cases h
      | ok data =>
        rw [hd] at h
        simp only at h
        have hilt : i < t3.m_cols.length := (List.getElem?_eq_some_iff.1 hc).1
        obtain ⟨hframe, hlen, hout, hin⟩ :=
          ih (t3.setColumn i { column with data := data }) t1 hv hnd.2 h
        simp only [Table.setColumn] at hframe hlen hout hin
        refine ⟨hframe, by rw [hlen, List.length_set], ?_, ?_⟩
        · intro j hj
          rw [List.mem_cons, not_or] at hj
          rw [hout j hj.2, List.getElem?_set_ne (fun e => hj.1 e.symm)]
        · intro j hj
          rcases List.mem_cons.1 hj with rfl | hj
          · refine ⟨column, data, hc, hd, ?_⟩
            rw [hout j hnd.1, List.getElem?_set_self hilt]
          · obtain ⟨column1, data1, h1, h2, h3⟩ := hin j hj
            have hne : i ≠ j := fun e => hnd.1 (e ▸ hj)
            rw [List.getElem?_set_ne hne] at h1
            exact ⟨column1, data1, h1, h2, h3⟩

/-- The loop over the columns `ids` returns when the column method returns on each
of them. -/
theorem Table.forColumns_returns (f : ColumnData → Except Failure ColumnData) :
    ∀ (ids : List Nat) (t : Table), t.m_columns_valid = true → ids.Nodup →
      (∀ i ∈ ids, i < t.GetColumnCount
        ∧ ∃ column data, t.m_cols[i]? = some column ∧ f column.data = .ok data) →
      ∃ t1, Table.forColumns f ids t = .ok t1 := by
  intro ids
  induction ids with
  | nil => intro t _ _ _; exact ⟨t, rfl⟩
  | cons i rest ih =>
    intro t hv hnd hall
    rw [List.nodup_cons] at hnd
    obtain ⟨hlt, column, data, hc, hd⟩ := hall i (List.mem_cons_self _ _)
    simp only [Table.forColumns, Table.GetColumnBase_of_cached t i column hv hlt hc, hd]
    refine ih (t.setColumn i { column with data := data }) hv hnd.2 ?_
    intro j hj
    obtain ⟨hjlt, column1, data1, h1, h2⟩ := hall j (List.mem_cons_of_mem _ hj)
    have hne : i ≠ j := fun e => hnd.1 (e ▸ hj)
    refine ⟨hjlt, column1, data1, ?_, h2⟩
    simp only [Table.setColumn]
    rw [List.getElem?_set_ne hne]
    exact h1

/-- A column method that always returns, run over every column of a table with
one cached column per user-visible column. -/
theorem Table.forColumns_map (g : ColumnData → ColumnData) (t : Table) (ha : t.Attached) :
    Table.forColumns (fun data => .ok (g data)) (List.range t.GetColumnCount) t
      = .ok { t with m_cols := t.m_cols.map (fun column => { column with data := g column.data }) } := by
  have hall : ∀ i ∈ List.range t.GetColumnCount, i < t.GetColumnCount
      ∧ ∃ column data, t.m_cols[i]? = some column
        ∧ (fun data => (Except.ok (g data) : Except Failure ColumnData)) column.data = .ok data := by
    intro i hi
    have hi2 := List.mem_range.1 hi
    have hlt : i < t.m_cols.length := by rw [ha.cached]; exact hi2
    exact ⟨hi2, t.m_cols[i], _, List.getElem?_eq_getElem hlt, rfl⟩
  obtain ⟨t1, h1⟩ := Table.forColumns_returns (fun data => .ok (g data)) _ t ha.valid
    (List.nodup_range _) hall
  obtain ⟨hframe, hlen, _, hin⟩ :=
    Table.forColumns_cells _ _ t t1 ha.valid (List.nodup_range _) h1
  rw [h1, hframe]
  congr 2
  apply List.ext_getElem?
  intro i
  by_cases hi : i < t.GetColumnCount
  · obtain ⟨column, data, hc, hd, hc1⟩ := hin i (List.mem_range.2 hi)
    simp only [Except.ok.injEq] at hd
    subst hd
    simp only [hc1, List.getElem?_map, hc, Option.map_some']
  · rw [List.getElem?_eq_none (by rw [hlen, ha.cached]; omega),
      List.getElem?_eq_none (by rw [List.length_map, ha.cached]; omega)]

theorem ColumnData.Delete_returns (data : ColumnData) (ndx : Nat) (h : ndx < data.Size) :
    ∃ data1, data.Delete ndx = .ok data1 := by
  cases data <;> simp only [ColumnData.Size] at h <;>
    simp [ColumnData.Delete, deleteRow, h, Except.map]

theorem Table.InsertDone_uniform_iff (t : Table) :
    t.InsertDone.Uniform ↔ ∀ column ∈ t.m_cols, column.Size = t.m_size + 1 := Iff.rfl

theorem exampleInserted_attached : exampleInserted.Attached := ⟨rfl, rfl⟩

theorem exampleInserted_uniform : exampleInserted.Uniform := by
  intro column hc
  simp only [exampleInserted, List.mem_singleton] at hc
  subst hc
  rfl

/-- C31, refuted as stated: the table with the column `x : INT` and the row 42
satisfies size uniformity; `InsertDone()` increases `m_size` by one and changes
no column, and the table it leaves does not satisfy size uniformity. -/
theorem Table.row_operations_counterexample :
    exampleInserted.Attached ∧ exampleInserted.Uniform
    ∧ exampleInserted.InsertDone.m_size = exampleInserted.m_size + 1
    ∧ exampleInserted.InsertDone.m_cols = exampleInserted.m_cols
    ∧ ¬ exampleInserted.InsertDone.Uniform := by
  refine ⟨exampleInserted_attached, exampleInserted_uniform, rfl, rfl, ?_⟩
  intro h
  exact absurd (h { data := .Column [42], m_parentNdx := 0 } (List.mem_singleton.2 rfl))
    (by decide)

/-- C31, amended: on a table with an attached `m_columns`, one cached column per
user-visible column and size uniformity, `AddRow()` returns the old `m_size`
and leaves the table with `Add` applied once to each cached column and `m_size`
one larger; `DeleteRow(ndx)` with `ndx < m_size` returns and leaves it with
`Delete(ndx)` applied once to each cached column and `m_size` one smaller;
`Clear()` leaves it with every column cleared and `m_size = 0`; the three leave
a table that satisfies size uniformity.  `InsertDone()` increases `m_size` by
one and changes nothing else; the table it leaves satisfies size uniformity
exactly when every cached column had `m_size + 1` rows before, which on a
table that satisfies size uniformity is the case only if it has no column. -/
theorem Table.row_operations (t : Table) (ha : t.Attached) (hu : t.Uniform) :
    (∃ t1, t.AddRow = .ok (t1, t.m_size)
      ∧ t1 = { t with
               m_cols := t.m_cols.map (fun column => { column with data := column.data.Add }),
               m_size := t.m_size + 1 }
      ∧ t1.Uniform)
    ∧ (∀ ndx : Nat, ndx < t.m_size →
        ∃ t1, t.DeleteRow ndx = .ok t1
          ∧ t1 = { t with m_cols := t1.m_cols, m_size := t.m_size - 1 }
          ∧ t1.m_cols.length = t.m_cols.length
          ∧ (∀ (i : Nat) (column : ColumnBase), t.m_cols[i]? = some column →
              ∃ data, column.data.Delete ndx = .ok data
                ∧ t1.m_cols[i]? = some { column with data := data })
          ∧ t1.Uniform)
    ∧ (∃ t1, t.Clear = .ok t1
      ∧ t1 = { t with
               m_cols := t.m_cols.map (fun column => { column with data := column.data.Clear }),
               m_size := 0 }
      ∧ t1.Uniform)
    ∧ t.InsertDone = { t with m_size := t.m_size + 1 }
    ∧ (t.InsertDone.Uniform ↔ ∀ column ∈ t.m_cols, column.Size = t.m_size + 1)
    ∧ (t.InsertDone.Uniform ↔ t.m_cols = []) := by
  refine ⟨?_, ?_, ?_, rfl, Iff.rfl, ?_⟩
  · have hf := Table.forColumns_map ColumnData.Add t ha
    have hadd : t.AddRow = .ok ({ t with
        m_cols := t.m_cols.map (fun column => { column with data := column.data.Add }),
        m_size := t.m_size + 1 }, t.m_size) := by
      simp only [Table.AddRow, hf]
    exact ⟨_, hadd, rfl, (Table.AddRow_uniform t _ _ ha hu hadd).2.1⟩
  · intro ndx hndx
    have hall : ∀ i ∈ List.range t.GetColumnCount, i < t.GetColumnCount
        ∧ ∃ column data, t.m_cols[i]? = some column
          ∧ (fun data : ColumnData => data.Delete ndx) column.data = .ok data := by
      intro i hi
      have hi2 := List.mem_range.1 hi
      have hlt : i < t.m_cols.length := by rw [ha.cached]; exact hi2
      obtain ⟨data, hd⟩ := ColumnData.Delete_returns (t.m_cols[i]).data ndx
        (by
          have := hu _ (List.getElem_mem hlt)
          rw [ColumnBase.Size] at this
          omega)
      exact ⟨hi2, t.m_cols[i], data, List.getElem?_eq_getElem _, hd⟩
    obtain ⟨t2, h2⟩ := Table.forColumns_returns (fun data : ColumnData => data.Delete ndx) _ t
      ha.valid (List.nodup_range _) hall
    obtain ⟨hframe, hlen, _, hin⟩ :=
      Table.forColumns_cells _ _ t t2 ha.valid (List.nodup_range _) h2
    have hdel : t.DeleteRow ndx = .ok { t2 with m_size := t2.m_size - 1 } := by
      simp only [Table.DeleteRow, hndx, if_true, h2]
    have hsize : t2.m_size = t.m_size := by rw [hframe]
    refine ⟨_, hdel, ?_, hlen, ?_, (Table.DeleteRow_uniform t _ ndx ha hu hdel).2.1⟩
    · rw [hsize]
      conv_lhs => rw [hframe]
    · intro i column hc
      have hi : i < t.GetColumnCount := by
        rw [← ha.cached]
        exact (List.getElem?_eq_some_iff.1 hc).1
      obtain ⟨column1, data, hc1, hd, hres⟩ := hin i (List.mem_range.2 hi)
      rw [hc] at hc1
      cases hc1
      exact ⟨data, hd, hres⟩
  · have hf := Table.forColumns_map ColumnData.Clear t ha
    have hclear : t.Clear = .ok { t with
        m_cols := t.m_cols.map (fun column => { column with data := column.data.Clear }),
        m_size := 0 } := by
      simp only [Table.Clear, hf]
    exact ⟨_, hclear, rfl, (Table.Clear_uniform t _ ha hu hclear).2.1⟩
  · constructor
    · intro h
      cases hcols : t.m_cols with
      | nil => rfl
      | cons column rest =>
        have h1 := h column (by simp [Table.InsertDone, hcols])
        have h2 := hu column (by simp [hcols])
        simp only [Table.InsertDone] at h1
        omega
    · intro h column hc
      simp only [Table.InsertDone, h] at hc
      cases hc

/-- C31, at a concrete input: the table with the column `x : INT` and the row 42. -/
theorem Table.row_operations_witness :
    exampleInserted.Attached ∧ exampleInserted.Uniform
    ∧ (∃ t1, exampleInserted.AddRow = .ok (t1, exampleInserted.m_size)
      ∧ t1 = { exampleInserted with
               m_cols := exampleInserted.m_cols.map
                 (fun column => { column with data := column.data.Add }),
               m_size := exampleInserted.m_size + 1 }
      ∧ t1.Uniform)
    ∧ exampleInserted.AddRow
        = .ok ({ exampleInserted with
                 m_cols := [{ data := .Column [42, 0], m_parentNdx := 0 }], m_size := 2 }, 1) :=
  ⟨exampleInserted_attached, exampleInserted_uniform,
    (Table.row_operations exampleInserted exampleInserted_attached exampleInserted_uniform).1,
    by rfl⟩

end tightdb

/-! ## Properties of the cache that `CacheColumns` builds -/

namespace tightdb

/-- The loop of `CacheColumns` keeps the Spec, and when it returns every cached
column has `m_size` rows; `m_size` is as before when no column is cached. -/
theorem Table.CacheColumns.loop_sizes (memory : Allocator) :
    ∀ (entries : List ColumnType) (column_ndx subtable_count : Nat) (size : Option Nat)
      (t t1 : Table),
      Table.CacheColumns.loop memory entries column_ndx subtable_count size t = .ok t1 →
      (∀ column ∈ t.m_cols, size = some column.Size) → (size ≠ none → t.m_cols ≠ []) →
      t1.m_spec_set = t.m_spec_set
      ∧ (∀ column ∈ t1.m_cols, column.Size = t1.m_size)
      ∧ (t1.m_cols = [] → t1.m_size = t.m_size) := by
  intro entries
  induction entries with
  | nil =>
    intro column_ndx sc size t t1 h hsizes hsome
    simp only [Table.CacheColumns.loop] at h
    cases size with
    | none =>
      simp only at h
      cases h
      exact ⟨rfl, fun column hc => (by cases hsizes column hc), fun _ => rfl⟩
    | some s =>
      simp only at h
      cases h
      refine ⟨rfl, fun column hc => ?_, fun hnil => ?_⟩
      · have := hsizes column hc
        simp only [Option.some.injEq] at this
        exact this.symm
      · exact absurd hnil (hsome (by simp))
  | cons type rest ih =>
    intro column_ndx sc size t t1 h hsizes hsome
    simp only [Table.CacheColumns.loop] at h
    split at h
    · cases h
    · rename_i ref href
      split at h
      · cases h
      · rename_i data column_ndx1 sc1 hnew
        split at h
        · rename_i hcond
          obtain ⟨hspec, hall, hnil⟩ := ih _ _ _ _ _ h (by
            intro column hc
            rcases List.mem_append.1 hc with hc | hc
            · have h1 := hsizes column hc
              rcases hcond with h2 | h2
              · rw [h2] at h1; cases h1
              · rw [h2] at h1; exact h1
            · simp only [List.mem_singleton] at hc
              subst hc
              rfl) (fun _ => by simp)
          exact ⟨hspec, hall, fun h0 => (hnil h0).trans rfl⟩
        · cases h

theorem Spec.GetColumnCount_of_no_attribute (s : Spec)
    (h : ∀ type ∈ s.m_spec, type.isAttribute = false) : s.GetColumnCount = s.m_spec.length := by
  simp only [Spec.GetColumnCount, Spec.columns]
  rw [List.filter_eq_self.2 (fun type hmem => by simp [h type hmem])]

/-- What `CacheColumns` leaves when it returns: one cached column per user-visible
column, each of `m_size` rows. -/
theorem Table.CacheColumns_cache (memory : Allocator) (t t1 : Table)
    (h : Table.CacheColumns memory t = .ok t1) :
    t1.m_cols.length = t1.GetColumnCount
    ∧ (∀ column ∈ t1.m_cols, column.Size = t1.m_size)
    ∧ (t1.m_cols = [] → t1.m_size = t.m_size) := by
  obtain ⟨htypes, hlen, _⟩ := Table.CacheColumns_spec memory t t1 h
  simp only [Table.CacheColumns] at h
  split at h
  · rename_i hempty
    have hnil : t.m_cols = [] := by simpa using hempty
    obtain ⟨hspec, hall, hsize⟩ := Table.CacheColumns.loop_sizes memory _ _ _ _ _ _ h
      (fun column hc => by rw [hnil] at hc; cases hc) (fun h0 => absurd rfl h0)
    refine ⟨?_, hall, hsize⟩
    rw [hlen, Table.GetColumnCount, hspec, Spec.GetColumnCount_of_no_attribute _ htypes]
  · cases h

/-- C32: `CacheColumns` returns on no Spec that has an ATTR_INDEXED or ATTR_UNIQUE
entry (line 254 caches the null `newColumn` of such an entry and line 259 calls
`SetIndexRef` through it); whenever it returns, `m_cols` holds one cached column
per user-visible column, each of `m_size` rows, and `m_size` is as before when
there is no column, which is 0 in a table that the attaching constructor
makes. -/
theorem Table.CacheColumns_one_per_column (memory : Allocator) (t : Table) :
    ((∃ type ∈ t.m_spec_set.m_spec,
        type = .COLUMN_ATTR_INDEXED ∨ type = .COLUMN_ATTR_UNIQUE) →
      ∃ e, Table.CacheColumns memory t = .error e)
    ∧ (∀ t1 : Table, Table.CacheColumns memory t = .ok t1 →
        t1.m_cols.length = t1.GetColumnCount
        ∧ (∀ column ∈ t1.m_cols, column.Size = t1.m_size)
        ∧ (t1.m_cols = [] → t1.m_size = t.m_size))
    ∧ ∀ (alloc schema_ref columns_ref : Nat) (t1 : Table),
        Table.attached memory alloc schema_ref columns_ref = .ok t1 →
        (∀ column ∈ t1.m_cols, column.Size = t1.m_size)
        ∧ (t1.m_cols = [] → t1.m_size = 0)
        ∧ (columns_ref ≠ 0 → t1.m_cols.length = t1.GetColumnCount) := by
  refine ⟨Table.CacheColumns_attribute memory t,
    fun t1 h => Table.CacheColumns_cache memory t t1 h, ?_⟩
  intro alloc schema_ref columns_ref t1 h
  simp only [Table.attached, Table.Create] at h
  by_cases hz : columns_ref = 0
  · rw [if_neg (by simpa using hz)] at h
    cases h
    exact ⟨fun column hc => (by cases hc), fun _ => rfl, fun h0 => absurd hz h0⟩
  · rw [if_pos hz] at h
    obtain ⟨h1, h2, h3⟩ := Table.CacheColumns_cache memory _ t1 h
    exact ⟨h2, h3, fun _ => h1⟩

/-- C32, at a concrete input: on the Spec with the entries INT, ATTR_INDEXED, INT
`CacheColumns` ends in the call through the null pointer; on the Spec with the
one column `v : INT` it caches the column of two rows and sets `m_size` to 2. -/
theorem Table.CacheColumns_one_per_column_witness :
    Table.CacheColumns exampleMemory exampleIndexed = .error .NullPointer
    ∧ (∃ e, Table.CacheColumns exampleMemory exampleIndexed = .error e)
    ∧ Table.CacheColumns exampleMemory exampleUncached = .ok exampleCached
    ∧ exampleCached.m_cols.length = exampleCached.GetColumnCount
    ∧ (∀ column ∈ exampleCached.m_cols, column.Size = exampleCached.m_size) :=
  ⟨by rfl,
   (Table.CacheColumns_one_per_column exampleMemory exampleIndexed).1
     ⟨.COLUMN_ATTR_INDEXED, by decide, Or.inl rfl⟩,
   by rfl,
   ((Table.CacheColumns_one_per_column exampleMemory exampleUncached).2.1 exampleCached
     (by rfl)).1,
   ((Table.CacheColumns_one_per_column exampleMemory exampleUncached).2.1 exampleCached
     (by rfl)).2.1⟩

end tightdb

/-! ## Properties of the order of the updates of `Optimize` -/

namespace tightdb

theorem Table.GetColumnString_of_cached (t : Table) (ndx : Nat) (column : ColumnBase)
    (values : List String) (hv : t.m_columns_valid = true) (hlt : ndx < t.GetColumnCount)
    (hc : t.m_cols[ndx]? = some column) (hd : column.data = .AdaptiveStringColumn values) :
    t.GetColumnString ndx = .ok (t, column) := by
  simp only [Table.GetColumnString, Table.GetColumnBase, hlt, if_true,
    Table.InstantiateBeforeChange, hv, Bool.not_true, Bool.false_eq_true, if_false, hc, hd,
    ColumnData.IsStringColumn]

theorem Table.Optimize.step_traced_snd (AutoEnumerate : List String → Option Enumerated)
    (t : Table) (i : Nat) (trace : List Update) :
    (Table.Optimize.step_traced AutoEnumerate t i trace).2
      = Table.Optimize.step AutoEnumerate t i := by
  simp only [Table.Optimize.step_traced, Table.Optimize.step]
  cases t.GetRealColumnType i with
  | error e => rfl
  | ok type =>
    simp only
    split
    · cases t.GetColumnString i with
      | error e => rfl
      | ok r =>
        obtain ⟨t1, column⟩ := r
        simp only
        cases column.data <;> simp only
        rename_i values
        cases AutoEnumerate values with
        | none => rfl
        | some e =>
          simp only
          cases Table.GetColumnRefPos
              { t1 with m_spec_set := t1.m_spec_set.SetColumnType i .COLUMN_TYPE_STRING_ENUM }
              i with
          | none => rfl
          | some column_ndx =>
            simp only
            split <;> rfl
    · rfl

/-- On a table with an attached `m_columns` the step for column `i` adds to the
trace nothing, or the five updates of a conversion in their order, or, when it
fails after the update of the Spec, that update alone. -/
theorem Table.Optimize.step_traced_spec (AutoEnumerate : List String → Option Enumerated)
    (t : Table) (i : Nat) (trace : List Update) (hv : t.m_columns_valid = true) :
    (Table.Optimize.step_traced AutoEnumerate t i trace
        = (trace, Table.Optimize.step AutoEnumerate t i)
      ∧ ((∀ t1, Table.Optimize.step AutoEnumerate t i = .ok t1 → t1 = t))
      ∧ ¬ (∃ (column : ColumnBase) (values : List String) (e : Enumerated),
            t.GetRealColumnType i = .ok .COLUMN_TYPE_STRING ∧ t.m_cols[i]? = some column
            ∧ column.data = .AdaptiveStringColumn values ∧ AutoEnumerate values = some e))
    ∨ (∃ (column : ColumnBase) (values : List String) (e : Enumerated),
        t.GetRealColumnType i = .ok .COLUMN_TYPE_STRING ∧ t.m_cols[i]? = some column
        ∧ column.data = .AdaptiveStringColumn values ∧ AutoEnumerate values = some e
        ∧ ((∃ column_ndx t1,
              Table.GetColumnRefPos
                { t with m_spec_set := t.m_spec_set.SetColumnType i .COLUMN_TYPE_STRING_ENUM } i
                = some column_ndx
              ∧ Table.Optimize.step_traced AutoEnumerate t i trace
                = (trace ++ Table.Optimize.updates i column_ndx e, .ok t1)
              ∧ t1.m_columns_valid = true)
          ∨ ∃ err, Table.Optimize.step_traced AutoEnumerate t i trace
              = (trace ++ [.SetColumnType i .COLUMN_TYPE_STRING_ENUM], .error err))) := by
  have hsnd := Table.Optimize.step_traced_snd AutoEnumerate t i trace
  cases hty : t.GetRealColumnType i with
  | error e =>
    left
    refine ⟨?_, ?_, ?_⟩
    · simp only [Table.Optimize.step_traced, Table.Optimize.step, hty]
    · intro t1 h
      simp only [Table.Optimize.step, hty] at h
      cases h
    · rintro ⟨_, _, _, h, _⟩
      cases h
  | ok type =>
    by_cases hs : type = .COLUMN_TYPE_STRING
    · subst hs
      cases hg : t.GetColumnString i with
      | error e =>
        left
        refine ⟨?_, ?_, ?_⟩
        · simp only [Table.Optimize.step_traced, Table.Optimize.step, hty, if_true, hg, hv,
            Bool.not_true, Bool.false_eq_true, if_false]
        · intro t1 h
          simp only [Table.Optimize.step, hty, if_true, hg] at h
          cases h
        · rintro ⟨column, values, _, _, hc, hd, _⟩
          have hlt : i < t.GetColumnCount := by
            simp only [Table.GetRealColumnType] at hty
            split at hty
            · assumption
            · cases hty
          rw [Table.GetColumnString_of_cached t i column values hv hlt hc hd] at hg
          cases hg
      | ok r =>
        obtain ⟨t2, column⟩ := r
        obtain ⟨rfl, hc⟩ := Table.GetColumnString_cached t i t2 column hv hg
        cases hd : column.data with
        | AdaptiveStringColumn values =>
          cases hA : AutoEnumerate values with
          | none =>
            left
            refine ⟨?_, ?_, ?_⟩
            · simp only [Table.Optimize.step_traced, Table.Optimize.step, hty, if_true, hg, hv,
                Bool.not_true, Bool.false_eq_true, if_false, hd, hA]
            · intro t1 h
              simp only [Table.Optimize.step, hty, if_true, hg, hd, hA] at h
              cases h
              rfl
            · rintro ⟨column1, values1, e1, _, hc1, hd1, hA1⟩
              rw [hc] at hc1
              cases hc1
              rw [hd] at hd1
              cases hd1
              rw [hA] at hA1
              cases hA1
          | some e =>
            right
            refine ⟨column, values, e, rfl, hc, hd, hA, ?_⟩
            cases hpos : Table.GetColumnRefPos.loop i
                (t2.m_spec_set.SetColumnType i .COLUMN_TYPE_STRING_ENUM).m_spec 0 0 with
            | none =>
              right
              exact ⟨.AssertionFailed, by
                simp only [Table.Optimize.step_traced, hty, if_true, hg, hv, Bool.not_true,
                  Bool.false_eq_true, if_false, hd, hA, Table.GetColumnRefPos, hpos]⟩
            | some column_ndx =>
              by_cases hlt : column_ndx < t2.m_columns.length
              · left
                have h1 : (Table.Optimize.step_traced AutoEnumerate t2 i trace).1
                    = trace ++ Table.Optimize.updates i column_ndx e := by
                  simp only [Table.Optimize.step_traced, hty, if_true, hg, hv, Bool.not_true,
                    Bool.false_eq_true, if_false, hd, hA, Table.GetColumnRefPos, hpos, hlt,
                    Table.Optimize.updates, List.append_assoc, List.singleton_append]
                  rfl
                have h2 : ∃ t1, Table.Optimize.step AutoEnumerate t2 i = .ok t1
                    ∧ t1.m_columns_valid = true := by
                  simp only [Table.Optimize.step, hty, if_true, hg, hd, hA,
                    Table.GetColumnRefPos, hpos, hlt]
                  exact ⟨_, rfl, hv⟩
                obtain ⟨t1, hstep, hvalid⟩ := h2
                exact ⟨column_ndx, t1, hpos, Prod.ext h1 (hsnd.trans hstep), hvalid⟩
              · right
                exact ⟨.OutOfBounds, by
                  simp only [Table.Optimize.step_traced, hty, if_true, hg, hv, Bool.not_true,
                    Bool.false_eq_true, if_false, hd, hA, Table.GetColumnRefPos, hpos, hlt]⟩
        | _ =>
          left
          refine ⟨?_, ?_, ?_⟩
          · simp only [Table.Optimize.step_traced, Table.Optimize.step, hty, if_true, hg, hv,
              Bool.not_true, Bool.false_eq_true, if_false, hd]
          · intro t1 h
            simp only [Table.Optimize.step, hty, if_true, hg, hd] at h
            cases h
          · rintro ⟨column1, values1, e1, _, hc1, hd1, _⟩
            rw [hc] at hc1
            cases hc1
            rw [hd] at hd1
            cases hd1
    · left
      refine ⟨?_, ?_, ?_⟩
      · simp only [Table.Optimize.step_traced, Table.Optimize.step, hty, if_neg hs]
      · intro t1 h
        simp only [Table.Optimize.step, hty, if_neg hs] at h
        cases h
        rfl
      · rintro ⟨_, _, _, h, _⟩
        cases h
        exact hs rfl

/-- The step for a STRING column on whose rows `AutoEnumerate` returns `false`. -/
theorem Table.Optimize.step_traced_not_enumerated
    (AutoEnumerate : List String → Option Enumerated) (t : Table) (i : Nat)
    (trace : List Update) (hv : t.m_columns_valid = true) (column : ColumnBase)
    (values : List String) (hty : t.GetRealColumnType i = .ok .COLUMN_TYPE_STRING)
    (hc : t.m_cols[i]? = some column) (hd : column.data = .AdaptiveStringColumn values)
    (hA : AutoEnumerate values = none) :
    Table.Optimize.step_traced AutoEnumerate t i trace = (trace, .ok t) := by
  have hlt : i < t.GetColumnCount := by
    simp only [Table.GetRealColumnType] at hty
    split at hty
    · assumption
    · cases hty
  simp only [Table.Optimize.step_traced, hty, if_true,
    Table.GetColumnString_of_cached t i column values hv hlt hc hd, hv, Bool.not_true,
    Bool.false_eq_true, if_false, hd, hA]

theorem Table.Optimize.loop_traced_spec (AutoEnumerate : List String → Option Enumerated) :
    ∀ (ids : List Nat) (t : Table) (trace : List Update), t.m_columns_valid = true →
      (Table.Optimize.loop_traced AutoEnumerate ids t trace).2
          = Table.Optimize.loop AutoEnumerate ids t
      ∧ ∃ groups : List (List Update),
          (Table.Optimize.loop_traced AutoEnumerate ids t trace).1 = trace ++ groups.flatten
          ∧ (∀ g ∈ groups, ∃ i ∈ ids,
              (∃ column_ndx e, g = Table.Optimize.updates i column_ndx e)
              ∨ g = [.SetColumnType i .COLUMN_TYPE_STRING_ENUM])
          ∧ ((∃ t1, Table.Optimize.loop AutoEnumerate ids t = .ok t1) →
              ∀ g ∈ groups, ∃ i ∈ ids, ∃ column_ndx e,
                g = Table.Optimize.updates i column_ndx e) := by
  intro ids
  induction ids with
  | nil =>
    intro t trace _
    exact ⟨rfl, [], by simp [Table.Optimize.loop_traced], fun g hg => (by cases hg),
      fun _ g hg => (by cases hg)⟩
  | cons i rest ih =>
    intro t trace hv
    have hsnd := Table.Optimize.step_traced_snd AutoEnumerate t i trace
    rcases Table.Optimize.step_traced_spec AutoEnumerate t i trace hv with
      ⟨hstep, hsame, _⟩ | ⟨column, values, e, _, _, _, _, hconv⟩
    · cases hs : Table.Optimize.step AutoEnumerate t i with
      | error err =>
        rw [hs] at hstep
        simp only [Table.Optimize.loop_traced, Table.Optimize.loop, hstep, hs]
        exact ⟨by first | rfl | trivial, [], by simp, fun g hg => (by cases hg),
          fun ⟨t1, h1⟩ => (by cases h1)⟩
      | ok t1 =>
        have := hsame t1 hs
        subst this
        rw [hs] at hstep
        simp only [Table.Optimize.loop_traced, Table.Optimize.loop, hstep, hs]
        obtain ⟨h2, groups, hg1, hg2, hg3⟩ := ih t1 trace hv
        refine ⟨h2, groups, hg1, ?_, ?_⟩
        · intro g hg
          obtain ⟨j, hj, hcase⟩ := hg2 g hg
          exact ⟨j, List.mem_cons_of_mem _ hj, hcase⟩
        · intro hok g hg
          obtain ⟨j, hj, hcase⟩ := hg3 hok g hg
          exact ⟨j, List.mem_cons_of_mem _ hj, hcase⟩
    · rcases hconv with ⟨column_ndx, t1, _, hstep, hvalid⟩ | ⟨err, hstep⟩
      · have hs : Table.Optimize.step AutoEnumerate t i = .ok t1 := by
          rw [← hsnd, hstep]
        simp only [Table.Optimize.loop_traced, Table.Optimize.loop, hstep, hs]
        obtain ⟨h2, groups, hg1, hg2, hg3⟩ :=
          ih t1 (trace ++ Table.Optimize.updates i column_ndx e) hvalid
        refine ⟨h2, Table.Optimize.updates i column_ndx e :: groups, ?_, ?_, ?_⟩
        · rw [hg1, List.flatten_cons, List.append_assoc]
        · intro g hg
          rcases List.mem_cons.1 hg with rfl | hg
          · exact ⟨i, List.mem_cons_self _ _, Or.inl ⟨column_ndx, e, rfl⟩⟩
          · obtain ⟨j, hj, hcase⟩ := hg2 g hg
            exact ⟨j, List.mem_cons_of_mem _ hj, hcase⟩
        · intro hok g hg
          rcases List.mem_cons.1 hg with rfl | hg
          · exact ⟨i, List.mem_cons_self _ _, column_ndx, e, rfl⟩
          · obtain ⟨j, hj, hcase⟩ := hg3 hok g hg
            exact ⟨j, List.mem_cons_of_mem _ hj, hcase⟩
      · have hs : Table.Optimize.step AutoEnumerate t i = .error err := by
          rw [← hsnd, hstep]
        simp only [Table.Optimize.loop_traced, Table.Optimize.loop, hstep, hs]
        refine ⟨by first | rfl | trivial, [[.SetColumnType i .COLUMN_TYPE_STRING_ENUM]],
          by simp, ?_, fun ⟨t1, h1⟩ => (by cases h1)⟩
        intro g hg
        rw [List.mem_singleton] at hg
        exact ⟨i, List.mem_cons_self _ _, Or.inr hg⟩

/-- C36, refuted as stated: on the table that is not attached, with the Spec
`a : STRING`, `Optimize()` with an `AutoEnumerate` that returns `false` calls
`CreateColumns()` for the STRING column, after which `m_columns` and `m_cols`
have an entry each; with an `AutoEnumerate` that returns `true` that call
precedes the update of the Spec. -/
theorem Table.Optimize_update_order_counterexample :
    exampleZeroRefString.GetRealColumnType 0 = .ok .COLUMN_TYPE_STRING
    ∧ exampleEnumerateNever [] = none
    ∧ (∃ t1, Table.Optimize_traced exampleEnumerateNever exampleZeroRefString []
          = ([.CreateColumns], .ok t1)
        ∧ t1.m_spec_set = exampleZeroRefString.m_spec_set
        ∧ exampleZeroRefString.m_columns = [] ∧ t1.m_columns = [30]
        ∧ exampleZeroRefString.m_cols = []
        ∧ t1.m_cols = [{ data := .AdaptiveStringColumn [], m_parentNdx := 0 }])
    ∧ (∃ t1, Table.Optimize_traced exampleAutoEnumerate exampleZeroRefString []
          = ([.CreateColumns, .SetColumnType 0 .COLUMN_TYPE_STRING_ENUM, .m_columns_Set 0 100,
              .m_columns_Insert 1 101, .UpdateColumnRefs 1 1, .m_cols_Set 0], .ok t1)) :=
  ⟨by rfl, rfl,
    ⟨{ exampleZeroRefString with
       m_columns := [30], m_columns_valid := true,
       m_cols := [{ data := .AdaptiveStringColumn [], m_parentNdx := 0 }], alloc := 31 },
      by rfl, rfl, rfl, rfl, rfl, rfl⟩,
    ⟨{ exampleZeroRefString with
       m_spec_set := { m_spec := [.COLUMN_TYPE_STRING_ENUM], m_names := ["a"], m_subSpecs := [] },
       m_columns := [100, 101], m_columns_valid := true,
       m_cols := [{ data := .ColumnStringEnum [] [], m_parentNdx := 0 }], alloc := 31 },
      by rfl⟩⟩

/-- C36, amended: on a table whose `m_columns` is attached, `Optimize()` with the
trace of its updates computes what `Optimize()` computes, and the updates it
makes are, column after column, the five of a conversion in this order: the
Spec (`SetColumnType(i, STRING_ENUM)`), `m_columns` (`Set` of the ref of the keys,
`Insert` of the ref of the values), the parent indices (`UpdateColumnRefs`),
`m_cols` (`Set(i, ...)`); a conversion that fails stops after the update of the
Spec.  The step for a STRING column on whose rows `AutoEnumerate` returns `false`
makes no update and leaves the table as it is; the step for a STRING column on
whose rows it returns `true` makes the five updates, or the first and
fails. -/
theorem Table.Optimize_update_order (AutoEnumerate : List String → Option Enumerated)
    (t : Table) (trace : List Update) (hv : t.m_columns_valid = true) :
    (Table.Optimize_traced AutoEnumerate t trace).2 = t.Optimize AutoEnumerate
    ∧ (∃ groups : List (List Update),
        (Table.Optimize_traced AutoEnumerate t trace).1 = trace ++ groups.flatten
        ∧ (∀ g ∈ groups, ∃ i ∈ List.range t.GetColumnCount,
            (∃ column_ndx e, g = Table.Optimize.updates i column_ndx e)
            ∨ g = [.SetColumnType i .COLUMN_TYPE_STRING_ENUM])
        ∧ ((∃ t1, t.Optimize AutoEnumerate = .ok t1) →
            ∀ g ∈ groups, ∃ i ∈ List.range t.GetColumnCount, ∃ column_ndx e,
              g = Table.Optimize.updates i column_ndx e))
    ∧ (∀ (i : Nat) (column : ColumnBase) (values : List String),
        t.GetRealColumnType i = .ok .COLUMN_TYPE_STRING → t.m_cols[i]? = some column →
        column.data = .AdaptiveStringColumn values → AutoEnumerate values = none →
        Table.Optimize.step_traced AutoEnumerate t i trace = (trace, .ok t))
    ∧ ∀ (i : Nat) (column : ColumnBase) (values : List String) (e : Enumerated),
        t.GetRealColumnType i = .ok .COLUMN_TYPE_STRING → t.m_cols[i]? = some column →
        column.data = .AdaptiveStringColumn values → AutoEnumerate values = some e →
        (∃ column_ndx t1,
            Table.Optimize.step_traced AutoEnumerate t i trace
              = (trace ++ Table.Optimize.updates i column_ndx e, .ok t1)
            ∧ t1.m_columns_valid = true)
        ∨ ∃ err, Table.Optimize.step_traced AutoEnumerate t i trace
            = (trace ++ [.SetColumnType i .COLUMN_TYPE_STRING_ENUM], .error err) := by
  obtain ⟨h1, h2⟩ := Table.Optimize.loop_traced_spec AutoEnumerate
    (List.range t.GetColumnCount) t trace hv
  refine ⟨h1, h2, ?_, ?_⟩
  · intro i column values hty hc hd hA
    exact Table.Optimize.step_traced_not_enumerated AutoEnumerate t i trace hv column values
      hty hc hd hA
  · intro i column values e hty hc hd hA
    rcases Table.Optimize.step_traced_spec AutoEnumerate t i trace hv with
      ⟨_, _, hnot⟩ | ⟨column1, values1, e1, _, hc1, hd1, hA1, hconv⟩
    · exact absurd ⟨column, values, e, hty, hc, hd, hA⟩ hnot
    · rw [hc] at hc1
      cases hc1
      rw [hd] at hd1
      cases hd1
      rw [hA] at hA1
      cases hA1
      rcases hconv with ⟨column_ndx, t1, _, hstep, hvalid⟩ | ⟨err, hstep⟩
      · exact Or.inl ⟨column_ndx, t1, hstep, hvalid⟩
      · exact Or.inr ⟨err, hstep⟩

/-- C36, at a concrete input: the table with the columns `a : STRING`,
`b : STRING`, `c : INT` and an `AutoEnumerate` that returns `true` on the rows of
`a` only; the updates are the five of the conversion of column 0. -/
theorem Table.Optimize_update_order_witness :
    exampleStrings.m_columns_valid = true
    ∧ (Table.Optimize_traced exampleEnumerateOnce exampleStrings []).2
        = exampleStrings.Optimize exampleEnumerateOnce
    ∧ Table.Optimize_traced exampleEnumerateOnce exampleStrings []
        = ([.SetColumnType 0 .COLUMN_TYPE_STRING_ENUM, .m_columns_Set 0 100,
            .m_columns_Insert 1 101, .UpdateColumnRefs 1 1, .m_cols_Set 0],
           .ok exampleOptimized)
    ∧ Table.Optimize.step_traced exampleEnumerateOnce exampleStrings 1 []
        = ([], .ok exampleStrings) :=
  ⟨rfl, (Table.Optimize_update_order exampleEnumerateOnce exampleStrings [] rfl).1, by rfl,
    (Table.Optimize_update_order exampleEnumerateOnce exampleStrings [] rfl).2.2.1 1
      { data := .AdaptiveStringColumn ["y"], m_parentNdx := 1 } ["y"] (by rfl) (by rfl) rfl
      (by rfl)⟩

end tightdb

/-! ## Properties of the states that the mappings of a file reach -/

theorem coherent_set (l : List EncryptedFileMapping) (k : Nat) (m m1 : EncryptedFileMapping)
    (hk : l[k]? = some m) (hco : m.Coherent → m1.Coherent) (hall : ∀ a ∈ l, a.Coherent) :
    ∀ a ∈ l.set k m1, a.Coherent := by
  intro a ha
  obtain ⟨j, hj⟩ := List.mem_iff_getElem?.1 ha
  rw [List.getElem?_set] at hj
  split at hj
  · split at hj
    · cases hj
      exact hco (hall m (mem_of_getElem?_eq_some hk))
    · cases hj
  · exact hall a (mem_of_getElem?_eq_some hj)

theorem getElem?_set_origin (l : List EncryptedFileMapping) (k j : Nat)
    (m m1 a : EncryptedFileMapping) (hk : l[k]? = some m)
    (hsub : ∀ p : Nat, m1.m_dirty_pages[p]? = some true → m.m_dirty_pages[p]? = some true)
    (hj : (l.set k m1)[j]? = some a) :
    ∃ b, l[j]? = some b
      ∧ ∀ p : Nat, a.m_dirty_pages[p]? = some true → b.m_dirty_pages[p]? = some true := by
  rw [List.getElem?_set] at hj
  split at hj
  · rename_i hkj
    subst hkj
    split at hj
    · cases hj
      exact ⟨m, hk, hsub⟩
    · cases hj
  · exact ⟨a, hj, fun _ h => h⟩

theorem single_set (l : List EncryptedFileMapping) (k : Nat) (m m1 : EncryptedFileMapping)
    (hk : l[k]? = some m)
    (hsub : ∀ p : Nat, m1.m_dirty_pages[p]? = some true → m.m_dirty_pages[p]? = some true)
    (hs : SingleDirtyOwner l) : SingleDirtyOwner (l.set k m1) := by
  intro p k1 k2 a1 a2 h1 h2 d1 d2
  obtain ⟨b1, hb1, hd1⟩ := getElem?_set_origin l k k1 m m1 a1 hk hsub h1
  obtain ⟨b2, hb2, hd2⟩ := getElem?_set_origin l k k2 m m1 a2 hk hsub h2
  exact hs p k1 k2 b1 b2 hb1 hb2 (hd1 p d1) (hd2 p d2)

theorem coherent_append (l : List EncryptedFileMapping) (m : EncryptedFileMapping)
    (hm : m.Coherent) (hall : ∀ a ∈ l, a.Coherent) : ∀ a ∈ l ++ [m], a.Coherent := by
  intro a ha
  rcases List.mem_append.1 ha with h | h
  · exact hall a h
  · rw [List.mem_singleton] at h
    subst h
    exact hm

theorem single_append (l : List EncryptedFileMapping) (m : EncryptedFileMapping)
    (hm : ∀ p : Nat, m.m_dirty_pages[p]? ≠ some true) (hs : SingleDirtyOwner l) :
    SingleDirtyOwner (l ++ [m]) := by
  have key : ∀ (j : Nat) (a : EncryptedFileMapping) (p : Nat), (l ++ [m])[j]? = some a →
      a.m_dirty_pages[p]? = some true → l[j]? = some a := by
    intro j a p hj hd
    by_cases hlt : j < l.length
    · rw [List.getElem?_append_left hlt] at hj
      exact hj
    · rw [List.getElem?_append_right (Nat.le_of_not_lt hlt)] at hj
      cases hjl : j - l.length with
      | zero =>
        rw [hjl] at hj
        simp only [List.getElem?_cons_zero, Option.some.injEq] at hj
        subst hj
        exact absurd hd (hm p)
      | succ n =>
        rw [hjl] at hj
        simp at hj
  intro p k1 k2 a1 a2 h1 h2 d1 d2
  exact hs p k1 k2 a1 a2 (key k1 a1 p h1 d1) (key k2 a2 p h2 d2) d1 d2

theorem getElem?_replicate_false_ne (n p : Nat) : (List.replicate n false)[p]? ≠ some true := by
  intro h
  have := mem_of_getElem?_eq_some h
  rw [List.mem_replicate] at this
  exact absurd this.2 (by decide)

/-- What `flush` makes of the bits of a mapping. -/
theorem EncryptedFileMapping.flush_shrinks (prim : Primitives) (fuel : Nat)
    (m m1 : EncryptedFileMapping) (w w1 : World) (h : m.flush prim fuel w = .ok (m1, w1)) :
    w1.file.mappings = w.file.mappings
    ∧ (m.Coherent → m1.Coherent)
    ∧ (∀ p : Nat, m1.m_dirty_pages[p]? = some true → m.m_dirty_pages[p]? = some true)
    ∧ (∀ p : Nat, p < m.m_page_count → m1.m_dirty_pages[p]? ≠ some true)
    ∧ m1.m_page_count = m.m_page_count
    ∧ m1.m_up_to_date_pages = m.m_up_to_date_pages
    ∧ m1.m_dirty_pages.length = m.m_dirty_pages.length := by
  have hf := EncryptedFileMapping.flush_spec prim fuel m m1 w w1 h
  have hpc : m1.m_page_count = m.m_page_count := by rw [hf.geometry]
  have hsub : ∀ p : Nat, m1.m_dirty_pages[p]? = some true → m.m_dirty_pages[p]? = some true := by
    intro p hp
    rw [hf.dirty p] at hp
    split at hp
    · cases hd : m.m_dirty_pages[p]? with
      | none => rw [hd] at hp; cases hp
      | some b => rw [hd] at hp; cases hp
    · exact hp
  refine ⟨hf.mappings, ?_, hsub, ?_, hpc, hf.up_to_date, hf.length⟩
  · intro hco
    exact ⟨by rw [hf.up_to_date, hpc]; exact hco.up_length,
      by rw [hf.length, hpc]; exact hco.dirty_length,
      fun p hp => by rw [hf.up_to_date]; exact hco.dirty_up p (hsub p hp)⟩
  · intro p hp hd
    rw [hf.clean p (List.mem_range.2 hp)] at hd
    cases hd

theorem World.flush_mappings (prim : Primitives) (fuel : Nat) (w w1 : World) (k : Nat)
    (h : w.flush prim fuel k = .ok w1) :
    ∃ m m1, w.file.mappings[k]? = some m ∧ w1.file.mappings = w.file.mappings.set k m1
      ∧ (m.Coherent → m1.Coherent)
      ∧ ∀ p : Nat, m1.m_dirty_pages[p]? = some true → m.m_dirty_pages[p]? = some true := by
  simp only [World.flush] at h
  cases hm : w.file.mappings[k]? with
  | none => rw [hm] at h; cases h
  | some m =>
    rw [hm] at h
    simp only at h
    cases hf : m.flush prim fuel w with
    | error e => rw [hf] at h; cases h
    | ok r =>
      obtain ⟨m1, w2⟩ := r
      rw [hf] at h
      simp only [Except.ok.injEq] at h
      subst h
      obtain ⟨hmap, hco, hsub, _⟩ := EncryptedFileMapping.flush_shrinks prim fuel m m1 w w2 hf
      exact ⟨m, m1, rfl, by simp only [World.setMapping, hmap], hco, hsub⟩

/-- What `set` leaves of a mapping: bit-vectors of `m_page_count` bits, all
false. -/
theorem EncryptedFileMapping.set_clears (prim : Primitives) (fuel : Nat)
    (m m2 : EncryptedFileMapping) (w w1 : World) (new_addr new_size new_file_offset : Nat)
    (h : m.set prim fuel w new_addr new_size new_file_offset = .ok (m2, w1)) :
    w1.file.mappings = w.file.mappings ∧ m2.Coherent
    ∧ ∀ p : Nat, m2.m_dirty_pages[p]? ≠ some true := by
  simp only [EncryptedFileMapping.set] at h
  split at h
  · split at h
    · split at h
      · cases hs : w.set_file_size
            (off_t_cast ((new_size + new_file_offset) % SIZE_MOD)) with
        | error e => rw [hs] at h; cases h
        | ok w0 =>
          have hw0 : w0.file.mappings = w.file.mappings := by
            simp only [World.set_file_size] at hs
            cases hc : w.file.cryptor.set_file_size
                (off_t_cast ((new_size + new_file_offset) % SIZE_MOD)) with
            | error e => rw [hc] at hs; cases hs
            | ok c =>
              rw [hc] at hs
              simp only [Except.ok.injEq] at hs
              subst hs
              rfl
          rw [hs] at h
          simp only at h
          cases hf : m.flush prim fuel w0 with
          | error e => rw [hf] at h; cases h
          | ok r =>
            obtain ⟨m1, w2⟩ := r
            rw [hf] at h
            simp only [Except.ok.injEq, Prod.mk.injEq] at h
            obtain ⟨rfl, rfl⟩ := h
            obtain ⟨hmap, _⟩ := EncryptedFileMapping.flush_shrinks prim fuel m m1 _ _ hf
            refine ⟨hmap.trans hw0, ⟨by simp, by simp, ?_⟩, ?_⟩
            · intro p hp
              exact absurd hp (getElem?_replicate_false_ne _ p)
            · intro p
              exact getElem?_replicate_false_ne _ p
      · cases h
    · cases h
  · cases h

theorem World.set_mappings (prim : Primitives) (fuel : Nat) (w w1 : World)
    (k new_addr new_size new_file_offset : Nat)
    (h : w.set prim fuel k new_addr new_size new_file_offset = .ok w1) :
    ∃ m m1, w.file.mappings[k]? = some m ∧ w1.file.mappings = w.file.mappings.set k m1
      ∧ m1.Coherent ∧ ∀ p : Nat, m1.m_dirty_pages[p]? ≠ some true := by
  simp only [World.set] at h
  cases hm : w.file.mappings[k]? with
  | none => rw [hm] at h; cases h
  | some m =>
    rw [hm] at h
    simp only at h
    cases hf : m.set prim fuel w new_addr new_size new_file_offset with
    | error e => rw [hf] at h; cases h
    | ok r =>
      obtain ⟨m1, w2⟩ := r
      rw [hf] at h
      simp only [Except.ok.injEq] at h
      subst h
      obtain ⟨hmap, hco, hclean⟩ :=
        EncryptedFileMapping.set_clears prim fuel m m1 w w2 _ _ _ hf
      exact ⟨m, m1, rfl, by simp only [World.setMapping, hmap], hco, hclean⟩

theorem EncryptedFileMapping.new_mappings (prim : Primitives) (fuel page_size : Nat)
    (w w1 : World) (file_offset addr size : Nat) (access : AccessMode)
    (h : EncryptedFileMapping.new prim fuel page_size w file_offset addr size access = .ok w1) :
    ∃ m, w1.file.mappings = w.file.mappings ++ [m] ∧ m.Coherent
      ∧ ∀ p : Nat, m.m_dirty_pages[p]? ≠ some true := by
  simp only [EncryptedFileMapping.new] at h
  split at h
  · cases hs : (EncryptedFileMapping.blank (Nat.log2 page_size)
        ((1 <<< Nat.log2 page_size) / block_size) access).set prim fuel w addr size
        file_offset with
    | error e => rw [hs] at h; cases h
    | ok r =>
      obtain ⟨m, w2⟩ := r
      rw [hs] at h
      simp only [Except.ok.injEq] at h
      subst h
      obtain ⟨hmap, hco, hclean⟩ := EncryptedFileMapping.set_clears prim fuel _ m w w2 _ _ _ hs
      exact ⟨m, by simp only [hmap], hco, hclean⟩
  · cases h

theorem World.mark_up_to_date_mappings (w w1 : World) (k i : Nat)
    (h : w.mark_up_to_date k i = .ok w1) :
    ∃ m m1, w.file.mappings[k]? = some m ∧ w1.file.mappings = w.file.mappings.set k m1
      ∧ (m.Coherent → m1.Coherent)
      ∧ ∀ p : Nat, m1.m_dirty_pages[p]? = some true → m.m_dirty_pages[p]? = some true := by
  simp only [World.mark_up_to_date] at h
  cases hm : w.file.mappings[k]? with
  | none => rw [hm] at h; cases h
  | some m =>
    rw [hm] at h
    simp only at h
    have hklt : k < w.file.mappings.length := (List.getElem?_eq_some_iff.1 hm).1
    split at h
    · cases h
      refine ⟨m, m, rfl, ?_, id, fun _ hp => hp⟩
      apply List.ext_getElem?
      intro j
      rw [List.getElem?_set]
      split
      · rename_i hkj
        subst hkj
        exact hm
      · rfl
    · rename_i hcond
      cases h
      refine ⟨m, { m with m_up_to_date_pages := m.m_up_to_date_pages.set i true }, rfl, rfl,
        ?_, fun _ hp => hp⟩
      intro hco
      refine ⟨by simp only [List.length_set]; exact hco.up_length, hco.dirty_length, ?_⟩
      intro p hp
      have hup := hco.dirty_up p hp
      simp only
      rw [List.getElem?_set]
      split
      · rename_i hip
        subst hip
        rw [if_pos (List.getElem?_eq_some_iff.1 hup).1]
      · exact hup

theorem set_getElem?_self {α : Type} (l : List α) (k : Nat) (a : α) (h : l[k]? = some a) :
    l.set k a = l := by
  apply List.ext_getElem?
  intro j
  by_cases hkj : k = j
  · subst hkj
    rw [List.getElem?_set_self (List.getElem?_eq_some_iff.1 h).1, h]
  · rw [List.getElem?_set_ne hkj]

/-- What `mark_outdated(i)` does to the mapping it is called on: dirty bits are
only cleared, bit `i` is not dirty afterwards, and a coherent mapping stays
coherent. -/
theorem World.mark_outdated_mappings (prim : Primitives) (fuel : Nat) (w w1 : World) (k i : Nat)
    (h : w.mark_outdated prim fuel k i = .ok w1) :
    ∃ m m1, w.file.mappings[k]? = some m ∧ w1.file.mappings = w.file.mappings.set k m1
      ∧ (m.Coherent → m1.Coherent)
      ∧ (∀ p : Nat, m1.m_dirty_pages[p]? = some true → m.m_dirty_pages[p]? = some true)
      ∧ (i < m.m_page_count → m1.m_dirty_pages[i]? ≠ some true)
      ∧ m1.m_page_count = m.m_page_count := by
  simp only [World.mark_outdated] at h
  cases hm : w.file.mappings[k]? with
  | none => rw [hm] at h; cases h
  | some m =>
    rw [hm] at h
    simp only at h
    by_cases hi : i ≥ m.m_page_count
    · rw [if_pos hi] at h
      cases h
      exact ⟨m, m, rfl, (set_getElem?_self _ _ _ hm).symm, id, fun _ hp => hp,
        fun hlt => absurd hi (Nat.not_le.2 hlt), rfl⟩
    · rw [if_neg hi] at h
      cases hd : m.m_dirty_pages[i]? with
      | none => rw [hd] at h; cases h
      | some d =>
        rw [hd] at h
        simp only at h
        -- the mapping and the world after the flush, if any
        have hstep : ∃ m2 w2, (if d = true then m.flush prim fuel w else .ok (m, w))
            = .ok (m2, w2)
            ∧ w2.file.mappings = w.file.mappings
            ∧ (m.Coherent → m2.Coherent)
            ∧ (∀ p : Nat, m2.m_dirty_pages[p]? = some true → m.m_dirty_pages[p]? = some true)
            ∧ m2.m_dirty_pages[i]? ≠ some true
            ∧ m2.m_page_count = m.m_page_count
            ∧ (m.Coherent → ∀ p : Nat, m2.m_dirty_pages[p]? = some true → p ≠ i) := by
          cases d with
          | true =>
            simp only [if_true] at h ⊢
            cases hf : m.flush prim fuel w with
            | error e => rw [hf] at h; cases h
            | ok r =>
              obtain ⟨m2, w2⟩ := r
              obtain ⟨hmap, hco, hsub, hclean, hpc, _, _⟩ :=
                EncryptedFileMapping.flush_shrinks prim fuel m m2 w w2 hf
              refine ⟨m2, w2, rfl, hmap, hco, hsub, hclean i (Nat.not_le.1 hi), hpc, ?_⟩
              intro _ p hp hpi
              subst hpi
              exact hclean p (Nat.not_le.1 hi) hp
          | false =>
            refine ⟨m, w, by simp, rfl, id, fun _ hp => hp, by rw [hd]; simp, rfl, ?_⟩
            intro _ p hp hpi
            subst hpi
            rw [hd] at hp
            cases hp
        obtain ⟨m2, w2, hflush, hmap, hco, hsub, hclean, hpc, hne⟩ := hstep
        rw [hflush] at h
        simp only at h
        cases hu : m2.m_up_to_date_pages[i]? with
        | none => rw [hu] at h; cases h
        | some u =>
          rw [hu] at h
          cases u with
          | true =>
            simp only [Except.ok.injEq] at h
            subst h
            refine ⟨m, { m2 with m_up_to_date_pages := m2.m_up_to_date_pages.set i false }, rfl,
              by simp only [World.setMapping, hmap], ?_, hsub, fun _ => hclean, hpc⟩
            intro hm0
            have h2 := hco hm0
            refine ⟨by simp only [List.length_set]; exact h2.up_length, h2.dirty_length, ?_⟩
            intro p hp
            have hpi : i ≠ p := fun e => hne hm0 p hp e.symm
            simp only
            rw [List.getElem?_set_ne hpi]
            exact h2.dirty_up p hp
          | false =>
            simp only [Except.ok.injEq] at h
            subst h
            exact ⟨m, m2, rfl, by simp only [World.setMapping, hmap], hco, hsub,
              fun _ => hclean, hpc⟩


theorem Settled.settled_refl (self : Nat) (l : List EncryptedFileMapping) : Settled self l l :=
  ⟨rfl, rfl, fun _ m1 h => ⟨m1, h, id, fun _ hp => hp, rfl⟩⟩

theorem Settled.settled_trans {self : Nat} {l l1 l2 : List EncryptedFileMapping}
    (h1 : Settled self l l1) (h2 : Settled self l1 l2) : Settled self l l2 := by
  refine ⟨h2.length.trans h1.length, h2.own.trans h1.own, ?_⟩
  intro k m2 hk
  obtain ⟨m1, hm1, hco2, hsub2, hpc2⟩ := h2.each k m2 hk
  obtain ⟨m, hm, hco1, hsub1, hpc1⟩ := h1.each k m1 hm1
  exact ⟨m, hm, fun h => hco2 (hco1 h), fun p hp => hsub1 p (hsub2 p hp), hpc2.trans hpc1⟩

theorem Settled.settled_of_set (self : Nat) (l : List EncryptedFileMapping) (k : Nat)
    (m m1 : EncryptedFileMapping) (hks : k ≠ self) (hk : l[k]? = some m)
    (hco : m.Coherent → m1.Coherent)
    (hsub : ∀ p : Nat, m1.m_dirty_pages[p]? = some true → m.m_dirty_pages[p]? = some true)
    (hpc : m1.m_page_count = m.m_page_count) : Settled self l (l.set k m1) := by
  refine ⟨List.length_set _ _ _, List.getElem?_set_ne hks, ?_⟩
  intro j a hj
  rw [List.getElem?_set] at hj
  split at hj
  · rename_i hkj
    subst hkj
    split at hj
    · cases hj
      exact ⟨m, hk, hco, hsub, hpc⟩
    · cases hj
  · exact ⟨a, hj, id, fun _ hp => hp, rfl⟩

theorem Settled.coherent {self : Nat} {l l1 : List EncryptedFileMapping} (h : Settled self l l1)
    (hall : ∀ a ∈ l, a.Coherent) : ∀ a ∈ l1, a.Coherent := by
  intro a ha
  obtain ⟨j, hj⟩ := List.mem_iff_getElem?.1 ha
  obtain ⟨m, hm, hco, _⟩ := h.each j a hj
  exact hco (hall m (mem_of_getElem?_eq_some hm))

theorem Settled.single {self : Nat} {l l1 : List EncryptedFileMapping} (h : Settled self l l1)
    (hs : SingleDirtyOwner l) : SingleDirtyOwner l1 := by
  intro p k1 k2 a1 a2 h1 h2 d1 d2
  obtain ⟨b1, hb1, _, hsub1, _⟩ := h.each k1 a1 h1
  obtain ⟨b2, hb2, _, hsub2, _⟩ := h.each k2 a2 h2
  exact hs p k1 k2 b1 b2 hb1 hb2 (hsub1 p d1) (hsub2 p d2)

theorem World.write_page.loop_settles (prim : Primitives) (fuel : Nat) (self page : Nat) :
    ∀ (ids : List Nat) (w w1 : World),
      World.write_page.loop prim fuel self page ids w = .ok w1 →
      Settled self w.file.mappings w1.file.mappings := by
  intro ids
  induction ids with
  | nil =>
    intro w w1 h
    simp only [World.write_page.loop] at h
    cases h
    exact Settled.settled_refl self _
  | cons i rest ih =>
    intro w w1 h
    simp only [World.write_page.loop] at h
    cases hmi : w.file.mappings[i]? with
    | none => rw [hmi] at h; cases h
    | some mi =>
      rw [hmi] at h
      simp only at h
      by_cases hc : i ≠ self ∧ page < mi.m_page_count
      · rw [if_pos hc] at h
        cases hmo : w.mark_outdated prim fuel i page with
        | error e => rw [hmo] at h; cases h
        | ok w2 =>
          rw [hmo] at h
          simp only at h
          obtain ⟨m, m1, hm, hmap, hco, hsub, _, hpc⟩ :=
            World.mark_outdated_mappings prim fuel w w2 i page hmo
          have h1 : Settled self w.file.mappings w2.file.mappings := by
            rw [hmap]
            exact Settled.settled_of_set self _ i m m1 hc.1 hm hco hsub hpc
          exact h1.settled_trans (ih w2 w1 h)
      · rw [if_neg hc] at h
        exact ih w w1 h

/-- `write_page(page)` on a mapping that has the page up-to-date keeps the
mappings coherent and the dirty pages with one owner. -/
theorem World.write_page_invariant (prim : Primitives) (fuel : Nat) (self page : Nat)
    (w w1 : World) (this : EncryptedFileMapping)
    (hall : ∀ a ∈ w.file.mappings, a.Coherent) (hs : SingleDirtyOwner w.file.mappings)
    (hself : w.file.mappings[self]? = some this)
    (hup : this.m_up_to_date_pages[page]? = some true)
    (h : w.write_page prim fuel self page = .ok w1) :
    (∀ a ∈ w1.file.mappings, a.Coherent) ∧ SingleDirtyOwner w1.file.mappings := by
  simp only [World.write_page] at h
  cases hl : World.write_page.loop prim fuel self page (List.range w.file.mappings.length) w with
  | error e => rw [hl] at h; cases h
  | ok w2 =>
    rw [hl] at h
    simp only at h
    have hset := World.write_page.loop_settles prim fuel self page _ w w2 hl
    obtain ⟨_, hclear⟩ := World.write_page.loop_marks prim fuel self page _ w w2 hl
    have hself2 : w2.file.mappings[self]? = some this := hset.own.trans hself
    rw [hself2] at h
    simp only at h
    split at h
    · rename_i hlt
      simp only [Except.ok.injEq] at h
      subst h
      have hall2 := hset.coherent hall
      have hs2 := hset.single hs
      have hthis : this.Coherent := hall this (mem_of_getElem?_eq_some hself)
      -- a sibling does not have the page dirty
      have hsib : ∀ (k : Nat) (a : EncryptedFileMapping), k ≠ self →
          w2.file.mappings[k]? = some a → a.m_dirty_pages[page]? ≠ some true := by
        intro k a hk ha hd
        obtain ⟨m, hm, hco, _, hpc⟩ := hset.each k a ha
        have haco := hco (hall m (mem_of_getElem?_eq_some hm))
        have hpl : page < m.m_page_count := by
          rw [← hpc, ← haco.dirty_length]
          exact (List.getElem?_eq_some_iff.1 hd).1
        obtain ⟨a1, ha1, hd1, _⟩ := hclear k m
          (List.mem_range.2 (List.getElem?_eq_some_iff.1 hm).1) hk hm hpl
        rw [ha] at ha1
        cases ha1
        rw [hd1] at hd
        cases hd
      -- what is dirty in the mapping itself
      have hown : ∀ p : Nat, (this.m_dirty_pages.set page true)[p]? = some true →
          p = page ∨ this.m_dirty_pages[p]? = some true := by
        intro p hp
        by_cases hpp : page = p
        · exact Or.inl hpp.symm
        · rw [List.getElem?_set_ne hpp] at hp
          exact Or.inr hp
      constructor
      · apply coherent_set _ self this _ hself2 _ hall2
        intro _
        refine ⟨hthis.up_length, by simp only [List.length_set]; exact hthis.dirty_length, ?_⟩
        intro p hp
        rcases hown p hp with rfl | hd
        · exact hup
        · exact hthis.dirty_up p hd
      · intro p k1 k2 a1 a2 h1 h2 d1 d2
        simp only [World.setMapping] at h1 h2
        by_cases e1 : k1 = self <;> by_cases e2 : k2 = self
        · rw [e1, e2]
        · exfalso
          subst e1
          rw [List.getElem?_set_self (List.getElem?_eq_some_iff.1 hself2).1] at h1
          cases h1
          rw [List.getElem?_set_ne (fun e => e2 e.symm)] at h2
          rcases hown p d1 with rfl | hd
          · exact hsib k2 a2 e2 h2 d2
          · exact e2 (hs2 p k1 k2 this a2 hself2 h2 hd d2).symm
        · exfalso
          subst e2
          rw [List.getElem?_set_self (List.getElem?_eq_some_iff.1 hself2).1] at h2
          cases h2
          rw [List.getElem?_set_ne (fun e => e1 e.symm)] at h1
          rcases hown p d2 with rfl | hd
          · exact hsib k1 a1 e1 h1 d1
          · exact e1 (hs2 p k1 k2 a1 this h1 hself2 d1 hd)
        · rw [List.getElem?_set_ne (fun e => e1 e.symm)] at h1
          rw [List.getElem?_set_ne (fun e => e2 e.symm)] at h2
          exact hs2 p k1 k2 a1 a2 h1 h2 d1 d2
    · cases h

theorem World.write_barrier.loop_invariant (prim : Primitives) (fuel : Nat) (self : Nat) :
    ∀ (pages : List Nat) (w w1 : World),
      (∀ a ∈ w.file.mappings, a.Coherent) → SingleDirtyOwner w.file.mappings →
      World.write_barrier.loop prim fuel self pages w = .ok w1 →
      (∀ a ∈ w1.file.mappings, a.Coherent) ∧ SingleDirtyOwner w1.file.mappings := by
  intro pages
  induction pages with
  | nil =>
    intro w w1 hall hs h
    simp only [World.write_barrier.loop] at h
    cases h
    exact ⟨hall, hs⟩
  | cons idx rest ih =>
    intro w w1 hall hs h
    simp only [World.write_barrier.loop] at h
    cases hself : w.file.mappings[self]? with
    | none => rw [hself] at h; cases h
    | some this =>
      rw [hself] at h
      simp only at h
      cases hu : this.m_up_to_date_pages[idx]? with
      | none => rw [hu] at h; cases h
      | some u =>
        rw [hu] at h
        cases u with
        | false => cases h
        | true =>
          simp only at h
          cases hwp : w.write_page prim fuel self idx with
          | error e => rw [hwp] at h; cases h
          | ok w2 =>
            rw [hwp] at h
            simp only at h
            obtain ⟨hall2, hs2⟩ :=
              World.write_page_invariant prim fuel self idx w w2 this hall hs hself hu hwp
            exact ih w2 w1 hall2 hs2 h

theorem World.write_barrier_invariant (prim : Primitives) (fuel : Nat) (w w1 : World)
    (self addr size : Nat)
    (hall : ∀ a ∈ w.file.mappings, a.Coherent) (hs : SingleDirtyOwner w.file.mappings)
    (h : w.write_barrier prim fuel self addr size = .ok w1) :
    (∀ a ∈ w1.file.mappings, a.Coherent) ∧ SingleDirtyOwner w1.file.mappings := by
  simp only [World.write_barrier] at h
  cases hself : w.file.mappings[self]? with
  | none => rw [hself] at h; cases h
  | some this =>
    rw [hself] at h
    simp only at h
    split at h
    · split at h
      · cases h
      · exact World.write_barrier.loop_invariant prim fuel self _ w w1 hall hs h
    · cases h

theorem World.copy_up_to_date_page.loop_file (self page : Nat) (this : EncryptedFileMapping) :
    ∀ (ids : List Nat) (w w1 : World) (copied : Bool),
      World.copy_up_to_date_page.loop self page this ids w = .ok (w1, copied) →
      w1.file = w.file := by
  intro ids
  induction ids with
  | nil =>
    intro w w1 copied h
    simp only [World.copy_up_to_date_page.loop] at h
    cases h
    rfl
  | cons i rest ih =>
    intro w w1 copied h
    simp only [World.copy_up_to_date_page.loop] at h
    cases hm : w.file.mappings[i]? with
    | none => rw [hm] at h; cases h
    | some m =>
      rw [hm] at h
      simp only at h
      split at h
      · exact ih w w1 copied h
      · cases hu : m.m_up_to_date_pages[page]? with
        | none => rw [hu] at h; cases h
        | some u =>
          rw [hu] at h
          cases u with
          | true =>
            simp only [Except.ok.injEq, Prod.mk.injEq] at h
            obtain ⟨rfl, _⟩ := h
            rfl
          | false => exact ih w w1 copied h

/-- What `refresh_page(i)` does to the mappings: bit `i` of the up-to-date bits of
the mapping it is called on is set. -/
theorem World.refresh_page_mappings (prim : Primitives) (w w1 : World) (self i : Nat)
    (h : w.refresh_page prim self i = .ok w1) :
    ∃ this, w.file.mappings[self]? = some this ∧ i < this.m_up_to_date_pages.length
      ∧ w1.file.mappings = w.file.mappings.set self
          { this with m_up_to_date_pages := this.m_up_to_date_pages.set i true } := by
  simp only [World.refresh_page] at h
  cases hself : w.file.mappings[self]? with
  | none => rw [hself] at h; cases h
  | some this =>
    rw [hself] at h
    simp only at h
    cases hcopy : w.copy_up_to_date_page self i with
    | error e => rw [hcopy] at h; cases h
    | ok r =>
      obtain ⟨w2, copied⟩ := r
      rw [hcopy] at h
      simp only at h
      have hfile : w2.file = w.file := by
        simp only [World.copy_up_to_date_page, hself] at hcopy
        exact World.copy_up_to_date_page.loop_file self i this _ w w2 copied hcopy
      -- the world after the read, with the mappings of before
      have hread : ∀ (w3 : World),
          (if copied = true then (Except.ok w2 : Except Failure World)
            else
              match w2.file.cryptor.read prim w2.file.fd (i <<< this.m_page_shift)
                  (1 <<< this.m_page_shift) with
              | .error e => .error e
              | .ok (cryptor, dst, _) =>
                .ok { w2 with
                      file := { w2.file with cryptor := cryptor },
                      memory := memory_write w2.memory (this.page_addr i) dst,
                      trace := w2.trace
                        ++ [.cryptor_read (i <<< this.m_page_shift) (this.page_addr i)
                              (1 <<< this.m_page_shift)] }) = .ok w3 →
          w3.file.mappings = w.file.mappings := by
        intro w3 h3
        cases copied with
        | true =>
          simp only [if_true, Except.ok.injEq] at h3
          subst h3
          rw [hfile]
        | false =>
          simp only [Bool.false_eq_true, if_false] at h3
          cases hr : w2.file.cryptor.read prim w2.file.fd (i <<< this.m_page_shift)
              (1 <<< this.m_page_shift) with
          | error e => rw [hr] at h3; cases h3
          | ok r3 =>
            obtain ⟨cryptor, dst, b⟩ := r3
            rw [hr] at h3
            simp only [Except.ok.injEq] at h3
            subst h3
            simp only [hfile]
      split at h
      · cases h
      · rename_i w3 hw3
        have hmap := hread w3 hw3
        rw [hmap, hself] at h
        simp only at h
        split at h
        · rename_i hlt
          simp only [Except.ok.injEq] at h
          subst h
          exact ⟨this, rfl, hlt, by simp only [World.setMapping, hmap]⟩
        · cases h

theorem EncryptedFileMapping.Coherent.marked {m : EncryptedFileMapping} (h : m.Coherent)
    (i : Nat) :
    EncryptedFileMapping.Coherent
      { m with m_up_to_date_pages := m.m_up_to_date_pages.set i true } := by
  refine ⟨by simp only [List.length_set]; exact h.up_length, h.dirty_length, ?_⟩
  intro p hp
  have hup := h.dirty_up p hp
  simp only
  rw [List.getElem?_set]
  split
  · rename_i hip
    subst hip
    rw [if_pos (List.getElem?_eq_some_iff.1 hup).1]
  · exact hup

/-- In every state that the mappings of a file reach, every mapping is coherent
and no page is dirty in two mappings. -/
theorem World.Reachable.invariant (prim : Primitives) (page_size : Nat) (w : World)
    (h : World.Reachable prim page_size w) :
    (∀ a ∈ w.file.mappings, a.Coherent) ∧ SingleDirtyOwner w.file.mappings := by
  induction h with
  | start fd cryptor memory trace =>
    exact ⟨fun a ha => (by cases ha), fun p k1 k2 m1 m2 h1 => (by simp at h1)⟩
  | store w memory _ ih => exact ih
  | construct w w1 fuel file_offset addr size access _ hnew ih =>
    obtain ⟨m, hmap, hco, hclean⟩ :=
      EncryptedFileMapping.new_mappings prim fuel page_size w w1 _ _ _ _ hnew
    rw [hmap]
    exact ⟨coherent_append _ m hco ih.1, single_append _ m hclean ih.2⟩
  | refresh_page w w1 k i _ hr ih =>
    obtain ⟨this, hself, _, hmap⟩ := World.refresh_page_mappings prim w w1 k i hr
    rw [hmap]
    exact ⟨coherent_set _ k this _ hself (fun hco => hco.marked i) ih.1,
      single_set _ k this _ hself (fun _ hp => hp) ih.2⟩
  | write_barrier w w1 fuel k addr size _ hb ih =>
    exact World.write_barrier_invariant prim fuel w w1 k addr size ih.1 ih.2 hb
  | mark_outdated w w1 fuel k i _ hm ih =>
    obtain ⟨m, m1, hk, hmap, hco, hsub, _⟩ := World.mark_outdated_mappings prim fuel w w1 k i hm
    rw [hmap]
    exact ⟨coherent_set _ k m m1 hk hco ih.1, single_set _ k m m1 hk hsub ih.2⟩
  | mark_up_to_date w w1 k i _ hm ih =>
    obtain ⟨m, m1, hk, hmap, hco, hsub⟩ := World.mark_up_to_date_mappings w w1 k i hm
    rw [hmap]
    exact ⟨coherent_set _ k m m1 hk hco ih.1, single_set _ k m m1 hk hsub ih.2⟩
  | flush w w1 fuel k _ hf ih =>
    obtain ⟨m, m1, hk, hmap, hco, hsub⟩ := World.flush_mappings prim fuel w w1 k hf
    rw [hmap]
    exact ⟨coherent_set _ k m m1 hk hco ih.1, single_set _ k m m1 hk hsub ih.2⟩
  | set w w1 fuel k new_addr new_size new_file_offset _ hset ih =>
    obtain ⟨m, m1, hk, hmap, hco, hclean⟩ := World.set_mappings prim fuel w w1 k _ _ _ hset
    rw [hmap]
    exact ⟨coherent_set _ k m m1 hk (fun _ => hco) ih.1,
      single_set _ k m m1 hk (fun p hp => absurd hp (hclean p)) ih.2⟩

theorem exampleReached_reachable : World.Reachable examplePrimitives 4096 exampleReached := by
  have hlog : Nat.log2 4096 = 12 := by
    have h : (4096 : Nat) = 2 ^ 12 := by norm_num
    rw [h, Nat.log2_two_pow]
  have hblocks : (1 <<< Nat.log2 4096) / block_size * block_size = 1 <<< Nat.log2 4096 := by
    rw [hlog]; decide
  have h0 : 0 % (1 <<< Nat.log2 4096) = 0 := Nat.zero_mod _
  have h1 : 4096 % (1 <<< Nat.log2 4096) = 0 := by rw [hlog]; decide
  have hc1 : EncryptedFileMapping.created 4096 0 0 4096 .access_ReadWrite = exampleStale := by
    simp only [EncryptedFileMapping.created, hlog]
    rfl
  have hc2 : EncryptedFileMapping.created 4096 0 4096 4096 .access_ReadWrite
      = { exampleFresh with m_up_to_date_pages := [false] } := by
    simp only [EncryptedFileMapping.created, hlog]
    rfl
  have r0 : World.Reachable examplePrimitives 4096 exampleStart :=
    World.Reachable.start exampleFile exampleCryptor (fun _ => 7) []
  have r1 := World.Reachable.construct exampleStart _ 1 0 0 4096 .access_ReadWrite r0
    (EncryptedFileMapping.new_eq examplePrimitives 1 4096 exampleStart 0 0 4096
      .access_ReadWrite hblocks h0 h1 (by decide) (by decide))
  have r2 := World.Reachable.construct _ _ 1 0 4096 4096 .access_ReadWrite r1
    (EncryptedFileMapping.new_eq examplePrimitives 1 4096 _ 0 4096 4096
      .access_ReadWrite hblocks h0 h1 (by decide) (by decide))
  simp only [hc1, hc2] at r2
  have r3 := World.Reachable.mark_up_to_date _
    { file := { fd := exampleFile,
                cryptor := AESCryptor.set_file_size.reserve
                  (AESCryptor.set_file_size.reserve exampleCryptor 4096) 4096,
                mappings := [exampleOwn, { exampleFresh with m_up_to_date_pages := [false] }] },
      memory := fun _ => 7, trace := [] } 0 0 r2 (by rfl)
  exact World.Reachable.write_barrier _ exampleReached 1 0 0 1 r3 (by rfl)

/-- C38: in every state that the mappings of a file reach from freshly constructed
mappings by `refresh_page`, `write_barrier` (which returns only if the pages it
covers are up-to-date), `mark_outdated`, `mark_up_to_date`, `flush` and `set`,
every page that is dirty in a mapping is up-to-date in it, and the two
bit-vectors of the mapping have `m_page_count` bits. -/
theorem World.reachable_dirty_is_up_to_date (prim : Primitives) (page_size : Nat) (w : World)
    (h : World.Reachable prim page_size w) :
    ∀ m ∈ w.file.mappings,
      (∀ p : Nat, m.m_dirty_pages[p]? = some true → m.m_up_to_date_pages[p]? = some true)
      ∧ m.m_up_to_date_pages.length = m.m_page_count
      ∧ m.m_dirty_pages.length = m.m_page_count := by
  intro m hm
  have hco := (World.Reachable.invariant prim page_size w h).1 m hm
  exact ⟨hco.dirty_up, hco.up_length, hco.dirty_length⟩

/-- C38, at a concrete input: two mappings of one page, the page dirty in the
first, which `write_barrier` has made so after `mark_up_to_date`. -/
theorem World.reachable_dirty_is_up_to_date_witness :
    World.Reachable examplePrimitives 4096 exampleReached
    ∧ exampleMapping ∈ exampleReached.file.mappings
    ∧ exampleMapping.m_dirty_pages[0]? = some true
    ∧ exampleMapping.m_up_to_date_pages[0]? = some true
    ∧ exampleMapping.m_up_to_date_pages.length = exampleMapping.m_page_count
    ∧ exampleMapping.m_dirty_pages.length = exampleMapping.m_page_count :=
  have h := World.reachable_dirty_is_up_to_date examplePrimitives 4096 exampleReached
    exampleReached_reachable exampleMapping (List.mem_cons_self _ _)
  ⟨exampleReached_reachable, List.mem_cons_self _ _, rfl, h.1 0 rfl, h.2.1, h.2.2⟩

/-- C39: in every state that the mappings of one `SharedFileInfo` reach through
`write_barrier`, `flush`, `refresh_page` and `set` (and the constructor,
`mark_outdated` and `mark_up_to_date`), a page that is dirty in two entries of
the list of mappings is dirty in one mapping: the two entries are the same. -/
theorem World.reachable_single_dirty_owner (prim : Primitives) (page_size : Nat) (w : World)
    (h : World.Reachable prim page_size w) :
    ∀ (p k1 k2 : Nat) (m1 m2 : EncryptedFileMapping),
      w.file.mappings[k1]? = some m1 → w.file.mappings[k2]? = some m2 →
      m1.m_dirty_pages[p]? = some true → m2.m_dirty_pages[p]? = some true → k1 = k2 :=
  (World.Reachable.invariant prim page_size w h).2

/-- C39, at a concrete input: of the two mappings of the page, the second does not
have it dirty; an entry that has it dirty is the first. -/
theorem World.reachable_single_dirty_owner_witness :
    World.Reachable examplePrimitives 4096 exampleReached
    ∧ exampleReached.file.mappings.map (fun m => m.m_dirty_pages) = [[true], [false]]
    ∧ ∀ (k : Nat) (m : EncryptedFileMapping), exampleReached.file.mappings[k]? = some m →
        m.m_dirty_pages[0]? = some true → k = 0 :=
  ⟨exampleReached_reachable, rfl, fun k m hk hd =>
    World.reachable_single_dirty_owner examplePrimitives 4096 exampleReached
      exampleReached_reachable 0 k 0 m exampleMapping hk rfl hd rfl⟩

end Realm
